import Mathlib

/-!
Bitplane flood fills (`floodfill.c`)

A shallow embedding of the three flood-fill engines of `floodfill.c` (four-way DFS,
span fill, simultaneous span fill), each in its batch and its incremental form, and
the properties of the specification that were checked against them.

Memory model.

A `uint8*` buffer is one natural number read little-endian: bit `8*i + k` of the number
is bit `k` of byte `i`.  `byteAt`/`orByte` are the byte accesses `d[i]` and `d[i] |= m`;
`rowAt`/`setRow` are the `uint64` accesses `((uint64*)d)[r]` of the row-oriented engine
(on the little-endian target of the program row `r` is bits `64*r .. 64*r+63`).

C `int`s are `Int`; none of the integers of the engines can overflow on a 64x64 plane.
`uint64` values are naturals below `2^64`, shifts are reduced `% 2^64` explicitly.

A work stack (`int* stack` with `stackCount`) is a list whose head is the top of the
stack, `stack[stackCount-1]`.  The lists are unbounded.  For `Flood_1` and `Flood_2`, whose
buffers hold `dim*dim` entries, the depth is bounded separately.  The row stack of
`Flood_3` holds only `(dim+1)/2` entries and some masks overrun it, and `Flood_3` reads
whole 64-bit rows whatever `dim` is: `Flood_3`, `Flood_3_body` and `Flood_3_bitfill`
describe the loop on a stack that is never full and on masks readable at every row, and
`Flood_3_checked` is the function with its buffers, where a store past the row stack or
a row access outside the masks ends the run as a fault (`Outcome`).  Statements about what
a call of `Flood_3` returns are made on `Flood_3_checked`.

A `while` loop is `whileLoop cond body fuel`: it gives `none` when the fuel runs out
before the condition fails.  The batch functions take the fuel as their first argument
and hand it to every loop they run.
-/

namespace Floodfill

/-- A bit-packed plane (`uint8*`). -/
abbrev Deck := Nat

/-- The byte `d[i]`. -/
def byteAt (d : Deck) (i : Nat) : Nat := (d >>> (8 * i)) % 256

/-- The update `d[i] |= m` for a `uint8` value `m`. -/
def orByte (d : Deck) (i : Nat) (m : Nat) : Deck := d ||| ((m % 256) <<< (8 * i))

/-- The 64-bit word `((uint64*)d)[r]`. -/
def rowAt (d : Deck) (r : Nat) : Nat := (d >>> (64 * r)) % 2 ^ 64

/-- The update `((uint64*)d)[r] = v`. -/
def setRow (d : Deck) (r : Nat) (v : Nat) : Deck :=
  d ^^^ ((rowAt d r ^^^ (v % 2 ^ 64)) <<< (64 * r))

/-- The intrinsic `__popcnt64`. -/
def CountBits (val : Nat) : Nat := ((List.range 64).filter (fun i => val.testBit i)).length

/-- The loop `while (cond) body`, with fuel. -/
def whileLoop {σ : Type} (cond : σ → Bool) (body : σ → Option σ) : Nat → σ → Option σ
  | 0, s => if cond s then none else some s
  | fuel + 1, s => if cond s then (body s).bind (whileLoop cond body fuel) else some s

/-! ## Cell primitives -/

/-- `FillCell`: the updated fill mask and the returned cell index (or `-1`). -/
def FillCell (bitdeck : Deck) (dim : Int) (filled : Deck) (x y : Int) : Deck × Int :=
  if x < 0 ∨ x ≥ dim ∨ y < 0 ∨ y ≥ dim then (filled, -1)
  else
    let cell := y * dim + x
    let byte := (cell >>> 3).toNat
    let bitmask := (1 <<< (Int.land cell 7).toNat) % 256
    if byteAt bitdeck byte &&& bitmask ≠ 0 ∧ byteAt filled byte &&& bitmask = 0 then
      (orByte filled byte bitmask, cell)
    else (filled, -1)

/-- The outcome of `FillCellTest` / `TestCellTest`. -/
structure CellTest where
  filled : Deck
  tested : Deck
  testCount : Int
  ret : Int

/-- `FillCellTest`: `FillCell` that also marks the test mask and counts the test. -/
def FillCellTest (bitdeck : Deck) (dim : Int) (filled tested : Deck) (testCount : Int)
    (x y : Int) : CellTest :=
  if x < 0 ∨ x ≥ dim ∨ y < 0 ∨ y ≥ dim then ⟨filled, tested, testCount, -1⟩
  else
    let cell := y * dim + x
    let byte := (cell >>> 3).toNat
    let bitmask := (1 <<< (Int.land cell 7).toNat) % 256
    let tested := orByte tested byte bitmask
    let testCount := testCount + 1
    if byteAt bitdeck byte &&& bitmask ≠ 0 ∧ byteAt filled byte &&& bitmask = 0 then
      ⟨orByte filled byte bitmask, tested, testCount, cell⟩
    else ⟨filled, tested, testCount, -1⟩

/-- `TestCell`: the cell index when the cell is passable and unfilled, else `-1`. -/
def TestCell (bitdeck : Deck) (dim : Int) (filled : Deck) (x y : Int) : Int :=
  if x < 0 ∨ x ≥ dim ∨ y < 0 ∨ y ≥ dim then -1
  else
    let cell := y * dim + x
    let byte := (cell >>> 3).toNat
    let bitmask := (1 <<< (Int.land cell 7).toNat) % 256
    if byteAt bitdeck byte &&& bitmask ≠ 0 ∧ byteAt filled byte &&& bitmask = 0 then cell
    else -1

/-- `TestCellTest`: `TestCell` that also marks the test mask and counts the test
(`filled` of the result is the unchanged fill mask). -/
def TestCellTest (bitdeck : Deck) (dim : Int) (filled tested : Deck) (testCount : Int)
    (x y : Int) : CellTest :=
  if x < 0 ∨ x ≥ dim ∨ y < 0 ∨ y ≥ dim then ⟨filled, tested, testCount, -1⟩
  else
    let cell := y * dim + x
    let byte := (cell >>> 3).toNat
    let bitmask := (1 <<< (Int.land cell 7).toNat) % 256
    let tested := orByte tested byte bitmask
    let testCount := testCount + 1
    if byteAt bitdeck byte &&& bitmask ≠ 0 ∧ byteAt filled byte &&& bitmask = 0 then
      ⟨filled, tested, testCount, cell⟩
    else ⟨filled, tested, testCount, -1⟩

/-! ## Four-way DFS -/

/-- The variables of the loop of `Flood_1`. -/
structure Flood1State where
  filled : Deck
  stack : List Int
  totalFilled : Int

/-- One iteration of the `while (stackCount)` loop of `Flood_1`. -/
def Flood_1_body (bitdeck : Deck) (dim : Int) (s : Flood1State) : Flood1State :=
  match s.stack with
  | [] => s
  | cellIndex :: stack =>
    let totalFilled := s.totalFilled + 1
    let seedY := cellIndex.tdiv dim
    let seedX := cellIndex.tmod dim
    let left := FillCell bitdeck dim s.filled seedX (seedY - 1)
    let right := FillCell bitdeck dim left.1 seedX (seedY + 1)
    let up := FillCell bitdeck dim right.1 (seedX - 1) seedY
    let down := FillCell bitdeck dim up.1 (seedX + 1) seedY
    let stack := if left.2 ≥ 0 then left.2 :: stack else stack
    let stack := if right.2 ≥ 0 then right.2 :: stack else stack
    let stack := if up.2 ≥ 0 then up.2 :: stack else stack
    let stack := if down.2 ≥ 0 then down.2 :: stack else stack
    ⟨down.1, stack, totalFilled⟩

/-- The state of `Flood_1` when it enters its loop. -/
def Flood_1_init (bitdeck : Deck) (dim : Int) (filled : Deck) (seedX seedY : Int) :
    Flood1State :=
  let seed := FillCell bitdeck dim filled seedX seedY
  ⟨seed.1, if seed.2 ≥ 0 then [seed.2] else [], 0⟩

/-- `Flood_1`: the final fill mask and the returned count. -/
def Flood_1 (fuel : Nat) (bitdeck : Deck) (dim : Int) (filled : Deck) (seedX seedY : Int) :
    Option (Deck × Int) :=
  (whileLoop (fun s => !s.stack.isEmpty) (fun s => some (Flood_1_body bitdeck dim s)) fuel
    (Flood_1_init bitdeck dim filled seedX seedY)).map (fun s => (s.filled, s.totalFilled))

/-- `DFSSIState`, an entry of the incremental DFS stack. -/
structure DFSSIState where
  CellIndex : Int
  Stage : Int
  PushTop : Bool
  PushBottom : Bool
  PushLeft : Bool
  PushRight : Bool
deriving DecidableEq

/-- The zeroed entry (`memset(&newState, 0, ...)`) with its cell index set. -/
def DFSSIState.fresh (cellIndex : Int) : DFSSIState := ⟨cellIndex, 0, false, false, false, false⟩

/-- What one incremental call leaves behind: masks, work stack, `*numTested` and the
returned count. -/
structure StepResult (ε : Type) where
  filled : Deck
  stack : List ε
  tested : Deck
  numTested : Int
  ret : Int

/-- `Flood_1_Incremental_Start`: fill mask, work stack and return value. -/
def Flood_1_Incremental_Start (bitdeck : Deck) (dim : Int) (filled : Deck)
    (stack : List DFSSIState) (seedX seedY : Int) : Deck × List DFSSIState × Int :=
  let seed := FillCell bitdeck dim filled seedX seedY
  if seed.2 ≥ 0 then
    let stack := DFSSIState.fresh seed.2 :: stack
    (seed.1, stack, (stack.length : Int))
  else (seed.1, stack, 0)

/-- The `case 4` block of `Flood_1_Incremental`: pop the entry, push its flagged
neighbours. -/
def Flood_1_resolve (dim : Int) (oldState : DFSSIState) (x y : Int) (sc : List DFSSIState) :
    List DFSSIState :=
  let sc := if oldState.PushTop then DFSSIState.fresh ((y - 1) * dim + x) :: sc else sc
  let sc := if oldState.PushBottom then DFSSIState.fresh ((y + 1) * dim + x) :: sc else sc
  let sc := if oldState.PushLeft then DFSSIState.fresh (y * dim + x - 1) :: sc else sc
  let sc := if oldState.PushRight then DFSSIState.fresh (y * dim + x + 1) :: sc else sc
  sc

/-- `Flood_1_Incremental`: one call. -/
def Flood_1_Incremental (bitdeck : Deck) (dim : Int) (filled : Deck)
    (stack : List DFSSIState) (tested : Deck) : StepResult DFSSIState :=
  match stack with
  | [] => ⟨filled, [], tested, 0, 0⟩
  | state :: rest =>
    let cellIndex := state.CellIndex
    let y := cellIndex.tdiv dim
    let x := cellIndex.tmod dim
    if state.Stage = 0 then
      let top := FillCellTest bitdeck dim filled tested 0 x (y - 1)
      let state := if top.ret ≥ 0 then { state with PushTop := true } else state
      ⟨top.filled, { state with Stage := state.Stage + 1 } :: rest, top.tested, top.testCount,
        if top.ret ≥ 0 then 1 else 0⟩
    else if state.Stage = 1 then
      let bottom := FillCellTest bitdeck dim filled tested 0 x (y + 1)
      let state := if bottom.ret ≥ 0 then { state with PushBottom := true } else state
      ⟨bottom.filled, { state with Stage := state.Stage + 1 } :: rest, bottom.tested,
        bottom.testCount, if bottom.ret ≥ 0 then 1 else 0⟩
    else if state.Stage = 2 then
      let left := FillCellTest bitdeck dim filled tested 0 (x - 1) y
      let state := if left.ret ≥ 0 then { state with PushLeft := true } else state
      ⟨left.filled, { state with Stage := state.Stage + 1 } :: rest, left.tested,
        left.testCount, if left.ret ≥ 0 then 1 else 0⟩
    else if state.Stage = 3 then
      let right := FillCellTest bitdeck dim filled tested 0 (x + 1) y
      let state := if right.ret ≥ 0 then { state with PushRight := true } else state
      let state := { state with Stage := state.Stage + 1 }
      ⟨right.filled, Flood_1_resolve dim state x y rest, right.tested, right.testCount,
        if right.ret ≥ 0 then 1 else 0⟩
    else if state.Stage = 4 then
      ⟨filled, Flood_1_resolve dim state x y rest, tested, 0, 0⟩
    else ⟨filled, state :: rest, tested, 0, 0⟩

/-- The variables of the caller's loop `while (stackCount) total += Flood_Incremental(..)`
(the `KEY_ENTER` loop of `main`). -/
structure RunState (ε : Type) where
  filled : Deck
  stack : List ε
  tested : Deck
  lastFilledCount : Int

/-- Start on an empty work stack, then step until the stack count is 0: the final fill
mask and Start's return value plus the sum of the step return values. -/
def Flood_1_Incremental_run (fuel : Nat) (bitdeck : Deck) (dim : Int) (filled tested : Deck)
    (seedX seedY : Int) : Option (Deck × Int) :=
  let start := Flood_1_Incremental_Start bitdeck dim filled [] seedX seedY
  (whileLoop (fun s => !s.stack.isEmpty)
    (fun s =>
      let r := Flood_1_Incremental bitdeck dim s.filled s.stack s.tested
      some ⟨r.filled, r.stack, r.tested, s.lastFilledCount + r.ret⟩) fuel
    (⟨start.1, start.2.1, tested, start.2.2⟩ : RunState DFSSIState)).map
    (fun s => (s.filled, s.lastFilledCount))

/-! ## Span fill -/

/-- The variables of the loop of `Flood_2`. -/
structure Flood2State where
  filled : Deck
  stack : List Int
  numfilled : Int

/-- The variables of a span-fill loop `while (0 <= FillCell(.., x, y))`. -/
structure SpanLoop where
  filled : Deck
  x : Int
  numfilled : Int

/-- The loop `while (0 <= FillCell(.., x, y)) { x += inc; ++numfilled; }`; the last line is
the effect of the failing `FillCell` that ends it. -/
def Flood_2_span (fuel : Nat) (bitdeck : Deck) (dim : Int) (y inc : Int) (s : SpanLoop) :
    Option SpanLoop :=
  (whileLoop (fun l => decide (0 ≤ (FillCell bitdeck dim l.filled l.x y).2))
    (fun l => some ⟨(FillCell bitdeck dim l.filled l.x y).1, l.x + inc, l.numfilled + 1⟩)
    fuel s).map
    (fun l => { l with filled := (FillCell bitdeck dim l.filled l.x y).1 })

/-- The variables of a seed scan `while (x <= xright)`. -/
structure ScanLoop where
  x : Int
  prevSeed : Int
  stack : List Int

/-- The loop that scans row `yy` over `x .. xright` and pushes a seed on each rising
edge. -/
def Flood_2_scan (fuel : Nat) (bitdeck : Deck) (dim : Int) (filled : Deck) (xright yy : Int)
    (s : ScanLoop) : Option ScanLoop :=
  whileLoop (fun l => decide (l.x ≤ xright))
    (fun l =>
      let newSeed := TestCell bitdeck dim filled l.x yy
      some ⟨l.x + 1, newSeed,
        if newSeed ≥ 0 ∧ l.prevSeed = -1 then newSeed :: l.stack else l.stack⟩)
    fuel s

/-- One iteration of the `while (stackCount)` loop of `Flood_2`. -/
def Flood_2_body (fuel : Nat) (bitdeck : Deck) (dim : Int) (s : Flood2State) :
    Option Flood2State :=
  match s.stack with
  | [] => some s
  | cellIndex :: stack =>
    let y := cellIndex.tdiv dim
    let x := cellIndex.tmod dim
    (Flood_2_span fuel bitdeck dim y 1 ⟨s.filled, x, s.numfilled⟩).bind fun r =>
    let xright := r.x - 1
    (Flood_2_span fuel bitdeck dim y (-1) ⟨r.filled, cellIndex.tmod dim - 1, r.numfilled⟩).bind
      fun l =>
    let xleft := l.x - (-1)
    (if y > 0 then
      (Flood_2_scan fuel bitdeck dim l.filled xright (y - 1) ⟨xleft, -1, stack⟩).map (·.stack)
     else some stack).bind fun stack =>
    (if y < dim - 1 then
      (Flood_2_scan fuel bitdeck dim l.filled xright (y + 1) ⟨xleft, -1, stack⟩).map (·.stack)
     else some stack).bind fun stack =>
    some ⟨l.filled, stack, l.numfilled⟩

/-- The seed test shared by `Flood_2` and `Flood_2_Incremental_Start`: the cell index
`seedY*dim + seedX` and whether its occupancy bit is set and its fill bit clear. -/
def Flood_2_seed (bitdeck : Deck) (dim : Int) (filled : Deck) (seedX seedY : Int) :
    Int × Bool :=
  let cellIndex := seedY * dim + seedX
  let byte := (cellIndex >>> 3).toNat
  let bitmask := 1 <<< (Int.land cellIndex 7).toNat
  (cellIndex, decide (byteAt bitdeck byte &&& bitmask ≠ 0 ∧ byteAt filled byte &&& bitmask = 0))

/-- The state of `Flood_2` when it enters its loop. -/
def Flood_2_init (bitdeck : Deck) (dim : Int) (filled : Deck) (seedX seedY : Int) :
    Flood2State :=
  let seed := Flood_2_seed bitdeck dim filled seedX seedY
  ⟨filled, if seed.2 then [seed.1] else [], 0⟩

/-- `Flood_2`: the final fill mask and the returned count. -/
def Flood_2 (fuel : Nat) (bitdeck : Deck) (dim : Int) (filled : Deck) (seedX seedY : Int) :
    Option (Deck × Int) :=
  (whileLoop (fun s => !s.stack.isEmpty) (Flood_2_body fuel bitdeck dim) fuel
    (Flood_2_init bitdeck dim filled seedX seedY)).map (fun s => (s.filled, s.numfilled))

/-- `SpanFillSIState`, an entry of the incremental span-fill stack. -/
structure SpanFillSIState where
  CellIndex : Int
  Stage : Int
  X : Int
  xRight : Int
  xLeft : Int
  PrevSeed : Int
  PushCount : Int
deriving DecidableEq

/-- The zeroed entry with its cell index set. -/
def SpanFillSIState.fresh (cellIndex : Int) : SpanFillSIState := ⟨cellIndex, 0, 0, 0, 0, 0, 0⟩

/-- What one call of `Flood_2_Incremental` leaves behind; `sfi` is the auxiliary stack
`SFI_Stack` (head = top). -/
structure Step2Result where
  filled : Deck
  stack : List SpanFillSIState
  sfi : List Int
  tested : Deck
  numTested : Int
  ret : Int

/-- `Flood_2_Incremental_Start`: the work stack (the fill mask is not touched, the
return value is always 0). -/
def Flood_2_Incremental_Start (bitdeck : Deck) (dim : Int) (filled : Deck)
    (stack : List SpanFillSIState) (seedX seedY : Int) : Deck × List SpanFillSIState × Int :=
  let seed := Flood_2_seed bitdeck dim filled seedX seedY
  if seed.2 then (filled, SpanFillSIState.fresh seed.1 :: stack, 0) else (filled, stack, 0)

/-- The loop `while (pushCount) { push(SFI_StackPop()); --pushCount; }` of `case 5`.
`SFI_StackPop` on an empty auxiliary stack (never reached from a Start) reads 0 here. -/
def SFI_resolve : Nat → List Int → List SpanFillSIState → List Int × List SpanFillSIState
  | 0, sfi, sc => (sfi, sc)
  | pushCount + 1, sfi, sc =>
    SFI_resolve pushCount sfi.tail (SpanFillSIState.fresh (sfi.headD 0) :: sc)

/-- The `case 5` block of `Flood_2_Incremental`. -/
def Flood_2_stage5 (filled : Deck) (state : SpanFillSIState) (rest : List SpanFillSIState)
    (sfi : List Int) (tested : Deck) : Step2Result :=
  let r := SFI_resolve state.PushCount.toNat sfi rest
  ⟨filled, r.2, r.1, tested, 0, 0⟩

/-- One scanned cell of `case 3` / `case 4`: test `(state.X, yy)`, buffer a seed on a
rising edge. -/
def Flood_2_scanStep (bitdeck : Deck) (dim : Int) (filled : Deck) (state : SpanFillSIState)
    (rest : List SpanFillSIState) (sfi : List Int) (tested : Deck) (yy : Int) : Step2Result :=
  let t := TestCellTest bitdeck dim filled tested 0 state.X yy
  let push : Bool := decide (t.ret ≥ 0 ∧ state.PrevSeed = -1)
  let sfi := if push then t.ret :: sfi else sfi
  let state := if push then { state with PushCount := state.PushCount + 1 } else state
  ⟨filled, { state with PrevSeed := t.ret, X := state.X + 1 } :: rest, sfi, t.tested,
    t.testCount, 0⟩

/-- The `case 4` block of `Flood_2_Incremental` (falls through to `case 5`). -/
def Flood_2_stage4 (bitdeck : Deck) (dim : Int) (filled : Deck) (state : SpanFillSIState)
    (rest : List SpanFillSIState) (sfi : List Int) (tested : Deck) (y : Int) : Step2Result :=
  if y < dim - 1 ∧ state.X ≤ state.xRight then
    Flood_2_scanStep bitdeck dim filled state rest sfi tested (y + 1)
  else Flood_2_stage5 filled { state with Stage := state.Stage + 1 } rest sfi tested

/-- The `case 3` block of `Flood_2_Incremental` (falls through to `case 4`). -/
def Flood_2_stage3 (bitdeck : Deck) (dim : Int) (filled : Deck) (state : SpanFillSIState)
    (rest : List SpanFillSIState) (sfi : List Int) (tested : Deck) (y : Int) : Step2Result :=
  if y > 0 ∧ state.X ≤ state.xRight then
    Flood_2_scanStep bitdeck dim filled state rest sfi tested (y - 1)
  else
    Flood_2_stage4 bitdeck dim filled
      { state with X := state.xLeft, PrevSeed := -1, Stage := state.Stage + 1 } rest sfi tested y

/-- The `case 1` block of `Flood_2_Incremental` (span fill right, one cell). -/
def Flood_2_stage1 (bitdeck : Deck) (dim : Int) (filled : Deck) (state : SpanFillSIState)
    (rest : List SpanFillSIState) (sfi : List Int) (tested : Deck) (y : Int) : Step2Result :=
  let t := FillCellTest bitdeck dim filled tested 0 state.X y
  if 0 ≤ t.ret then
    ⟨t.filled, { state with X := state.X + 1 } :: rest, sfi, t.tested, t.testCount, 1⟩
  else
    ⟨t.filled, { state with xRight := state.X - 1, X := state.CellIndex.tmod dim - 1,
                            Stage := state.Stage + 1 } :: rest, sfi, t.tested, t.testCount, 0⟩

/-- The `case 2` block of `Flood_2_Incremental` (span fill left, one cell). -/
def Flood_2_stage2 (bitdeck : Deck) (dim : Int) (filled : Deck) (state : SpanFillSIState)
    (rest : List SpanFillSIState) (sfi : List Int) (tested : Deck) (y : Int) : Step2Result :=
  let t := FillCellTest bitdeck dim filled tested 0 state.X y
  if 0 ≤ t.ret then
    ⟨t.filled, { state with X := state.X + -1 } :: rest, sfi, t.tested, t.testCount, 1⟩
  else
    ⟨t.filled, { state with xLeft := state.X - -1, X := state.X - -1, PrevSeed := -1,
                            Stage := state.Stage + 1 } :: rest, sfi, t.tested, t.testCount, 0⟩

/-- `Flood_2_Incremental`: one call. -/
def Flood_2_Incremental (bitdeck : Deck) (dim : Int) (filled : Deck)
    (stack : List SpanFillSIState) (sfi : List Int) (tested : Deck) : Step2Result :=
  match stack with
  | [] => ⟨filled, [], sfi, tested, 0, 0⟩
  | state :: rest =>
    let cellIndex := state.CellIndex
    let y := cellIndex.tdiv dim
    if state.Stage = 0 then
      Flood_2_stage1 bitdeck dim filled
        { state with X := cellIndex.tmod dim, Stage := state.Stage + 1 } rest sfi tested y
    else if state.Stage = 1 then Flood_2_stage1 bitdeck dim filled state rest sfi tested y
    else if state.Stage = 2 then Flood_2_stage2 bitdeck dim filled state rest sfi tested y
    else if state.Stage = 3 then Flood_2_stage3 bitdeck dim filled state rest sfi tested y
    else if state.Stage = 4 then Flood_2_stage4 bitdeck dim filled state rest sfi tested y
    else if state.Stage = 5 then Flood_2_stage5 filled state rest sfi tested
    else ⟨filled, state :: rest, sfi, tested, 0, 0⟩

/-- The variables of the caller's loop around `Flood_2_Incremental`, with the auxiliary
stack. -/
structure Run2State where
  filled : Deck
  stack : List SpanFillSIState
  sfi : List Int
  tested : Deck
  lastFilledCount : Int

/-- Start on an empty work stack and an empty auxiliary stack, then step until the
stack count is 0. -/
def Flood_2_Incremental_run (fuel : Nat) (bitdeck : Deck) (dim : Int) (filled tested : Deck)
    (seedX seedY : Int) : Option (Deck × Int) :=
  let start := Flood_2_Incremental_Start bitdeck dim filled [] seedX seedY
  (whileLoop (fun s => !s.stack.isEmpty)
    (fun s =>
      let r := Flood_2_Incremental bitdeck dim s.filled s.stack s.sfi s.tested
      some ⟨r.filled, r.stack, r.sfi, r.tested, s.lastFilledCount + r.ret⟩) fuel
    (⟨start.1, start.2.1, [], tested, start.2.2⟩ : Run2State)).map
    (fun s => (s.filled, s.lastFilledCount))

/-! ## Simultaneous span fill -/

/-- The variables of the loop of `Flood_3`. -/
structure Flood3State where
  filled : Deck
  stack : List Int
  numFilled : Int

/-- The variables of a simulscan loop `while (test && (fillRowPrev != fillRow))`. -/
structure SimulScan where
  fillRow : Nat
  test : Nat
  fillRowPrev : Nat

/-- The loop `Simulscan fill left` of `Flood_3` (`test <<= 1`). -/
def Flood_3_scanLeft (fuel : Nat) (bitRow : Nat) (s : SimulScan) : Option SimulScan :=
  whileLoop (fun l => decide (l.test ≠ 0) && decide (l.fillRowPrev ≠ l.fillRow))
    (fun l => some ⟨l.fillRow ||| l.test, ((l.test <<< 1) % 2 ^ 64) &&& bitRow, l.fillRow⟩)
    fuel s

/-- The loop `Simulscan fill right` of `Flood_3` (`test >>= 1`). -/
def Flood_3_scanRight (fuel : Nat) (bitRow : Nat) (s : SimulScan) : Option SimulScan :=
  whileLoop (fun l => decide (l.test ≠ 0) && decide (l.fillRowPrev ≠ l.fillRow))
    (fun l => some ⟨l.fillRow ||| l.test, (l.test >>> 1) &&& bitRow, l.fillRow⟩)
    fuel s

/-- The blocks `Bitfill up` / `Bitfill down` of `Flood_3`: propagate `fillRow` into the
neighbour row `nb` and push it when it changed. -/
def Flood_3_bitfill (bitdeck : Deck) (fillRow : Nat) (nb : Int) (s : Flood3State) :
    Flood3State :=
  let oldFill := rowAt s.filled nb.toNat
  let newFill := oldFill ||| (fillRow &&& rowAt bitdeck nb.toNat)
  if oldFill ≠ newFill then
    ⟨setRow s.filled nb.toNat newFill, nb :: s.stack, s.numFilled + CountBits (oldFill ^^^ newFill)⟩
  else s

/-- One iteration of the `while (stackCount)` loop of `Flood_3`, on a row stack that is never
full (`Flood_3_checked_body` has the capacity of the buffer). -/
def Flood_3_body (fuel : Nat) (bitdeck : Deck) (dim : Int) (s : Flood3State) :
    Option Flood3State :=
  match s.stack with
  | [] => some s
  | rowIndex :: stack =>
    let bitRow := rowAt bitdeck rowIndex.toNat
    let fillRow := rowAt s.filled rowIndex.toNat
    let fillRowStart := fillRow
    let test := ((fillRow <<< 1) % 2 ^ 64) &&& bitRow
    (Flood_3_scanLeft fuel bitRow ⟨fillRow, test, 0⟩).bind fun l =>
    (Flood_3_scanRight fuel bitRow ⟨l.fillRow, (l.fillRow >>> 1) &&& bitRow, 0⟩).bind fun r =>
    let fillRow := r.fillRow
    let s : Flood3State :=
      ⟨setRow s.filled rowIndex.toNat fillRow, stack,
        s.numFilled + CountBits (fillRow ^^^ fillRowStart)⟩
    let s := if rowIndex > 0 then Flood_3_bitfill bitdeck fillRow (rowIndex - 1) s else s
    let s := if rowIndex < dim - 1 then Flood_3_bitfill bitdeck fillRow (rowIndex + 1) s else s
    some s

/-- The state of `Flood_3` when it enters its loop. -/
def Flood_3_init (bitdeck : Deck) (dim : Int) (filled : Deck) (seedX seedY : Int) :
    Flood3State :=
  let seed := FillCell bitdeck dim filled seedX seedY
  if seed.2 ≥ 0 then ⟨seed.1, [seed.2.tdiv 64], 1⟩ else ⟨seed.1, [], 0⟩

/-- `Flood_3` on a row stack that is never full: the final fill mask and the returned count
(`Flood_3_checked` has the capacity of the buffer and the bounds of the masks). -/
def Flood_3 (fuel : Nat) (bitdeck : Deck) (dim : Int) (filled : Deck) (seedX seedY : Int) :
    Option (Deck × Int) :=
  (whileLoop (fun s => !s.stack.isEmpty) (Flood_3_body fuel bitdeck dim) fuel
    (Flood_3_init bitdeck dim filled seedX seedY)).map (fun s => (s.filled, s.numFilled))

/-- `SimulSpanFillSIState`, an entry of the incremental simultaneous-span-fill stack. -/
structure SimulSpanFillSIState where
  RowIndex : Int
  Stage : Int
  FillRowPrev : Nat
  Test : Nat
  PushNextAbove : Bool
  PushNextBelow : Bool
deriving DecidableEq

/-- The zeroed entry with its row index set. -/
def SimulSpanFillSIState.fresh (rowIndex : Int) : SimulSpanFillSIState :=
  ⟨rowIndex, 0, 0, 0, false, false⟩

/-- `Flood_3_Incremental_Start`: fill mask, work stack and return value. -/
def Flood_3_Incremental_Start (bitdeck : Deck) (dim : Int) (filled : Deck)
    (stack : List SimulSpanFillSIState) (seedX seedY : Int) :
    Deck × List SimulSpanFillSIState × Int :=
  let seed := FillCell bitdeck dim filled seedX seedY
  if seed.2 ≥ 0 then (seed.1, SimulSpanFillSIState.fresh (seed.2.tdiv 64) :: stack, 1)
  else (seed.1, stack, 0)

/-- The `case 4` block of `Flood_3_Incremental`: bitfill down, then pop and push. -/
def Flood_3_stage4 (bitdeck : Deck) (dim : Int) (filled : Deck) (state : SimulSpanFillSIState)
    (rest : List SimulSpanFillSIState) (tested : Deck) (testCount numFilled : Int)
    (fillRow : Nat) : StepResult SimulSpanFillSIState :=
  let rowIndex := state.RowIndex
  let oldFill := rowAt filled (rowIndex + 1).toNat
  let newFill := oldFill ||| (fillRow &&& rowAt bitdeck (rowIndex + 1).toNat)
  let down : Bool := decide (rowIndex < dim - 1)
  let changed : Bool := down && decide (oldFill ≠ newFill)
  let testCount := if down then testCount + 1 else testCount
  let tested :=
    if down then setRow tested (rowIndex + 1).toNat (rowAt tested (rowIndex + 1).toNat ||| fillRow)
    else tested
  let filled := if changed then setRow filled (rowIndex + 1).toNat newFill else filled
  let numFilled := if changed then numFilled + CountBits (oldFill ^^^ newFill) else numFilled
  let pushNextAbove := state.PushNextAbove
  let pushNextBelow := state.PushNextBelow || changed
  let sc := rest
  let sc := if pushNextAbove then SimulSpanFillSIState.fresh (rowIndex - 1) :: sc else sc
  let sc := if pushNextBelow then SimulSpanFillSIState.fresh (rowIndex + 1) :: sc else sc
  ⟨filled, sc, tested, testCount, numFilled⟩

/-- The `case 3` block of `Flood_3_Incremental`: bitfill up (falls through to `case 4`
when the row above did not change). -/
def Flood_3_stage3 (bitdeck : Deck) (dim : Int) (filled : Deck) (state : SimulSpanFillSIState)
    (rest : List SimulSpanFillSIState) (tested : Deck) (testCount numFilled : Int)
    (fillRow : Nat) : StepResult SimulSpanFillSIState :=
  let rowIndex := state.RowIndex
  if rowIndex > 0 then
    let testCount := testCount + 1
    let tested := setRow tested (rowIndex - 1).toNat (rowAt tested (rowIndex - 1).toNat ||| fillRow)
    let oldFill := rowAt filled (rowIndex - 1).toNat
    let newFill := oldFill ||| (fillRow &&& rowAt bitdeck (rowIndex - 1).toNat)
    if oldFill ≠ newFill then
      ⟨setRow filled (rowIndex - 1).toNat newFill,
        { state with PushNextAbove := true, Stage := state.Stage + 1 } :: rest, tested, testCount,
        numFilled + CountBits (oldFill ^^^ newFill)⟩
    else
      Flood_3_stage4 bitdeck dim filled { state with Stage := state.Stage + 1 } rest tested
        testCount numFilled fillRow
  else
    Flood_3_stage4 bitdeck dim filled { state with Stage := state.Stage + 1 } rest tested
      testCount numFilled fillRow

/-- The `case 2` block of `Flood_3_Incremental`: one step of simulscan fill right (falls
through to `case 3` when the row did not change). -/
def Flood_3_stage2 (bitdeck : Deck) (dim : Int) (filled : Deck) (state : SimulSpanFillSIState)
    (rest : List SimulSpanFillSIState) (tested : Deck) (testCount numFilled : Int)
    (bitRow fillRow : Nat) : StepResult SimulSpanFillSIState :=
  let hasTest : Bool := decide (state.Test ≠ 0)
  let fillRowPrev := fillRow
  let fillRow := if hasTest then fillRow ||| state.Test else fillRow
  let state := if hasTest then { state with Test := (state.Test >>> 1) &&& bitRow } else state
  if hasTest ∧ fillRowPrev ≠ fillRow then
    let newFilled := fillRow ^^^ fillRowPrev
    ⟨setRow filled state.RowIndex.toNat fillRow, state :: rest,
      setRow tested state.RowIndex.toNat newFilled, testCount, numFilled + CountBits newFilled⟩
  else
    Flood_3_stage3 bitdeck dim filled { state with Stage := state.Stage + 1 } rest tested
      testCount numFilled fillRow

/-- The `case 1` block of `Flood_3_Incremental`: one step of simulscan fill left (falls
through to `case 2` when the row did not change). -/
def Flood_3_stage1 (bitdeck : Deck) (dim : Int) (filled : Deck) (state : SimulSpanFillSIState)
    (rest : List SimulSpanFillSIState) (tested : Deck) (testCount numFilled : Int)
    (bitRow fillRow : Nat) : StepResult SimulSpanFillSIState :=
  let hasTest : Bool := decide (state.Test ≠ 0)
  let fillRowPrev := fillRow
  let fillRow := if hasTest then fillRow ||| state.Test else fillRow
  let state :=
    if hasTest then { state with Test := ((state.Test <<< 1) % 2 ^ 64) &&& bitRow } else state
  if hasTest ∧ fillRowPrev ≠ fillRow then
    let newFilled := fillRow ^^^ fillRowPrev
    ⟨setRow filled state.RowIndex.toNat fillRow, state :: rest,
      setRow tested state.RowIndex.toNat newFilled, testCount, numFilled + CountBits newFilled⟩
  else
    Flood_3_stage2 bitdeck dim filled
      { state with FillRowPrev := 0, Test := (fillRow >>> 1) &&& bitRow, Stage := state.Stage + 1 }
      rest tested testCount numFilled bitRow fillRow

/-- `Flood_3_Incremental`: one call. -/
def Flood_3_Incremental (bitdeck : Deck) (dim : Int) (filled : Deck)
    (stack : List SimulSpanFillSIState) (tested : Deck) : StepResult SimulSpanFillSIState :=
  match stack with
  | [] => ⟨filled, [], tested, 0, 0⟩
  | state :: rest =>
    let rowIndex := state.RowIndex
    let bitRow := rowAt bitdeck rowIndex.toNat
    let fillRow := rowAt filled rowIndex.toNat
    if state.Stage = 0 then
      Flood_3_stage1 bitdeck dim filled
        { state with FillRowPrev := 0, Test := ((fillRow <<< 1) % 2 ^ 64) &&& bitRow,
                     Stage := state.Stage + 1 }
        rest tested (0 + 1) 0 bitRow fillRow
    else if state.Stage = 1 then
      Flood_3_stage1 bitdeck dim filled state rest tested 0 0 bitRow fillRow
    else if state.Stage = 2 then
      Flood_3_stage2 bitdeck dim filled state rest tested 0 0 bitRow fillRow
    else if state.Stage = 3 then
      Flood_3_stage3 bitdeck dim filled state rest tested 0 0 fillRow
    else if state.Stage = 4 then
      Flood_3_stage4 bitdeck dim filled state rest tested 0 0 fillRow
    else ⟨filled, state :: rest, tested, 0, 0⟩

/-- Start on an empty work stack, then step until the stack count is 0. -/
def Flood_3_Incremental_run (fuel : Nat) (bitdeck : Deck) (dim : Int) (filled tested : Deck)
    (seedX seedY : Int) : Option (Deck × Int) :=
  let start := Flood_3_Incremental_Start bitdeck dim filled [] seedX seedY
  (whileLoop (fun s => !s.stack.isEmpty)
    (fun s =>
      let r := Flood_3_Incremental bitdeck dim s.filled s.stack s.tested
      some ⟨r.filled, r.stack, r.tested, s.lastFilledCount + r.ret⟩) fuel
    (⟨start.1, start.2.1, tested, start.2.2⟩ : RunState SimulSpanFillSIState)).map
    (fun s => (s.filled, s.lastFilledCount))

/-! ## Dispatch -/

/-- `Flood`: the batch entry point, switched on the algorithm id, with `Flood_3` on a row
stack that is never full (`Flood_checked` runs it on its buffer). -/
def Flood (fuel : Nat) (algo : Int) (bitdeck : Deck) (dim : Int) (filled : Deck)
    (seedX seedY : Int) : Option (Deck × Int) :=
  if algo = 0 then Flood_1 fuel bitdeck dim filled seedX seedY
  else if algo = 1 then Flood_2 fuel bitdeck dim filled seedX seedY
  else if algo = 2 then Flood_3 fuel bitdeck dim filled seedX seedY
  else some (filled, 0)


/-- The union `IncrementalState`, an entry of the caller's work-stack buffer: the entry of
one of the three steppers. -/
inductive IncrementalState where
  | Dfs (s : DFSSIState)
  | Sf (s : SpanFillSIState)
  | Ssf (s : SimulSpanFillSIState)
deriving DecidableEq

/-- The buffer read as a stack of `DFSSIState` (`none` when an entry was written through
another member of the union). -/
def IncrementalState.dfsStack : List IncrementalState → Option (List DFSSIState)
  | [] => some []
  | IncrementalState.Dfs s :: rest => (IncrementalState.dfsStack rest).map (s :: ·)
  | _ :: _ => none

/-- The buffer read as a stack of `SpanFillSIState`. -/
def IncrementalState.sfStack : List IncrementalState → Option (List SpanFillSIState)
  | [] => some []
  | IncrementalState.Sf s :: rest => (IncrementalState.sfStack rest).map (s :: ·)
  | _ :: _ => none

/-- The buffer read as a stack of `SimulSpanFillSIState`. -/
def IncrementalState.ssfStack : List IncrementalState → Option (List SimulSpanFillSIState)
  | [] => some []
  | IncrementalState.Ssf s :: rest => (IncrementalState.ssfStack rest).map (s :: ·)
  | _ :: _ => none

/-- `Flood_Incremental_Start`: the Start entry point, switched on the algorithm id: fill
mask, work stack and return value. -/
def Flood_Incremental_Start (algo : Int) (bitdeck : Deck) (dim : Int) (filled : Deck)
    (stack : List IncrementalState) (seedX seedY : Int) :
    Option (Deck × List IncrementalState × Int) :=
  if algo = 0 then
    (IncrementalState.dfsStack stack).map fun st =>
      let r := Flood_1_Incremental_Start bitdeck dim filled st seedX seedY
      (r.1, r.2.1.map IncrementalState.Dfs, r.2.2)
  else if algo = 1 then
    (IncrementalState.sfStack stack).map fun st =>
      let r := Flood_2_Incremental_Start bitdeck dim filled st seedX seedY
      (r.1, r.2.1.map IncrementalState.Sf, r.2.2)
  else if algo = 2 then
    (IncrementalState.ssfStack stack).map fun st =>
      let r := Flood_3_Incremental_Start bitdeck dim filled st seedX seedY
      (r.1, r.2.1.map IncrementalState.Ssf, r.2.2)
  else some (filled, stack, 0)

/-- What one call of `Flood_Incremental` leaves behind: the masks, the caller's work-stack
buffer, the auxiliary stack `SFI_Stack`, `*numTested` and the returned count. -/
structure IncrementalResult where
  filled : Deck
  stack : List IncrementalState
  sfi : List Int
  tested : Deck
  numTested : Int
  ret : Int

/-- `Flood_Incremental`: the step entry point, switched on the algorithm id.  `numTested`
is the value of `*numTested` before the call, which the `default` branch leaves alone. -/
def Flood_Incremental (algo : Int) (bitdeck : Deck) (dim : Int) (filled : Deck)
    (stack : List IncrementalState) (sfi : List Int) (tested : Deck) (numTested : Int) :
    Option IncrementalResult :=
  if algo = 0 then
    (IncrementalState.dfsStack stack).map fun st =>
      let r := Flood_1_Incremental bitdeck dim filled st tested
      ⟨r.filled, r.stack.map IncrementalState.Dfs, sfi, r.tested, r.numTested, r.ret⟩
  else if algo = 1 then
    (IncrementalState.sfStack stack).map fun st =>
      let r := Flood_2_Incremental bitdeck dim filled st sfi tested
      ⟨r.filled, r.stack.map IncrementalState.Sf, r.sfi, r.tested, r.numTested, r.ret⟩
  else if algo = 2 then
    (IncrementalState.ssfStack stack).map fun st =>
      let r := Flood_3_Incremental bitdeck dim filled st tested
      ⟨r.filled, r.stack.map IncrementalState.Ssf, sfi, r.tested, r.numTested, r.ret⟩
  else some ⟨filled, stack, sfi, tested, numTested, 0⟩

/-! ## Blocks of the batch loops and the worst-case pattern -/

/-- The two simulscan loops of `Flood_3` on one row, `Simulscan fill left` then `Simulscan
fill right`, started on the fill word `fillRow` under the occupancy word `bitRow`: the fill
word the row is left with. -/
def Flood_3_simulscan (fuel : Nat) (bitRow fillRow : Nat) : Option Nat :=
  (Flood_3_scanLeft fuel bitRow ⟨fillRow, ((fillRow <<< 1) % 2 ^ 64) &&& bitRow, 0⟩).bind
    fun l =>
  (Flood_3_scanRight fuel bitRow ⟨l.fillRow, (l.fillRow >>> 1) &&& bitRow, 0⟩).map
    (fun r => r.fillRow)

/-- What the two span-fill loops of one iteration of `Flood_2` leave behind: the fill mask,
`xleft`, `xright` and `numfilled`. -/
structure SpanFill where
  filled : Deck
  xleft : Int
  xright : Int
  numfilled : Int

/-- The blocks `Span fill right` and `Span fill left` of one iteration of `Flood_2`, for
the popped cell index `cellIndex`. -/
def Flood_2_spanFill (fuel : Nat) (bitdeck : Deck) (dim : Int) (filled : Deck)
    (cellIndex numfilled : Int) : Option SpanFill :=
  let y := cellIndex.tdiv dim
  let x := cellIndex.tmod dim
  (Flood_2_span fuel bitdeck dim y 1 ⟨filled, x, numfilled⟩).bind fun r =>
  let xright := r.x - 1
  (Flood_2_span fuel bitdeck dim y (-1) ⟨r.filled, cellIndex.tmod dim - 1, r.numfilled⟩).map
    fun l => ⟨l.filled, l.x - (-1), xright, l.numfilled⟩

/-- The assignments `ull[r] = v`, `ull[r+1] = ..` of consecutive rows of a plane. -/
def writeRows (deck : Deck) : Nat → List Nat → Deck
  | _, [] => deck
  | r, v :: vs => writeRows (setRow deck r v) (r + 1) vs

/-- `FillWorstCase`: the plane after the 64 assignments `ull[0] = .. ; .. ; ull[63] = ..`. -/
def FillWorstCase (deck : Deck) : Deck :=
  writeRows deck 0
    [0x5555555555555555, 0x7777777777777777, 0x5555555555555555, 0xdddddddddddddddd,
     0x5555555555555555, 0x7777777777777777, 0x5555555555555555, 0xdddddddddddddddd,
     0x5555555555555555, 0x7777777777777777, 0x5555555555555555, 0xdddddddddddddddd,
     0x5555555555555555, 0x7777777777777777, 0x5555555555555555, 0xdddddddddddddddd,
     0x5555555555555555, 0x7777777777777777, 0x5555555555555555, 0xdddddddddddddddd,
     0x5555555555555555, 0x7777777777777777, 0x5555555555555555, 0xdddddddddddddddd,
     0x5555555555555555, 0x7777777777777777, 0x5555555555555555, 0xdddddddddddddddd,
     0x5555555555555555, 0x7777777777777777, 0x5555555555555555, 0xdddddddddddddddd,
     0x5555555555555555, 0x7777777777777777, 0x5555555555555555, 0xdddddddddddddddd,
     0x5555555555555555, 0x7777777777777777, 0x5555555555555555, 0xdddddddddddddddd,
     0x5555555555555555, 0x7777777777777777, 0x5555555555555555, 0xdddddddddddddddd,
     0x5555555555555555, 0x7777777777777777, 0x5555555555555555, 0xdddddddddddddddd,
     0x5555555555555555, 0x7777777777777777, 0x5555555555555555, 0xdddddddddddddddd,
     0x5555555555555555, 0x7777777777777777, 0x5555555555555555, 0xdddddddddddddddd,
     0x5555555555555555, 0x7777777777777777, 0x5555555555555555, 0xdddddddddddddddd,
     0x5555555555555555, 0x7777777777777777, 0x5555555555555555, 0xdddddddddddddddd]

/-! ## `Flood_3` with its buffers

`Flood_3`, `Flood_3_body` and `Flood_3_bitfill` above run the loop of `Flood_3` on a row
stack that is never full and on masks that can be read at every row.  The definitions of
this section are `Flood_3` with what the code really has: the row stack is the buffer
`alloca(sizeof(int)*((dim+1)/2))`, and the masks are buffers of `decksize` bytes.  A store
`stack[stackCount++] = ..` that finds the stack full and an access of a row outside the
masks are undefined behaviour in C: the call then ends as `Outcome.stackOverrun` or
`Outcome.outOfBounds` and gives no result. -/

/-- How a call that works on buffers of fixed size ends: it returns `result`, or it stores
past the end of its stack buffer, or it reads or writes a row outside the mask buffers. -/
inductive Outcome (α : Type) where
  | done (result : α)
  | stackOverrun
  | outOfBounds
deriving DecidableEq

/-- The result of a call that returned, mapped by `f`. -/
def Outcome.map {α β : Type} (f : α → β) : Outcome α → Outcome β
  | Outcome.done a => Outcome.done (f a)
  | Outcome.stackOverrun => Outcome.stackOverrun
  | Outcome.outOfBounds => Outcome.outOfBounds

/-- `decksize`: the number of bytes of a mask of the `dim` x `dim` plane, `(dim*dim)/8`. -/
def decksize (dim : Int) : Int := (dim * dim).tdiv 8

/-- The row `((uint64*)d)[r]` lies inside a mask of `decksize dim` bytes. -/
def rowInBounds (dim r : Int) : Prop := 0 ≤ r ∧ 8 * (r + 1) ≤ decksize dim

instance (dim r : Int) : Decidable (rowInBounds dim r) := by unfold rowInBounds; infer_instance

/-- The number of entries of the row stack of `Flood_3`, `(dim+1)/2`. -/
def Flood_3_capacity (dim : Int) : Nat := ((dim + 1).tdiv 2).toNat

/-- The blocks `Bitfill up` / `Bitfill down` of `Flood_3` with the buffers checked: the rows
`nb` of both masks are read, and pushing `nb` needs a free entry of the row stack. -/
def Flood_3_checked_bitfill (bitdeck : Deck) (dim : Int) (fillRow : Nat) (nb : Int)
    (s : Flood3State) : Outcome Flood3State :=
  if rowInBounds dim nb then
    let oldFill := rowAt s.filled nb.toNat
    let newFill := oldFill ||| (fillRow &&& rowAt bitdeck nb.toNat)
    if oldFill ≠ newFill then
      if s.stack.length < Flood_3_capacity dim then
        Outcome.done ⟨setRow s.filled nb.toNat newFill, nb :: s.stack,
          s.numFilled + CountBits (oldFill ^^^ newFill)⟩
      else Outcome.stackOverrun
    else Outcome.done s
  else Outcome.outOfBounds

/-- One iteration of the `while (stackCount)` loop of `Flood_3` with the buffers checked. -/
def Flood_3_checked_body (fuel : Nat) (bitdeck : Deck) (dim : Int) (s : Flood3State) :
    Option (Outcome Flood3State) :=
  match s.stack with
  | [] => some (Outcome.done s)
  | rowIndex :: stack =>
    if rowInBounds dim rowIndex then
      let bitRow := rowAt bitdeck rowIndex.toNat
      let fillRow := rowAt s.filled rowIndex.toNat
      let fillRowStart := fillRow
      let test := ((fillRow <<< 1) % 2 ^ 64) &&& bitRow
      (Flood_3_scanLeft fuel bitRow ⟨fillRow, test, 0⟩).bind fun l =>
      (Flood_3_scanRight fuel bitRow ⟨l.fillRow, (l.fillRow >>> 1) &&& bitRow, 0⟩).bind fun r =>
      let fillRow := r.fillRow
      let s : Flood3State :=
        ⟨setRow s.filled rowIndex.toNat fillRow, stack,
          s.numFilled + CountBits (fillRow ^^^ fillRowStart)⟩
      let up :=
        if rowIndex > 0 then Flood_3_checked_bitfill bitdeck dim fillRow (rowIndex - 1) s
        else Outcome.done s
      match up with
      | Outcome.done s =>
        if rowIndex < dim - 1 then
          some (Flood_3_checked_bitfill bitdeck dim fillRow (rowIndex + 1) s)
        else some (Outcome.done s)
      | Outcome.stackOverrun => some Outcome.stackOverrun
      | Outcome.outOfBounds => some Outcome.outOfBounds
    else some Outcome.outOfBounds

/-- The state of `Flood_3` when it enters its loop, with the row stack checked. -/
def Flood_3_checked_init (bitdeck : Deck) (dim : Int) (filled : Deck) (seedX seedY : Int) :
    Outcome Flood3State :=
  let seed := FillCell bitdeck dim filled seedX seedY
  if seed.2 ≥ 0 then
    if 0 < Flood_3_capacity dim then Outcome.done ⟨seed.1, [seed.2.tdiv 64], 1⟩
    else Outcome.stackOverrun
  else Outcome.done ⟨seed.1, [], 0⟩

/-- The loop `while (stackCount)` of `Flood_3` goes on: no fault so far and a row on the
stack. -/
def Flood_3_checked_cond : Outcome Flood3State → Bool
  | Outcome.done s => !s.stack.isEmpty
  | _ => false

/-- One iteration of the loop of `Flood_3` from the outcome so far. -/
def Flood_3_checked_step (fuel : Nat) (bitdeck : Deck) (dim : Int) :
    Outcome Flood3State → Option (Outcome Flood3State)
  | Outcome.done s => Flood_3_checked_body fuel bitdeck dim s
  | o => some o

/-- `Flood_3` with its buffers: the final fill mask and the returned count when the call
returns, the fault when it stores past its row stack or accesses a row outside the masks. -/
def Flood_3_checked (fuel : Nat) (bitdeck : Deck) (dim : Int) (filled : Deck)
    (seedX seedY : Int) : Option (Outcome (Deck × Int)) :=
  (whileLoop Flood_3_checked_cond (Flood_3_checked_step fuel bitdeck dim) fuel
    (Flood_3_checked_init bitdeck dim filled seedX seedY)).map
    (Outcome.map (fun s => (s.filled, s.numFilled)))

/-- `Flood` with the buffers of `Flood_3`: the batch entry point, switched on the algorithm
id, where the algorithm id 2 runs `Flood_3` on its row stack of `(dim+1)/2` entries. -/
def Flood_checked (fuel : Nat) (algo : Int) (bitdeck : Deck) (dim : Int) (filled : Deck)
    (seedX seedY : Int) : Option (Outcome (Deck × Int)) :=
  if algo = 0 then (Flood_1 fuel bitdeck dim filled seedX seedY).map Outcome.done
  else if algo = 1 then (Flood_2 fuel bitdeck dim filled seedX seedY).map Outcome.done
  else if algo = 2 then Flood_3_checked fuel bitdeck dim filled seedX seedY
  else some (Outcome.done (filled, 0))

/-! ## Definitions used to state and prove the properties -/

/-- The cell `(x, y)` lies on the `dim` x `dim` plane. -/
def inRange (dim x y : Int) : Prop := 0 ≤ x ∧ x < dim ∧ 0 ≤ y ∧ y < dim

instance (dim x y : Int) : Decidable (inRange dim x y) := by unfold inRange; infer_instance

/-- A fuelled computation returns `r`: every sufficiently large fuel gives `some r`. -/
def Returns {α : Type} (f : Nat → Option α) (r : α) : Prop :=
  ∃ fuel, ∀ fuel', fuel ≤ fuel' → f fuel' = some r

/-- One turn of the caller's loop around `Flood_1_Incremental`. -/
def Flood_1_runStep (bitdeck : Deck) (dim : Int) (s : RunState DFSSIState) :
    RunState DFSSIState :=
  let r := Flood_1_Incremental bitdeck dim s.filled s.stack s.tested
  ⟨r.filled, r.stack, r.tested, s.lastFilledCount + r.ret⟩

/-- The incremental state that stands for a batch state between two iterations. -/
def Flood_1_rel (b : Flood1State) (s : RunState DFSSIState) : Prop :=
  s.filled = b.filled ∧ s.stack = b.stack.map DFSSIState.fresh ∧
    s.lastFilledCount = b.totalFilled + b.stack.length

/-- The number of indices below `n` that satisfy `p`. -/
def cnt (n : Nat) (p : Nat → Bool) : Nat := (List.range n).countP p

/-- The number of set bits among the 4096 cells of a plane. -/
def popc (d : Deck) : Nat := cnt 4096 (fun i => d.testBit i)

/-- The number of cells set in `final` and clear in `init`. -/
def newlyFilled (init final : Deck) : Nat :=
  cnt 4096 (fun i => final.testBit i && !init.testBit i)

/-- The caller's loop `while (stackCount) step`, started in `s`, ends in `final`. -/
def LoopReaches {σ : Type} (cond : σ → Bool) (step : σ → σ) (s final : σ) : Prop :=
  ∃ m, whileLoop cond (fun s => some (step s)) m s = some final

/-- The variables of the caller's loop after a call that returned `res`. -/
def RunState.after {ε : Type} (res : StepResult ε) (acc : Int) : RunState ε :=
  ⟨res.filled, res.stack, res.tested, acc + res.ret⟩

/-- One turn of the caller's loop around `Flood_3_Incremental`. -/
def Flood_3_runStep (bitdeck : Deck) (dim : Int) (s : RunState SimulSpanFillSIState) :
    RunState SimulSpanFillSIState :=
  RunState.after (Flood_3_Incremental bitdeck dim s.filled s.stack s.tested) s.lastFilledCount

/-- The loop around `Flood_3_Incremental` started in `s` ends in `final`. -/
def Flood_3_reaches (bitdeck : Deck) (dim : Int) (s final : RunState SimulSpanFillSIState) :
    Prop :=
  LoopReaches (fun s : RunState SimulSpanFillSIState => !s.stack.isEmpty)
    (Flood_3_runStep bitdeck dim) s final

/-- The cell `(x, y)` is on the 64x64 plane, passable in `bitdeck` and not filled in `f`:
the condition under which `FillCell` fills and `TestCell` answers. -/
def FreeAt (bitdeck f : Deck) (x y : Int) : Prop :=
  inRange 64 x y ∧ bitdeck.testBit (y * 64 + x).toNat = true ∧
    f.testBit (y * 64 + x).toNat = false

/-- The cells with bit indices `i` and `j` of the 64x64 plane (cell `(x, y)` has index
`y*64 + x`) are 4-directionally adjacent. -/
def adjIdx (i j : Nat) : Prop :=
  j = i + 64 ∨ i = j + 64 ∨ (j = i + 1 ∧ i % 64 ≠ 63) ∨ (i = j + 1 ∧ j % 64 ≠ 63)

/-- The cell with index `i` is on the plane, passable and not filled in `f`. -/
def freeIdx (bitdeck f : Deck) (i : Nat) : Prop :=
  i < 4096 ∧ bitdeck.testBit i = true ∧ f.testBit i = false

/-- The cell `i` is reached from the cell `s` by a path of 4-directionally adjacent cells
that are passable and not filled in `init` (`s` included). -/
inductive ReachIdx (bitdeck init : Deck) (s : Nat) : Nat → Prop
  | seed : freeIdx bitdeck init s → ReachIdx bitdeck init s s
  | step (i j : Nat) : ReachIdx bitdeck init s i → adjIdx i j → freeIdx bitdeck init j →
      ReachIdx bitdeck init s j

/-- The invariant of the span-fill loop, for the fill mask `f` and the pending seeds
`stack`: the fill only grew from `init`, every new cell and every pending seed is reached
from the seed, and every unfilled reached cell that is the seed or touches a new cell has a
pending seed at or left of it in its row with only unfilled passable cells in between. -/
structure Flood_2_inv (bitdeck init : Deck) (seed : Nat) (f : Deck) (stack : List Int) :
    Prop where
  mono : ∀ i, init.testBit i = true → f.testBit i = true
  sound : ∀ i, f.testBit i = true → init.testBit i = false → ReachIdx bitdeck init seed i
  stk : ∀ s ∈ stack, 0 ≤ s ∧ ReachIdx bitdeck init seed s.toNat
  pend : ∀ q, ReachIdx bitdeck init seed q → f.testBit q = false →
    (q = seed ∨ ∃ p, f.testBit p = true ∧ init.testBit p = false ∧ adjIdx p q) →
    ∃ s ∈ stack, 0 ≤ s ∧ s.toNat / 64 = q / 64 ∧ s.toNat ≤ q ∧
      ∀ i, s.toNat ≤ i → i ≤ q → bitdeck.testBit i = true ∧ f.testBit i = false

instance (bitdeck f : Deck) (x y : Int) : Decidable (FreeAt bitdeck f x y) := by
  unfold FreeAt; infer_instance

/-- The variables of the caller's loop after a call of `Flood_2_Incremental` that returned
`res`. -/
def Run2State.after (res : Step2Result) (acc : Int) : Run2State :=
  ⟨res.filled, res.stack, res.sfi, res.tested, acc + res.ret⟩

/-- One turn of the caller's loop around `Flood_2_Incremental`. -/
def Flood_2_runStep (bitdeck : Deck) (dim : Int) (s : Run2State) : Run2State :=
  Run2State.after (Flood_2_Incremental bitdeck dim s.filled s.stack s.sfi s.tested)
    s.lastFilledCount

/-- The loop around `Flood_2_Incremental` started in `s` ends in `final`. -/
def Flood_2_reaches (bitdeck : Deck) (dim : Int) (s final : Run2State) : Prop :=
  LoopReaches (fun s : Run2State => !s.stack.isEmpty) (Flood_2_runStep bitdeck dim) s final

/-- The invariant of the loop of `Flood_1`, for the state `st`: the fill only grew from
`init`, every new cell is reached from the seed, every stacked cell is a filled reached cell
of the plane, every free neighbour of a new cell that is no longer stacked is filled, the
seed is filled if it was free, and the new cells are counted by the pops done so far and the
stacked cells. -/
structure Flood_1_inv (bitdeck init : Deck) (seed : Nat) (st : Flood1State) : Prop where
  mono : ∀ i, init.testBit i = true → st.filled.testBit i = true
  sound : ∀ i, st.filled.testBit i = true → init.testBit i = false →
    ReachIdx bitdeck init seed i
  stk : ∀ c ∈ st.stack, 0 ≤ c ∧ c < 4096 ∧ st.filled.testBit c.toNat = true ∧
    ReachIdx bitdeck init seed c.toNat
  closed : ∀ i j, st.filled.testBit i = true → init.testBit i = false → adjIdx i j →
    freeIdx bitdeck init j → st.filled.testBit j = true ∨ (i : Int) ∈ st.stack
  seeded : freeIdx bitdeck init seed → st.filled.testBit seed = true
  count : (popc st.filled : Int) = popc init + st.totalFilled + st.stack.length

/-- The row word `R` is a horizontal fill of the row word `F0` under the occupancy row `B`:
a word of 64 bits that holds `F0`, is closed to the left and to the right under `B`, and
lies in every set that holds `F0` and is so closed. -/
def RowScan (B F0 R : Nat) : Prop :=
  R < 2 ^ 64 ∧
  (∀ x, F0.testBit x = true → R.testBit x = true) ∧
  (∀ x, R.testBit x = true → x + 1 < 64 → B.testBit (x + 1) = true →
    R.testBit (x + 1) = true) ∧
  (∀ x, R.testBit (x + 1) = true → B.testBit x = true → R.testBit x = true) ∧
  (∀ Q : Nat → Prop, (∀ x, F0.testBit x = true → Q x) →
    (∀ x, Q x → x + 1 < 64 → B.testBit (x + 1) = true → Q (x + 1)) →
    (∀ x, Q (x + 1) → B.testBit x = true → Q x) →
    ∀ x, R.testBit x = true → Q x)

/-- The invariant of the loop of `Flood_3` started on an empty fill mask, for the state
`st`: every filled cell is reached from the seed, the stacked rows are rows of the plane,
every passable neighbour of a filled cell is filled unless the row of that cell is stacked,
the seed is filled, and the count is the number of filled cells. -/
structure Flood_3_inv (bitdeck : Deck) (seed : Nat) (st : Flood3State) : Prop where
  sound : ∀ i, st.filled.testBit i = true → ReachIdx bitdeck 0 seed i
  rows : ∀ q ∈ st.stack, 0 ≤ q ∧ q < 64
  stable : ∀ i j, st.filled.testBit i = true → adjIdx i j → freeIdx bitdeck 0 j →
    st.filled.testBit j = true ∨ ((i / 64 : Nat) : Int) ∈ st.stack
  seeded : st.filled.testBit seed = true
  count : (popc st.filled : Int) = st.numFilled

/-- The cell `(x, y)` of the 64x64 plane has its bit set in the mask `d` (bit `y*64 + x`,
that is bit `(y*64 + x) mod 8` of byte `(y*64 + x) div 8`). -/
def cellSet (d : Deck) (x y : Nat) : Prop := d.testBit (y * 64 + x) = true

instance (d : Deck) (x y : Nat) : Decidable (cellSet d x y) := by unfold cellSet; infer_instance

/-- The cells `(x, y)` and `(x', y')` are 4-directionally adjacent. -/
def Adjacent4 (x y x' y' : Nat) : Prop :=
  (x' = x ∧ (y' = y + 1 ∨ y = y' + 1)) ∨ (y' = y ∧ (x' = x + 1 ∨ x = x' + 1))

/-- The cell `(x, y)` is connected to the seed cell `(sx, sy)` by a path of 4-directionally
adjacent occupied cells of the 64x64 plane (the seed and `(x, y)` included). -/
inductive Connected (bitdeck : Deck) (sx sy : Nat) : Nat → Nat → Prop
  | seed : sx < 64 → sy < 64 → cellSet bitdeck sx sy → Connected bitdeck sx sy sx sy
  | step (x y x' y' : Nat) : Connected bitdeck sx sy x y → Adjacent4 x y x' y' →
      x' < 64 → y' < 64 → cellSet bitdeck x' y' → Connected bitdeck sx sy x' y'

/-- The fill mask `f'` holds every bit of `f`. -/
def MaskGrows (f f' : Deck) : Prop := ∀ i, f.testBit i = true → f'.testBit i = true

/-- Every bit set in the fill mask `f` is set in the occupancy mask `bitdeck`. -/
def MaskWithin (bitdeck f : Deck) : Prop := ∀ i, f.testBit i = true → bitdeck.testBit i = true

/-- The pending test word of the stack entry `e` of the incremental simultaneous span fill
lies in the occupancy row of the entry. -/
def Flood_3_entryOK (bitdeck : Deck) (e : SimulSpanFillSIState) : Prop :=
  ∀ x, e.Test.testBit x = true → (rowAt bitdeck e.RowIndex.toNat).testBit x = true

/-- Every entry of the stack has its pending test word in its occupancy row. -/
def Flood_3_stackOK (bitdeck : Deck) (stack : List SimulSpanFillSIState) : Prop :=
  ∀ e ∈ stack, Flood_3_entryOK bitdeck e

/-- The fill masks and work stacks produced by `Flood_3_Incremental_Start` and
`Flood_3_Incremental`: any mask with the empty stack, and whatever a Start (any seed) or a
step (any test mask) makes of a produced mask and stack. -/
inductive Flood_3_Produced (bitdeck : Deck) : Deck → List SimulSpanFillSIState → Prop
  | empty (filled : Deck) : Flood_3_Produced bitdeck filled []
  | start (filled : Deck) (stack : List SimulSpanFillSIState) (seedX seedY : Int) :
      Flood_3_Produced bitdeck filled stack →
      Flood_3_Produced bitdeck (Flood_3_Incremental_Start bitdeck 64 filled stack seedX seedY).1
        (Flood_3_Incremental_Start bitdeck 64 filled stack seedX seedY).2.1
  | step (filled : Deck) (stack : List SimulSpanFillSIState) (tested : Deck) :
      Flood_3_Produced bitdeck filled stack →
      Flood_3_Produced bitdeck (Flood_3_Incremental bitdeck 64 filled stack tested).filled
        (Flood_3_Incremental bitdeck 64 filled stack tested).stack

/-- Soundness of the fill mask `F` for the seed cell `(sx, sy)`: every bit set in `F` is the
bit of a cell of the plane that is occupied and connected to the seed cell by a path of
4-directionally adjacent occupied cells. -/
def SoundFill (bitdeck F : Deck) (sx sy : Nat) : Prop :=
  ∀ i, F.testBit i = true →
    i < 4096 ∧ bitdeck.testBit i = true ∧ Connected bitdeck sx sy (i % 64) (i / 64)

/-- Completeness of the fill mask `F` for the seed cell `(sx, sy)`: every occupied cell
connected to the seed cell by a path of 4-directionally adjacent occupied cells is set in
`F`. -/
def CompleteFill (bitdeck F : Deck) (sx sy : Nat) : Prop :=
  ∀ x y, Connected bitdeck sx sy x y → cellSet F x y

/-- The state at the head of the loop `while (cond) body` after `n` iterations, when the
loop runs that long (`none` when it has ended before, or an iteration does not return). -/
def loopState {σ : Type} (cond : σ → Bool) (body : σ → Option σ) : Nat → σ → Option σ
  | 0, s => some s
  | n + 1, s => if cond s then (body s).bind (loopState cond body n) else none

/-- A plane given by its rows, row 0 first, each a 64-bit word with bit `x` for cell `x`. -/
def deckOfRows : List Nat → Deck
  | [] => 0
  | r :: rs => (r % 2 ^ 64) ||| (deckOfRows rs <<< 64)

/-- Row `k` of the staircase: the cells `0 .. 2k-2` and the cell `2k`, as far as they lie
on the plane. -/
def stairRow (k : Nat) : Nat := ((2 ^ (2 * k - 1) - 1) ||| 2 ^ (2 * k)) % 2 ^ 64

/-- The staircase occupancy mask: cell `(0, 0)`, then the staircase rows 1 to 33. -/
def stairsDeck : Deck := deckOfRows (1 :: (List.range 33).map (fun j => stairRow (j + 1)))

/-- The stack entry `e` of the incremental simultaneous span fill names a row of the plane,
asks for a push of the row above only when there is one, and does not carry a pending push
of the row below. -/
def Flood_3_entryRows (e : SimulSpanFillSIState) : Prop :=
  0 ≤ e.RowIndex ∧ e.RowIndex < 64 ∧ (e.PushNextAbove = true → 0 < e.RowIndex) ∧
    e.PushNextBelow = false

/-- Every entry of the stack satisfies `Flood_3_entryRows`. -/
def Flood_3_stackRows (stack : List SimulSpanFillSIState) : Prop :=
  ∀ e ∈ stack, Flood_3_entryRows e

/-- The mask of the cells `(x, y)` with `p x y` among the first `n` cells of the 64x64
plane, in the order of their bit indices `y*64 + x`. -/
def deckOfCells (p : Nat → Nat → Bool) : Nat → Deck
  | 0 => 0
  | n + 1 => deckOfCells p n ||| (if p (n % 64) (n / 64) then 2 ^ n else 0)

/-- The 64x64 checkerboard occupancy mask: the cell `(x, y)` is occupied iff `x + y` is
even. -/
def checkerDeck : Deck := deckOfCells (fun x y => (x + y) % 2 == 0) 4096

/-- The step results `r` and `r'` differ at most in the test mask: same fill mask, same
work stack, same return value, same `numTested`. -/
def StepResult.agree {ε : Type} (r r' : StepResult ε) : Prop :=
  r.filled = r'.filled ∧ r.stack = r'.stack ∧ r.ret = r'.ret ∧ r.numTested = r'.numTested

/-- The span-fill step results `r` and `r'` differ at most in the test mask: same fill mask,
same work stack, same auxiliary stack, same return value, same `numTested`. -/
def Step2Result.agree (r r' : Step2Result) : Prop :=
  r.filled = r'.filled ∧ r.stack = r'.stack ∧ r.sfi = r'.sfi ∧ r.ret = r'.ret ∧
    r.numTested = r'.numTested


/-- A call that found the fill mask `filled` and left `filled'`, reported `numTested` and
returned `ret` handled at most one cell: it tested no cell or one, and either left the fill
mask alone and returned 0, or tested one cell, set exactly its bit, which was clear, and
returned 1. -/
def OneCellStep (filled filled' : Deck) (numTested ret : Int) : Prop :=
  (numTested = 0 ∨ numTested = 1) ∧
    ((filled' = filled ∧ ret = 0) ∨
      (∃ i, filled.testBit i = false ∧ filled' = filled ||| 2 ^ i ∧ ret = 1 ∧ numTested = 1))

/-- Bit `i` of a 64-bit word lies in a maximal run of consecutive set bits of `bits` that
holds a set bit of `fill`: some set bit `j` of `fill` is joined to `i` by set bits of `bits`
only (`i` and `j` included). -/
def InRunOf (bits fill : Nat) (i : Nat) : Prop :=
  i < 64 ∧ ∃ j, j < 64 ∧ fill.testBit j = true ∧
    ∀ k, min i j ≤ k → k ≤ max i j → bits.testBit k = true

/-- The `n` cells `x, x+1, ..` of a row, left to right. -/
def cellsFrom (x : Int) : Nat → List Int
  | 0 => []
  | n + 1 => x :: cellsFrom (x + 1) n

/-- The cell `(x, yy)` is the leftmost cell, within the segment that starts at `xleft`, of a
maximal run of consecutive passable and unfilled cells of row `yy`: it is passable and
unfilled, and it is the first cell of the segment or its left neighbour is not passable and
unfilled. -/
def IsRunStart (bitdeck f : Deck) (xleft yy x : Int) : Prop :=
  FreeAt bitdeck f x yy ∧ (x = xleft ∨ ¬ FreeAt bitdeck f (x - 1) yy)

instance (bitdeck f : Deck) (xleft yy x : Int) : Decidable (IsRunStart bitdeck f xleft yy x) := by
  unfold IsRunStart; infer_instance

/-- The leftmost cells of the maximal runs of consecutive passable and unfilled cells of
row `yy` within the segment of `n` cells that starts at `xleft`, left to right: one cell for
each run. -/
def runStarts (bitdeck f : Deck) (xleft yy : Int) (n : Nat) : List Int :=
  (cellsFrom xleft n).filter (fun x => decide (IsRunStart bitdeck f xleft yy x))

/-- The run of the loop `while (cond) body` from `s` with its depth gauge `depth`: the
largest value of `depth` at a loop head and the number of iterations, when the loop ends
within the fuel. -/
def loopDepth {σ : Type} (cond : σ → Bool) (body : σ → Option σ) (depth : σ → Nat) :
    Nat → σ → Option (Nat × Nat)
  | 0, s => if cond s then none else some (depth s, 0)
  | fuel + 1, s =>
    if cond s then
      (body s).bind fun s' =>
        (loopDepth cond body depth fuel s').map fun r => (max (depth s) r.1, r.2 + 1)
    else some (depth s, 0)

/-- The entry `e` of the span-fill work stack is untouched: stage 0, no seed buffered, the
cell index of a cell of the 64x64 plane. -/
def Flood_2_entryFresh (e : SpanFillSIState) : Prop :=
  e.Stage = 0 ∧ e.PushCount = 0 ∧ 0 ≤ e.CellIndex ∧ e.CellIndex < 4096

/-- The top entry `e` of the span-fill work stack fits an auxiliary stack of `n` seeds: its
cell is on the plane, its `PushCount` is `n`, and at stage 0, 1, 2 no seed is buffered
while at stage 3 (scan above) and stage 4 (scan below) the scan position `X` lies in
`xLeft .. xRight + 1` within the row and the seeds buffered so far are rising edges of the
scanned cells: at most one for every two of them. -/
def Flood_2_topOK (e : SpanFillSIState) (n : Nat) : Prop :=
  0 ≤ e.CellIndex ∧ e.CellIndex < 4096 ∧ e.PushCount = (n : Int) ∧
  ((e.Stage = 0 ∧ n = 0) ∨
   (e.Stage = 1 ∧ n = 0 ∧ e.CellIndex % 64 ≤ e.X ∧ e.X ≤ 64) ∨
   (e.Stage = 2 ∧ n = 0 ∧ -1 ≤ e.X ∧ e.X ≤ e.xRight ∧ e.xRight ≤ 63) ∨
   (e.Stage = 3 ∧ 0 ≤ e.xLeft ∧ e.xLeft ≤ e.X ∧ e.X ≤ e.xRight + 1 ∧ e.xRight ≤ 63 ∧
      2 * (n : Int) ≤ (e.X - e.xLeft) + (if e.PrevSeed = -1 then 0 else 1)) ∨
   (e.Stage = 4 ∧ 0 ≤ e.xLeft ∧ e.xLeft ≤ e.X ∧ e.X ≤ e.xRight + 1 ∧ e.xRight ≤ 63 ∧
      2 * (n : Int) ≤ 64 + (e.X - e.xLeft) + (if e.PrevSeed = -1 then 0 else 1)))

/-- The invariant of an incremental span-fill run, for the work stack and the auxiliary
stack between two calls: the buffered seeds are cell indices of the plane, the top entry
fits the auxiliary stack, the entries below it are untouched, and with an empty work stack
the auxiliary stack is empty. -/
def Flood_2_stacksOK (stack : List SpanFillSIState) (sfi : List Int) : Prop :=
  (∀ v ∈ sfi, 0 ≤ v ∧ v < 4096) ∧
  match stack with
  | [] => sfi = []
  | top :: rest => Flood_2_topOK top sfi.length ∧ ∀ e ∈ rest, Flood_2_entryFresh e

/-! ## Bit-level facts about the memory model -/

theorem mask_eq (c : Nat) : (1 <<< (c &&& 7)) % 256 = 2 ^ (c % 8) := by
  have h : c &&& 7 = c % 8 := Nat.and_pow_two_sub_one_eq_mod c 3
  rw [h, Nat.one_shiftLeft]
  have : c % 8 < 8 := Nat.mod_lt _ (by norm_num)
  apply Nat.mod_eq_of_lt
  calc 2 ^ (c % 8) < 2 ^ 8 := Nat.pow_lt_pow_right (by norm_num) this
    _ = 256 := by norm_num

theorem byteAt_testBit (d : Deck) (i k : Nat) :
    (byteAt d i).testBit k = (decide (k < 8) && d.testBit (8 * i + k)) := by
  unfold byteAt
  have : (256 : Nat) = 2 ^ 8 := by norm_num
  rw [this, Nat.testBit_mod_two_pow, Nat.testBit_shiftRight]

theorem and_two_pow_ne_zero (a k : Nat) : a &&& 2 ^ k ≠ 0 ↔ a.testBit k = true := by
  rw [Nat.and_two_pow]
  cases a.testBit k <;> simp

theorem byteAt_mask (d : Deck) (c : Nat) :
    byteAt d (c >>> 3) &&& ((1 <<< (c &&& 7)) % 256) ≠ 0 ↔ d.testBit c = true := by
  rw [mask_eq, and_two_pow_ne_zero, byteAt_testBit, Nat.shiftRight_eq_div_pow]
  have h1 : c % 8 < 8 := Nat.mod_lt _ (by norm_num)
  have h2 : 8 * (c / 2 ^ 3) + c % 8 = c := by omega
  rw [h2]
  simp [h1]

theorem orByte_mask (d : Deck) (c : Nat) :
    orByte d (c >>> 3) ((1 <<< (c &&& 7)) % 256) = d ||| 2 ^ c := by
  unfold orByte
  rw [mask_eq, Nat.shiftRight_eq_div_pow]
  have h1 : c % 8 < 8 := Nat.mod_lt _ (by norm_num)
  have h3 : 2 ^ (c % 8) % 256 = 2 ^ (c % 8) := by
    apply Nat.mod_eq_of_lt
    calc 2 ^ (c % 8) < 2 ^ 8 := Nat.pow_lt_pow_right (by norm_num) h1
      _ = 256 := by norm_num
  rw [h3, Nat.shiftLeft_eq, ← Nat.pow_add]
  have h2 : c % 8 + 8 * (c / 2 ^ 3) = c := by omega
  rw [h2]

theorem int_cell_shift (c : Nat) : ((c : Int) >>> 3).toNat = c >>> 3 := by
  rfl

theorem int_cell_land (c : Nat) : (Int.land (c : Int) 7).toNat = c &&& 7 := by
  rfl

theorem cell_cond (bitdeck filled : Deck) (c : Nat) :
    (byteAt bitdeck (c >>> 3) &&& ((1 <<< (c &&& 7)) % 256) ≠ 0 ∧
      byteAt filled (c >>> 3) &&& ((1 <<< (c &&& 7)) % 256) = 0) ↔
    (bitdeck.testBit c = true ∧ filled.testBit c = false) := by
  have h := byteAt_mask filled c
  rw [byteAt_mask bitdeck c]
  constructor
  · rintro ⟨h1, h2⟩
    refine ⟨h1, ?_⟩
    cases hf : filled.testBit c
    · rfl
    · exact absurd h2 (h.mpr hf)
  · rintro ⟨h1, h2⟩
    refine ⟨h1, ?_⟩
    by_contra hne
    rw [h.mp hne] at h2
    exact Bool.noConfusion h2

theorem cell_nonneg {dim x y : Int} (h : inRange dim x y) : 0 ≤ y * dim + x := by
  obtain ⟨h1, h2, h3, h4⟩ := h
  have : 0 ≤ y * dim := mul_nonneg h3 (by omega)
  omega

theorem FillCell_out (bitdeck filled : Deck) (dim x y : Int) (h : ¬ inRange dim x y) :
    FillCell bitdeck dim filled x y = (filled, -1) := by
  unfold FillCell
  rw [if_pos]
  unfold inRange at h
  omega

theorem FillCell_in (bitdeck filled : Deck) (dim x y : Int) (h : inRange dim x y) :
    FillCell bitdeck dim filled x y =
      if bitdeck.testBit (y * dim + x).toNat = true ∧ filled.testBit (y * dim + x).toNat = false
      then (filled ||| 2 ^ (y * dim + x).toNat, y * dim + x) else (filled, -1) := by
  obtain ⟨c, hc⟩ := Int.eq_ofNat_of_zero_le (cell_nonneg h)
  unfold FillCell
  rw [if_neg (by unfold inRange at h; omega)]
  simp only [hc, int_cell_shift, int_cell_land, Int.toNat_ofNat, cell_cond, orByte_mask]

theorem TestCell_out (bitdeck filled : Deck) (dim x y : Int) (h : ¬ inRange dim x y) :
    TestCell bitdeck dim filled x y = -1 := by
  unfold TestCell
  rw [if_pos]
  unfold inRange at h
  omega

theorem TestCell_in (bitdeck filled : Deck) (dim x y : Int) (h : inRange dim x y) :
    TestCell bitdeck dim filled x y =
      if bitdeck.testBit (y * dim + x).toNat = true ∧ filled.testBit (y * dim + x).toNat = false
      then y * dim + x else -1 := by
  obtain ⟨c, hc⟩ := Int.eq_ofNat_of_zero_le (cell_nonneg h)
  unfold TestCell
  rw [if_neg (by unfold inRange at h; omega)]
  simp only [hc, int_cell_shift, int_cell_land, Int.toNat_ofNat, cell_cond]

theorem FillCellTest_filled (bitdeck filled tested : Deck) (dim tc x y : Int) :
    (FillCellTest bitdeck dim filled tested tc x y).filled = (FillCell bitdeck dim filled x y).1 := by
  unfold FillCellTest FillCell
  dsimp only
  split_ifs <;> rfl

theorem FillCellTest_ret (bitdeck filled tested : Deck) (dim tc x y : Int) :
    (FillCellTest bitdeck dim filled tested tc x y).ret = (FillCell bitdeck dim filled x y).2 := by
  unfold FillCellTest FillCell
  dsimp only
  split_ifs <;> rfl

theorem TestCellTest_filled (bitdeck filled tested : Deck) (dim tc x y : Int) :
    (TestCellTest bitdeck dim filled tested tc x y).filled = filled := by
  unfold TestCellTest
  dsimp only
  split_ifs <;> rfl

theorem TestCellTest_ret (bitdeck filled tested : Deck) (dim tc x y : Int) :
    (TestCellTest bitdeck dim filled tested tc x y).ret = TestCell bitdeck dim filled x y := by
  unfold TestCellTest TestCell
  dsimp only
  split_ifs <;> rfl

theorem FillCell_ret_cases (bitdeck filled : Deck) (dim x y : Int) :
    (FillCell bitdeck dim filled x y).2 = -1 ∨
      ((FillCell bitdeck dim filled x y).2 = y * dim + x ∧ inRange dim x y) := by
  unfold FillCell inRange
  dsimp only
  split_ifs with h1 h2
  · exact Or.inl rfl
  · exact Or.inr ⟨rfl, by omega⟩
  · exact Or.inl rfl

theorem FillCell_ret_nonneg (bitdeck filled : Deck) (dim x y : Int)
    (h : (FillCell bitdeck dim filled x y).2 ≥ 0) :
    (FillCell bitdeck dim filled x y).2 = y * dim + x ∧ inRange dim x y := by
  rcases FillCell_ret_cases bitdeck filled dim x y with h' | h'
  · omega
  · exact h'

/-! ## Loops -/

theorem Returns_unique {α : Type} {f : Nat → Option α} {r r' : α}
    (h : Returns f r) (h' : Returns f r') : r = r' := by
  obtain ⟨n, hn⟩ := h
  obtain ⟨m, hm⟩ := h'
  have h1 := hn (max n m) (le_max_left _ _)
  have h2 := hm (max n m) (le_max_right _ _)
  rw [h1] at h2
  exact Option.some.inj h2

theorem whileLoop_mono {σ : Type} (cond : σ → Bool) (body1 body2 : σ → Option σ)
    (hb : ∀ s r, body1 s = some r → body2 s = some r) :
    ∀ (n m : Nat) (s r : σ), n ≤ m → whileLoop cond body1 n s = some r →
      whileLoop cond body2 m s = some r := by
  intro n
  induction n with
  | zero =>
    intro m s r _ h
    unfold whileLoop at h
    by_cases hc : cond s = true
    · simp [hc] at h
    · simp only [hc] at h
      cases m <;> (unfold whileLoop; simp only [hc]; exact h)
  | succ n ih =>
    intro m s r hnm h
    obtain ⟨m', rfl⟩ : ∃ m', m = m' + 1 := ⟨m - 1, by omega⟩
    unfold whileLoop at h ⊢
    by_cases hc : cond s = true
    · simp only [hc, if_true] at h ⊢
      cases hb1 : body1 s with
      | none => simp [hb1] at h
      | some s1 =>
        rw [hb1] at h
        rw [hb s s1 hb1]
        exact ih m' s1 r (by omega) h
    · simp only [hc] at h ⊢
      exact h

theorem whileLoop_inv {σ : Type} (cond : σ → Bool) (body : σ → Option σ) (I : σ → Prop)
    (hI : ∀ s s', I s → cond s = true → body s = some s' → I s') :
    ∀ (n : Nat) (s r : σ), I s → whileLoop cond body n s = some r → I r ∧ cond r = false := by
  intro n
  induction n with
  | zero =>
    intro s r hs h
    unfold whileLoop at h
    by_cases hc : cond s = true
    · simp [hc] at h
    · simp only [hc] at h
      cases Option.some.inj h
      exact ⟨hs, by simpa using hc⟩
  | succ n ih =>
    intro s r hs h
    unfold whileLoop at h
    by_cases hc : cond s = true
    · simp only [hc, if_true] at h
      cases hb1 : body s with
      | none => simp [hb1] at h
      | some s1 =>
        rw [hb1] at h
        exact ih s1 r (hI s s1 hs hc hb1) h
    · simp only [hc] at h
      cases Option.some.inj h
      exact ⟨hs, by simpa using hc⟩

theorem whileLoop_term {σ : Type} (cond : σ → Bool) (body : σ → Option σ) (I : σ → Prop)
    (μ : σ → Nat)
    (hstep : ∀ s, I s → cond s = true → ∃ s', body s = some s' ∧ I s' ∧ μ s' < μ s) :
    ∀ (n : Nat) (s : σ), I s → μ s ≤ n → ∃ r, whileLoop cond body n s = some r := by
  intro n
  induction n with
  | zero =>
    intro s hs hμ
    unfold whileLoop
    by_cases hc : cond s = true
    · obtain ⟨s', _, _, hlt⟩ := hstep s hs hc
      omega
    · exact ⟨s, by simp [hc]⟩
  | succ n ih =>
    intro s hs hμ
    unfold whileLoop
    by_cases hc : cond s = true
    · obtain ⟨s', hb, hs', hlt⟩ := hstep s hs hc
      obtain ⟨r, hr⟩ := ih s' hs' (by omega)
      exact ⟨r, by simp [hc, hb, hr]⟩
    · exact ⟨s, by simp [hc]⟩

theorem whileLoop_step {σ : Type} (cond : σ → Bool) (body : σ → Option σ) (n : Nat) (s s' : σ)
    (hc : cond s = true) (hb : body s = some s') :
    whileLoop cond body (n + 1) s = whileLoop cond body n s' := by
  conv_lhs => unfold whileLoop
  simp [hc, hb]

theorem whileLoop_done {σ : Type} (cond : σ → Bool) (body : σ → Option σ) (n : Nat) (s : σ)
    (hc : cond s = false) : whileLoop cond body n s = some s := by
  cases n <;> (unfold whileLoop; simp [hc])

theorem Returns_of_mono {α : Type} {f : Nat → Option α} {r : α}
    (hmono : ∀ n m r, n ≤ m → f n = some r → f m = some r) (n : Nat) (h : f n = some r) :
    Returns f r :=
  ⟨n, fun m hm => hmono n m r hm h⟩

/-! ## DFS: the incremental stepper against the batch loop -/

theorem Flood_1_step0 (bitdeck : Deck) (dim : Int) (f t : Deck) (n c : Int)
    (pt pb pl pr : Bool) (rest : List DFSSIState) :
    ∃ t', Flood_1_runStep bitdeck dim ⟨f, ⟨c, 0, pt, pb, pl, pr⟩ :: rest, t, n⟩ =
      ⟨(FillCell bitdeck dim f (c.tmod dim) (c.tdiv dim - 1)).1,
        ⟨c, 1, pt || decide ((FillCell bitdeck dim f (c.tmod dim) (c.tdiv dim - 1)).2 ≥ 0),
          pb, pl, pr⟩ :: rest, t',
        n + if (FillCell bitdeck dim f (c.tmod dim) (c.tdiv dim - 1)).2 ≥ 0 then 1 else 0⟩ := by
  refine ⟨(FillCellTest bitdeck dim f t 0 (c.tmod dim) (c.tdiv dim - 1)).tested, ?_⟩
  simp only [Flood_1_runStep, Flood_1_Incremental, FillCellTest_filled, FillCellTest_ret,
    if_true, if_false, one_ne_zero, OfNat.ofNat_ne_zero, OfNat.ofNat_ne_one, reduceCtorEq,
    Int.reduceEq]
  split_ifs <;> simp_all

theorem Flood_1_step1 (bitdeck : Deck) (dim : Int) (f t : Deck) (n c : Int)
    (pt pb pl pr : Bool) (rest : List DFSSIState) :
    ∃ t', Flood_1_runStep bitdeck dim ⟨f, ⟨c, 1, pt, pb, pl, pr⟩ :: rest, t, n⟩ =
      ⟨(FillCell bitdeck dim f (c.tmod dim) (c.tdiv dim + 1)).1,
        ⟨c, 2, pt, pb || decide ((FillCell bitdeck dim f (c.tmod dim) (c.tdiv dim + 1)).2 ≥ 0),
          pl, pr⟩ :: rest, t',
        n + if (FillCell bitdeck dim f (c.tmod dim) (c.tdiv dim + 1)).2 ≥ 0 then 1 else 0⟩ := by
  refine ⟨(FillCellTest bitdeck dim f t 0 (c.tmod dim) (c.tdiv dim + 1)).tested, ?_⟩
  simp only [Flood_1_runStep, Flood_1_Incremental, FillCellTest_filled, FillCellTest_ret,
    if_true, if_false, one_ne_zero, OfNat.ofNat_ne_zero, OfNat.ofNat_ne_one, reduceCtorEq,
    Int.reduceEq]
  split_ifs <;> simp_all

theorem Flood_1_step2 (bitdeck : Deck) (dim : Int) (f t : Deck) (n c : Int)
    (pt pb pl pr : Bool) (rest : List DFSSIState) :
    ∃ t', Flood_1_runStep bitdeck dim ⟨f, ⟨c, 2, pt, pb, pl, pr⟩ :: rest, t, n⟩ =
      ⟨(FillCell bitdeck dim f (c.tmod dim - 1) (c.tdiv dim)).1,
        ⟨c, 3, pt, pb, pl || decide ((FillCell bitdeck dim f (c.tmod dim - 1) (c.tdiv dim)).2 ≥ 0),
          pr⟩ :: rest, t',
        n + if (FillCell bitdeck dim f (c.tmod dim - 1) (c.tdiv dim)).2 ≥ 0 then 1 else 0⟩ := by
  refine ⟨(FillCellTest bitdeck dim f t 0 (c.tmod dim - 1) (c.tdiv dim)).tested, ?_⟩
  simp only [Flood_1_runStep, Flood_1_Incremental, FillCellTest_filled, FillCellTest_ret,
    if_true, if_false, one_ne_zero, OfNat.ofNat_ne_zero, OfNat.ofNat_ne_one, reduceCtorEq,
    Int.reduceEq]
  split_ifs <;> simp_all

theorem Flood_1_step3 (bitdeck : Deck) (dim : Int) (f t : Deck) (n c : Int)
    (pt pb pl pr : Bool) (rest : List DFSSIState) :
    ∃ t', Flood_1_runStep bitdeck dim ⟨f, ⟨c, 3, pt, pb, pl, pr⟩ :: rest, t, n⟩ =
      ⟨(FillCell bitdeck dim f (c.tmod dim + 1) (c.tdiv dim)).1,
        Flood_1_resolve dim ⟨c, 4, pt, pb, pl,
          pr || decide ((FillCell bitdeck dim f (c.tmod dim + 1) (c.tdiv dim)).2 ≥ 0)⟩
          (c.tmod dim) (c.tdiv dim) rest, t',
        n + if (FillCell bitdeck dim f (c.tmod dim + 1) (c.tdiv dim)).2 ≥ 0 then 1 else 0⟩ := by
  refine ⟨(FillCellTest bitdeck dim f t 0 (c.tmod dim + 1) (c.tdiv dim)).tested, ?_⟩
  simp only [Flood_1_runStep, Flood_1_Incremental, FillCellTest_filled, FillCellTest_ret,
    if_true, if_false, one_ne_zero, OfNat.ofNat_ne_zero, OfNat.ofNat_ne_one, reduceCtorEq,
    Int.reduceEq]
  split_ifs with h
  · simp_all
  · have h' : ¬ (0 ≤ (FillCell bitdeck dim f (c.tmod dim + 1) (c.tdiv dim)).2) := by omega
    simp [h']

theorem Flood_1_four_steps (bitdeck : Deck) (dim : Int) (b : Flood1State)
    (s : RunState DFSSIState) (hrel : Flood_1_rel b s) (hne : b.stack ≠ []) :
    (Flood_1_runStep bitdeck dim s).stack ≠ [] ∧
    (Flood_1_runStep bitdeck dim (Flood_1_runStep bitdeck dim s)).stack ≠ [] ∧
    (Flood_1_runStep bitdeck dim (Flood_1_runStep bitdeck dim
      (Flood_1_runStep bitdeck dim s))).stack ≠ [] ∧
    Flood_1_rel (Flood_1_body bitdeck dim b)
      (Flood_1_runStep bitdeck dim (Flood_1_runStep bitdeck dim
        (Flood_1_runStep bitdeck dim (Flood_1_runStep bitdeck dim s)))) := by
  obtain ⟨bf, bs, bt⟩ := b
  obtain ⟨sf, ss, st, sl⟩ := s
  obtain ⟨h1, h2, h3⟩ := hrel
  simp only at h1 h2 h3 hne
  cases bs with
  | nil => exact absurd rfl hne
  | cons c rest =>
    subst h1 h2 h3
    simp only [List.map_cons, DFSSIState.fresh]
    obtain ⟨t0, e0⟩ := Flood_1_step0 bitdeck dim sf st (bt + ((c :: rest).length : Nat)) c
      false false false false (rest.map DFSSIState.fresh)
    rw [e0]
    obtain ⟨t1, e1⟩ := Flood_1_step1 bitdeck dim _ t0 _ c _ false false false
      (rest.map DFSSIState.fresh)
    rw [e1]
    obtain ⟨t2, e2⟩ := Flood_1_step2 bitdeck dim _ t1 _ c _ _ false false
      (rest.map DFSSIState.fresh)
    rw [e2]
    obtain ⟨t3, e3⟩ := Flood_1_step3 bitdeck dim _ t2 _ c _ _ _ false
      (rest.map DFSSIState.fresh)
    rw [e3]
    refine ⟨by simp, by simp, by simp, ?_⟩
    clear e0 e1 e2 e3
    simp only [Flood_1_rel, Flood_1_body, Flood_1_resolve, DFSSIState.fresh, Bool.false_or]
    have k0 := FillCell_ret_nonneg bitdeck sf dim (c.tmod dim) (c.tdiv dim - 1)
    generalize FillCell bitdeck dim sf (c.tmod dim) (c.tdiv dim - 1) = r0 at k0 ⊢
    have k1 := FillCell_ret_nonneg bitdeck r0.1 dim (c.tmod dim) (c.tdiv dim + 1)
    generalize FillCell bitdeck dim r0.1 (c.tmod dim) (c.tdiv dim + 1) = r1 at k1 ⊢
    have k2 := FillCell_ret_nonneg bitdeck r1.1 dim (c.tmod dim - 1) (c.tdiv dim)
    generalize FillCell bitdeck dim r1.1 (c.tmod dim - 1) (c.tdiv dim) = r2 at k2 ⊢
    have k3 := FillCell_ret_nonneg bitdeck r2.1 dim (c.tmod dim + 1) (c.tdiv dim)
    generalize FillCell bitdeck dim r2.1 (c.tmod dim + 1) (c.tdiv dim) = r3 at k3 ⊢
    by_cases h0 : r0.2 ≥ 0 <;> by_cases h1 : r1.2 ≥ 0 <;> by_cases h2 : r2.2 ≥ 0 <;>
      by_cases h3 : r3.2 ≥ 0 <;>
      simp [h0, h1, h2, h3, DFSSIState.fresh] <;> omega

/-! ## Counting bits -/

theorem cnt_zero (p : Nat → Bool) : cnt 0 p = 0 := rfl

theorem cnt_succ (n : Nat) (p : Nat → Bool) :
    cnt (n + 1) p = cnt n p + if p n = true then 1 else 0 := by
  unfold cnt
  rw [List.range_succ, List.countP_append]
  simp [List.countP_cons]

theorem cnt_le (n : Nat) (p : Nat → Bool) : cnt n p ≤ n := by
  induction n with
  | zero => simp [cnt_zero]
  | succ n ih => rw [cnt_succ]; split_ifs <;> omega

theorem cnt_congr (n : Nat) (p q : Nat → Bool) (h : ∀ i, i < n → p i = q i) :
    cnt n p = cnt n q := by
  induction n with
  | zero => rfl
  | succ n ih =>
    rw [cnt_succ, cnt_succ, ih (fun i hi => h i (by omega)), h n (by omega)]

theorem cnt_false (n : Nat) : cnt n (fun _ => false) = 0 := by
  induction n with
  | zero => rfl
  | succ n ih => rw [cnt_succ, ih]; simp

theorem cnt_or (n : Nat) (q r : Nat → Bool) (h : ∀ i, i < n → ¬ (q i = true ∧ r i = true)) :
    cnt n (fun i => q i || r i) = cnt n q + cnt n r := by
  induction n with
  | zero => rfl
  | succ n ih =>
    rw [cnt_succ, cnt_succ, cnt_succ, ih (fun i hi => h i (by omega))]
    have := h n (by omega)
    cases hq : q n <;> cases hr : r n <;> simp_all <;> omega

theorem cnt_add (a b : Nat) (p : Nat → Bool) :
    cnt (a + b) p = cnt a p + cnt b (fun j => p (a + j)) := by
  induction b with
  | zero => simp [cnt_zero]
  | succ b ih =>
    rw [← Nat.add_assoc, cnt_succ, cnt_succ, ih]
    omega

theorem cnt_single (n c : Nat) (hc : c < n) : cnt n (fun i => decide (i = c)) = 1 := by
  induction n with
  | zero => omega
  | succ n ih =>
    rw [cnt_succ]
    by_cases h : c = n
    · subst h
      have : cnt c (fun i => decide (i = c)) = cnt c (fun _ => false) :=
        cnt_congr _ _ _ (fun i hi => by simp; omega)
      rw [this, cnt_false]
      simp
    · rw [ih (by omega)]
      have : ¬ n = c := fun e => h e.symm
      simp [this]

theorem CountBits_eq (v : Nat) : CountBits v = cnt 64 (fun i => v.testBit i) := by
  unfold CountBits cnt
  rw [List.countP_eq_length_filter]

theorem popc_le (d : Deck) : popc d ≤ 4096 := cnt_le _ _

theorem testBit_or_two_pow (d c i : Nat) :
    (d ||| 2 ^ c).testBit i = (d.testBit i || decide (i = c)) := by
  rw [Nat.testBit_or, Nat.testBit_two_pow]
  congr 1
  by_cases h : c = i
  · simp [h]
  · have : ¬ i = c := fun e => h e.symm
    simp [h, this]

theorem popc_set (d : Deck) (c : Nat) (hc : c < 4096) (h : d.testBit c = false) :
    popc (d ||| 2 ^ c) = popc d + 1 := by
  unfold popc
  rw [← cnt_single 4096 c hc, ← cnt_or]
  · exact cnt_congr _ _ _ (fun i _ => testBit_or_two_pow d c i)
  · intro i _ ⟨h1, h2⟩
    have : i = c := by simpa using h2
    rw [this, h] at h1
    exact Bool.noConfusion h1

theorem newlyFilled_add (init final : Deck)
    (hsub : ∀ i, i < 4096 → init.testBit i = true → final.testBit i = true) :
    popc final = popc init + newlyFilled init final := by
  unfold popc newlyFilled
  rw [← cnt_or]
  · apply cnt_congr
    intro i hi
    have := hsub i hi
    cases h1 : init.testBit i <;> cases h2 : final.testBit i <;> simp_all
  · intro i _ ⟨h1, h2⟩
    simp [h1] at h2

/-! ## `FillCell` on the 64x64 plane -/

theorem FillCell_spec (bitdeck f : Deck) (x y : Int) :
    (FillCell bitdeck 64 f x y = (f, -1) ∧
      ¬ (inRange 64 x y ∧ bitdeck.testBit (y * 64 + x).toNat = true ∧
          f.testBit (y * 64 + x).toNat = false)) ∨
    (FillCell bitdeck 64 f x y = (f ||| 2 ^ (y * 64 + x).toNat, y * 64 + x) ∧
      inRange 64 x y ∧ bitdeck.testBit (y * 64 + x).toNat = true ∧
        f.testBit (y * 64 + x).toNat = false) := by
  by_cases h : inRange 64 x y
  · rw [FillCell_in _ _ _ _ _ h]
    by_cases hc : bitdeck.testBit (y * 64 + x).toNat = true ∧ f.testBit (y * 64 + x).toNat = false
    · rw [if_pos hc]
      exact Or.inr ⟨rfl, h, hc.1, hc.2⟩
    · rw [if_neg hc]
      exact Or.inl ⟨rfl, fun h' => hc ⟨h'.2.1, h'.2.2⟩⟩
  · rw [FillCell_out _ _ _ _ _ h]
    exact Or.inl ⟨rfl, fun h' => h h'.1⟩

theorem cell_lt {x y : Int} (h : inRange 64 x y) : (y * 64 + x).toNat < 4096 := by
  unfold inRange at h
  omega

theorem popc_FillCell (bitdeck f : Deck) (x y : Int) :
    popc (FillCell bitdeck 64 f x y).1 =
      popc f + if (FillCell bitdeck 64 f x y).2 ≥ 0 then 1 else 0 := by
  rcases FillCell_spec bitdeck f x y with ⟨h, _⟩ | ⟨h, hr, _, hf⟩
  · rw [h]; simp
  · rw [h]
    have hnn : y * 64 + x ≥ 0 := cell_nonneg hr
    simp only [hnn, if_true]
    exact popc_set f _ (cell_lt hr) hf

/-! ## Termination of the DFS loop -/

theorem Flood_1_body_measure (bitdeck : Deck) (s : Flood1State) (h : s.stack ≠ []) :
    2 * (4096 - popc (Flood_1_body bitdeck 64 s).filled) + (Flood_1_body bitdeck 64 s).stack.length
      < 2 * (4096 - popc s.filled) + s.stack.length := by
  obtain ⟨f, st, t⟩ := s
  cases st with
  | nil => exact absurd rfl h
  | cons c rest =>
    simp only [Flood_1_body]
    have hle := popc_le (FillCell bitdeck 64
      (FillCell bitdeck 64 (FillCell bitdeck 64 (FillCell bitdeck 64 f (c.tmod 64)
        (c.tdiv 64 - 1)).1 (c.tmod 64) (c.tdiv 64 + 1)).1 (c.tmod 64 - 1) (c.tdiv 64)).1
      (c.tmod 64 + 1) (c.tdiv 64)).1
    rw [popc_FillCell, popc_FillCell, popc_FillCell, popc_FillCell] at hle ⊢
    generalize FillCell bitdeck 64 f (c.tmod 64) (c.tdiv 64 - 1) = r0 at hle ⊢
    generalize FillCell bitdeck 64 r0.1 (c.tmod 64) (c.tdiv 64 + 1) = r1 at hle ⊢
    generalize FillCell bitdeck 64 r1.1 (c.tmod 64 - 1) (c.tdiv 64) = r2 at hle ⊢
    generalize FillCell bitdeck 64 r2.1 (c.tmod 64 + 1) (c.tdiv 64) = r3 at hle ⊢
    by_cases h0 : r0.2 ≥ 0 <;> by_cases h1 : r1.2 ≥ 0 <;> by_cases h2 : r2.2 ≥ 0 <;>
      by_cases h3 : r3.2 ≥ 0 <;>
      simp only [h0, h1, h2, h3, if_true, if_false, List.length_cons] at hle ⊢ <;> omega

theorem Flood_1_loop_terminates (bitdeck : Deck) (s : Flood1State) :
    ∃ r, whileLoop (fun s : Flood1State => !s.stack.isEmpty)
      (fun s => some (Flood_1_body bitdeck 64 s))
      (2 * (4096 - popc s.filled) + s.stack.length) s = some r := by
  apply whileLoop_term _ _ (fun _ => True)
    (fun s => 2 * (4096 - popc s.filled) + s.stack.length)
  · intro s _ hc
    refine ⟨_, rfl, trivial, Flood_1_body_measure bitdeck s ?_⟩
    intro he
    simp [he] at hc
  · trivial
  · exact le_refl _

theorem Flood_1_sim_loop (bitdeck : Deck) (dim : Int) :
    ∀ (n : Nat) (b r : Flood1State) (s : RunState DFSSIState), Flood_1_rel b s →
      whileLoop (fun s : Flood1State => !s.stack.isEmpty)
        (fun s => some (Flood_1_body bitdeck dim s)) n b = some r →
      ∃ r', whileLoop (fun s : RunState DFSSIState => !s.stack.isEmpty)
        (fun s => some (Flood_1_runStep bitdeck dim s)) (4 * n) s = some r' ∧
        Flood_1_rel r r' := by
  intro n
  induction n with
  | zero =>
    intro b r s hrel h
    unfold whileLoop at h
    by_cases hc : b.stack = []
    · simp only [hc, List.isEmpty_nil, Bool.not_true] at h
      cases Option.some.inj h
      refine ⟨s, ?_, hrel⟩
      apply whileLoop_done
      simp [hrel.2.1, hc]
    · have : (!b.stack.isEmpty) = true := by
        cases hb : b.stack with
        | nil => exact absurd hb hc
        | cons _ _ => rfl
      simp [this] at h
  | succ n ih =>
    intro b r s hrel h
    by_cases hc : b.stack = []
    · rw [whileLoop_done _ _ _ _ (by simp [hc])] at h
      cases Option.some.inj h
      refine ⟨s, ?_, hrel⟩
      apply whileLoop_done
      simp [hrel.2.1, hc]
    · have hcb : (!b.stack.isEmpty) = true := by
        cases hb : b.stack with
        | nil => exact absurd hb hc
        | cons _ _ => rfl
      rw [whileLoop_step (fun s : Flood1State => !s.stack.isEmpty)
        (fun s => some (Flood_1_body bitdeck dim s)) n b _ hcb rfl] at h
      obtain ⟨h1, h2, h3, h4⟩ := Flood_1_four_steps bitdeck dim b s hrel hc
      obtain ⟨r', hr', hrel'⟩ := ih _ r _ h4 h
      refine ⟨r', ?_, hrel'⟩
      have hs : s.stack ≠ [] := by
        rw [hrel.2.1]
        cases hb : b.stack with
        | nil => exact absurd hb hc
        | cons _ _ => simp
      have ne_cond : ∀ t : RunState DFSSIState, t.stack ≠ [] → (!t.stack.isEmpty) = true := by
        intro t ht
        cases hb : t.stack with
        | nil => exact absurd hb ht
        | cons _ _ => rfl
      have e : 4 * (n + 1) = 4 * n + 1 + 1 + 1 + 1 := by ring
      have stp : ∀ (k : Nat) (t : RunState DFSSIState), t.stack ≠ [] →
          whileLoop (fun s : RunState DFSSIState => !s.stack.isEmpty)
            (fun s => some (Flood_1_runStep bitdeck dim s)) (k + 1) t =
          whileLoop (fun s : RunState DFSSIState => !s.stack.isEmpty)
            (fun s => some (Flood_1_runStep bitdeck dim s)) k (Flood_1_runStep bitdeck dim t) :=
        fun k t ht => whileLoop_step _ _ k t _ (ne_cond t ht) rfl
      rw [e, stp _ _ hs, stp _ _ h1, stp _ _ h2, stp _ _ h3]
      exact hr'

/-! ## C1: DFS equivalence -/

theorem Flood_1_fuel_mono (bitdeck : Deck) (dim : Int) (filled : Deck) (seedX seedY : Int)
    (n m : Nat) (r : Deck × Int) (hnm : n ≤ m)
    (h : Flood_1 n bitdeck dim filled seedX seedY = some r) :
    Flood_1 m bitdeck dim filled seedX seedY = some r := by
  unfold Flood_1 at h ⊢
  rw [Option.map_eq_some'] at h ⊢
  obtain ⟨a, ha, hr⟩ := h
  exact ⟨a, whileLoop_mono _ _ _ (fun _ _ h => h) n m _ _ hnm ha, hr⟩

theorem Flood_1_Incremental_run_fuel_mono (bitdeck : Deck) (dim : Int) (filled tested : Deck)
    (seedX seedY : Int) (n m : Nat) (r : Deck × Int) (hnm : n ≤ m)
    (h : Flood_1_Incremental_run n bitdeck dim filled tested seedX seedY = some r) :
    Flood_1_Incremental_run m bitdeck dim filled tested seedX seedY = some r := by
  unfold Flood_1_Incremental_run at h ⊢
  rw [Option.map_eq_some'] at h ⊢
  obtain ⟨a, ha, hr⟩ := h
  exact ⟨a, whileLoop_mono _ _ _ (fun _ _ h => h) n m _ _ hnm ha, hr⟩

theorem Flood_1_rel_init (bitdeck : Deck) (dim : Int) (filled tested : Deck) (seedX seedY : Int) :
    Flood_1_rel (Flood_1_init bitdeck dim filled seedX seedY)
      ⟨(Flood_1_Incremental_Start bitdeck dim filled [] seedX seedY).1,
        (Flood_1_Incremental_Start bitdeck dim filled [] seedX seedY).2.1, tested,
        (Flood_1_Incremental_Start bitdeck dim filled [] seedX seedY).2.2⟩ := by
  unfold Flood_1_rel Flood_1_init Flood_1_Incremental_Start
  dsimp only
  split_ifs <;> simp

/-- C1. DFS equivalence: on the 64x64 plane, for every occupancy mask, initial fill mask
and seed, `Flood_1` returns, the loop "`Flood_1_Incremental_Start` on an empty stack, then
`Flood_1_Incremental` until the stack count is 0" terminates, and both give the same
final fill mask and the same count (Start's return value plus the step return values
against the return value of `Flood_1`). -/
theorem Flood_1_Incremental_equiv (bitdeck filled tested : Deck) (seedX seedY : Int) :
    ∃ r : Deck × Int,
      Returns (fun fuel => Flood_1 fuel bitdeck 64 filled seedX seedY) r ∧
      Returns (fun fuel => Flood_1_Incremental_run fuel bitdeck 64 filled tested seedX seedY)
        r := by
  obtain ⟨b, hb⟩ := Flood_1_loop_terminates bitdeck (Flood_1_init bitdeck 64 filled seedX seedY)
  obtain ⟨r', hr', hrel⟩ := Flood_1_sim_loop bitdeck 64 _ _ b _
    (Flood_1_rel_init bitdeck 64 filled tested seedX seedY) hb
  have hdone := (whileLoop_inv _ _ (fun _ => True) (fun _ _ _ _ _ => trivial) _ _ _ trivial
    hb).2
  have hempty : b.stack = [] := by
    cases hs : b.stack with
    | nil => rfl
    | cons _ _ => simp [hs] at hdone
  refine ⟨(b.filled, b.totalFilled), ?_, ?_⟩
  · refine Returns_of_mono (Flood_1_fuel_mono bitdeck 64 filled seedX seedY)
      (2 * (4096 - popc (Flood_1_init bitdeck 64 filled seedX seedY).filled) +
        (Flood_1_init bitdeck 64 filled seedX seedY).stack.length) ?_
    · show Flood_1 _ bitdeck 64 filled seedX seedY = _
      unfold Flood_1
      rw [hb]
      rfl
  · refine Returns_of_mono
      (Flood_1_Incremental_run_fuel_mono bitdeck 64 filled tested seedX seedY)
      (4 * (2 * (4096 - popc (Flood_1_init bitdeck 64 filled seedX seedY).filled) +
        (Flood_1_init bitdeck 64 filled seedX seedY).stack.length)) ?_
    · show Flood_1_Incremental_run _ bitdeck 64 filled tested seedX seedY = _
      unfold Flood_1_Incremental_run
      dsimp only
      have hr'' : whileLoop (fun s : RunState DFSSIState => !s.stack.isEmpty)
          (fun s => some (Flood_1_runStep bitdeck 64 s)) _ _ = some r' := hr'
      unfold Flood_1_runStep at hr''
      rw [hr'']
      obtain ⟨h1, _, h3⟩ := hrel
      simp [h1, h3, hempty]

/-! ## Row accesses -/

theorem rowAt_testBit (d : Deck) (r i : Nat) :
    (rowAt d r).testBit i = (decide (i < 64) && d.testBit (64 * r + i)) := by
  unfold rowAt
  rw [Nat.testBit_mod_two_pow, Nat.testBit_shiftRight]

theorem rowAt_lt (d : Deck) (r : Nat) : rowAt d r < 2 ^ 64 :=
  Nat.mod_lt _ (by norm_num)

theorem testBit_of_lt_two_pow64 {v i : Nat} (hv : v < 2 ^ 64) (hi : 64 ≤ i) :
    v.testBit i = false := by
  apply Nat.testBit_lt_two_pow
  calc v < 2 ^ 64 := hv
    _ ≤ 2 ^ i := Nat.pow_le_pow_right (by norm_num) hi

theorem setRow_testBit (d : Deck) (r v j : Nat) :
    (setRow d r v).testBit j =
      if 64 * r ≤ j ∧ j < 64 * r + 64 then v.testBit (j - 64 * r) else d.testBit j := by
  unfold setRow
  rw [Nat.testBit_xor, Nat.testBit_shiftLeft, Nat.testBit_xor, rowAt_testBit,
    Nat.testBit_mod_two_pow]
  by_cases h1 : 64 * r ≤ j
  · by_cases h2 : j < 64 * r + 64
    · have h3 : j - 64 * r < 64 := by omega
      have h4 : 64 * r + (j - 64 * r) = j := by omega
      simp only [h1, h2, h3, h4, ge_iff_le, decide_True, Bool.true_and, and_self, if_true]
      cases d.testBit j <;> cases v.testBit (j - 64 * r) <;> rfl
    · have h3 : ¬ j - 64 * r < 64 := by omega
      simp [h1, h2, h3]
  · simp [h1]

theorem rowAt_setRow_same (d : Deck) (r v : Nat) : rowAt (setRow d r v) r = v % 2 ^ 64 := by
  apply Nat.eq_of_testBit_eq
  intro i
  rw [rowAt_testBit, setRow_testBit, Nat.testBit_mod_two_pow]
  by_cases h : i < 64
  · have h1 : 64 * r ≤ 64 * r + i ∧ 64 * r + i < 64 * r + 64 := by omega
    have h2 : 64 * r + i - 64 * r = i := by omega
    simp [h, h1, h2]
  · simp [h]

theorem rowAt_setRow_other (d : Deck) (r r' v : Nat) (h : r ≠ r') :
    rowAt (setRow d r v) r' = rowAt d r' := by
  apply Nat.eq_of_testBit_eq
  intro i
  rw [rowAt_testBit, setRow_testBit, rowAt_testBit]
  by_cases hi : i < 64
  · have h1 : ¬ (64 * r ≤ 64 * r' + i ∧ 64 * r' + i < 64 * r + 64) := by omega
    simp [hi, h1]
  · simp [hi]

theorem setRow_rowAt (d : Deck) (r : Nat) : setRow d r (rowAt d r) = d := by
  apply Nat.eq_of_testBit_eq
  intro j
  rw [setRow_testBit, rowAt_testBit]
  by_cases h : 64 * r ≤ j ∧ j < 64 * r + 64
  · have h3 : j - 64 * r < 64 := by omega
    have h4 : 64 * r + (j - 64 * r) = j := by omega
    simp [h, h3, h4]
  · simp [h]

theorem CountBits_xor_add (a b : Nat) (h : ∀ i, i < 64 → a.testBit i = true → b.testBit i = true) :
    CountBits (b ^^^ a) + CountBits a = CountBits b := by
  rw [CountBits_eq, CountBits_eq, CountBits_eq, ← cnt_or]
  · apply cnt_congr
    intro i hi
    have := h i hi
    rw [Nat.testBit_xor]
    cases h1 : a.testBit i <;> cases h2 : b.testBit i <;> simp_all
  · intro i _ ⟨h1, h2⟩
    rw [Nat.testBit_xor] at h1
    simp [h2] at h1
    have := h i ‹_› h2
    simp [this] at h1

/-! ## Simultaneous span fill: the incremental stepper against the batch loop -/

theorem LoopReaches_step {σ : Type} (cond : σ → Bool) (step : σ → σ) (s final : σ)
    (hc : cond s = true) (h : LoopReaches cond step (step s) final) :
    LoopReaches cond step s final := by
  obtain ⟨m, hm⟩ := h
  exact ⟨m + 1, by rw [whileLoop_step cond (fun s => some (step s)) m s _ hc rfl]; exact hm⟩

theorem Flood_3_reaches_step (bitdeck : Deck) (dim : Int)
    (s final : RunState SimulSpanFillSIState) (hne : s.stack ≠ [])
    (h : Flood_3_reaches bitdeck dim (Flood_3_runStep bitdeck dim s) final) :
    Flood_3_reaches bitdeck dim s final := by
  apply LoopReaches_step _ _ _ _ _ h
  cases hs : s.stack with
  | nil => exact absurd hs hne
  | cons _ _ => rfl

theorem or_eq_self_iff_lt {F T : Nat} (hF : F < 2 ^ 64) (hT : T < 2 ^ 64) :
    F ||| T < 2 ^ 64 := Nat.or_lt_two_pow hF hT

theorem and_lt_of_lt {a b : Nat} (hb : b < 2 ^ 64) : a &&& b < 2 ^ 64 :=
  lt_of_le_of_lt Nat.and_le_right hb

theorem subset_or_left (F T i : Nat) (h : F.testBit i = true) : (F ||| T).testBit i = true := by
  rw [Nat.testBit_or, h]
  rfl

theorem Flood_3_stage1_break (bitdeck : Deck) (dim : Int) (filled tested : Deck)
    (rest : List SimulSpanFillSIState) (r st : Int) (frp T : Nat) (pa pb : Bool)
    (tc nf : Int) (bitRow F : Nat) (hT : T ≠ 0) (hF : F ≠ F ||| T) :
    Flood_3_stage1 bitdeck dim filled ⟨r, st, frp, T, pa, pb⟩ rest tested tc nf bitRow F =
      ⟨setRow filled r.toNat (F ||| T),
        ⟨r, st, frp, ((T <<< 1) % 2 ^ 64) &&& bitRow, pa, pb⟩ :: rest,
        setRow tested r.toNat ((F ||| T) ^^^ F), tc, nf + CountBits ((F ||| T) ^^^ F)⟩ := by
  unfold Flood_3_stage1
  simp [hT, hF]

theorem Flood_3_stage1_fall (bitdeck : Deck) (dim : Int) (filled tested : Deck)
    (rest : List SimulSpanFillSIState) (r st : Int) (frp T : Nat) (pa pb : Bool)
    (tc nf : Int) (bitRow F : Nat) (h : T = 0 ∨ F = F ||| T) :
    Flood_3_stage1 bitdeck dim filled ⟨r, st, frp, T, pa, pb⟩ rest tested tc nf bitRow F =
      Flood_3_stage2 bitdeck dim filled ⟨r, st + 1, 0, (F >>> 1) &&& bitRow, pa, pb⟩ rest
        tested tc nf bitRow F := by
  unfold Flood_3_stage1
  by_cases hT : T = 0
  · simp [hT]
  · have hF : F = F ||| T := by tauto
    simp [hT, ← hF]

theorem setRow_setRow (d : Deck) (r v w : Nat) : setRow (setRow d r v) r w = setRow d r w := by
  apply Nat.eq_of_testBit_eq
  intro j
  rw [setRow_testBit, setRow_testBit, setRow_testBit]
  split_ifs <;> rfl

theorem Flood_3_scanLeft_step (n bitRow F T P : Nat) (hT : T ≠ 0) (hP : P ≠ F) :
    Flood_3_scanLeft (n + 1) bitRow ⟨F, T, P⟩ =
      Flood_3_scanLeft n bitRow ⟨F ||| T, ((T <<< 1) % 2 ^ 64) &&& bitRow, F⟩ := by
  unfold Flood_3_scanLeft
  apply whileLoop_step
  · simp [hT, hP]
  · rfl

theorem Flood_3_scanLeft_done (n bitRow F T P : Nat) (h : T = 0 ∨ P = F) :
    Flood_3_scanLeft n bitRow ⟨F, T, P⟩ = some ⟨F, T, P⟩ := by
  unfold Flood_3_scanLeft
  apply whileLoop_done
  rcases h with h | h <;> simp [h]

theorem Flood_3_scanLeft_zero (bitRow F T P : Nat) (hT : T ≠ 0) (hP : P ≠ F) :
    Flood_3_scanLeft 0 bitRow ⟨F, T, P⟩ = none := by
  unfold Flood_3_scanLeft whileLoop
  simp [hT, hP]

theorem Flood_3_left_sim (bitdeck : Deck) (dim : Int) (rest : List SimulSpanFillSIState)
    (r : Int) (pa pb : Bool) :
    ∀ (n : Nat) (F T P : Nat) (l : SimulScan), (P ≠ F ∨ T = 0) → F < 2 ^ 64 → T < 2 ^ 64 →
      Flood_3_scanLeft n (rowAt bitdeck r.toNat) ⟨F, T, P⟩ = some l →
      ∀ (filled tested : Deck) (frp : Nat) (tc acc : Int),
        rowAt filled r.toNat = F →
        (l.fillRow < 2 ^ 64 ∧ (∀ i, F.testBit i = true → l.fillRow.testBit i = true)) ∧
        ∃ (tested' : Deck) (tc' : Int), ∀ (final : RunState SimulSpanFillSIState),
          (Flood_3_reaches bitdeck dim
            (RunState.after (Flood_3_stage2 bitdeck dim (setRow filled r.toNat l.fillRow)
              ⟨r, 2, 0, (l.fillRow >>> 1) &&& rowAt bitdeck r.toNat, pa, pb⟩ rest tested' tc' 0
              (rowAt bitdeck r.toNat) l.fillRow)
              (acc + CountBits l.fillRow - CountBits F)) final →
           Flood_3_reaches bitdeck dim
            (RunState.after (Flood_3_stage1 bitdeck dim filled ⟨r, 1, frp, T, pa, pb⟩ rest tested
              tc 0 (rowAt bitdeck r.toNat) F) acc) final) := by
  have base : ∀ (F T P : Nat), (T = 0 ∨ F = F ||| T) → F < 2 ^ 64 →
      ∀ (filled tested : Deck) (frp : Nat) (tc acc : Int),
        rowAt filled r.toNat = F →
        (F < 2 ^ 64 ∧ (∀ i, F.testBit i = true → F.testBit i = true)) ∧
        ∃ (tested' : Deck) (tc' : Int), ∀ (final : RunState SimulSpanFillSIState),
          (Flood_3_reaches bitdeck dim
            (RunState.after (Flood_3_stage2 bitdeck dim (setRow filled r.toNat F)
              ⟨r, 2, 0, (F >>> 1) &&& rowAt bitdeck r.toNat, pa, pb⟩ rest tested' tc' 0
              (rowAt bitdeck r.toNat) F)
              (acc + CountBits F - CountBits F)) final →
           Flood_3_reaches bitdeck dim
            (RunState.after (Flood_3_stage1 bitdeck dim filled ⟨r, 1, frp, T, pa, pb⟩ rest tested
              tc 0 (rowAt bitdeck r.toNat) F) acc) final) := by
    intro F T P hfall hF filled tested frp tc acc hrow
    refine ⟨⟨hF, fun i h => h⟩, tested, tc, ?_⟩
    intro final h
    rw [Flood_3_stage1_fall _ _ _ _ _ _ _ _ _ _ _ _ _ _ _ hfall]
    rw [← hrow, setRow_rowAt, hrow] at h
    have e : acc + (CountBits F : Int) - CountBits F = acc := by omega
    rw [e] at h
    exact h
  intro n
  induction n with
  | zero =>
    intro F T P l hpre hF hT hl filled tested frp tc acc hrow
    have hT0 : T = 0 := by
      by_contra hne
      have hPF : P ≠ F := by tauto
      rw [Flood_3_scanLeft_zero _ _ _ _ hne hPF] at hl
      exact Option.noConfusion hl
    rw [Flood_3_scanLeft_done _ _ _ _ _ (Or.inl hT0)] at hl
    cases Option.some.inj hl
    exact base F T P (Or.inl hT0) hF filled tested frp tc acc hrow
  | succ n ih =>
    intro F T P l hpre hF hT hl filled tested frp tc acc hrow
    by_cases hT0 : T = 0
    · rw [Flood_3_scanLeft_done _ _ _ _ _ (Or.inl hT0)] at hl
      cases Option.some.inj hl
      exact base F T P (Or.inl hT0) hF filled tested frp tc acc hrow
    · have hPF : P ≠ F := by tauto
      rw [Flood_3_scanLeft_step _ _ _ _ _ hT0 hPF] at hl
      by_cases hch : F = F ||| T
      · rw [Flood_3_scanLeft_done _ _ _ _ _ (Or.inr hch)] at hl
        cases Option.some.inj hl
        dsimp only
        rw [← hch]
        exact base F T P (Or.inr hch) hF filled tested frp tc acc hrow
      · have hT' : ((T <<< 1) % 2 ^ 64) &&& rowAt bitdeck r.toNat < 2 ^ 64 :=
          and_lt_of_lt (rowAt_lt _ _)
        have hFT : F ||| T < 2 ^ 64 := Nat.or_lt_two_pow hF hT
        have hrow2 : rowAt (setRow filled r.toNat (F ||| T)) r.toNat = F ||| T := by
          rw [rowAt_setRow_same, Nat.mod_eq_of_lt hFT]
        obtain ⟨⟨hl1, hl2⟩, tested', tc', himp⟩ := ih (F ||| T) _ F l (Or.inl hch) hFT hT' hl
          (setRow filled r.toNat (F ||| T)) (setRow tested r.toNat ((F ||| T) ^^^ F)) frp 0
          (acc + (0 + CountBits ((F ||| T) ^^^ F))) hrow2
        refine ⟨⟨hl1, fun i h => hl2 i (subset_or_left F T i h)⟩, tested', tc', ?_⟩
        intro final h
        rw [Flood_3_stage1_break _ _ _ _ _ _ _ _ _ _ _ _ _ _ _ hT0 hch]
        apply Flood_3_reaches_step _ _ _ _ (by simp [RunState.after])
        have hcnt := CountBits_xor_add F (F ||| T) (fun i _ h => subset_or_left F T i h)
        have e : acc + (0 + (CountBits ((F ||| T) ^^^ F) : Int)) + CountBits l.fillRow -
            CountBits (F ||| T) = acc + CountBits l.fillRow - CountBits F := by omega
        have himp := himp final
        rw [setRow_setRow, e] at himp
        have := himp h
        simpa [Flood_3_runStep, RunState.after, Flood_3_Incremental, hrow2] using this

theorem Flood_3_scanRight_step (n bitRow F T P : Nat) (hT : T ≠ 0) (hP : P ≠ F) :
    Flood_3_scanRight (n + 1) bitRow ⟨F, T, P⟩ =
      Flood_3_scanRight n bitRow ⟨F ||| T, (T >>> 1) &&& bitRow, F⟩ := by
  unfold Flood_3_scanRight
  apply whileLoop_step
  · simp [hT, hP]
  · rfl

theorem Flood_3_scanRight_done (n bitRow F T P : Nat) (h : T = 0 ∨ P = F) :
    Flood_3_scanRight n bitRow ⟨F, T, P⟩ = some ⟨F, T, P⟩ := by
  unfold Flood_3_scanRight
  apply whileLoop_done
  rcases h with h | h <;> simp [h]

theorem Flood_3_scanRight_zero (bitRow F T P : Nat) (hT : T ≠ 0) (hP : P ≠ F) :
    Flood_3_scanRight 0 bitRow ⟨F, T, P⟩ = none := by
  unfold Flood_3_scanRight whileLoop
  simp [hT, hP]

theorem Flood_3_stage2_break (bitdeck : Deck) (dim : Int) (filled tested : Deck)
    (rest : List SimulSpanFillSIState) (r st : Int) (frp T : Nat) (pa pb : Bool)
    (tc nf : Int) (bitRow F : Nat) (hT : T ≠ 0) (hF : F ≠ F ||| T) :
    Flood_3_stage2 bitdeck dim filled ⟨r, st, frp, T, pa, pb⟩ rest tested tc nf bitRow F =
      ⟨setRow filled r.toNat (F ||| T),
        ⟨r, st, frp, (T >>> 1) &&& bitRow, pa, pb⟩ :: rest,
        setRow tested r.toNat ((F ||| T) ^^^ F), tc, nf + CountBits ((F ||| T) ^^^ F)⟩ := by
  unfold Flood_3_stage2
  simp [hT, hF]

theorem Flood_3_stage2_fall (bitdeck : Deck) (dim : Int) (filled tested : Deck)
    (rest : List SimulSpanFillSIState) (r st : Int) (frp T : Nat) (pa pb : Bool)
    (tc nf : Int) (bitRow F : Nat) (h : T = 0 ∨ F = F ||| T) :
    ∃ T', Flood_3_stage2 bitdeck dim filled ⟨r, st, frp, T, pa, pb⟩ rest tested tc nf bitRow F =
      Flood_3_stage3 bitdeck dim filled ⟨r, st + 1, frp, T', pa, pb⟩ rest tested tc nf F := by
  unfold Flood_3_stage2
  by_cases hT : T = 0
  · exact ⟨0, by simp [hT]⟩
  · have hF : F = F ||| T := by tauto
    exact ⟨(T >>> 1) &&& bitRow, by simp [hT, ← hF]⟩

theorem Flood_3_right_sim (bitdeck : Deck) (dim : Int) (rest : List SimulSpanFillSIState)
    (r : Int) (pa pb : Bool) :
    ∀ (n : Nat) (F T P : Nat) (l : SimulScan), (P ≠ F ∨ T = 0) → F < 2 ^ 64 → T < 2 ^ 64 →
      Flood_3_scanRight n (rowAt bitdeck r.toNat) ⟨F, T, P⟩ = some l →
      ∀ (filled tested : Deck) (frp : Nat) (tc acc : Int),
        rowAt filled r.toNat = F →
        (l.fillRow < 2 ^ 64 ∧ (∀ i, F.testBit i = true → l.fillRow.testBit i = true)) ∧
        ∃ (tested' : Deck) (tc' : Int) (frp' T' : Nat),
          ∀ (final : RunState SimulSpanFillSIState),
          (Flood_3_reaches bitdeck dim
            (RunState.after (Flood_3_stage3 bitdeck dim (setRow filled r.toNat l.fillRow)
              ⟨r, 3, frp', T', pa, pb⟩ rest tested' tc' 0 l.fillRow)
              (acc + CountBits l.fillRow - CountBits F)) final →
           Flood_3_reaches bitdeck dim
            (RunState.after (Flood_3_stage2 bitdeck dim filled ⟨r, 2, frp, T, pa, pb⟩ rest tested
              tc 0 (rowAt bitdeck r.toNat) F) acc) final) := by
  have base : ∀ (F T : Nat), (T = 0 ∨ F = F ||| T) → F < 2 ^ 64 →
      ∀ (filled tested : Deck) (frp : Nat) (tc acc : Int),
        rowAt filled r.toNat = F →
        (F < 2 ^ 64 ∧ (∀ i, F.testBit i = true → F.testBit i = true)) ∧
        ∃ (tested' : Deck) (tc' : Int) (frp' T' : Nat),
          ∀ (final : RunState SimulSpanFillSIState),
          (Flood_3_reaches bitdeck dim
            (RunState.after (Flood_3_stage3 bitdeck dim (setRow filled r.toNat F)
              ⟨r, 3, frp', T', pa, pb⟩ rest tested' tc' 0 F)
              (acc + CountBits F - CountBits F)) final →
           Flood_3_reaches bitdeck dim
            (RunState.after (Flood_3_stage2 bitdeck dim filled ⟨r, 2, frp, T, pa, pb⟩ rest tested
              tc 0 (rowAt bitdeck r.toNat) F) acc) final) := by
    intro F T hfall hF filled tested frp tc acc hrow
    obtain ⟨T', hT'⟩ := Flood_3_stage2_fall bitdeck dim filled tested rest r 2 frp T pa pb tc 0
      (rowAt bitdeck r.toNat) F hfall
    refine ⟨⟨hF, fun i h => h⟩, tested, tc, frp, T', ?_⟩
    intro final h
    rw [hT']
    rw [← hrow, setRow_rowAt, hrow] at h
    have e : acc + (CountBits F : Int) - CountBits F = acc := by omega
    rw [e] at h
    exact h
  intro n
  induction n with
  | zero =>
    intro F T P l hpre hF hT hl filled tested frp tc acc hrow
    have hT0 : T = 0 := by
      by_contra hne
      have hPF : P ≠ F := by tauto
      rw [Flood_3_scanRight_zero _ _ _ _ hne hPF] at hl
      exact Option.noConfusion hl
    rw [Flood_3_scanRight_done _ _ _ _ _ (Or.inl hT0)] at hl
    cases Option.some.inj hl
    exact base F T (Or.inl hT0) hF filled tested frp tc acc hrow
  | succ n ih =>
    intro F T P l hpre hF hT hl filled tested frp tc acc hrow
    by_cases hT0 : T = 0
    · rw [Flood_3_scanRight_done _ _ _ _ _ (Or.inl hT0)] at hl
      cases Option.some.inj hl
      exact base F T (Or.inl hT0) hF filled tested frp tc acc hrow
    · have hPF : P ≠ F := by tauto
      rw [Flood_3_scanRight_step _ _ _ _ _ hT0 hPF] at hl
      by_cases hch : F = F ||| T
      · rw [Flood_3_scanRight_done _ _ _ _ _ (Or.inr hch)] at hl
        cases Option.some.inj hl
        dsimp only
        rw [← hch]
        exact base F T (Or.inr hch) hF filled tested frp tc acc hrow
      · have hT' : (T >>> 1) &&& rowAt bitdeck r.toNat < 2 ^ 64 :=
          and_lt_of_lt (rowAt_lt _ _)
        have hFT : F ||| T < 2 ^ 64 := Nat.or_lt_two_pow hF hT
        have hrow2 : rowAt (setRow filled r.toNat (F ||| T)) r.toNat = F ||| T := by
          rw [rowAt_setRow_same, Nat.mod_eq_of_lt hFT]
        obtain ⟨⟨hl1, hl2⟩, tested', tc', frp', T', himp⟩ := ih (F ||| T) _ F l (Or.inl hch)
          hFT hT' hl
          (setRow filled r.toNat (F ||| T)) (setRow tested r.toNat ((F ||| T) ^^^ F)) frp 0
          (acc + (0 + CountBits ((F ||| T) ^^^ F))) hrow2
        refine ⟨⟨hl1, fun i h => hl2 i (subset_or_left F T i h)⟩, tested', tc', frp', T', ?_⟩
        intro final h
        rw [Flood_3_stage2_break _ _ _ _ _ _ _ _ _ _ _ _ _ _ _ hT0 hch]
        apply Flood_3_reaches_step _ _ _ _ (by simp [RunState.after])
        have hcnt := CountBits_xor_add F (F ||| T) (fun i _ h => subset_or_left F T i h)
        have e : acc + (0 + (CountBits ((F ||| T) ^^^ F) : Int)) + CountBits l.fillRow -
            CountBits (F ||| T) = acc + CountBits l.fillRow - CountBits F := by omega
        have himp := himp final
        rw [setRow_setRow, e] at himp
        have := himp h
        simpa [Flood_3_runStep, RunState.after, Flood_3_Incremental, hrow2] using this

theorem Flood_3_stage4_eq (bitdeck : Deck) (dim : Int) (filled tested : Deck) (stack : List Int)
    (r st : Int) (frp T : Nat) (pa : Bool) (tc nf0 nfb : Int) (fillRow : Nat) :
    (Flood_3_stage4 bitdeck dim filled ⟨r, st, frp, T, pa, false⟩
        (stack.map SimulSpanFillSIState.fresh) tested tc nf0 fillRow).filled =
      (if r < dim - 1 then Flood_3_bitfill bitdeck fillRow (r + 1)
          ⟨filled, if pa then (r - 1) :: stack else stack, nfb⟩
        else ⟨filled, if pa then (r - 1) :: stack else stack, nfb⟩).filled ∧
    (Flood_3_stage4 bitdeck dim filled ⟨r, st, frp, T, pa, false⟩
        (stack.map SimulSpanFillSIState.fresh) tested tc nf0 fillRow).stack =
      (if r < dim - 1 then Flood_3_bitfill bitdeck fillRow (r + 1)
          ⟨filled, if pa then (r - 1) :: stack else stack, nfb⟩
        else ⟨filled, if pa then (r - 1) :: stack else stack, nfb⟩).stack.map
        SimulSpanFillSIState.fresh ∧
    (Flood_3_stage4 bitdeck dim filled ⟨r, st, frp, T, pa, false⟩
        (stack.map SimulSpanFillSIState.fresh) tested tc nf0 fillRow).ret =
      nf0 + ((if r < dim - 1 then Flood_3_bitfill bitdeck fillRow (r + 1)
          ⟨filled, if pa then (r - 1) :: stack else stack, nfb⟩
        else ⟨filled, if pa then (r - 1) :: stack else stack, nfb⟩).numFilled - nfb) := by
  unfold Flood_3_stage4 Flood_3_bitfill
  dsimp only
  by_cases hd : r < dim - 1
  · by_cases hch : rowAt filled (r + 1).toNat =
        rowAt filled (r + 1).toNat ||| fillRow &&& rowAt bitdeck (r + 1).toNat
    · cases pa <;> simp [hd, ← hch]
    · cases pa <;> simp [hd, hch]
  · cases pa <;> simp [hd]

theorem Flood_3_Incremental_at4 (bitdeck : Deck) (dim : Int) (filled tested : Deck)
    (rest : List SimulSpanFillSIState) (r : Int) (frp T : Nat) (pa pb : Bool) :
    Flood_3_Incremental bitdeck dim filled (⟨r, 4, frp, T, pa, pb⟩ :: rest) tested =
      Flood_3_stage4 bitdeck dim filled ⟨r, 4, frp, T, pa, pb⟩ rest tested 0 0
        (rowAt filled r.toNat) := by
  unfold Flood_3_Incremental
  norm_num

theorem Flood_3_vertical_sim (bitdeck : Deck) (dim : Int) (filled tested : Deck)
    (stack : List Int) (r : Int) (frp T : Nat) (tc acc nf : Int) (fillRow : Nat)
    (hrow : rowAt filled r.toNat = fillRow) :
    ∃ tested', ∀ (final : RunState SimulSpanFillSIState),
      (Flood_3_reaches bitdeck dim
        ⟨(if r < dim - 1 then Flood_3_bitfill bitdeck fillRow (r + 1)
            (if r > 0 then Flood_3_bitfill bitdeck fillRow (r - 1) ⟨filled, stack, nf⟩
              else ⟨filled, stack, nf⟩)
          else (if r > 0 then Flood_3_bitfill bitdeck fillRow (r - 1) ⟨filled, stack, nf⟩
              else ⟨filled, stack, nf⟩)).filled,
         (if r < dim - 1 then Flood_3_bitfill bitdeck fillRow (r + 1)
            (if r > 0 then Flood_3_bitfill bitdeck fillRow (r - 1) ⟨filled, stack, nf⟩
              else ⟨filled, stack, nf⟩)
          else (if r > 0 then Flood_3_bitfill bitdeck fillRow (r - 1) ⟨filled, stack, nf⟩
              else ⟨filled, stack, nf⟩)).stack.map SimulSpanFillSIState.fresh,
         tested',
         acc + ((if r < dim - 1 then Flood_3_bitfill bitdeck fillRow (r + 1)
            (if r > 0 then Flood_3_bitfill bitdeck fillRow (r - 1) ⟨filled, stack, nf⟩
              else ⟨filled, stack, nf⟩)
          else (if r > 0 then Flood_3_bitfill bitdeck fillRow (r - 1) ⟨filled, stack, nf⟩
              else ⟨filled, stack, nf⟩)).numFilled - nf)⟩ final →
       Flood_3_reaches bitdeck dim
        (RunState.after (Flood_3_stage3 bitdeck dim filled ⟨r, 3, frp, T, false, false⟩
          (stack.map SimulSpanFillSIState.fresh) tested tc 0 fillRow) acc) final) := by
  by_cases hr : r > 0
  · by_cases hch : rowAt filled (r - 1).toNat =
        rowAt filled (r - 1).toNat ||| fillRow &&& rowAt bitdeck (r - 1).toNat
    · -- the row above does not change: stage 3 falls through to stage 4
      have e3 : Flood_3_stage3 bitdeck dim filled ⟨r, 3, frp, T, false, false⟩
          (stack.map SimulSpanFillSIState.fresh) tested tc 0 fillRow =
          Flood_3_stage4 bitdeck dim filled ⟨r, 4, frp, T, false, false⟩
            (stack.map SimulSpanFillSIState.fresh)
            (setRow tested (r - 1).toNat (rowAt tested (r - 1).toNat ||| fillRow)) (tc + 1) 0
            fillRow := by
        unfold Flood_3_stage3
        dsimp only
        rw [if_pos hr, if_neg (not_not.mpr hch)]
        norm_num
      have e2 : Flood_3_bitfill bitdeck fillRow (r - 1) ⟨filled, stack, nf⟩ =
          ⟨filled, stack, nf⟩ := by
        unfold Flood_3_bitfill
        dsimp only
        rw [if_neg (not_not.mpr hch)]
      obtain ⟨h1, h2, h3⟩ := Flood_3_stage4_eq bitdeck dim filled
        (setRow tested (r - 1).toNat (rowAt tested (r - 1).toNat ||| fillRow)) stack r (4)
        frp T false (tc + 1) 0 nf fillRow
      refine ⟨(Flood_3_stage4 bitdeck dim filled ⟨r, 4, frp, T, false, false⟩
        (stack.map SimulSpanFillSIState.fresh)
        (setRow tested (r - 1).toNat (rowAt tested (r - 1).toNat ||| fillRow)) (tc + 1) 0
        fillRow).tested, fun final h => ?_⟩
      rw [e3]
      simp only [hr, if_true, e2] at h ⊢
      simp only [Bool.false_eq_true, if_false] at h1 h2 h3
      unfold RunState.after
      rw [h1, h2, h3, zero_add]
      exact h
    · -- the row above changes: stage 3 returns, stage 4 is the next call
      have e3 : Flood_3_stage3 bitdeck dim filled ⟨r, 3, frp, T, false, false⟩
          (stack.map SimulSpanFillSIState.fresh) tested tc 0 fillRow =
          ⟨setRow filled (r - 1).toNat
              (rowAt filled (r - 1).toNat ||| fillRow &&& rowAt bitdeck (r - 1).toNat),
            ⟨r, 4, frp, T, true, false⟩ :: stack.map SimulSpanFillSIState.fresh,
            setRow tested (r - 1).toNat (rowAt tested (r - 1).toNat ||| fillRow), tc + 1,
            0 + CountBits (rowAt filled (r - 1).toNat ^^^
              (rowAt filled (r - 1).toNat ||| fillRow &&& rowAt bitdeck (r - 1).toNat))⟩ := by
        unfold Flood_3_stage3
        dsimp only
        rw [if_pos hr, if_pos hch]
        norm_num
      have e2 : Flood_3_bitfill bitdeck fillRow (r - 1) ⟨filled, stack, nf⟩ =
          ⟨setRow filled (r - 1).toNat
              (rowAt filled (r - 1).toNat ||| fillRow &&& rowAt bitdeck (r - 1).toNat),
            (r - 1) :: stack,
            nf + CountBits (rowAt filled (r - 1).toNat ^^^
              (rowAt filled (r - 1).toNat ||| fillRow &&& rowAt bitdeck (r - 1).toNat))⟩ := by
        unfold Flood_3_bitfill
        dsimp only
        rw [if_pos hch]
      have hne : (r - 1).toNat ≠ r.toNat := by omega
      have hrow2 : rowAt (setRow filled (r - 1).toNat
          (rowAt filled (r - 1).toNat ||| fillRow &&& rowAt bitdeck (r - 1).toNat)) r.toNat =
          fillRow := by
        rw [rowAt_setRow_other _ _ _ _ hne, hrow]
      obtain ⟨h1, h2, h3⟩ := Flood_3_stage4_eq bitdeck dim (setRow filled (r - 1).toNat
          (rowAt filled (r - 1).toNat ||| fillRow &&& rowAt bitdeck (r - 1).toNat))
        (setRow tested (r - 1).toNat (rowAt tested (r - 1).toNat ||| fillRow)) stack r (4)
        frp T true 0 0
        (nf + CountBits (rowAt filled (r - 1).toNat ^^^
              (rowAt filled (r - 1).toNat ||| fillRow &&& rowAt bitdeck (r - 1).toNat)))
        fillRow
      refine ⟨(Flood_3_stage4 bitdeck dim (setRow filled (r - 1).toNat
              (rowAt filled (r - 1).toNat ||| fillRow &&& rowAt bitdeck (r - 1).toNat))
            ⟨r, 4, frp, T, true, false⟩ (stack.map SimulSpanFillSIState.fresh)
            (setRow tested (r - 1).toNat (rowAt tested (r - 1).toNat ||| fillRow)) 0 0
            fillRow).tested, fun final h => ?_⟩
      rw [e3]
      apply Flood_3_reaches_step _ _ _ _ (by simp [RunState.after])
      simp only [hr, if_true, e2] at h ⊢
      simp only [if_true] at h1 h2 h3
      have e4 : Flood_3_runStep bitdeck dim (RunState.after
          (⟨setRow filled (r - 1).toNat
              (rowAt filled (r - 1).toNat ||| fillRow &&& rowAt bitdeck (r - 1).toNat),
            ⟨r, 4, frp, T, true, false⟩ :: stack.map SimulSpanFillSIState.fresh,
            setRow tested (r - 1).toNat (rowAt tested (r - 1).toNat ||| fillRow), tc + 1,
            0 + CountBits (rowAt filled (r - 1).toNat ^^^
              (rowAt filled (r - 1).toNat ||| fillRow &&& rowAt bitdeck (r - 1).toNat))⟩ :
            StepResult SimulSpanFillSIState) acc) =
          RunState.after (Flood_3_stage4 bitdeck dim (setRow filled (r - 1).toNat
              (rowAt filled (r - 1).toNat ||| fillRow &&& rowAt bitdeck (r - 1).toNat))
            ⟨r, 4, frp, T, true, false⟩ (stack.map SimulSpanFillSIState.fresh)
            (setRow tested (r - 1).toNat (rowAt tested (r - 1).toNat ||| fillRow)) 0 0 fillRow)
            (acc + (0 + CountBits (rowAt filled (r - 1).toNat ^^^
              (rowAt filled (r - 1).toNat ||| fillRow &&& rowAt bitdeck (r - 1).toNat)))) := by
        unfold Flood_3_runStep RunState.after
        dsimp only
        rw [Flood_3_Incremental_at4, hrow2]
      rw [e4]
      unfold RunState.after
      rw [h1, h2, h3]
      have e5 : ∀ z : Int, acc + (0 + (CountBits (rowAt filled (r - 1).toNat ^^^
              (rowAt filled (r - 1).toNat ||| fillRow &&& rowAt bitdeck (r - 1).toNat)) : Int)) +
            (0 + (z - (nf + CountBits (rowAt filled (r - 1).toNat ^^^
              (rowAt filled (r - 1).toNat ||| fillRow &&& rowAt bitdeck (r - 1).toNat))))) =
            acc + (z - nf) := by
        intro z; omega
      rw [e5]
      exact h
  · have e3 : Flood_3_stage3 bitdeck dim filled ⟨r, 3, frp, T, false, false⟩
        (stack.map SimulSpanFillSIState.fresh) tested tc 0 fillRow =
        Flood_3_stage4 bitdeck dim filled ⟨r, 4, frp, T, false, false⟩
          (stack.map SimulSpanFillSIState.fresh) tested tc 0 fillRow := by
      unfold Flood_3_stage3
      dsimp only
      rw [if_neg hr]
      norm_num
    obtain ⟨h1, h2, h3⟩ := Flood_3_stage4_eq bitdeck dim filled tested stack r (4)
      frp T false tc 0 nf fillRow
    refine ⟨(Flood_3_stage4 bitdeck dim filled ⟨r, 4, frp, T, false, false⟩
          (stack.map SimulSpanFillSIState.fresh) tested tc 0 fillRow).tested, fun final h => ?_⟩
    rw [e3]
    simp only [hr, if_false] at h ⊢
    simp only [Bool.false_eq_true, if_false] at h1 h2 h3
    unfold RunState.after
    rw [h1, h2, h3, zero_add]
    exact h

theorem Flood_3_Incremental_at0 (bitdeck : Deck) (dim : Int) (filled tested : Deck)
    (rest : List SimulSpanFillSIState) (r : Int) :
    Flood_3_Incremental bitdeck dim filled (SimulSpanFillSIState.fresh r :: rest) tested =
      Flood_3_stage1 bitdeck dim filled
        ⟨r, 1, 0, ((rowAt filled r.toNat <<< 1) % 2 ^ 64) &&& rowAt bitdeck r.toNat, false, false⟩
        rest tested 1 0 (rowAt bitdeck r.toNat) (rowAt filled r.toNat) := by
  unfold Flood_3_Incremental SimulSpanFillSIState.fresh
  norm_num

theorem zero_shift_and (b : Nat) : ((0 <<< 1) % 2 ^ 64) &&& b = 0 := by
  simp

theorem zero_shiftRight_and (b : Nat) : (0 >>> 1) &&& b = 0 := by
  simp

theorem Flood_3_macro (bitdeck : Deck) (dim : Int) (fuel : Nat) (filled tested : Deck) (r : Int)
    (stack : List Int) (nf acc : Int) (b' : Flood3State)
    (hb : Flood_3_body fuel bitdeck dim ⟨filled, r :: stack, nf⟩ = some b') :
    ∃ tested', ∀ (final : RunState SimulSpanFillSIState),
      Flood_3_reaches bitdeck dim
        ⟨b'.filled, b'.stack.map SimulSpanFillSIState.fresh, tested', acc + (b'.numFilled - nf)⟩
        final →
      Flood_3_reaches bitdeck dim
        ⟨filled, SimulSpanFillSIState.fresh r :: stack.map SimulSpanFillSIState.fresh, tested,
          acc⟩ final := by
  unfold Flood_3_body at hb
  dsimp only at hb
  rw [Option.bind_eq_some] at hb
  obtain ⟨l, hl, hb⟩ := hb
  rw [Option.bind_eq_some] at hb
  obtain ⟨rr, hrr, hb⟩ := hb
  cases Option.some.inj hb
  have hF0 : rowAt filled r.toNat < 2 ^ 64 := rowAt_lt _ _
  have pre0 : (0 ≠ rowAt filled r.toNat ∨
      ((rowAt filled r.toNat <<< 1) % 2 ^ 64) &&& rowAt bitdeck r.toNat = 0) := by
    by_cases h0 : rowAt filled r.toNat = 0
    · right; rw [h0]; exact zero_shift_and _
    · left; exact fun h => h0 h.symm
  obtain ⟨⟨hl1, hl2⟩, t1, tc1, himp1⟩ := Flood_3_left_sim bitdeck dim
    (stack.map SimulSpanFillSIState.fresh) r false false fuel _ _ _ l pre0 hF0
    (and_lt_of_lt (rowAt_lt _ _)) hl filled tested 0 1 acc rfl
  have pre1 : (0 ≠ l.fillRow ∨ (l.fillRow >>> 1) &&& rowAt bitdeck r.toNat = 0) := by
    by_cases h0 : l.fillRow = 0
    · right; rw [h0]; exact zero_shiftRight_and _
    · left; exact fun h => h0 h.symm
  have hrow1 : rowAt (setRow filled r.toNat l.fillRow) r.toNat = l.fillRow := by
    rw [rowAt_setRow_same, Nat.mod_eq_of_lt hl1]
  obtain ⟨⟨hr1, hr2⟩, t2, tc2, frp2, T2, himp2⟩ := Flood_3_right_sim bitdeck dim
    (stack.map SimulSpanFillSIState.fresh) r false false fuel _ _ _ rr pre1 hl1
    (and_lt_of_lt (rowAt_lt _ _)) hrr (setRow filled r.toNat l.fillRow) t1 0 tc1
    (acc + CountBits l.fillRow - CountBits (rowAt filled r.toNat)) hrow1
  have hrow2 : rowAt (setRow filled r.toNat rr.fillRow) r.toNat = rr.fillRow := by
    rw [rowAt_setRow_same, Nat.mod_eq_of_lt hr1]
  obtain ⟨t3, himp3⟩ := Flood_3_vertical_sim bitdeck dim (setRow filled r.toNat rr.fillRow) t2
    stack r frp2 T2 tc2
    (acc + CountBits l.fillRow - CountBits (rowAt filled r.toNat) + CountBits rr.fillRow -
      CountBits l.fillRow)
    (nf + CountBits (rr.fillRow ^^^ rowAt filled r.toNat)) rr.fillRow hrow2
  refine ⟨t3, fun final h => ?_⟩
  apply Flood_3_reaches_step _ _ _ _ (by simp)
  unfold Flood_3_runStep
  dsimp only
  rw [Flood_3_Incremental_at0]
  apply himp1 final
  apply himp2 final
  rw [setRow_setRow]
  apply himp3 final
  have hcnt := CountBits_xor_add (rowAt filled r.toNat) rr.fillRow
    (fun i _ h => hr2 i (hl2 i h))
  have e : ∀ z : Int, acc + CountBits l.fillRow - CountBits (rowAt filled r.toNat) +
      CountBits rr.fillRow - CountBits l.fillRow +
      (z - (nf + CountBits (rr.fillRow ^^^ rowAt filled r.toNat))) = acc + (z - nf) := by
    intro z; omega
  rw [e]
  exact h

theorem Flood_3_sim_loop (bitdeck : Deck) (dim : Int) (fuel : Nat) :
    ∀ (n : Nat) (b bf : Flood3State),
      whileLoop (fun s : Flood3State => !s.stack.isEmpty) (Flood_3_body fuel bitdeck dim) n b
        = some bf →
      ∀ (tested : Deck) (acc : Int), ∃ final,
        Flood_3_reaches bitdeck dim
          ⟨b.filled, b.stack.map SimulSpanFillSIState.fresh, tested, acc⟩ final ∧
        final.filled = bf.filled ∧ final.lastFilledCount = acc + (bf.numFilled - b.numFilled) := by
  intro n
  induction n with
  | zero =>
    intro b bf h tested acc
    unfold whileLoop at h
    split_ifs at h with hc
    cases Option.some.inj h
    refine ⟨_, ⟨0, whileLoop_done _ _ _ _ ?_⟩, rfl, by simp⟩
    cases hs : b.stack with
    | nil => simp
    | cons _ _ => simp [hs] at hc
  | succ n ih =>
    intro b bf h tested acc
    obtain ⟨f, st, nf⟩ := b
    cases st with
    | nil =>
      rw [whileLoop_done _ _ _ _ (by simp)] at h
      cases Option.some.inj h
      exact ⟨_, ⟨0, whileLoop_done _ _ _ _ (by simp)⟩, rfl, by simp⟩
    | cons r stack =>
      unfold whileLoop at h
      simp only [List.isEmpty_cons, Bool.not_false, if_true] at h
      rw [Option.bind_eq_some] at h
      obtain ⟨b', hb', h⟩ := h
      obtain ⟨tested', himp⟩ := Flood_3_macro bitdeck dim fuel f tested r stack nf acc b' hb'
      obtain ⟨final, hreach, hf1, hf2⟩ := ih b' bf h tested' (acc + (b'.numFilled - nf))
      refine ⟨final, himp final hreach, hf1, ?_⟩
      rw [hf2]
      simp only
      omega

/-! ## Termination of the simultaneous span fill -/

theorem cnt_pos (n : Nat) (p : Nat → Bool) (i : Nat) (hi : i < n) (hp : p i = true) :
    0 < cnt n p := by
  induction n with
  | zero => omega
  | succ n ih =>
    rw [cnt_succ]
    by_cases h : i = n
    · subst h; simp [hp]
    · have := ih (by omega)
      omega

theorem cnt_window (r : Nat) (hr : r < 64) (X : Nat) :
    cnt 4096 (fun j => decide (64 * r ≤ j ∧ j < 64 * r + 64) && X.testBit (j - 64 * r)) =
      cnt 64 (fun i => X.testBit i) := by
  have e : 4096 = 64 * r + (64 + (4096 - 64 * r - 64)) := by omega
  rw [e, cnt_add, cnt_add]
  have h1 : cnt (64 * r)
      (fun j => decide (64 * r ≤ j ∧ j < 64 * r + 64) && X.testBit (j - 64 * r)) = 0 := by
    rw [← cnt_false (64 * r)]
    apply cnt_congr
    intro i hi
    have : ¬ (64 * r ≤ i ∧ i < 64 * r + 64) := by omega
    simp [this]
  have h2 : cnt 64 (fun j => (fun j => decide (64 * r ≤ j ∧ j < 64 * r + 64) &&
      X.testBit (j - 64 * r)) (64 * r + j)) = cnt 64 (fun i => X.testBit i) := by
    apply cnt_congr
    intro i hi
    have h : 64 * r ≤ 64 * r + i ∧ 64 * r + i < 64 * r + 64 := by omega
    have h' : 64 * r + i - 64 * r = i := by omega
    simp [h, h']
  have h3 : cnt (4096 - 64 * r - 64) (fun j => (fun j => (fun j =>
      decide (64 * r ≤ j ∧ j < 64 * r + 64) && X.testBit (j - 64 * r)) (64 * r + j)) (64 + j))
      = 0 := by
    rw [← cnt_false (4096 - 64 * r - 64)]
    apply cnt_congr
    intro i hi
    have : ¬ (64 * r ≤ 64 * r + (64 + i) ∧ 64 * r + (64 + i) < 64 * r + 64) := by omega
    simp [this]
  rw [h1, h2, h3]
  omega

theorem popc_setRow (d : Deck) (r v : Nat) (hr : r < 64)
    (hsub : ∀ i, i < 64 → (rowAt d r).testBit i = true → v.testBit i = true) :
    popc (setRow d r v) = popc d + CountBits (v ^^^ rowAt d r) := by
  rw [CountBits_eq, ← cnt_window r hr]
  unfold popc
  rw [← cnt_or]
  · apply cnt_congr
    intro j hj
    rw [setRow_testBit, Nat.testBit_xor, rowAt_testBit]
    by_cases h : 64 * r ≤ j ∧ j < 64 * r + 64
    · have h3 : j - 64 * r < 64 := by omega
      have h4 : 64 * r + (j - 64 * r) = j := by omega
      have := hsub (j - 64 * r) h3
      rw [rowAt_testBit] at this
      simp only [h3, h4, decide_True, Bool.true_and] at this
      simp only [h, h3, h4, if_true, decide_True, Bool.true_and]
      cases h1 : d.testBit j <;> cases h2 : v.testBit (j - 64 * r) <;> simp_all
    · simp [h]
  · intro j hj ⟨h1, h2⟩
    simp only [Bool.and_eq_true, decide_eq_true_eq] at h2
    obtain ⟨hin, hx⟩ := h2
    have h3 : j - 64 * r < 64 := by omega
    have h4 : 64 * r + (j - 64 * r) = j := by omega
    rw [Nat.testBit_xor, rowAt_testBit] at hx
    simp only [h3, h4, decide_True, Bool.true_and, h1] at hx
    have := hsub (j - 64 * r) h3 (by rw [rowAt_testBit]; simp [h3, h4, h1])
    simp [this] at hx

theorem CountBits_le (v : Nat) : CountBits v ≤ 64 := by
  rw [CountBits_eq]
  exact cnt_le _ _

theorem CountBits_lt_of_ne {a b : Nat} (hb : b < 2 ^ 64) (ha : a < 2 ^ 64)
    (hsub : ∀ i, a.testBit i = true → b.testBit i = true) (hne : a ≠ b) :
    CountBits a < CountBits b := by
  have hadd := CountBits_xor_add a b (fun i _ h => hsub i h)
  have hpos : 0 < CountBits (b ^^^ a) := by
    have : ∃ i, a.testBit i ≠ b.testBit i := by
      by_contra hcon
      push_neg at hcon
      exact hne (Nat.eq_of_testBit_eq hcon)
    obtain ⟨i, hi⟩ := this
    have hi64 : i < 64 := by
      by_contra hge
      rw [testBit_of_lt_two_pow64 ha (by omega), testBit_of_lt_two_pow64 hb (by omega)] at hi
      exact hi rfl
    rw [CountBits_eq]
    apply cnt_pos 64 _ i hi64
    rw [Nat.testBit_xor]
    cases h1 : a.testBit i <;> cases h2 : b.testBit i <;> simp_all
  omega

theorem simulscan_terminates (sh : Nat → Nat) (hsh : ∀ t, sh t < 2 ^ 64) :
    ∀ (n : Nat) (s : SimulScan), s.fillRow < 2 ^ 64 → s.test < 2 ^ 64 → 129 ≤ n →
      ∃ l, whileLoop (fun l : SimulScan => decide (l.test ≠ 0) && decide (l.fillRowPrev ≠ l.fillRow))
        (fun l => some ⟨l.fillRow ||| l.test, sh l.test, l.fillRow⟩) n s = some l := by
  intro n s hF hT hn
  apply whileLoop_term _ _ (fun s : SimulScan => s.fillRow < 2 ^ 64 ∧ s.test < 2 ^ 64)
    (fun s => 2 * (64 - CountBits s.fillRow) + if s.fillRowPrev ≠ s.fillRow then 1 else 0)
  · intro s ⟨hF, hT⟩ hc
    simp only [Bool.and_eq_true, decide_eq_true_eq] at hc
    refine ⟨_, rfl, ⟨Nat.or_lt_two_pow hF hT, hsh _⟩, ?_⟩
    dsimp only
    by_cases hch : s.fillRow = s.fillRow ||| s.test
    · rw [← hch]
      simp [hc.2]
    · have hlt := CountBits_lt_of_ne (Nat.or_lt_two_pow hF hT) hF
        (fun i h => subset_or_left _ _ i h) hch
      have hle := CountBits_le (s.fillRow ||| s.test)
      simp only [hc.2, hch, ne_eq, not_false_eq_true, if_true]
      omega
  · exact ⟨hF, hT⟩
  · have := CountBits_le s.fillRow
    split_ifs <;> omega

theorem Flood_3_scanLeft_terminates (n bitRow : Nat) (hb : bitRow < 2 ^ 64) (s : SimulScan)
    (hF : s.fillRow < 2 ^ 64) (hT : s.test < 2 ^ 64) (hn : 129 ≤ n) :
    ∃ l, Flood_3_scanLeft n bitRow s = some l :=
  simulscan_terminates (fun t => ((t <<< 1) % 2 ^ 64) &&& bitRow) (fun _ => and_lt_of_lt hb)
    n s hF hT hn

theorem Flood_3_scanRight_terminates (n bitRow : Nat) (hb : bitRow < 2 ^ 64) (s : SimulScan)
    (hF : s.fillRow < 2 ^ 64) (hT : s.test < 2 ^ 64) (hn : 129 ≤ n) :
    ∃ l, Flood_3_scanRight n bitRow s = some l :=
  simulscan_terminates (fun t => (t >>> 1) &&& bitRow) (fun _ => and_lt_of_lt hb)
    n s hF hT hn

theorem Flood_3_body_eq (fuel : Nat) (hfuel : 129 ≤ fuel) (bitdeck : Deck) (dim : Int)
    (filled : Deck) (r : Int) (stack : List Int) (nf : Int) :
    ∃ l rr : SimulScan,
      Flood_3_scanLeft fuel (rowAt bitdeck r.toNat)
        ⟨rowAt filled r.toNat,
          ((rowAt filled r.toNat <<< 1) % 2 ^ 64) &&& rowAt bitdeck r.toNat, 0⟩ = some l ∧
      Flood_3_scanRight fuel (rowAt bitdeck r.toNat)
        ⟨l.fillRow, (l.fillRow >>> 1) &&& rowAt bitdeck r.toNat, 0⟩ = some rr ∧
      Flood_3_body fuel bitdeck dim ⟨filled, r :: stack, nf⟩ =
        some (if r < dim - 1 then Flood_3_bitfill bitdeck rr.fillRow (r + 1)
            (if r > 0 then Flood_3_bitfill bitdeck rr.fillRow (r - 1)
              ⟨setRow filled r.toNat rr.fillRow, stack,
                nf + CountBits (rr.fillRow ^^^ rowAt filled r.toNat)⟩
             else ⟨setRow filled r.toNat rr.fillRow, stack,
                nf + CountBits (rr.fillRow ^^^ rowAt filled r.toNat)⟩)
          else (if r > 0 then Flood_3_bitfill bitdeck rr.fillRow (r - 1)
              ⟨setRow filled r.toNat rr.fillRow, stack,
                nf + CountBits (rr.fillRow ^^^ rowAt filled r.toNat)⟩
             else ⟨setRow filled r.toNat rr.fillRow, stack,
                nf + CountBits (rr.fillRow ^^^ rowAt filled r.toNat)⟩)) := by
  obtain ⟨l, hl⟩ := Flood_3_scanLeft_terminates fuel (rowAt bitdeck r.toNat) (rowAt_lt _ _)
    ⟨rowAt filled r.toNat, ((rowAt filled r.toNat <<< 1) % 2 ^ 64) &&& rowAt bitdeck r.toNat, 0⟩
    (rowAt_lt _ _) (and_lt_of_lt (rowAt_lt _ _)) hfuel
  have hl1 : l.fillRow < 2 ^ 64 := by
    have := (whileLoop_inv _ _ (fun s : SimulScan => s.fillRow < 2 ^ 64 ∧ s.test < 2 ^ 64)
      (fun s s' hs _ hb => by
        cases Option.some.inj hb
        exact ⟨Nat.or_lt_two_pow hs.1 hs.2, and_lt_of_lt (rowAt_lt bitdeck r.toNat)⟩)
      fuel _ l ⟨rowAt_lt _ _, and_lt_of_lt (rowAt_lt _ _)⟩ hl).1
    exact this.1
  obtain ⟨rr, hrr⟩ := Flood_3_scanRight_terminates fuel (rowAt bitdeck r.toNat) (rowAt_lt _ _)
    ⟨l.fillRow, (l.fillRow >>> 1) &&& rowAt bitdeck r.toNat, 0⟩
    hl1 (and_lt_of_lt (rowAt_lt _ _)) hfuel
  refine ⟨l, rr, hl, hrr, ?_⟩
  unfold Flood_3_body
  dsimp only
  rw [hl, Option.some_bind, hrr, Option.some_bind]

theorem Flood_3_scan_mono (sh : Nat → Nat) :
    ∀ (n : Nat) (s l : SimulScan),
      whileLoop (fun l : SimulScan => decide (l.test ≠ 0) && decide (l.fillRowPrev ≠ l.fillRow))
        (fun l => some ⟨l.fillRow ||| l.test, sh l.test, l.fillRow⟩) n s = some l →
      ∀ i, s.fillRow.testBit i = true → l.fillRow.testBit i = true := by
  intro n s l h
  have := (whileLoop_inv _ _
    (fun t : SimulScan => ∀ i, s.fillRow.testBit i = true → t.fillRow.testBit i = true)
    (fun t t' ht _ hb => by
      cases Option.some.inj hb
      exact fun i hi => subset_or_left _ _ i (ht i hi))
    n s l (fun i hi => hi) h).1
  exact this

theorem Flood_3_scan_lt (sh : Nat → Nat) (hsh : ∀ t, sh t < 2 ^ 64) :
    ∀ (n : Nat) (s l : SimulScan), s.fillRow < 2 ^ 64 → s.test < 2 ^ 64 →
      whileLoop (fun l : SimulScan => decide (l.test ≠ 0) && decide (l.fillRowPrev ≠ l.fillRow))
        (fun l => some ⟨l.fillRow ||| l.test, sh l.test, l.fillRow⟩) n s = some l →
      l.fillRow < 2 ^ 64 := by
  intro n s l hF hT h
  have := (whileLoop_inv _ _ (fun s : SimulScan => s.fillRow < 2 ^ 64 ∧ s.test < 2 ^ 64)
    (fun s s' hs _ hb => by
      cases Option.some.inj hb
      exact ⟨Nat.or_lt_two_pow hs.1 hs.2, hsh _⟩)
    n s l ⟨hF, hT⟩ h).1
  exact this.1

/-- What `Flood_3_bitfill` does to the number of filled cells, the count and the stack. -/
theorem Flood_3_bitfill_spec (bitdeck : Deck) (fillRow : Nat) (nb : Int) (s : Flood3State)
    (hnb : 0 ≤ nb ∧ nb < 64) :
    ∃ k : Nat, popc (Flood_3_bitfill bitdeck fillRow nb s).filled = popc s.filled + k ∧
      (Flood_3_bitfill bitdeck fillRow nb s).numFilled = s.numFilled + k ∧
      ((Flood_3_bitfill bitdeck fillRow nb s).stack = s.stack ∨
        ((Flood_3_bitfill bitdeck fillRow nb s).stack = nb :: s.stack ∧ 1 ≤ k)) := by
  unfold Flood_3_bitfill
  dsimp only
  by_cases hch : rowAt s.filled nb.toNat =
      rowAt s.filled nb.toNat ||| fillRow &&& rowAt bitdeck nb.toNat
  · rw [if_neg (not_not.mpr hch)]
    exact ⟨0, by simp, by simp, Or.inl rfl⟩
  · rw [if_pos hch]
    have hsub : ∀ i, (rowAt s.filled nb.toNat).testBit i = true →
        (rowAt s.filled nb.toNat ||| fillRow &&& rowAt bitdeck nb.toNat).testBit i = true :=
      fun i h => subset_or_left _ _ i h
    have hlt : rowAt s.filled nb.toNat ||| fillRow &&& rowAt bitdeck nb.toNat < 2 ^ 64 :=
      Nat.or_lt_two_pow (rowAt_lt _ _) (and_lt_of_lt (rowAt_lt _ _))
    have h1 := popc_setRow s.filled nb.toNat _ (by omega) (fun i _ h => hsub i h)
    have h2 := CountBits_lt_of_ne hlt (rowAt_lt _ _) hsub hch
    have h3 := CountBits_xor_add _ _ (fun i (_ : i < 64) h => hsub i h)
    have h4 : rowAt s.filled nb.toNat ^^^
        (rowAt s.filled nb.toNat ||| fillRow &&& rowAt bitdeck nb.toNat) =
        (rowAt s.filled nb.toNat ||| fillRow &&& rowAt bitdeck nb.toNat) ^^^
          rowAt s.filled nb.toNat := Nat.xor_comm _ _
    refine ⟨CountBits ((rowAt s.filled nb.toNat ||| fillRow &&& rowAt bitdeck nb.toNat) ^^^
      rowAt s.filled nb.toNat), h1, ?_, Or.inr ⟨rfl, by omega⟩⟩
    dsimp only
    rw [h4]

/-- One iteration of the loop of `Flood_3` on the 64x64 plane: it returns, and the number
of filled cells grows by exactly the growth of the count and by at least the number of rows
pushed. -/
theorem Flood_3_body_spec (fuel : Nat) (hfuel : 129 ≤ fuel) (bitdeck filled : Deck) (r : Int)
    (stack : List Int) (nf : Int) (hr : 0 ≤ r ∧ r < 64) (hst : ∀ q ∈ stack, 0 ≤ q ∧ q < 64) :
    ∃ b', Flood_3_body fuel bitdeck 64 ⟨filled, r :: stack, nf⟩ = some b' ∧
      ∃ K : Nat, popc b'.filled = popc filled + K ∧ b'.numFilled = nf + K ∧
        b'.stack.length ≤ stack.length + K ∧ (∀ q ∈ b'.stack, 0 ≤ q ∧ q < 64) := by
  obtain ⟨l, rr, hl, hrr, hb⟩ := Flood_3_body_eq fuel hfuel bitdeck 64 filled r stack nf
  refine ⟨_, hb, ?_⟩
  have hsub : ∀ i, (rowAt filled r.toNat).testBit i = true → rr.fillRow.testBit i = true :=
    fun i h => Flood_3_scan_mono (fun t => (t >>> 1) &&& rowAt bitdeck r.toNat) _ _ _ hrr i
      (Flood_3_scan_mono (fun t => ((t <<< 1) % 2 ^ 64) &&& rowAt bitdeck r.toNat) _ _ _ hl i h)
  have h1 := popc_setRow filled r.toNat rr.fillRow (by omega) (fun i _ h => hsub i h)
  generalize hs1 : (⟨setRow filled r.toNat rr.fillRow, stack,
    nf + CountBits (rr.fillRow ^^^ rowAt filled r.toNat)⟩ : Flood3State) = s1
  have a1 : popc s1.filled = popc filled + CountBits (rr.fillRow ^^^ rowAt filled r.toNat) := by
    rw [← hs1]; exact h1
  have a2 : s1.numFilled = nf + CountBits (rr.fillRow ^^^ rowAt filled r.toNat) := by
    rw [← hs1]
  have a3 : s1.stack = stack := by rw [← hs1]
  clear hs1 hb h1
  -- up
  have up : ∃ s2 : Flood3State, (if r > 0 then Flood_3_bitfill bitdeck rr.fillRow (r - 1) s1
      else s1) = s2 ∧ ∃ k : Nat, popc s2.filled = popc s1.filled + k ∧
        s2.numFilled = s1.numFilled + k ∧ s2.stack.length ≤ s1.stack.length + k ∧
        (∀ q ∈ s2.stack, 0 ≤ q ∧ q < 64) := by
    refine ⟨_, rfl, ?_⟩
    by_cases h : r > 0
    · rw [if_pos h]
      obtain ⟨k, k1, k2, k3⟩ := Flood_3_bitfill_spec bitdeck rr.fillRow (r - 1) s1 (by omega)
      refine ⟨k, k1, k2, ?_, ?_⟩
      · rcases k3 with k3 | ⟨k3, k4⟩ <;> rw [k3] <;> simp <;> omega
      · rcases k3 with k3 | ⟨k3, k4⟩ <;> rw [k3, a3]
        · exact hst
        · intro q hq
          rcases List.mem_cons.mp hq with e | e
          · omega
          · exact hst q e
    · rw [if_neg h]
      exact ⟨0, by simp, by simp, by simp, by rw [a3]; exact hst⟩
  obtain ⟨s2, hs2, k, b1, b2, b3, b4⟩ := up
  rw [hs2]
  have down : ∃ k : Nat,
      popc (if r < 64 - 1 then Flood_3_bitfill bitdeck rr.fillRow (r + 1) s2 else s2).filled =
        popc s2.filled + k ∧
      (if r < 64 - 1 then Flood_3_bitfill bitdeck rr.fillRow (r + 1) s2 else s2).numFilled =
        s2.numFilled + k ∧
      (if r < 64 - 1 then Flood_3_bitfill bitdeck rr.fillRow (r + 1) s2 else s2).stack.length ≤
        s2.stack.length + k ∧
      (∀ q ∈ (if r < 64 - 1 then Flood_3_bitfill bitdeck rr.fillRow (r + 1) s2
        else s2).stack, 0 ≤ q ∧ q < 64) := by
    by_cases h : r < 64 - 1
    · rw [if_pos h]
      obtain ⟨k, k1, k2, k3⟩ := Flood_3_bitfill_spec bitdeck rr.fillRow (r + 1) s2 (by omega)
      refine ⟨k, k1, k2, ?_, ?_⟩
      · rcases k3 with k3 | ⟨k3, k4⟩ <;> rw [k3] <;> simp <;> omega
      · rcases k3 with k3 | ⟨k3, k4⟩ <;> rw [k3]
        · exact b4
        · intro q hq
          rcases List.mem_cons.mp hq with e | e
          · omega
          · exact b4 q e
    · rw [if_neg h]
      exact ⟨0, by simp, by simp, by simp, b4⟩
  obtain ⟨k', c1, c2, c3, c4⟩ := down
  refine ⟨CountBits (rr.fillRow ^^^ rowAt filled r.toNat) + k + k', ?_, ?_, ?_, c4⟩
  · rw [c1, b1, a1]; omega
  · rw [c2, b2, a2]; push_cast; omega
  · rw [a3] at b3; omega

theorem Flood_3_loop_terminates (fuel : Nat) (hfuel : 129 ≤ fuel) (bitdeck : Deck)
    (s : Flood3State) (hst : ∀ q ∈ s.stack, 0 ≤ q ∧ q < 64)
    (hμ : 2 * (4096 - popc s.filled) + s.stack.length ≤ fuel) :
    ∃ r, whileLoop (fun s : Flood3State => !s.stack.isEmpty) (Flood_3_body fuel bitdeck 64)
      fuel s = some r := by
  apply whileLoop_term _ _ (fun s : Flood3State => ∀ q ∈ s.stack, 0 ≤ q ∧ q < 64)
    (fun s => 2 * (4096 - popc s.filled) + s.stack.length) _ fuel s hst hμ
  intro s hs hc
  obtain ⟨f, st, nf⟩ := s
  cases st with
  | nil => simp at hc
  | cons r stack =>
    obtain ⟨b', hb', K, k1, k2, k3, k4⟩ := Flood_3_body_spec fuel hfuel bitdeck f r stack nf
      (hs r (List.mem_cons_self _ _)) (fun q hq => hs q (List.mem_cons_of_mem _ hq))
    refine ⟨b', hb', k4, ?_⟩
    have := popc_le b'.filled
    simp only [List.length_cons]
    omega

theorem Flood_3_init_stack (bitdeck filled : Deck) (seedX seedY : Int) :
    ∀ q ∈ (Flood_3_init bitdeck 64 filled seedX seedY).stack, 0 ≤ q ∧ q < 64 := by
  unfold Flood_3_init
  dsimp only
  split_ifs with h
  · obtain ⟨h1, h2⟩ := FillCell_ret_nonneg _ _ _ _ _ h
    intro q hq
    simp only [List.mem_singleton] at hq
    rw [hq, h1, Int.tdiv_eq_ediv (cell_nonneg h2) (by norm_num)]
    unfold inRange at h2
    omega
  · intro q hq
    simp at hq

theorem Flood_3_body_fuel_mono (bitdeck : Deck) (dim : Int) (n m : Nat) (hnm : n ≤ m)
    (s r : Flood3State) (h : Flood_3_body n bitdeck dim s = some r) :
    Flood_3_body m bitdeck dim s = some r := by
  unfold Flood_3_body at h ⊢
  cases hs : s.stack with
  | nil => rw [hs] at h; exact h
  | cons q st =>
    rw [hs] at h
    dsimp only at h ⊢
    rw [Option.bind_eq_some] at h
    obtain ⟨l, hl, h⟩ := h
    rw [Option.bind_eq_some] at h
    obtain ⟨rr, hrr, h⟩ := h
    have hl' := whileLoop_mono _ _ _ (fun _ _ h => h) n m _ _ hnm hl
    have hrr' := whileLoop_mono _ _ _ (fun _ _ h => h) n m _ _ hnm hrr
    unfold Flood_3_scanLeft Flood_3_scanRight
    rw [hl', Option.some_bind, hrr', Option.some_bind]
    exact h

theorem Flood_3_fuel_mono (bitdeck : Deck) (dim : Int) (filled : Deck) (seedX seedY : Int)
    (n m : Nat) (r : Deck × Int) (hnm : n ≤ m)
    (h : Flood_3 n bitdeck dim filled seedX seedY = some r) :
    Flood_3 m bitdeck dim filled seedX seedY = some r := by
  unfold Flood_3 at h ⊢
  rw [Option.map_eq_some'] at h ⊢
  obtain ⟨a, ha, hr⟩ := h
  exact ⟨a, whileLoop_mono _ _ _ (Flood_3_body_fuel_mono bitdeck dim n m hnm) n m _ _ hnm ha,
    hr⟩

theorem Flood_3_Incremental_run_fuel_mono (bitdeck : Deck) (dim : Int) (filled tested : Deck)
    (seedX seedY : Int) (n m : Nat) (r : Deck × Int) (hnm : n ≤ m)
    (h : Flood_3_Incremental_run n bitdeck dim filled tested seedX seedY = some r) :
    Flood_3_Incremental_run m bitdeck dim filled tested seedX seedY = some r := by
  unfold Flood_3_Incremental_run at h ⊢
  rw [Option.map_eq_some'] at h ⊢
  obtain ⟨a, ha, hr⟩ := h
  exact ⟨a, whileLoop_mono _ _ _ (fun _ _ h => h) n m _ _ hnm ha, hr⟩

/-- `Flood_3` returns on the 64x64 plane, with the final state of its loop. -/
theorem Flood_3_returns (bitdeck filled : Deck) (seedX seedY : Int) :
    ∃ (fuel : Nat) (bf : Flood3State), 129 ≤ fuel ∧
      whileLoop (fun s : Flood3State => !s.stack.isEmpty) (Flood_3_body fuel bitdeck 64) fuel
        (Flood_3_init bitdeck 64 filled seedX seedY) = some bf ∧ bf.stack = [] ∧
      Returns (fun fuel => Flood_3 fuel bitdeck 64 filled seedX seedY)
        (bf.filled, bf.numFilled) := by
  obtain ⟨bf, hbf⟩ := Flood_3_loop_terminates
    (129 + (2 * (4096 - popc (Flood_3_init bitdeck 64 filled seedX seedY).filled) +
      (Flood_3_init bitdeck 64 filled seedX seedY).stack.length)) (by omega) bitdeck
    (Flood_3_init bitdeck 64 filled seedX seedY) (Flood_3_init_stack bitdeck filled seedX seedY)
    (by omega)
  have hdone := (whileLoop_inv _ _ (fun _ => True) (fun _ _ _ _ _ => trivial) _ _ _ trivial
    hbf).2
  have hempty : bf.stack = [] := by
    cases hs : bf.stack with
    | nil => rfl
    | cons _ _ => simp [hs] at hdone
  refine ⟨_, bf, by omega, hbf, hempty, ?_⟩
  refine Returns_of_mono (Flood_3_fuel_mono bitdeck 64 filled seedX seedY)
    (129 + (2 * (4096 - popc (Flood_3_init bitdeck 64 filled seedX seedY).filled) +
      (Flood_3_init bitdeck 64 filled seedX seedY).stack.length)) ?_
  show Flood_3 _ bitdeck 64 filled seedX seedY = _
  unfold Flood_3
  rw [hbf]
  rfl

/-- The incremental run and the loop of `Flood_3` on a row stack that is never full: on the
64x64 plane, for every occupancy mask, initial fill mask and seed, `Flood_3` on such a stack
returns, the loop "`Flood_3_Incremental_Start` on an empty stack, then
`Flood_3_Incremental` until the stack count is 0" terminates, and both give the same final
fill mask and the same count. -/
theorem Flood_3_Incremental_run_unlimited (bitdeck filled tested : Deck) (seedX seedY : Int) :
    ∃ r : Deck × Int,
      Returns (fun fuel => Flood_3 fuel bitdeck 64 filled seedX seedY) r ∧
      Returns (fun fuel => Flood_3_Incremental_run fuel bitdeck 64 filled tested seedX seedY)
        r := by
  obtain ⟨fuel, bf, _, hbf, _, hret⟩ := Flood_3_returns bitdeck filled seedX seedY
  refine ⟨_, hret, ?_⟩
  obtain ⟨final, ⟨m, hm⟩, hf1, hf2⟩ := Flood_3_sim_loop bitdeck 64 fuel fuel _ bf hbf tested
    (Flood_3_init bitdeck 64 filled seedX seedY).numFilled
  refine Returns_of_mono
    (Flood_3_Incremental_run_fuel_mono bitdeck 64 filled tested seedX seedY) m ?_
  show Flood_3_Incremental_run _ bitdeck 64 filled tested seedX seedY = _
  unfold Flood_3_Incremental_run
  dsimp only
  have hstart : (⟨(Flood_3_Incremental_Start bitdeck 64 filled [] seedX seedY).1,
      (Flood_3_Incremental_Start bitdeck 64 filled [] seedX seedY).2.1, tested,
      (Flood_3_Incremental_Start bitdeck 64 filled [] seedX seedY).2.2⟩ :
        RunState SimulSpanFillSIState) =
      ⟨(Flood_3_init bitdeck 64 filled seedX seedY).filled,
        (Flood_3_init bitdeck 64 filled seedX seedY).stack.map SimulSpanFillSIState.fresh,
        tested, (Flood_3_init bitdeck 64 filled seedX seedY).numFilled⟩ := by
    unfold Flood_3_Incremental_Start Flood_3_init
    dsimp only
    split_ifs <;> rfl
  rw [hstart]
  have hm' : whileLoop (fun s : RunState SimulSpanFillSIState => !s.stack.isEmpty)
      (fun s => some (Flood_3_runStep bitdeck 64 s)) m _ = some final := hm
  unfold Flood_3_runStep RunState.after at hm'
  rw [hm']
  simp [hf1, hf2]

/-! ## Span fill: the loops of one iteration -/

theorem FillCell_free (bitdeck f : Deck) (x y : Int) (h : FreeAt bitdeck f x y) :
    FillCell bitdeck 64 f x y = (f ||| 2 ^ (y * 64 + x).toNat, y * 64 + x) := by
  rcases FillCell_spec bitdeck f x y with ⟨_, h2⟩ | ⟨h1, _⟩
  · exact absurd h h2
  · exact h1

theorem FillCell_not_free (bitdeck f : Deck) (x y : Int) (h : ¬ FreeAt bitdeck f x y) :
    FillCell bitdeck 64 f x y = (f, -1) := by
  rcases FillCell_spec bitdeck f x y with ⟨h1, _⟩ | ⟨_, h2⟩
  · exact h1
  · exact absurd h2 h

theorem TestCell_free (bitdeck f : Deck) (x y : Int) (h : FreeAt bitdeck f x y) :
    TestCell bitdeck 64 f x y = y * 64 + x := by
  rw [TestCell_in _ _ _ _ _ h.1, if_pos h.2]

theorem TestCell_not_free (bitdeck f : Deck) (x y : Int) (h : ¬ FreeAt bitdeck f x y) :
    TestCell bitdeck 64 f x y = -1 := by
  by_cases hr : inRange 64 x y
  · rw [TestCell_in _ _ _ _ _ hr, if_neg (fun hc => h ⟨hr, hc⟩)]
  · exact TestCell_out _ _ _ _ _ hr

theorem FreeAt_set_other (bitdeck f : Deck) (x x' y : Int) (hx : inRange 64 x y)
    (hx' : inRange 64 x' y) (hne : x ≠ x') :
    FreeAt bitdeck (f ||| 2 ^ (y * 64 + x).toNat) x' y ↔ FreeAt bitdeck f x' y := by
  unfold FreeAt
  rw [testBit_or_two_pow]
  have : ¬ (y * 64 + x').toNat = (y * 64 + x).toNat := by
    unfold inRange at hx hx'
    omega
  simp [this]

theorem Flood_2_span_step (fuel : Nat) (bitdeck f : Deck) (x y inc nf : Int)
    (h : FreeAt bitdeck f x y) :
    Flood_2_span (fuel + 1) bitdeck 64 y inc ⟨f, x, nf⟩ =
      Flood_2_span fuel bitdeck 64 y inc ⟨f ||| 2 ^ (y * 64 + x).toNat, x + inc, nf + 1⟩ := by
  unfold Flood_2_span
  congr 1
  apply whileLoop_step
  · dsimp only
    rw [FillCell_free _ _ _ _ h]
    simpa using cell_nonneg h.1
  · dsimp only
    rw [FillCell_free _ _ _ _ h]

theorem Flood_2_span_done (fuel : Nat) (bitdeck f : Deck) (x y inc nf : Int)
    (h : ¬ FreeAt bitdeck f x y) :
    Flood_2_span fuel bitdeck 64 y inc ⟨f, x, nf⟩ = some ⟨f, x, nf⟩ := by
  unfold Flood_2_span
  rw [whileLoop_done]
  · dsimp only [Option.map]
    rw [FillCell_not_free _ _ _ _ h]
  · dsimp only
    rw [FillCell_not_free _ _ _ _ h]
    simp

/-- The span-fill-right loop from `x0`: it fills the free cells `x0 .. x'-1` of row `y` and
stops at the first cell `x'` that is not free. -/
theorem Flood_2_span_right (bitdeck : Deck) (y : Int) :
    ∀ (k fuel : Nat) (f : Deck) (x0 nf : Int), 0 ≤ x0 → (64 - x0).toNat ≤ k → k < fuel →
      ∃ (x' : Int) (f' : Deck),
        Flood_2_span fuel bitdeck 64 y 1 ⟨f, x0, nf⟩ = some ⟨f', x', nf + (x' - x0)⟩ ∧
        x0 ≤ x' ∧ x' ≤ max 64 x0 ∧
        (∀ x, x0 ≤ x → x < x' → FreeAt bitdeck f x y) ∧ ¬ FreeAt bitdeck f x' y ∧
        (∀ i, f'.testBit i = true ↔
          (f.testBit i = true ∨ ∃ x, x0 ≤ x ∧ x < x' ∧ i = (y * 64 + x).toNat)) := by
  intro k
  induction k with
  | zero =>
    intro fuel f x0 nf h0 hk hfuel
    have hnf : ¬ FreeAt bitdeck f x0 y := by
      intro h
      have := h.1
      unfold inRange at this
      omega
    refine ⟨x0, f, ?_, le_refl _, le_max_right _ _, fun x h1 h2 => by omega, hnf, ?_⟩
    · rw [Flood_2_span_done _ _ _ _ _ _ _ hnf]
      simp
    · intro i
      constructor
      · exact fun h => Or.inl h
      · rintro (h | ⟨x, h1, h2, _⟩)
        · exact h
        · omega
  | succ k ih =>
    intro fuel f x0 nf h0 hk hfuel
    by_cases hfree : FreeAt bitdeck f x0 y
    · obtain ⟨fuel', rfl⟩ : ∃ m, fuel = m + 1 := ⟨fuel - 1, by omega⟩
      have hr := hfree.1
      have hx64 : x0 < 64 := hr.2.1
      obtain ⟨x', f', h1, h2, h3, h4, h5, h6⟩ := ih fuel' (f ||| 2 ^ (y * 64 + x0).toNat)
        (x0 + 1) (nf + 1) (by omega) (by omega) (by omega)
      have hx'64 : x' ≤ 64 := by
        rcases le_max_iff.mp h3 with h | h <;> omega
      refine ⟨x', f', ?_, by omega, le_max_of_le_left hx'64, ?_, ?_, ?_⟩
      · rw [Flood_2_span_step _ _ _ _ _ _ _ hfree, h1]
        congr 2
        ring
      · intro x hx1 hx2
        by_cases hxe : x = x0
        · rw [hxe]; exact hfree
        · have hfx := h4 x (by omega) hx2
          exact (FreeAt_set_other bitdeck f x0 x y hr hfx.1 (fun e => hxe e.symm)).mp hfx
      · intro hcon
        by_cases hx' : inRange 64 x' y
        · exact h5 ((FreeAt_set_other bitdeck f x0 x' y hr hx' (by omega)).mpr hcon)
        · exact hx' hcon.1
      · intro i
        rw [h6 i, testBit_or_two_pow]
        constructor
        · rintro (h | ⟨x, hx1, hx2, hx3⟩)
          · simp only [Bool.or_eq_true, decide_eq_true_eq] at h
            rcases h with h | h
            · exact Or.inl h
            · exact Or.inr ⟨x0, le_refl _, by omega, h⟩
          · exact Or.inr ⟨x, by omega, hx2, hx3⟩
        · rintro (h | ⟨x, hx1, hx2, hx3⟩)
          · left; simp [h]
          · by_cases hxe : x = x0
            · left
              simp only [Bool.or_eq_true, decide_eq_true_eq]
              right
              rw [hx3, hxe]
            · exact Or.inr ⟨x, by omega, hx2, hx3⟩
    · refine ⟨x0, f, ?_, le_refl _, le_max_right _ _, fun x h1 h2 => by omega, hfree, ?_⟩
      · rw [Flood_2_span_done _ _ _ _ _ _ _ hfree]
        simp
      · intro i
        constructor
        · exact fun h => Or.inl h
        · rintro (h | ⟨x, h1, h2, _⟩)
          · exact h
          · omega

/-- The span-fill-left loop from `x0`: it fills the free cells `x'+1 .. x0` of row `y` and
stops at the first cell `x'` below them that is not free. -/
theorem Flood_2_span_left (bitdeck : Deck) (y : Int) :
    ∀ (k fuel : Nat) (f : Deck) (x0 nf : Int), x0 < 64 → (x0 + 1).toNat ≤ k → k < fuel →
      ∃ (x' : Int) (f' : Deck),
        Flood_2_span fuel bitdeck 64 y (-1) ⟨f, x0, nf⟩ = some ⟨f', x', nf + (x0 - x')⟩ ∧
        x' ≤ x0 ∧ min (-1) x0 ≤ x' ∧
        (∀ x, x' < x → x ≤ x0 → FreeAt bitdeck f x y) ∧ ¬ FreeAt bitdeck f x' y ∧
        (∀ i, f'.testBit i = true ↔
          (f.testBit i = true ∨ ∃ x, x' < x ∧ x ≤ x0 ∧ i = (y * 64 + x).toNat)) := by
  intro k
  induction k with
  | zero =>
    intro fuel f x0 nf h0 hk hfuel
    have hnf : ¬ FreeAt bitdeck f x0 y := by
      intro h
      have := h.1
      unfold inRange at this
      omega
    refine ⟨x0, f, ?_, le_refl _, min_le_right _ _, fun x h1 h2 => by omega, hnf, ?_⟩
    · rw [Flood_2_span_done _ _ _ _ _ _ _ hnf]
      simp
    · intro i
      constructor
      · exact fun h => Or.inl h
      · rintro (h | ⟨x, h1, h2, _⟩)
        · exact h
        · omega
  | succ k ih =>
    intro fuel f x0 nf h0 hk hfuel
    by_cases hfree : FreeAt bitdeck f x0 y
    · obtain ⟨fuel', rfl⟩ : ∃ m, fuel = m + 1 := ⟨fuel - 1, by omega⟩
      have hr := hfree.1
      have hx0 : 0 ≤ x0 := hr.1
      obtain ⟨x', f', h1, h2, h3, h4, h5, h6⟩ := ih fuel' (f ||| 2 ^ (y * 64 + x0).toNat)
        (x0 + -1) (nf + 1) (by omega) (by omega) (by omega)
      have hx'1 : -1 ≤ x' := by
        rcases min_le_iff.mp h3 with h | h <;> omega
      refine ⟨x', f', ?_, by omega, le_trans (min_le_left _ _) hx'1, ?_, ?_, ?_⟩
      · rw [Flood_2_span_step _ _ _ _ _ _ _ hfree, h1]
        congr 2
        ring
      · intro x hx1 hx2
        by_cases hxe : x = x0
        · rw [hxe]; exact hfree
        · have hfx := h4 x hx1 (by omega)
          exact (FreeAt_set_other bitdeck f x0 x y hr hfx.1 (fun e => hxe e.symm)).mp hfx
      · intro hcon
        by_cases hx' : inRange 64 x' y
        · exact h5 ((FreeAt_set_other bitdeck f x0 x' y hr hx' (by omega)).mpr hcon)
        · exact hx' hcon.1
      · intro i
        rw [h6 i, testBit_or_two_pow]
        constructor
        · rintro (h | ⟨x, hx1, hx2, hx3⟩)
          · simp only [Bool.or_eq_true, decide_eq_true_eq] at h
            rcases h with h | h
            · exact Or.inl h
            · exact Or.inr ⟨x0, by omega, le_refl _, h⟩
          · exact Or.inr ⟨x, hx1, by omega, hx3⟩
        · rintro (h | ⟨x, hx1, hx2, hx3⟩)
          · left; simp [h]
          · by_cases hxe : x = x0
            · left
              simp only [Bool.or_eq_true, decide_eq_true_eq]
              right
              rw [hx3, hxe]
            · exact Or.inr ⟨x, hx1, by omega, hx3⟩
    · refine ⟨x0, f, ?_, le_refl _, min_le_right _ _, fun x h1 h2 => by omega, hfree, ?_⟩
      · rw [Flood_2_span_done _ _ _ _ _ _ _ hfree]
        simp
      · intro i
        constructor
        · exact fun h => Or.inl h
        · rintro (h | ⟨x, h1, h2, _⟩)
          · exact h
          · omega

theorem Flood_2_scan_step (fuel : Nat) (bitdeck f : Deck) (xright yy x p : Int)
    (stk : List Int) (h : x ≤ xright) :
    Flood_2_scan (fuel + 1) bitdeck 64 f xright yy ⟨x, p, stk⟩ =
      Flood_2_scan fuel bitdeck 64 f xright yy
        ⟨x + 1, TestCell bitdeck 64 f x yy,
          if TestCell bitdeck 64 f x yy ≥ 0 ∧ p = -1 then TestCell bitdeck 64 f x yy :: stk
          else stk⟩ := by
  unfold Flood_2_scan
  apply whileLoop_step
  · simpa using h
  · rfl

theorem Flood_2_scan_done (fuel : Nat) (bitdeck f : Deck) (xright yy x p : Int)
    (stk : List Int) (h : ¬ x ≤ xright) :
    Flood_2_scan fuel bitdeck 64 f xright yy ⟨x, p, stk⟩ = some ⟨x, p, stk⟩ := by
  unfold Flood_2_scan
  apply whileLoop_done
  simpa using h

/-- The seed scan of row `yy` over `x .. xright`: it returns, and pushes one seed per
rising edge: every free cell of the scanned segment has a pushed seed at or to the left of
it with only free cells in between (or continues a run that started before `x`). -/
theorem Flood_2_scan_spec (bitdeck f : Deck) (xright yy : Int) :
    ∀ (k fuel : Nat) (x p : Int) (stk : List Int), (xright + 1 - x).toNat ≤ k → k < fuel →
      ∃ (res : ScanLoop) (pushed : List Int),
        Flood_2_scan fuel bitdeck 64 f xright yy ⟨x, p, stk⟩ = some res ∧
        res.stack = pushed ++ stk ∧
        pushed.length ≤ (xright + 1 - x).toNat ∧
        (∀ s ∈ pushed, ∃ xs, x ≤ xs ∧ xs ≤ xright ∧ s = yy * 64 + xs ∧ FreeAt bitdeck f xs yy) ∧
        (∀ x1, x ≤ x1 → x1 ≤ xright → FreeAt bitdeck f x1 yy →
          (∃ s ∈ pushed, ∃ xs, s = yy * 64 + xs ∧ x ≤ xs ∧ xs ≤ x1 ∧
            ∀ x2, xs ≤ x2 → x2 ≤ x1 → FreeAt bitdeck f x2 yy) ∨
          (p ≠ -1 ∧ ∀ x2, x ≤ x2 → x2 ≤ x1 → FreeAt bitdeck f x2 yy)) := by
  intro k
  induction k with
  | zero =>
    intro fuel x p stk hk hfuel
    have hx : ¬ x ≤ xright := by omega
    refine ⟨_, [], Flood_2_scan_done _ _ _ _ _ _ _ _ hx, rfl, by simp, by simp, ?_⟩
    intro x1 h1 h2
    omega
  | succ k ih =>
    intro fuel x p stk hk hfuel
    by_cases hx : x ≤ xright
    · obtain ⟨fuel', rfl⟩ : ∃ m, fuel = m + 1 := ⟨fuel - 1, by omega⟩
      obtain ⟨res, pushed, h1, h2, h3, h4, h5⟩ := ih fuel' (x + 1) (TestCell bitdeck 64 f x yy)
        (if TestCell bitdeck 64 f x yy ≥ 0 ∧ p = -1 then TestCell bitdeck 64 f x yy :: stk
          else stk) (by omega) (by omega)
      by_cases hfree : FreeAt bitdeck f x yy
      · have ht := TestCell_free _ _ _ _ hfree
        have hnn : yy * 64 + x ≥ 0 := cell_nonneg hfree.1
        by_cases hp : p = -1
        · -- rising edge: the seed is pushed
          rw [ht, if_pos ⟨hnn, hp⟩] at h2
          refine ⟨res, pushed ++ [yy * 64 + x], ?_, by rw [h2]; simp, ?_, ?_, ?_⟩
          · rw [Flood_2_scan_step _ _ _ _ _ _ _ _ hx, h1]
          · simp only [List.length_append, List.length_singleton]
            omega
          · intro s hs
            rcases List.mem_append.mp hs with hs | hs
            · obtain ⟨xs, a, b, c, d⟩ := h4 s hs
              exact ⟨xs, by omega, b, c, d⟩
            · rw [List.mem_singleton] at hs
              exact ⟨x, le_refl _, hx, hs, hfree⟩
          · intro x1 hx1 hx2 hf1
            left
            by_cases hxe : x1 = x
            · exact ⟨yy * 64 + x, by simp, x, rfl, le_refl _, by omega,
                fun x2 a b => by
                  have : x2 = x := by omega
                  rw [this]; exact hfree⟩
            · rcases h5 x1 (by omega) hx2 hf1 with ⟨s, hs, xs, a, b, c, d⟩ | ⟨_, hall⟩
              · exact ⟨s, List.mem_append_left _ hs, xs, a, by omega, c, d⟩
              · exact ⟨yy * 64 + x, by simp, x, rfl, le_refl _, hx1, fun x2 a b => by
                  by_cases hx2e : x2 = x
                  · rw [hx2e]; exact hfree
                  · exact hall x2 (by omega) b⟩
        · -- the run goes on: no push
          rw [ht, if_neg (fun hc => hp hc.2)] at h2
          refine ⟨res, pushed, ?_, h2, by omega, ?_, ?_⟩
          · rw [Flood_2_scan_step _ _ _ _ _ _ _ _ hx, h1]
          · intro s hs
            obtain ⟨xs, a, b, c, d⟩ := h4 s hs
            exact ⟨xs, by omega, b, c, d⟩
          · intro x1 hx1 hx2 hf1
            by_cases hxe : x1 = x
            · right
              exact ⟨hp, fun x2 a b => by
                have : x2 = x := by omega
                rw [this]; exact hfree⟩
            · rcases h5 x1 (by omega) hx2 hf1 with ⟨s, hs, xs, a, b, c, d⟩ | ⟨_, hall⟩
              · exact Or.inl ⟨s, hs, xs, a, by omega, c, d⟩
              · right
                exact ⟨hp, fun x2 a b => by
                  by_cases hx2e : x2 = x
                  · rw [hx2e]; exact hfree
                  · exact hall x2 (by omega) b⟩
      · -- the cell is not free: no push, the run is broken
        have ht := TestCell_not_free _ _ _ _ hfree
        rw [ht, if_neg (by omega)] at h2
        refine ⟨res, pushed, ?_, h2, by omega, ?_, ?_⟩
        · rw [Flood_2_scan_step _ _ _ _ _ _ _ _ hx, h1]
        · intro s hs
          obtain ⟨xs, a, b, c, d⟩ := h4 s hs
          exact ⟨xs, by omega, b, c, d⟩
        · intro x1 hx1 hx2 hf1
          have hxe : x1 ≠ x := fun e => hfree (e ▸ hf1)
          rcases h5 x1 (by omega) hx2 hf1 with ⟨s, hs, xs, a, b, c, d⟩ | ⟨hne, _⟩
          · exact Or.inl ⟨s, hs, xs, a, by omega, c, d⟩
          · exact absurd ht hne
    · refine ⟨_, [], Flood_2_scan_done _ _ _ _ _ _ _ _ hx, rfl, by simp, by simp, ?_⟩
      intro x1 h1 h2
      omega

/-- One iteration of the loop of `Flood_2` on the 64x64 plane, for a popped cell
`c = y*64 + x0`: it returns; it fills exactly the cells `xl .. xr` of row `y`, a run of
free cells that cannot be extended; it counts them; and the seeds it pushes (`new`) are
free cells above or below the span, one at or left of every free cell above or below the
span with only free cells in between. -/
theorem Flood_2_body_spec (fuel : Nat) (hfuel : 66 ≤ fuel) (bitdeck f : Deck) (c : Int)
    (rest : List Int) (nf : Int) (hc : 0 ≤ c ∧ c < 4096) :
    ∃ (xl xr : Int) (f2 : Deck) (new : List Int),
      Flood_2_body fuel bitdeck 64 ⟨f, c :: rest, nf⟩ =
        some ⟨f2, new ++ rest, nf + (xr - xl + 1)⟩ ∧
      0 ≤ xl ∧ xl ≤ c % 64 ∧ c % 64 - 1 ≤ xr ∧ xr < 64 ∧
      (FreeAt bitdeck f (c % 64) (c / 64) → c % 64 ≤ xr) ∧
      (∀ x, xl ≤ x → x ≤ xr → FreeAt bitdeck f x (c / 64)) ∧
      ¬ FreeAt bitdeck f (xl - 1) (c / 64) ∧ ¬ FreeAt bitdeck f (xr + 1) (c / 64) ∧
      (∀ i, f2.testBit i = true ↔
        (f.testBit i = true ∨ ∃ x, xl ≤ x ∧ x ≤ xr ∧ i = (c / 64 * 64 + x).toNat)) ∧
      new.length ≤ 2 * (xr - xl + 1).toNat ∧
      (∀ s ∈ new, ∃ xs yy, (yy = c / 64 - 1 ∨ yy = c / 64 + 1) ∧ xl ≤ xs ∧ xs ≤ xr ∧
        s = yy * 64 + xs ∧ FreeAt bitdeck f2 xs yy) ∧
      (∀ yy x1, (yy = c / 64 - 1 ∨ yy = c / 64 + 1) → xl ≤ x1 → x1 ≤ xr →
        FreeAt bitdeck f2 x1 yy →
        ∃ s ∈ new, ∃ xs, s = yy * 64 + xs ∧ xl ≤ xs ∧ xs ≤ x1 ∧
          ∀ x2, xs ≤ x2 → x2 ≤ x1 → FreeAt bitdeck f2 x2 yy) := by
  have hy : c.tdiv 64 = c / 64 := Int.tdiv_eq_ediv hc.1 (by norm_num)
  have hx : c.tmod 64 = c % 64 := Int.tmod_eq_emod hc.1 (by norm_num)
  -- span fill right
  obtain ⟨x', f1, r1, r2, r3, r4, r5, r6⟩ := Flood_2_span_right bitdeck (c / 64) 64 fuel f
    (c % 64) nf (by omega) (by omega) (by omega)
  have hx'64 : x' ≤ 64 := by
    rcases le_max_iff.mp r3 with h | h <;> omega
  -- span fill left
  obtain ⟨x'', f2, l1, l2, l3, l4, l5, l6⟩ := Flood_2_span_left bitdeck (c / 64) 64 fuel f1
    (c % 64 - 1) (nf + (x' - c % 64)) (by omega) (by omega) (by omega)
  have hx''1 : -1 ≤ x'' := by
    rcases min_le_iff.mp l3 with h | h <;> omega
  -- the fill mask after both loops
  have hf2 : ∀ i, f2.testBit i = true ↔
      (f.testBit i = true ∨ ∃ x, x'' + 1 ≤ x ∧ x ≤ x' - 1 ∧ i = (c / 64 * 64 + x).toNat) := by
    intro i
    rw [l6 i, r6 i]
    constructor
    · rintro ((h | ⟨x, a, b, e⟩) | ⟨x, a, b, e⟩)
      · exact Or.inl h
      · exact Or.inr ⟨x, by omega, by omega, e⟩
      · exact Or.inr ⟨x, by omega, by omega, e⟩
    · rintro (h | ⟨x, a, b, e⟩)
      · exact Or.inl (Or.inl h)
      · by_cases hxx : c % 64 ≤ x
        · exact Or.inl (Or.inr ⟨x, hxx, by omega, e⟩)
        · exact Or.inr ⟨x, by omega, by omega, e⟩
  have hsub1 : ∀ i, f1.testBit i = false → f.testBit i = false := by
    intro i h
    by_contra hne
    have : f1.testBit i = true := (r6 i).mpr (Or.inl (by simpa using hne))
    rw [this] at h
    exact Bool.noConfusion h
  have free1 : ∀ x, FreeAt bitdeck f1 x (c / 64) → FreeAt bitdeck f x (c / 64) :=
    fun x h => ⟨h.1, h.2.1, hsub1 _ h.2.2⟩
  have hleftstop : ¬ FreeAt bitdeck f (x'' + 1 - 1) (c / 64) := by
    intro hcon
    have e : x'' + 1 - 1 = x'' := by ring
    rw [e] at hcon
    apply l5
    refine ⟨hcon.1, hcon.2.1, ?_⟩
    by_contra hne
    have : f1.testBit (c / 64 * 64 + x'').toNat = true := by simpa using hne
    rcases (r6 _).mp this with h | ⟨x, a, b, e⟩
    · rw [hcon.2.2] at h; exact Bool.noConfusion h
    · have := hcon.1
      unfold inRange at this
      omega
  -- scan above
  have above : ∃ A : List Int,
      (if c / 64 > 0 then
        (Flood_2_scan fuel bitdeck 64 f2 (x' - 1) (c / 64 - 1) ⟨x'' - -1, -1, rest⟩).map
          (·.stack)
       else some rest) = some (A ++ rest) ∧
      A.length ≤ (x' - 1 - (x'' + 1) + 1).toNat ∧
      (∀ s ∈ A, ∃ xs, x'' + 1 ≤ xs ∧ xs ≤ x' - 1 ∧ s = (c / 64 - 1) * 64 + xs ∧
        FreeAt bitdeck f2 xs (c / 64 - 1)) ∧
      (∀ x1, x'' + 1 ≤ x1 → x1 ≤ x' - 1 → FreeAt bitdeck f2 x1 (c / 64 - 1) →
        ∃ s ∈ A, ∃ xs, s = (c / 64 - 1) * 64 + xs ∧ x'' + 1 ≤ xs ∧ xs ≤ x1 ∧
          ∀ x2, xs ≤ x2 → x2 ≤ x1 → FreeAt bitdeck f2 x2 (c / 64 - 1)) := by
    have e : x'' - -1 = x'' + 1 := by ring
    by_cases hgt : c / 64 > 0
    · obtain ⟨res, A, s1, s2, s3, s4, s5⟩ := Flood_2_scan_spec bitdeck f2 (x' - 1) (c / 64 - 1)
        65 fuel (x'' + 1) (-1) rest (by omega) (by omega)
      refine ⟨A, ?_, by omega, s4, ?_⟩
      · rw [if_pos hgt, e, s1]
        simp [s2]
      · intro x1 a b hf
        rcases s5 x1 a b hf with h | ⟨h, _⟩
        · exact h
        · exact absurd rfl h
    · refine ⟨[], by rw [if_neg hgt]; rfl, by simp, by simp, ?_⟩
      intro x1 a b hf
      have := hf.1
      unfold inRange at this
      omega
  obtain ⟨A, a1, a2, a3, a4⟩ := above
  have below : ∃ B : List Int,
      (if c / 64 < 64 - 1 then
        (Flood_2_scan fuel bitdeck 64 f2 (x' - 1) (c / 64 + 1)
          ⟨x'' - -1, -1, A ++ rest⟩).map (·.stack)
       else some (A ++ rest)) = some (B ++ (A ++ rest)) ∧
      B.length ≤ (x' - 1 - (x'' + 1) + 1).toNat ∧
      (∀ s ∈ B, ∃ xs, x'' + 1 ≤ xs ∧ xs ≤ x' - 1 ∧ s = (c / 64 + 1) * 64 + xs ∧
        FreeAt bitdeck f2 xs (c / 64 + 1)) ∧
      (∀ x1, x'' + 1 ≤ x1 → x1 ≤ x' - 1 → FreeAt bitdeck f2 x1 (c / 64 + 1) →
        ∃ s ∈ B, ∃ xs, s = (c / 64 + 1) * 64 + xs ∧ x'' + 1 ≤ xs ∧ xs ≤ x1 ∧
          ∀ x2, xs ≤ x2 → x2 ≤ x1 → FreeAt bitdeck f2 x2 (c / 64 + 1)) := by
    have e : x'' - -1 = x'' + 1 := by ring
    by_cases hlt : c / 64 < 64 - 1
    · obtain ⟨res, B, s1, s2, s3, s4, s5⟩ := Flood_2_scan_spec bitdeck f2 (x' - 1) (c / 64 + 1)
        65 fuel (x'' + 1) (-1) (A ++ rest) (by omega) (by omega)
      refine ⟨B, ?_, by omega, s4, ?_⟩
      · rw [if_pos hlt, e, s1]
        simp [s2]
      · intro x1 a b hf
        rcases s5 x1 a b hf with h | ⟨h, _⟩
        · exact h
        · exact absurd rfl h
    · refine ⟨[], by rw [if_neg hlt]; rfl, by simp, by simp, ?_⟩
      intro x1 a b hf
      have := hf.1
      unfold inRange at this
      omega
  obtain ⟨B, b1, b2, b3, b4⟩ := below
  refine ⟨x'' + 1, x' - 1, f2, B ++ A, ?_, by omega, by omega, by omega, by omega, ?_, ?_,
    hleftstop, ?_, hf2, ?_, ?_, ?_⟩
  · unfold Flood_2_body
    dsimp only
    rw [hy, hx, r1, Option.some_bind]
    dsimp only
    rw [l1, Option.some_bind]
    dsimp only
    rw [a1, Option.some_bind, b1, Option.some_bind]
    congr 2
    · simp
    · ring
  · intro hfree
    by_contra hlt
    have : x' = c % 64 := by omega
    rw [this] at r5
    exact r5 hfree
  · intro x a b
    by_cases hxx : c % 64 ≤ x
    · exact r4 x hxx (by omega)
    · exact free1 x (l4 x (by omega) (by omega))
  · have e : x' - 1 + 1 = x' := by ring
    rw [e]
    exact r5
  · simp only [List.length_append]
    have e : (x' - 1 - (x'' + 1) + 1) = (x' - 1 - (x'' + 1) + 1) := rfl
    omega
  · intro s hs
    rcases List.mem_append.mp hs with hs | hs
    · obtain ⟨xs, p1, p2, p3, p4⟩ := b3 s hs
      exact ⟨xs, _, Or.inr rfl, p1, p2, p3, p4⟩
    · obtain ⟨xs, p1, p2, p3, p4⟩ := a3 s hs
      exact ⟨xs, _, Or.inl rfl, p1, p2, p3, p4⟩
  · intro yy x1 hyy p1 p2 hf
    rcases hyy with rfl | rfl
    · obtain ⟨s, hs, rest'⟩ := a4 x1 p1 p2 hf
      exact ⟨s, List.mem_append_right _ hs, rest'⟩
    · obtain ⟨s, hs, rest'⟩ := b4 x1 p1 p2 hf
      exact ⟨s, List.mem_append_left _ hs, rest'⟩

/-! ## Reachability on the plane -/

theorem ReachIdx_free {bitdeck init : Deck} {s i : Nat} (h : ReachIdx bitdeck init s i) :
    freeIdx bitdeck init i := by
  cases h with
  | seed h => exact h
  | step _ _ _ _ h => exact h

theorem ReachIdx_right (bitdeck init : Deck) (s a : Nat) (ha : ReachIdx bitdeck init s a) :
    ∀ n, a % 64 + n < 64 → (∀ j, 1 ≤ j → j ≤ n → freeIdx bitdeck init (a + j)) →
      ReachIdx bitdeck init s (a + n) := by
  intro n
  induction n with
  | zero => intro _ _; exact ha
  | succ n ih =>
    intro h1 h2
    have := ih (by omega) (fun j a b => h2 j a (by omega))
    refine ReachIdx.step (a + n) (a + (n + 1)) this ?_ (h2 (n + 1) (by omega) (le_refl _))
    unfold adjIdx
    right; right; left
    omega

theorem ReachIdx_left (bitdeck init : Deck) (s a : Nat) (ha : ReachIdx bitdeck init s a) :
    ∀ n, n ≤ a % 64 → (∀ j, 1 ≤ j → j ≤ n → freeIdx bitdeck init (a - j)) →
      ReachIdx bitdeck init s (a - n) := by
  intro n
  induction n with
  | zero => intro _ _; exact ha
  | succ n ih =>
    intro h1 h2
    have := ih (by omega) (fun j a b => h2 j a (by omega))
    refine ReachIdx.step (a - n) (a - (n + 1)) this ?_ (h2 (n + 1) (by omega) (le_refl _))
    unfold adjIdx
    right; right; right
    omega

theorem FreeAt_idx {bitdeck f : Deck} {x y : Int} (h : FreeAt bitdeck f x y) :
    freeIdx bitdeck f (y * 64 + x).toNat :=
  ⟨cell_lt h.1, h.2.1, h.2.2⟩

theorem freeIdx_sub {bitdeck f g : Deck} (hsub : ∀ i, f.testBit i = true → g.testBit i = true)
    {i : Nat} (h : freeIdx bitdeck g i) : freeIdx bitdeck f i := by
  refine ⟨h.1, h.2.1, ?_⟩
  by_contra hne
  have := hsub i (by simpa using hne)
  rw [h.2.2] at this
  exact Bool.noConfusion this

/-! ## The invariant of the span-fill loop -/

theorem testBit_false_of_not_true {d i : Nat} (h : ¬ d.testBit i = true) :
    d.testBit i = false := by
  simpa using h

/-- One processed seed keeps the invariant of the span-fill loop, whatever the order in
which the new seeds are put on the stack. -/
theorem Flood_2_inv_step (bitdeck init : Deck) (seed : Nat) (f : Deck) (c : Int)
    (rest : List Int) (hinv : Flood_2_inv bitdeck init seed f (c :: rest))
    (xl xr : Int) (f2 : Deck) (new : List Int)
    (h1 : 0 ≤ xl) (h2 : xl ≤ c % 64) (h3 : c % 64 - 1 ≤ xr) (h4 : xr < 64)
    (h5 : FreeAt bitdeck f (c % 64) (c / 64) → c % 64 ≤ xr)
    (h6 : ∀ x, xl ≤ x → x ≤ xr → FreeAt bitdeck f x (c / 64))
    (h7 : ¬ FreeAt bitdeck f (xl - 1) (c / 64)) (h8 : ¬ FreeAt bitdeck f (xr + 1) (c / 64))
    (h9 : ∀ i, f2.testBit i = true ↔
        (f.testBit i = true ∨ ∃ x, xl ≤ x ∧ x ≤ xr ∧ i = (c / 64 * 64 + x).toNat))
    (h10 : ∀ s ∈ new, ∃ xs yy, (yy = c / 64 - 1 ∨ yy = c / 64 + 1) ∧ xl ≤ xs ∧ xs ≤ xr ∧
        s = yy * 64 + xs ∧ FreeAt bitdeck f2 xs yy)
    (h11 : ∀ yy x1, (yy = c / 64 - 1 ∨ yy = c / 64 + 1) → xl ≤ x1 → x1 ≤ xr →
        FreeAt bitdeck f2 x1 yy →
        ∃ s ∈ new, ∃ xs, s = yy * 64 + xs ∧ xl ≤ xs ∧ xs ≤ x1 ∧
          ∀ x2, xs ≤ x2 → x2 ≤ x1 → FreeAt bitdeck f2 x2 yy)
    (stack' : List Int) (hmem : ∀ s, s ∈ stack' ↔ (s ∈ new ∨ s ∈ rest)) :
    Flood_2_inv bitdeck init seed f2 stack' := by
  obtain ⟨hc0, hcr⟩ := hinv.stk c (List.mem_cons_self _ _)
  have hc4 : c.toNat < 4096 := (ReachIdx_free hcr).1
  have hsub : ∀ i, f.testBit i = true → f2.testBit i = true := fun i h => (h9 i).mpr (Or.inl h)
  have hmono2 : ∀ i, init.testBit i = true → f2.testBit i = true :=
    fun i h => hsub i (hinv.mono i h)
  have hspan : ∀ x, xl ≤ x → x ≤ xr → freeIdx bitdeck init (c / 64 * 64 + x).toNat :=
    fun x a b => freeIdx_sub hinv.mono (FreeAt_idx (h6 x a b))
  -- every cell of the span is reached from the seed
  have hreach : ∀ x, xl ≤ x → x ≤ xr → ReachIdx bitdeck init seed (c / 64 * 64 + x).toNat := by
    intro x a b
    by_cases hxx : c % 64 ≤ x
    · have e : (c / 64 * 64 + x).toNat = c.toNat + (x - c % 64).toNat := by omega
      rw [e]
      apply ReachIdx_right _ _ _ _ hcr
      · omega
      · intro j j1 j2
        have e' : c.toNat + j = (c / 64 * 64 + (c % 64 + j)).toNat := by omega
        rw [e']
        exact hspan _ (by omega) (by omega)
    · have e : (c / 64 * 64 + x).toNat = c.toNat - (c % 64 - x).toNat := by omega
      rw [e]
      apply ReachIdx_left _ _ _ _ hcr
      · omega
      · intro j j1 j2
        have e' : c.toNat - j = (c / 64 * 64 + (c % 64 - j)).toNat := by omega
        rw [e']
        exact hspan _ (by omega) (by omega)
  have hsound2 : ∀ i, f2.testBit i = true → init.testBit i = false →
      ReachIdx bitdeck init seed i := by
    intro i hi hn
    rcases (h9 i).mp hi with h | ⟨x, a, b, e⟩
    · exact hinv.sound i h hn
    · rw [e]; exact hreach x a b
  refine ⟨hmono2, hsound2, ?_, ?_⟩
  · -- the stack
    intro s hs
    rcases (hmem s).mp hs with hs | hs
    · obtain ⟨xs, yy, hyy, a, b, e, hf⟩ := h10 s hs
      have hr := hf.1
      unfold inRange at hr
      refine ⟨by omega, ?_⟩
      have hfi := freeIdx_sub hmono2 (FreeAt_idx hf)
      rw [e]
      refine ReachIdx.step _ _ (hreach xs a b) ?_ hfi
      unfold adjIdx
      rcases hyy with rfl | rfl
      · right; left; omega
      · left; omega
    · exact hinv.stk s (List.mem_cons_of_mem _ hs)
  · -- the pending cells
    intro q hq hfq hadj
    have hq4 : q < 4096 := (ReachIdx_free hq).1
    have hqocc : bitdeck.testBit q = true := (ReachIdx_free hq).2.1
    have hfq0 : f.testBit q = false := by
      by_contra hne
      have := hsub q (by simpa using hne)
      rw [hfq] at this
      exact Bool.noConfusion this
    -- a cell of the span is filled
    have hin : ∀ x, xl ≤ x → x ≤ xr → q ≠ (c / 64 * 64 + x).toNat := by
      intro x a b e
      have := (h9 q).mpr (Or.inr ⟨x, a, b, e⟩)
      rw [hfq] at this
      exact Bool.noConfusion this
    have old : (q = seed ∨ ∃ p, f.testBit p = true ∧ init.testBit p = false ∧ adjIdx p q) →
        ∃ s ∈ stack', 0 ≤ s ∧ s.toNat / 64 = q / 64 ∧ s.toNat ≤ q ∧
          ∀ i, s.toNat ≤ i → i ≤ q → bitdeck.testBit i = true ∧ f2.testBit i = false := by
      intro hold
      obtain ⟨s, hs, s0, s1, s2, s3⟩ := hinv.pend q hq hfq0 hold
      -- the cell right of the span is not free, so `q` cannot lie right of the span in
      -- a run of free cells that meets the span
      have key : ∀ i, s.toNat ≤ i → i ≤ q → ∀ x, xl ≤ x → x ≤ xr →
          i = (c / 64 * 64 + x).toNat → False := by
        intro i i1 i2 x a b e
        by_cases hqx : q ≤ (c / 64 * 64 + xr).toNat
        · exact hin (x + (q - i : Nat)) (by omega) (by omega) (by omega)
        · apply h8
          have hrow : q / 64 = (c / 64).toNat := by omega
          have := s3 (c / 64 * 64 + (xr + 1)).toNat (by omega) (by omega)
          exact ⟨by unfold inRange; omega, this.1, this.2⟩
      rcases List.mem_cons.mp hs with rfl | hs
      · exfalso
        have hfree : FreeAt bitdeck f (s % 64) (s / 64) := by
          have := s3 s.toNat (le_refl _) s2
          have e : (s / 64 * 64 + s % 64).toNat = s.toNat := by omega
          exact ⟨by unfold inRange; omega, by rw [e]; exact this.1, by rw [e]; exact this.2⟩
        have := h5 hfree
        exact key s.toNat (le_refl _) s2 (s % 64) h2 this (by omega)
      · refine ⟨s, (hmem s).mpr (Or.inr hs), s0, s1, s2, ?_⟩
        intro i i1 i2
        refine ⟨(s3 i i1 i2).1, ?_⟩
        apply testBit_false_of_not_true
        intro hcon
        rcases (h9 i).mp hcon with h | ⟨x, a, b, e⟩
        · rw [(s3 i i1 i2).2] at h
          exact Bool.noConfusion h
        · exact key i i1 i2 x a b e
    rcases hadj with hseed | ⟨p, hp1, hp2, hp3⟩
    · exact old (Or.inl hseed)
    · by_cases hpf : f.testBit p = true
      · exact old (Or.inr ⟨p, hpf, hp2, hp3⟩)
      · -- `p` was filled by this iteration: it is a cell of the span
        rcases (h9 p).mp hp1 with h | ⟨xp, a, b, e⟩
        · exact absurd h hpf
        · have vertical : ∀ yy, (yy = c / 64 - 1 ∨ yy = c / 64 + 1) →
              q = (yy * 64 + xp).toNat → 0 ≤ yy →
              ∃ s ∈ stack', 0 ≤ s ∧ s.toNat / 64 = q / 64 ∧ s.toNat ≤ q ∧
                ∀ i, s.toNat ≤ i → i ≤ q →
                  bitdeck.testBit i = true ∧ f2.testBit i = false := by
            intro yy hyy hqe hyy0
            have hfq2 : FreeAt bitdeck f2 xp yy :=
              ⟨by unfold inRange; omega, by rw [← hqe]; exact hqocc, by rw [← hqe]; exact hfq⟩
            obtain ⟨s, hs, xs, se, sa, sb, sall⟩ := h11 yy xp hyy a b hfq2
            refine ⟨s, (hmem s).mpr (Or.inl hs), by rw [se]; omega, by rw [se]; omega,
              by rw [se]; omega, ?_⟩
            intro i i1 i2
            have hfi := sall (xs + (i - s.toNat : Nat)) (by omega) (by rw [se] at i1 ⊢; omega)
            have e' : (yy * 64 + (xs + ((i - s.toNat : Nat) : Int))).toNat = i := by
              rw [se] at i1 ⊢; omega
            rw [← e']
            exact ⟨hfi.2.1, hfi.2.2⟩
          unfold adjIdx at hp3
          rcases hp3 with h | h | ⟨h, hm⟩ | ⟨h, hm⟩
          · exact vertical (c / 64 + 1) (Or.inr rfl) (by omega) (by omega)
          · exact vertical (c / 64 - 1) (Or.inl rfl) (by omega) (by omega)
          · exfalso
            by_cases hxr : xp + 1 ≤ xr
            · exact hin (xp + 1) (by omega) hxr (by omega)
            · apply h8
              have e' : (c / 64 * 64 + (xr + 1)).toNat = q := by omega
              exact ⟨by unfold inRange; omega, by rw [e']; exact hqocc, by rw [e']; exact hfq0⟩
          · exfalso
            by_cases hxl : xl ≤ xp - 1
            · exact hin (xp - 1) hxl (by omega) (by omega)
            · apply h7
              have e' : (c / 64 * 64 + (xl - 1)).toNat = q := by omega
              exact ⟨by unfold inRange; omega, by rw [e']; exact hqocc, by rw [e']; exact hfq0⟩

theorem cnt_interval (n lo w : Nat) (h : lo + w ≤ n) :
    cnt n (fun i => decide (lo ≤ i ∧ i < lo + w)) = w := by
  have e : n = lo + (w + (n - lo - w)) := by omega
  rw [e, cnt_add, cnt_add]
  have a1 : cnt lo (fun i => decide (lo ≤ i ∧ i < lo + w)) = 0 := by
    rw [← cnt_false lo]
    exact cnt_congr _ _ _ (fun i hi => by simp; omega)
  have a2 : cnt w (fun j => (fun i => decide (lo ≤ i ∧ i < lo + w)) (lo + j)) = w := by
    have : cnt w (fun j => (fun i => decide (lo ≤ i ∧ i < lo + w)) (lo + j)) =
        cnt w (fun _ => true) := cnt_congr _ _ _ (fun i hi => by simp; omega)
    rw [this]
    clear this a1 e h
    induction w with
    | zero => rfl
    | succ w ih => rw [cnt_succ, ih]; simp
  have a3 : cnt (n - lo - w) (fun j => (fun j => (fun i => decide (lo ≤ i ∧ i < lo + w))
      (lo + j)) (w + j)) = 0 := by
    rw [← cnt_false (n - lo - w)]
    exact cnt_congr _ _ _ (fun i hi => by simp)
  rw [a1, a2, a3]
  omega

/-- Filling a run of free cells `xl .. xr` of row `y` adds its length to the number of
filled cells. -/
theorem popc_span (bitdeck f f2 : Deck) (y xl xr : Int) (h1 : 0 ≤ xl) (h4 : xr < 64)
    (hlr : xl ≤ xr + 1) (hy : 0 ≤ y ∧ y < 64)
    (h6 : ∀ x, xl ≤ x → x ≤ xr → FreeAt bitdeck f x y)
    (h9 : ∀ i, f2.testBit i = true ↔
        (f.testBit i = true ∨ ∃ x, xl ≤ x ∧ x ≤ xr ∧ i = (y * 64 + x).toNat)) :
    popc f2 = popc f + (xr - xl + 1).toNat := by
  unfold popc
  rw [← cnt_interval 4096 (y * 64 + xl).toNat (xr - xl + 1).toNat (by omega), ← cnt_or]
  · apply cnt_congr
    intro i hi
    rw [Bool.eq_iff_iff, h9 i]
    simp only [Bool.or_eq_true, decide_eq_true_eq]
    constructor
    · rintro (h | ⟨x, a, b, e⟩)
      · exact Or.inl h
      · right; omega
    · rintro (h | h)
      · exact Or.inl h
      · exact Or.inr ⟨xl + (i - (y * 64 + xl).toNat : Nat), by omega, by omega, by omega⟩
  · intro i hi ⟨a, b⟩
    simp only [decide_eq_true_eq] at b
    have := (h6 (xl + (i - (y * 64 + xl).toNat : Nat)) (by omega) (by omega)).2.2
    have e : (y * 64 + (xl + ((i - (y * 64 + xl).toNat : Nat) : Int))).toNat = i := by omega
    rw [e, a] at this
    exact Bool.noConfusion this

theorem ReachIdx_seed_free {bitdeck init : Deck} {s i : Nat} (h : ReachIdx bitdeck init s i) :
    freeIdx bitdeck init s := by
  induction h with
  | seed h => exact h
  | step _ _ _ _ _ ih => exact ih

/-- With no seed left, the fill mask is the initial mask plus the cells reached from the
seed. -/
theorem Flood_2_inv_final (bitdeck init : Deck) (seed : Nat) (f : Deck)
    (hinv : Flood_2_inv bitdeck init seed f []) :
    ∀ i, f.testBit i = true ↔ (init.testBit i = true ∨ ReachIdx bitdeck init seed i) := by
  have hall : ∀ i, ReachIdx bitdeck init seed i → f.testBit i = true := by
    intro i hi
    induction hi with
    | seed h =>
      by_contra hne
      obtain ⟨s, hs, _⟩ := hinv.pend seed (ReachIdx.seed h) (testBit_false_of_not_true hne)
        (Or.inl rfl)
      simp at hs
    | step i j hi hadj hfree ih =>
      by_contra hne
      obtain ⟨s, hs, _⟩ := hinv.pend j (ReachIdx.step i j hi hadj hfree)
        (testBit_false_of_not_true hne) (Or.inr ⟨i, ih, (ReachIdx_free hi).2.2, hadj⟩)
      simp at hs
  intro i
  constructor
  · intro h
    by_cases hi : init.testBit i = true
    · exact Or.inl hi
    · exact Or.inr (hinv.sound i h (testBit_false_of_not_true hi))
  · rintro (h | h)
    · exact hinv.mono i h
    · exact hall i h

theorem Flood_2_seed_eq (bitdeck f : Deck) (sx sy : Int) (h : inRange 64 sx sy) :
    Flood_2_seed bitdeck 64 f sx sy = (sy * 64 + sx, decide (FreeAt bitdeck f sx sy)) := by
  obtain ⟨c, hc⟩ := Int.eq_ofNat_of_zero_le (cell_nonneg h)
  unfold Flood_2_seed
  dsimp only
  have hm : 1 <<< (c &&& 7) = (1 <<< (c &&& 7)) % 256 := by
    rw [mask_eq]
    have h7 : c &&& 7 = c % 8 := Nat.and_pow_two_sub_one_eq_mod c 3
    rw [h7, Nat.one_shiftLeft]
  have hcond := cell_cond bitdeck f c
  rw [← hm] at hcond
  simp only [hc, int_cell_shift, int_cell_land, Int.toNat_ofNat]
  congr 1
  have hiff : (byteAt bitdeck (c >>> 3) &&& 1 <<< (c &&& 7) ≠ 0 ∧
      byteAt f (c >>> 3) &&& 1 <<< (c &&& 7) = 0) ↔ FreeAt bitdeck f sx sy := by
    unfold FreeAt
    rw [hcond]
    have e : (sy * 64 + sx).toNat = c := by omega
    rw [e]
    exact ⟨fun hx => ⟨h, hx⟩, fun hx => hx.2⟩
  exact decide_eq_decide.mpr hiff

/-- The invariant of the span-fill loop holds when the loop is entered. -/
theorem Flood_2_inv_init (bitdeck init : Deck) (sx sy : Int) (h : inRange 64 sx sy) :
    Flood_2_inv bitdeck init (sy * 64 + sx).toNat init
      (Flood_2_init bitdeck 64 init sx sy).stack := by
  unfold Flood_2_init
  dsimp only
  rw [Flood_2_seed_eq _ _ _ _ h]
  dsimp only
  refine ⟨fun i h => h, fun i h1 h2 => by rw [h1] at h2; exact Bool.noConfusion h2, ?_, ?_⟩
  · intro s hs
    by_cases hf : FreeAt bitdeck init sx sy
    · simp only [hf, decide_True, if_true, List.mem_singleton] at hs
      rw [hs]
      exact ⟨cell_nonneg h, ReachIdx.seed (FreeAt_idx hf)⟩
    · simp [hf] at hs
  · intro q hq hfq hadj
    have hsf := ReachIdx_seed_free hq
    have hf : FreeAt bitdeck init sx sy := ⟨h, hsf.2.1, hsf.2.2⟩
    rcases hadj with rfl | ⟨p, p1, p2, _⟩
    · refine ⟨sy * 64 + sx, by simp [hf], cell_nonneg h, rfl, le_refl _, ?_⟩
      intro i i1 i2
      have : i = (sy * 64 + sx).toNat := by omega
      rw [this]
      exact ⟨hsf.2.1, hsf.2.2⟩
    · rw [p1] at p2
      exact Bool.noConfusion p2

/-- One iteration of the span-fill loop under its invariant: it returns, keeps the
invariant for every arrangement of the new seeds on the stack, and pays every new seed
with newly filled cells. -/
theorem Flood_2_body_summary (fuel : Nat) (hfuel : 66 ≤ fuel) (bitdeck init : Deck)
    (seed : Nat) (f : Deck) (c : Int) (rest : List Int) (nf : Int)
    (hinv : Flood_2_inv bitdeck init seed f (c :: rest)) :
    ∃ (f2 : Deck) (new : List Int) (w : Nat),
      Flood_2_body fuel bitdeck 64 ⟨f, c :: rest, nf⟩ = some ⟨f2, new ++ rest, nf + w⟩ ∧
      (∀ stack', (∀ s, s ∈ stack' ↔ (s ∈ new ∨ s ∈ rest)) →
        Flood_2_inv bitdeck init seed f2 stack') ∧
      popc f2 = popc f + w ∧ new.length ≤ 2 * w := by
  obtain ⟨hc0, hcr⟩ := hinv.stk c (List.mem_cons_self _ _)
  have hc4 : c.toNat < 4096 := (ReachIdx_free hcr).1
  obtain ⟨xl, xr, f2, new, b0, b1, b2, b3, b4, b5, b6, b7, b8, b9, b10, b11, b12⟩ :=
    Flood_2_body_spec fuel hfuel bitdeck f c rest nf ⟨hc0, by omega⟩
  refine ⟨f2, new, (xr - xl + 1).toNat, ?_, ?_, ?_, b10⟩
  · rw [b0]
    congr 3
    omega
  · intro stack' hmem
    exact Flood_2_inv_step bitdeck init seed f c rest hinv xl xr f2 new b1 b2 b3 b4 b5 b6 b7 b8
      b9 b11 b12 stack' hmem
  · exact popc_span bitdeck f f2 (c / 64) xl xr b1 b4 (by omega) (by omega) b6 b9

theorem Flood_2_loop_terminates (fuel : Nat) (hfuel : 66 ≤ fuel) (bitdeck init : Deck)
    (seed : Nat) (s : Flood2State)
    (hinv : Flood_2_inv bitdeck init seed s.filled s.stack)
    (hcount : (popc s.filled : Int) = popc init + s.numfilled)
    (hμ : 3 * (4096 - popc s.filled) + s.stack.length ≤ fuel) :
    ∃ r, whileLoop (fun s : Flood2State => !s.stack.isEmpty) (Flood_2_body fuel bitdeck 64)
        fuel s = some r ∧
      Flood_2_inv bitdeck init seed r.filled [] ∧
      (popc r.filled : Int) = popc init + r.numfilled := by
  have hstep : ∀ s : Flood2State,
      (Flood_2_inv bitdeck init seed s.filled s.stack ∧
        (popc s.filled : Int) = popc init + s.numfilled) →
      (!s.stack.isEmpty) = true →
      ∃ s', Flood_2_body fuel bitdeck 64 s = some s' ∧
        (Flood_2_inv bitdeck init seed s'.filled s'.stack ∧
          (popc s'.filled : Int) = popc init + s'.numfilled) ∧
        3 * (4096 - popc s'.filled) + s'.stack.length <
          3 * (4096 - popc s.filled) + s.stack.length := by
    intro s hs hc
    obtain ⟨f, st, nf⟩ := s
    cases st with
    | nil => simp at hc
    | cons c rest =>
      obtain ⟨f2, new, w, e, hi, hp, hn⟩ :=
        Flood_2_body_summary fuel hfuel bitdeck init seed f c rest nf hs.1
      refine ⟨_, e, ⟨hi _ (fun s => List.mem_append), ?_⟩, ?_⟩
      · have := hs.2
        simp only at this ⊢
        rw [hp]
        push_cast
        omega
      · have := popc_le f2
        simp only [List.length_append, List.length_cons]
        omega
  obtain ⟨r, hr⟩ := whileLoop_term (fun s : Flood2State => !s.stack.isEmpty)
    (Flood_2_body fuel bitdeck 64)
    (fun s => Flood_2_inv bitdeck init seed s.filled s.stack ∧
        (popc s.filled : Int) = popc init + s.numfilled)
    (fun s => 3 * (4096 - popc s.filled) + s.stack.length) hstep fuel s ⟨hinv, hcount⟩ hμ
  obtain ⟨⟨i1, i2⟩, hdone⟩ := whileLoop_inv (fun s : Flood2State => !s.stack.isEmpty)
    (Flood_2_body fuel bitdeck 64)
    (fun s => Flood_2_inv bitdeck init seed s.filled s.stack ∧
        (popc s.filled : Int) = popc init + s.numfilled)
    (fun s s' hs hc hb => by
      obtain ⟨s'', e, hi, _⟩ := hstep s hs hc
      rw [hb] at e
      cases Option.some.inj e
      exact hi) fuel s r ⟨hinv, hcount⟩ hr
  have hempty : r.stack = [] := by
    cases hs : r.stack with
    | nil => rfl
    | cons _ _ => simp [hs] at hdone
  rw [hempty] at i1
  exact ⟨r, hr, i1, i2⟩

theorem Flood_2_span_fuel_mono (bitdeck : Deck) (dim y inc : Int) (n m : Nat) (hnm : n ≤ m)
    (s r : SpanLoop) (h : Flood_2_span n bitdeck dim y inc s = some r) :
    Flood_2_span m bitdeck dim y inc s = some r := by
  unfold Flood_2_span at h ⊢
  rw [Option.map_eq_some'] at h ⊢
  obtain ⟨a, ha, hr⟩ := h
  exact ⟨a, whileLoop_mono _ _ _ (fun _ _ h => h) n m _ _ hnm ha, hr⟩

theorem Flood_2_scan_fuel_mono (bitdeck : Deck) (dim : Int) (f : Deck) (xr yy : Int)
    (n m : Nat) (hnm : n ≤ m) (s r : ScanLoop)
    (h : Flood_2_scan n bitdeck dim f xr yy s = some r) :
    Flood_2_scan m bitdeck dim f xr yy s = some r :=
  whileLoop_mono _ _ _ (fun _ _ h => h) n m _ _ hnm h

theorem Flood_2_body_fuel_mono (bitdeck : Deck) (dim : Int) (n m : Nat) (hnm : n ≤ m)
    (s r : Flood2State) (h : Flood_2_body n bitdeck dim s = some r) :
    Flood_2_body m bitdeck dim s = some r := by
  unfold Flood_2_body at h ⊢
  cases hs : s.stack with
  | nil => rw [hs] at h; exact h
  | cons q st =>
    rw [hs] at h
    dsimp only at h ⊢
    rw [Option.bind_eq_some] at h
    obtain ⟨a, ha, h⟩ := h
    rw [Option.bind_eq_some] at h
    obtain ⟨b, hb, h⟩ := h
    rw [Option.bind_eq_some] at h
    obtain ⟨c, hc, h⟩ := h
    rw [Option.bind_eq_some] at h
    obtain ⟨d, hd, h⟩ := h
    rw [Flood_2_span_fuel_mono _ _ _ _ n m hnm _ _ ha, Option.some_bind,
      Flood_2_span_fuel_mono _ _ _ _ n m hnm _ _ hb, Option.some_bind]
    have hc' : (if q.tdiv dim > 0 then
        (Flood_2_scan m bitdeck dim b.filled (a.x - 1) (q.tdiv dim - 1)
          ⟨b.x - -1, -1, st⟩).map (·.stack) else some st) = some c := by
      split_ifs at hc ⊢ with hq
      · rw [Option.map_eq_some'] at hc ⊢
        obtain ⟨z, hz, hz'⟩ := hc
        exact ⟨z, Flood_2_scan_fuel_mono _ _ _ _ _ n m hnm _ _ hz, hz'⟩
      · exact hc
    have hd' : (if q.tdiv dim < dim - 1 then
        (Flood_2_scan m bitdeck dim b.filled (a.x - 1) (q.tdiv dim + 1)
          ⟨b.x - -1, -1, c⟩).map (·.stack) else some c) = some d := by
      split_ifs at hd ⊢ with hq
      · rw [Option.map_eq_some'] at hd ⊢
        obtain ⟨z, hz, hz'⟩ := hd
        exact ⟨z, Flood_2_scan_fuel_mono _ _ _ _ _ n m hnm _ _ hz, hz'⟩
      · exact hd
    rw [hc', Option.some_bind, hd', Option.some_bind]
    exact h

theorem Flood_2_fuel_mono (bitdeck : Deck) (dim : Int) (filled : Deck) (seedX seedY : Int)
    (n m : Nat) (r : Deck × Int) (hnm : n ≤ m)
    (h : Flood_2 n bitdeck dim filled seedX seedY = some r) :
    Flood_2 m bitdeck dim filled seedX seedY = some r := by
  unfold Flood_2 at h ⊢
  rw [Option.map_eq_some'] at h ⊢
  obtain ⟨a, ha, hr⟩ := h
  exact ⟨a, whileLoop_mono _ _ _ (Flood_2_body_fuel_mono bitdeck dim n m hnm) n m _ _ hnm ha,
    hr⟩

/-- `Flood_2` returns on the 64x64 plane: the final fill mask is the initial mask plus
the cells reached from the seed through passable cells that were not filled initially,
and the count is the number of cells added. -/
theorem Flood_2_returns (bitdeck init : Deck) (sx sy : Int) (h : inRange 64 sx sy) :
    ∃ (F : Deck) (N : Int),
      Returns (fun fuel => Flood_2 fuel bitdeck 64 init sx sy) (F, N) ∧
      (∀ i, F.testBit i = true ↔
        (init.testBit i = true ∨ ReachIdx bitdeck init (sy * 64 + sx).toNat i)) ∧
      (popc F : Int) = popc init + N := by
  have hinit := Flood_2_inv_init bitdeck init sx sy h
  have hfilled : (Flood_2_init bitdeck 64 init sx sy).filled = init := rfl
  have hnum : (Flood_2_init bitdeck 64 init sx sy).numfilled = 0 := rfl
  obtain ⟨r, hr, hi, hcnt⟩ := Flood_2_loop_terminates
    (66 + (3 * (4096 - popc init) + (Flood_2_init bitdeck 64 init sx sy).stack.length))
    (by omega) bitdeck init (sy * 64 + sx).toNat (Flood_2_init bitdeck 64 init sx sy)
    (by rw [hfilled]; exact hinit) (by rw [hfilled, hnum]; simp) (by rw [hfilled]; omega)
  refine ⟨r.filled, r.numfilled, ?_, Flood_2_inv_final _ _ _ _ hi, hcnt⟩
  refine Returns_of_mono (Flood_2_fuel_mono bitdeck 64 init sx sy)
    (66 + (3 * (4096 - popc init) + (Flood_2_init bitdeck 64 init sx sy).stack.length)) ?_
  show Flood_2 _ bitdeck 64 init sx sy = _
  unfold Flood_2
  rw [hr]
  rfl

/-! ## Span fill: the incremental stepper -/

theorem Flood_2_reaches_step (bitdeck : Deck) (dim : Int) (s final : Run2State)
    (hne : s.stack ≠ [])
    (h : Flood_2_reaches bitdeck dim (Flood_2_runStep bitdeck dim s) final) :
    Flood_2_reaches bitdeck dim s final := by
  apply LoopReaches_step _ _ _ _ _ h
  cases hs : s.stack with
  | nil => exact absurd hs hne
  | cons _ _ => rfl

theorem Flood_2_Incremental_at1 (bitdeck : Deck) (dim : Int) (f tested : Deck)
    (rest : List SpanFillSIState) (sfi : List Int) (c X xR xL ps pc : Int) :
    Flood_2_Incremental bitdeck dim f (⟨c, 1, X, xR, xL, ps, pc⟩ :: rest) sfi tested =
      Flood_2_stage1 bitdeck dim f ⟨c, 1, X, xR, xL, ps, pc⟩ rest sfi tested (c.tdiv dim) := by
  unfold Flood_2_Incremental
  norm_num

theorem Flood_2_Incremental_at0 (bitdeck : Deck) (dim : Int) (f tested : Deck)
    (rest : List SpanFillSIState) (sfi : List Int) (c X xR xL ps pc : Int) :
    Flood_2_Incremental bitdeck dim f (⟨c, 0, X, xR, xL, ps, pc⟩ :: rest) sfi tested =
      Flood_2_stage1 bitdeck dim f ⟨c, 1, c.tmod dim, xR, xL, ps, pc⟩ rest sfi tested
        (c.tdiv dim) := by
  unfold Flood_2_Incremental
  norm_num

theorem Flood_2_Incremental_at2 (bitdeck : Deck) (dim : Int) (f tested : Deck)
    (rest : List SpanFillSIState) (sfi : List Int) (c X xR xL ps pc : Int) :
    Flood_2_Incremental bitdeck dim f (⟨c, 2, X, xR, xL, ps, pc⟩ :: rest) sfi tested =
      Flood_2_stage2 bitdeck dim f ⟨c, 2, X, xR, xL, ps, pc⟩ rest sfi tested (c.tdiv dim) := by
  unfold Flood_2_Incremental
  norm_num

theorem Flood_2_Incremental_at3 (bitdeck : Deck) (dim : Int) (f tested : Deck)
    (rest : List SpanFillSIState) (sfi : List Int) (c X xR xL ps pc : Int) :
    Flood_2_Incremental bitdeck dim f (⟨c, 3, X, xR, xL, ps, pc⟩ :: rest) sfi tested =
      Flood_2_stage3 bitdeck dim f ⟨c, 3, X, xR, xL, ps, pc⟩ rest sfi tested (c.tdiv dim) := by
  unfold Flood_2_Incremental
  norm_num

theorem Flood_2_Incremental_at4 (bitdeck : Deck) (dim : Int) (f tested : Deck)
    (rest : List SpanFillSIState) (sfi : List Int) (c X xR xL ps pc : Int) :
    Flood_2_Incremental bitdeck dim f (⟨c, 4, X, xR, xL, ps, pc⟩ :: rest) sfi tested =
      Flood_2_stage4 bitdeck dim f ⟨c, 4, X, xR, xL, ps, pc⟩ rest sfi tested (c.tdiv dim) := by
  unfold Flood_2_Incremental
  norm_num

theorem Flood_2_stage1_fill (bitdeck f tested : Deck) (rest : List SpanFillSIState)
    (sfi : List Int) (c X xR xL ps pc y : Int) (h : FreeAt bitdeck f X y) :
    ∃ tested', Flood_2_stage1 bitdeck 64 f ⟨c, 1, X, xR, xL, ps, pc⟩ rest sfi tested y =
      ⟨f ||| 2 ^ (y * 64 + X).toNat, ⟨c, 1, X + 1, xR, xL, ps, pc⟩ :: rest, sfi, tested',
        (FillCellTest bitdeck 64 f tested 0 X y).testCount, 1⟩ := by
  refine ⟨(FillCellTest bitdeck 64 f tested 0 X y).tested, ?_⟩
  unfold Flood_2_stage1
  dsimp only
  rw [FillCellTest_ret, FillCellTest_filled, FillCell_free _ _ _ _ h]
  rw [if_pos (cell_nonneg h.1)]

theorem Flood_2_stage1_stop (bitdeck f tested : Deck) (rest : List SpanFillSIState)
    (sfi : List Int) (c X xR xL ps pc y : Int) (h : ¬ FreeAt bitdeck f X y) :
    ∃ tested', Flood_2_stage1 bitdeck 64 f ⟨c, 1, X, xR, xL, ps, pc⟩ rest sfi tested y =
      ⟨f, ⟨c, 2, c.tmod 64 - 1, X - 1, xL, ps, pc⟩ :: rest, sfi, tested',
        (FillCellTest bitdeck 64 f tested 0 X y).testCount, 0⟩ := by
  refine ⟨(FillCellTest bitdeck 64 f tested 0 X y).tested, ?_⟩
  unfold Flood_2_stage1
  dsimp only
  rw [FillCellTest_ret, FillCellTest_filled, FillCell_not_free _ _ _ _ h]
  rw [if_neg (by norm_num)]
  norm_num

theorem Flood_2_stage2_fill (bitdeck f tested : Deck) (rest : List SpanFillSIState)
    (sfi : List Int) (c X xR xL ps pc y : Int) (h : FreeAt bitdeck f X y) :
    ∃ tested', Flood_2_stage2 bitdeck 64 f ⟨c, 2, X, xR, xL, ps, pc⟩ rest sfi tested y =
      ⟨f ||| 2 ^ (y * 64 + X).toNat, ⟨c, 2, X + -1, xR, xL, ps, pc⟩ :: rest, sfi, tested',
        (FillCellTest bitdeck 64 f tested 0 X y).testCount, 1⟩ := by
  refine ⟨(FillCellTest bitdeck 64 f tested 0 X y).tested, ?_⟩
  unfold Flood_2_stage2
  dsimp only
  rw [FillCellTest_ret, FillCellTest_filled, FillCell_free _ _ _ _ h]
  rw [if_pos (cell_nonneg h.1)]

theorem Flood_2_stage2_stop (bitdeck f tested : Deck) (rest : List SpanFillSIState)
    (sfi : List Int) (c X xR xL ps pc y : Int) (h : ¬ FreeAt bitdeck f X y) :
    ∃ tested', Flood_2_stage2 bitdeck 64 f ⟨c, 2, X, xR, xL, ps, pc⟩ rest sfi tested y =
      ⟨f, ⟨c, 3, X - -1, xR, X - -1, -1, pc⟩ :: rest, sfi, tested',
        (FillCellTest bitdeck 64 f tested 0 X y).testCount, 0⟩ := by
  refine ⟨(FillCellTest bitdeck 64 f tested 0 X y).tested, ?_⟩
  unfold Flood_2_stage2
  dsimp only
  rw [FillCellTest_ret, FillCellTest_filled, FillCell_not_free _ _ _ _ h]
  rw [if_neg (by norm_num)]
  norm_num

theorem Flood_2_span_zero (bitdeck f : Deck) (x y inc nf : Int) (h : FreeAt bitdeck f x y) :
    Flood_2_span 0 bitdeck 64 y inc ⟨f, x, nf⟩ = none := by
  unfold Flood_2_span whileLoop
  dsimp only
  rw [FillCell_free _ _ _ _ h]
  have := cell_nonneg h.1
  simp [this]

/-- The calls of stage 1 replay the span-fill-right loop. -/
theorem Flood_2_right_sim (bitdeck : Deck) (c : Int) (rest : List SpanFillSIState)
    (sfi : List Int) (xL ps pc : Int) :
    ∀ (n : Nat) (g : Deck) (x k : Int) (res : SpanLoop),
      Flood_2_span n bitdeck 64 (c.tdiv 64) 1 ⟨g, x, k⟩ = some res →
      ∀ (xR : Int) (tested : Deck) (acc : Int), ∃ tested', ∀ final,
        Flood_2_reaches bitdeck 64
          ⟨res.filled, ⟨c, 2, c.tmod 64 - 1, res.x - 1, xL, ps, pc⟩ :: rest, sfi, tested',
            acc + (res.numfilled - k)⟩ final →
        Flood_2_reaches bitdeck 64
          ⟨g, ⟨c, 1, x, xR, xL, ps, pc⟩ :: rest, sfi, tested, acc⟩ final := by
  intro n
  induction n with
  | zero =>
    intro g x k res h xR tested acc
    by_cases hfree : FreeAt bitdeck g x (c.tdiv 64)
    · rw [Flood_2_span_zero _ _ _ _ _ _ hfree] at h
      exact Option.noConfusion h
    · rw [Flood_2_span_done _ _ _ _ _ _ _ hfree] at h
      cases Option.some.inj h
      obtain ⟨t', ht'⟩ := Flood_2_stage1_stop bitdeck g tested rest sfi c x xR xL ps pc
        (c.tdiv 64) hfree
      refine ⟨t', fun final hf => ?_⟩
      apply Flood_2_reaches_step _ _ _ _ (by simp)
      unfold Flood_2_runStep Run2State.after
      dsimp only
      rw [Flood_2_Incremental_at1, ht']
      simpa using hf
  | succ n ih =>
    intro g x k res h xR tested acc
    by_cases hfree : FreeAt bitdeck g x (c.tdiv 64)
    · rw [Flood_2_span_step _ _ _ _ _ _ _ hfree] at h
      obtain ⟨t1, ht1⟩ := Flood_2_stage1_fill bitdeck g tested rest sfi c x xR xL ps pc
        (c.tdiv 64) hfree
      obtain ⟨t', ht'⟩ := ih _ _ _ res h xR t1 (acc + 1)
      refine ⟨t', fun final hf => ?_⟩
      apply Flood_2_reaches_step _ _ _ _ (by simp)
      unfold Flood_2_runStep Run2State.after
      dsimp only
      rw [Flood_2_Incremental_at1, ht1]
      apply ht' final
      have e : acc + 1 + (res.numfilled - (k + 1)) = acc + (res.numfilled - k) := by ring
      rw [e]
      exact hf
    · rw [Flood_2_span_done _ _ _ _ _ _ _ hfree] at h
      cases Option.some.inj h
      obtain ⟨t', ht'⟩ := Flood_2_stage1_stop bitdeck g tested rest sfi c x xR xL ps pc
        (c.tdiv 64) hfree
      refine ⟨t', fun final hf => ?_⟩
      apply Flood_2_reaches_step _ _ _ _ (by simp)
      unfold Flood_2_runStep Run2State.after
      dsimp only
      rw [Flood_2_Incremental_at1, ht']
      simpa using hf

/-- The calls of stage 2 replay the span-fill-left loop. -/
theorem Flood_2_left_sim (bitdeck : Deck) (c : Int) (rest : List SpanFillSIState)
    (sfi : List Int) (xR pc : Int) :
    ∀ (n : Nat) (g : Deck) (x k : Int) (res : SpanLoop),
      Flood_2_span n bitdeck 64 (c.tdiv 64) (-1) ⟨g, x, k⟩ = some res →
      ∀ (xL ps : Int) (tested : Deck) (acc : Int), ∃ tested', ∀ final,
        Flood_2_reaches bitdeck 64
          ⟨res.filled, ⟨c, 3, res.x - -1, xR, res.x - -1, -1, pc⟩ :: rest, sfi, tested',
            acc + (res.numfilled - k)⟩ final →
        Flood_2_reaches bitdeck 64
          ⟨g, ⟨c, 2, x, xR, xL, ps, pc⟩ :: rest, sfi, tested, acc⟩ final := by
  intro n
  induction n with
  | zero =>
    intro g x k res h xL ps tested acc
    by_cases hfree : FreeAt bitdeck g x (c.tdiv 64)
    · rw [Flood_2_span_zero _ _ _ _ _ _ hfree] at h
      exact Option.noConfusion h
    · rw [Flood_2_span_done _ _ _ _ _ _ _ hfree] at h
      cases Option.some.inj h
      obtain ⟨t', ht'⟩ := Flood_2_stage2_stop bitdeck g tested rest sfi c x xR xL ps pc
        (c.tdiv 64) hfree
      refine ⟨t', fun final hf => ?_⟩
      apply Flood_2_reaches_step _ _ _ _ (by simp)
      unfold Flood_2_runStep Run2State.after
      dsimp only
      rw [Flood_2_Incremental_at2, ht']
      simpa using hf
  | succ n ih =>
    intro g x k res h xL ps tested acc
    by_cases hfree : FreeAt bitdeck g x (c.tdiv 64)
    · rw [Flood_2_span_step _ _ _ _ _ _ _ hfree] at h
      obtain ⟨t1, ht1⟩ := Flood_2_stage2_fill bitdeck g tested rest sfi c x xR xL ps pc
        (c.tdiv 64) hfree
      obtain ⟨t', ht'⟩ := ih _ _ _ res h xL ps t1 (acc + 1)
      refine ⟨t', fun final hf => ?_⟩
      apply Flood_2_reaches_step _ _ _ _ (by simp)
      unfold Flood_2_runStep Run2State.after
      dsimp only
      rw [Flood_2_Incremental_at2, ht1]
      apply ht' final
      have e : acc + 1 + (res.numfilled - (k + 1)) = acc + (res.numfilled - k) := by ring
      rw [e]
      exact hf
    · rw [Flood_2_span_done _ _ _ _ _ _ _ hfree] at h
      cases Option.some.inj h
      obtain ⟨t', ht'⟩ := Flood_2_stage2_stop bitdeck g tested rest sfi c x xR xL ps pc
        (c.tdiv 64) hfree
      refine ⟨t', fun final hf => ?_⟩
      apply Flood_2_reaches_step _ _ _ _ (by simp)
      unfold Flood_2_runStep Run2State.after
      dsimp only
      rw [Flood_2_Incremental_at2, ht']
      simpa using hf

theorem Flood_2_scanStep_eq (bitdeck f tested : Deck) (rest : List SpanFillSIState)
    (sfi : List Int) (c st x xR xL p pc yy : Int) :
    ∃ tested' tc', Flood_2_scanStep bitdeck 64 f ⟨c, st, x, xR, xL, p, pc⟩ rest sfi tested yy =
      ⟨f, ⟨c, st, x + 1, xR, xL, TestCell bitdeck 64 f x yy,
          if TestCell bitdeck 64 f x yy ≥ 0 ∧ p = -1 then pc + 1 else pc⟩ :: rest,
        if TestCell bitdeck 64 f x yy ≥ 0 ∧ p = -1 then TestCell bitdeck 64 f x yy :: sfi
        else sfi, tested', tc', 0⟩ := by
  refine ⟨(TestCellTest bitdeck 64 f tested 0 x yy).tested,
    (TestCellTest bitdeck 64 f tested 0 x yy).testCount, ?_⟩
  unfold Flood_2_scanStep
  dsimp only
  rw [TestCellTest_ret]
  by_cases h : TestCell bitdeck 64 f x yy ≥ 0 ∧ p = -1
  · simp [h]
  · simp [h]

theorem Flood_2_scan_zero (bitdeck f : Deck) (xright yy x p : Int) (stk : List Int)
    (h : x ≤ xright) : Flood_2_scan 0 bitdeck 64 f xright yy ⟨x, p, stk⟩ = none := by
  unfold Flood_2_scan whileLoop
  simp [h]

/-- The calls of stage 3 replay the scan of the row above; the seeds go to the auxiliary
stack. -/
theorem Flood_2_above_sim (bitdeck f : Deck) (c : Int) (rest : List SpanFillSIState)
    (xR xL : Int) (hy : c.tdiv 64 > 0) :
    ∀ (n : Nat) (x p : Int) (stkB : List Int) (res : ScanLoop),
      Flood_2_scan n bitdeck 64 f xR (c.tdiv 64 - 1) ⟨x, p, stkB⟩ = some res →
      ∃ pushed : List Int, res.stack = pushed ++ stkB ∧
        ∀ (sfi : List Int) (pc : Int) (tested : Deck) (acc : Int), ∃ tested', ∀ final,
          Flood_2_reaches bitdeck 64
            (Run2State.after (Flood_2_stage4 bitdeck 64 f
              ⟨c, 4, xL, xR, xL, -1, pc + pushed.length⟩ rest (pushed ++ sfi) tested'
              (c.tdiv 64)) acc) final →
          Flood_2_reaches bitdeck 64
            (Run2State.after (Flood_2_stage3 bitdeck 64 f ⟨c, 3, x, xR, xL, p, pc⟩ rest sfi
              tested (c.tdiv 64)) acc) final := by
  have stop : ∀ (x p : Int), ¬ x ≤ xR →
      ∀ (sfi : List Int) (pc : Int) (tested : Deck) (acc : Int), ∃ tested', ∀ final,
          Flood_2_reaches bitdeck 64
            (Run2State.after (Flood_2_stage4 bitdeck 64 f
              ⟨c, 4, xL, xR, xL, -1, pc + ([] : List Int).length⟩ rest ([] ++ sfi) tested'
              (c.tdiv 64)) acc) final →
          Flood_2_reaches bitdeck 64
            (Run2State.after (Flood_2_stage3 bitdeck 64 f ⟨c, 3, x, xR, xL, p, pc⟩ rest sfi
              tested (c.tdiv 64)) acc) final := by
    intro x p hx sfi pc tested acc
    refine ⟨tested, fun final hf => ?_⟩
    unfold Flood_2_stage3
    dsimp only
    rw [if_neg (fun h => hx h.2)]
    simpa using hf
  intro n
  induction n with
  | zero =>
    intro x p stkB res h
    by_cases hx : x ≤ xR
    · rw [Flood_2_scan_zero _ _ _ _ _ _ _ hx] at h
      exact Option.noConfusion h
    · rw [Flood_2_scan_done _ _ _ _ _ _ _ _ hx] at h
      cases Option.some.inj h
      exact ⟨[], rfl, stop x p hx⟩
  | succ n ih =>
    intro x p stkB res h
    by_cases hx : x ≤ xR
    · rw [Flood_2_scan_step _ _ _ _ _ _ _ _ hx] at h
      obtain ⟨pushed', hp1, hp2⟩ := ih _ _ _ res h
      by_cases hpush : TestCell bitdeck 64 f x (c.tdiv 64 - 1) ≥ 0 ∧ p = -1
      · rw [if_pos hpush] at hp1
        refine ⟨pushed' ++ [TestCell bitdeck 64 f x (c.tdiv 64 - 1)], by rw [hp1]; simp, ?_⟩
        intro sfi pc tested acc
        obtain ⟨t1, tc1, hs⟩ := Flood_2_scanStep_eq bitdeck f tested rest sfi c 3 x xR xL p pc
          (c.tdiv 64 - 1)
        rw [if_pos hpush, if_pos hpush] at hs
        obtain ⟨t', ht'⟩ := hp2 (TestCell bitdeck 64 f x (c.tdiv 64 - 1) :: sfi) (pc + 1) t1
          (acc + 0)
        refine ⟨t', fun final hf => ?_⟩
        have e3 : Flood_2_stage3 bitdeck 64 f ⟨c, 3, x, xR, xL, p, pc⟩ rest sfi tested
            (c.tdiv 64) = Flood_2_scanStep bitdeck 64 f ⟨c, 3, x, xR, xL, p, pc⟩ rest sfi
              tested (c.tdiv 64 - 1) := by
          unfold Flood_2_stage3
          dsimp only
          rw [if_pos ⟨hy, hx⟩]
        rw [e3, hs]
        apply Flood_2_reaches_step _ _ _ _ (by simp [Run2State.after])
        unfold Flood_2_runStep
        simp only [Run2State.after]
        rw [Flood_2_Incremental_at3]
        apply ht' final
        have e : pc + 1 + (pushed'.length : Int) =
            pc + ((pushed' ++ [TestCell bitdeck 64 f x (c.tdiv 64 - 1)]).length : Int) := by
          simp; ring
        rw [e]
        simpa using hf
      · rw [if_neg hpush] at hp1
        refine ⟨pushed', hp1, ?_⟩
        intro sfi pc tested acc
        obtain ⟨t1, tc1, hs⟩ := Flood_2_scanStep_eq bitdeck f tested rest sfi c 3 x xR xL p pc
          (c.tdiv 64 - 1)
        rw [if_neg hpush, if_neg hpush] at hs
        obtain ⟨t', ht'⟩ := hp2 sfi pc t1 (acc + 0)
        refine ⟨t', fun final hf => ?_⟩
        have e3 : Flood_2_stage3 bitdeck 64 f ⟨c, 3, x, xR, xL, p, pc⟩ rest sfi tested
            (c.tdiv 64) = Flood_2_scanStep bitdeck 64 f ⟨c, 3, x, xR, xL, p, pc⟩ rest sfi
              tested (c.tdiv 64 - 1) := by
          unfold Flood_2_stage3
          dsimp only
          rw [if_pos ⟨hy, hx⟩]
        rw [e3, hs]
        apply Flood_2_reaches_step _ _ _ _ (by simp [Run2State.after])
        unfold Flood_2_runStep
        simp only [Run2State.after]
        rw [Flood_2_Incremental_at3]
        apply ht' final
        simpa using hf
    · rw [Flood_2_scan_done _ _ _ _ _ _ _ _ hx] at h
      cases Option.some.inj h
      exact ⟨[], rfl, stop x p hx⟩

theorem LoopReaches_unstep {σ : Type} (cond : σ → Bool) (step : σ → σ) (s final : σ)
    (hc : cond s = true) (h : LoopReaches cond step s final) :
    LoopReaches cond step (step s) final := by
  obtain ⟨m, hm⟩ := h
  cases m with
  | zero =>
    unfold whileLoop at hm
    simp [hc] at hm
  | succ m =>
    rw [whileLoop_step cond (fun s => some (step s)) m s _ hc rfl] at hm
    exact ⟨m, hm⟩

theorem SFI_resolve_all (l : List Int) :
    ∀ sc : List SpanFillSIState,
      SFI_resolve l.length l sc = ([], l.reverse.map SpanFillSIState.fresh ++ sc) := by
  induction l with
  | nil => intro sc; rfl
  | cons a l ih =>
    intro sc
    simp only [List.length_cons, SFI_resolve, List.headD_cons, List.tail_cons]
    rw [ih]
    simp

/-- The calls of stage 4 replay the scan of the row below; when the scan is over the
buffered seeds are moved from the auxiliary stack to the work stack. -/
theorem Flood_2_below_sim (bitdeck f : Deck) (c : Int) (rest : List SpanFillSIState)
    (xR xL : Int) (hy : c.tdiv 64 < 64 - 1) :
    ∀ (n : Nat) (x p : Int) (stkB : List Int) (res : ScanLoop),
      Flood_2_scan n bitdeck 64 f xR (c.tdiv 64 + 1) ⟨x, p, stkB⟩ = some res →
      ∃ pushed : List Int, res.stack = pushed ++ stkB ∧
        ∀ (sfi : List Int) (pc : Int) (tested : Deck) (acc : Int), ∃ tested', ∀ final,
          Flood_2_reaches bitdeck 64
            ⟨f, (SFI_resolve (pc + pushed.length).toNat (pushed ++ sfi) rest).2,
              (SFI_resolve (pc + pushed.length).toNat (pushed ++ sfi) rest).1, tested',
              acc⟩ final →
          Flood_2_reaches bitdeck 64
            (Run2State.after (Flood_2_stage4 bitdeck 64 f ⟨c, 4, x, xR, xL, p, pc⟩ rest sfi
              tested (c.tdiv 64)) acc) final := by
  have stop : ∀ (x p : Int), ¬ x ≤ xR →
      ∀ (sfi : List Int) (pc : Int) (tested : Deck) (acc : Int), ∃ tested', ∀ final,
          Flood_2_reaches bitdeck 64
            ⟨f, (SFI_resolve (pc + ([] : List Int).length).toNat ([] ++ sfi) rest).2,
              (SFI_resolve (pc + ([] : List Int).length).toNat ([] ++ sfi) rest).1, tested',
              acc⟩ final →
          Flood_2_reaches bitdeck 64
            (Run2State.after (Flood_2_stage4 bitdeck 64 f ⟨c, 4, x, xR, xL, p, pc⟩ rest sfi
              tested (c.tdiv 64)) acc) final := by
    intro x p hx sfi pc tested acc
    refine ⟨tested, fun final hf => ?_⟩
    unfold Flood_2_stage4
    dsimp only
    rw [if_neg (fun h => hx h.2)]
    unfold Flood_2_stage5 Run2State.after
    simpa using hf
  intro n
  induction n with
  | zero =>
    intro x p stkB res h
    by_cases hx : x ≤ xR
    · rw [Flood_2_scan_zero _ _ _ _ _ _ _ hx] at h
      exact Option.noConfusion h
    · rw [Flood_2_scan_done _ _ _ _ _ _ _ _ hx] at h
      cases Option.some.inj h
      exact ⟨[], rfl, stop x p hx⟩
  | succ n ih =>
    intro x p stkB res h
    by_cases hx : x ≤ xR
    · rw [Flood_2_scan_step _ _ _ _ _ _ _ _ hx] at h
      obtain ⟨pushed', hp1, hp2⟩ := ih _ _ _ res h
      by_cases hpush : TestCell bitdeck 64 f x (c.tdiv 64 + 1) ≥ 0 ∧ p = -1
      · rw [if_pos hpush] at hp1
        refine ⟨pushed' ++ [TestCell bitdeck 64 f x (c.tdiv 64 + 1)], by rw [hp1]; simp, ?_⟩
        intro sfi pc tested acc
        obtain ⟨t1, tc1, hs⟩ := Flood_2_scanStep_eq bitdeck f tested rest sfi c 4 x xR xL p pc
          (c.tdiv 64 + 1)
        rw [if_pos hpush, if_pos hpush] at hs
        obtain ⟨t', ht'⟩ := hp2 (TestCell bitdeck 64 f x (c.tdiv 64 + 1) :: sfi) (pc + 1) t1
          (acc + 0)
        refine ⟨t', fun final hf => ?_⟩
        have e3 : Flood_2_stage4 bitdeck 64 f ⟨c, 4, x, xR, xL, p, pc⟩ rest sfi tested
            (c.tdiv 64) = Flood_2_scanStep bitdeck 64 f ⟨c, 4, x, xR, xL, p, pc⟩ rest sfi
              tested (c.tdiv 64 + 1) := by
          unfold Flood_2_stage4
          dsimp only
          rw [if_pos ⟨hy, hx⟩]
        rw [e3, hs]
        apply Flood_2_reaches_step _ _ _ _ (by simp [Run2State.after])
        unfold Flood_2_runStep
        simp only [Run2State.after]
        rw [Flood_2_Incremental_at4]
        apply ht' final
        have e : pc + 1 + (pushed'.length : Int) =
            pc + ((pushed' ++ [TestCell bitdeck 64 f x (c.tdiv 64 + 1)]).length : Int) := by
          simp; ring
        rw [e]
        simpa using hf
      · rw [if_neg hpush] at hp1
        refine ⟨pushed', hp1, ?_⟩
        intro sfi pc tested acc
        obtain ⟨t1, tc1, hs⟩ := Flood_2_scanStep_eq bitdeck f tested rest sfi c 4 x xR xL p pc
          (c.tdiv 64 + 1)
        rw [if_neg hpush, if_neg hpush] at hs
        obtain ⟨t', ht'⟩ := hp2 sfi pc t1 (acc + 0)
        refine ⟨t', fun final hf => ?_⟩
        have e3 : Flood_2_stage4 bitdeck 64 f ⟨c, 4, x, xR, xL, p, pc⟩ rest sfi tested
            (c.tdiv 64) = Flood_2_scanStep bitdeck 64 f ⟨c, 4, x, xR, xL, p, pc⟩ rest sfi
              tested (c.tdiv 64 + 1) := by
          unfold Flood_2_stage4
          dsimp only
          rw [if_pos ⟨hy, hx⟩]
        rw [e3, hs]
        apply Flood_2_reaches_step _ _ _ _ (by simp [Run2State.after])
        unfold Flood_2_runStep
        simp only [Run2State.after]
        rw [Flood_2_Incremental_at4]
        apply ht' final
        simpa using hf
    · rw [Flood_2_scan_done _ _ _ _ _ _ _ _ hx] at h
      cases Option.some.inj h
      exact ⟨[], rfl, stop x p hx⟩

/-- The calls of `Flood_2_Incremental` on a fresh entry replay one iteration of the loop
of `Flood_2`; the new seeds reach the work stack in the reverse order. -/
theorem Flood_2_macro (fuel : Nat) (bitdeck f : Deck) (c : Int) (rest : List Int) (nf : Int)
    (b' : Flood2State) (hb : Flood_2_body fuel bitdeck 64 ⟨f, c :: rest, nf⟩ = some b')
    (tested : Deck) (acc : Int) :
    ∃ (new : List Int) (tested' : Deck), b'.stack = new ++ rest ∧ ∀ final,
      Flood_2_reaches bitdeck 64
        ⟨b'.filled, (new.reverse ++ rest).map SpanFillSIState.fresh, [], tested',
          acc + (b'.numfilled - nf)⟩ final →
      Flood_2_reaches bitdeck 64
        ⟨f, SpanFillSIState.fresh c :: rest.map SpanFillSIState.fresh, [], tested, acc⟩
        final := by
  unfold Flood_2_body at hb
  dsimp only at hb
  rw [Option.bind_eq_some] at hb
  obtain ⟨r, hr, hb⟩ := hb
  rw [Option.bind_eq_some] at hb
  obtain ⟨l, hl, hb⟩ := hb
  rw [Option.bind_eq_some] at hb
  obtain ⟨sa, hsa, hb⟩ := hb
  rw [Option.bind_eq_some] at hb
  obtain ⟨sb, hsb, hb⟩ := hb
  cases Option.some.inj hb
  dsimp only
  -- the scans, as lists of pushed seeds
  have above : ∃ A : List Int, sa = A ++ rest ∧
      ∀ (tested : Deck) (acc : Int), ∃ tested', ∀ final,
        Flood_2_reaches bitdeck 64
          (Run2State.after (Flood_2_stage4 bitdeck 64 l.filled
            ⟨c, 4, l.x - -1, r.x - 1, l.x - -1, -1, 0 + A.length⟩
            (rest.map SpanFillSIState.fresh) (A ++ []) tested' (c.tdiv 64)) acc) final →
        Flood_2_reaches bitdeck 64
          (Run2State.after (Flood_2_stage3 bitdeck 64 l.filled
            ⟨c, 3, l.x - -1, r.x - 1, l.x - -1, -1, 0⟩
            (rest.map SpanFillSIState.fresh) [] tested (c.tdiv 64)) acc) final := by
    by_cases hy : c.tdiv 64 > 0
    · rw [if_pos hy, Option.map_eq_some'] at hsa
      obtain ⟨res, hres, hst⟩ := hsa
      obtain ⟨A, hA1, hA2⟩ := Flood_2_above_sim bitdeck l.filled c
        (rest.map SpanFillSIState.fresh) (r.x - 1) (l.x - -1) hy fuel _ _ _ res hres
      exact ⟨A, by rw [← hst, hA1], fun tested acc => hA2 [] 0 tested acc⟩
    · rw [if_neg hy] at hsa
      cases Option.some.inj hsa
      refine ⟨[], rfl, fun tested acc => ⟨tested, fun final hf => ?_⟩⟩
      unfold Flood_2_stage3
      dsimp only
      rw [if_neg (fun h => hy h.1)]
      simpa using hf
  obtain ⟨A, hA1, hA2⟩ := above
  have below : ∃ B : List Int, sb = B ++ sa ∧
      ∀ (tested : Deck) (acc : Int), ∃ tested', ∀ final,
        Flood_2_reaches bitdeck 64
          ⟨l.filled,
            (SFI_resolve (0 + (A.length : Int) + B.length).toNat (B ++ (A ++ []))
              (rest.map SpanFillSIState.fresh)).2,
            (SFI_resolve (0 + (A.length : Int) + B.length).toNat (B ++ (A ++ []))
              (rest.map SpanFillSIState.fresh)).1, tested', acc⟩ final →
        Flood_2_reaches bitdeck 64
          (Run2State.after (Flood_2_stage4 bitdeck 64 l.filled
            ⟨c, 4, l.x - -1, r.x - 1, l.x - -1, -1, 0 + A.length⟩
            (rest.map SpanFillSIState.fresh) (A ++ []) tested (c.tdiv 64)) acc) final := by
    by_cases hy : c.tdiv 64 < 64 - 1
    · rw [if_pos hy, Option.map_eq_some'] at hsb
      obtain ⟨res, hres, hst⟩ := hsb
      obtain ⟨B, hB1, hB2⟩ := Flood_2_below_sim bitdeck l.filled c
        (rest.map SpanFillSIState.fresh) (r.x - 1) (l.x - -1) hy fuel _ _ _ res hres
      exact ⟨B, by rw [← hst, hB1], fun tested acc => hB2 (A ++ []) (0 + A.length) tested acc⟩
    · rw [if_neg hy] at hsb
      cases Option.some.inj hsb
      refine ⟨[], rfl, fun tested acc => ⟨tested, fun final hf => ?_⟩⟩
      unfold Flood_2_stage4
      dsimp only
      rw [if_neg (fun h => hy h.1)]
      unfold Flood_2_stage5 Run2State.after
      simpa using hf
  obtain ⟨B, hB1, hB2⟩ := below
  -- chain the stages
  obtain ⟨t1, ht1⟩ := Flood_2_right_sim bitdeck c (rest.map SpanFillSIState.fresh) [] 0 0 0
    fuel f (c.tmod 64) nf r hr 0 tested acc
  obtain ⟨t2, ht2⟩ := Flood_2_left_sim bitdeck c (rest.map SpanFillSIState.fresh) [] (r.x - 1) 0
    fuel r.filled (c.tmod 64 - 1) r.numfilled l hl 0 0 t1 (acc + (r.numfilled - nf))
  obtain ⟨t3, ht3⟩ := hA2 t2 (acc + (r.numfilled - nf) + (l.numfilled - r.numfilled))
  obtain ⟨t4, ht4⟩ := hB2 t3 (acc + (r.numfilled - nf) + (l.numfilled - r.numfilled))
  refine ⟨B ++ A, t4, by rw [hB1, hA1]; simp, fun final hf => ?_⟩
  -- the first call: stage 0 does what stage 1 does on the initialised entry
  apply Flood_2_reaches_step _ _ _ _ (by simp)
  have e0 : Flood_2_runStep bitdeck 64
      ⟨f, SpanFillSIState.fresh c :: rest.map SpanFillSIState.fresh, [], tested, acc⟩ =
      Flood_2_runStep bitdeck 64
        ⟨f, ⟨c, 1, c.tmod 64, 0, 0, 0, 0⟩ :: rest.map SpanFillSIState.fresh, [], tested,
          acc⟩ := by
    unfold Flood_2_runStep SpanFillSIState.fresh
    dsimp only
    rw [Flood_2_Incremental_at0, Flood_2_Incremental_at1]
  rw [e0]
  have hstart := ht1 final (ht2 final (by
    apply Flood_2_reaches_step _ _ _ _ (by simp)
    unfold Flood_2_runStep
    dsimp only
    rw [Flood_2_Incremental_at3]
    apply ht3 final
    apply ht4 final
    have e : (0 + (A.length : Int) + B.length).toNat = (B ++ (A ++ [])).length := by
      simp; omega
    rw [e, SFI_resolve_all]
    have e2 : acc + (r.numfilled - nf) + (l.numfilled - r.numfilled) =
        acc + (l.numfilled - nf) := by ring
    rw [e2]
    simpa using hf))
  exact LoopReaches_unstep _ _ _ _ (by simp) hstart

/-- The incremental span fill, started between two seeds under the invariant of the
span-fill loop, runs to an empty stack and ends with the invariant. -/
theorem Flood_2_incr_run (bitdeck init : Deck) (seed : Nat) :
    ∀ (n : Nat) (f : Deck) (stack : List Int) (nf : Int) (tested : Deck) (acc : Int),
      Flood_2_inv bitdeck init seed f stack → (popc f : Int) = popc init + nf →
      3 * (4096 - popc f) + stack.length ≤ n →
      ∃ final, Flood_2_reaches bitdeck 64
          ⟨f, stack.map SpanFillSIState.fresh, [], tested, acc⟩ final ∧
        Flood_2_inv bitdeck init seed final.filled [] ∧
        (popc final.filled : Int) = popc init + nf + (final.lastFilledCount - acc) := by
  intro n
  induction n with
  | zero =>
    intro f stack nf tested acc hinv hcnt hμ
    have : stack = [] := by
      cases stack with
      | nil => rfl
      | cons _ _ => simp at hμ
    subst this
    exact ⟨_, ⟨0, whileLoop_done _ _ _ _ (by simp)⟩, hinv, by simp [hcnt]⟩
  | succ n ih =>
    intro f stack nf tested acc hinv hcnt hμ
    cases stack with
    | nil => exact ⟨_, ⟨0, whileLoop_done _ _ _ _ (by simp)⟩, hinv, by simp [hcnt]⟩
    | cons c rest =>
      obtain ⟨f2, new, w, e, hi, hp, hn⟩ :=
        Flood_2_body_summary 66 (le_refl _) bitdeck init seed f c rest nf hinv
      obtain ⟨new', tested', hst, himp⟩ := Flood_2_macro 66 bitdeck f c rest nf _ e tested acc
      have hnew : new' = new := (List.append_cancel_right hst).symm
      subst hnew
      have hle := popc_le f2
      obtain ⟨final, hreach, hfi, hfc⟩ := ih f2 (new'.reverse ++ rest) (nf + w) tested'
        (acc + (nf + w - nf))
        (hi _ (fun s => by simp))
        (by rw [hp]; push_cast; omega)
        (by simp only [List.length_append, List.length_reverse, List.length_cons] at hμ ⊢
            omega)
      refine ⟨final, himp final hreach, hfi, ?_⟩
      rw [hfc]
      ring

theorem Flood_2_Incremental_run_fuel_mono (bitdeck : Deck) (dim : Int) (filled tested : Deck)
    (seedX seedY : Int) (n m : Nat) (r : Deck × Int) (hnm : n ≤ m)
    (h : Flood_2_Incremental_run n bitdeck dim filled tested seedX seedY = some r) :
    Flood_2_Incremental_run m bitdeck dim filled tested seedX seedY = some r := by
  unfold Flood_2_Incremental_run at h ⊢
  rw [Option.map_eq_some'] at h ⊢
  obtain ⟨a, ha, hr⟩ := h
  exact ⟨a, whileLoop_mono _ _ _ (fun _ _ h => h) n m _ _ hnm ha, hr⟩

/-- Two fill masks that hold the same cells are the same mask. -/
theorem deck_ext_of_iff (F G : Deck) (P : Nat → Prop)
    (hF : ∀ i, F.testBit i = true ↔ P i) (hG : ∀ i, G.testBit i = true ↔ P i) : F = G := by
  apply Nat.eq_of_testBit_eq
  intro i
  rw [Bool.eq_iff_iff, hF, hG]

/-- The incremental span fill from a Start on empty stacks: it terminates with the initial
mask plus the cells reached from the seed, and the sum of the returned counts is the number
of cells added. -/
theorem Flood_2_Incremental_returns (bitdeck init tested : Deck) (sx sy : Int)
    (h : inRange 64 sx sy) :
    ∃ (F : Deck) (N : Int),
      Returns (fun fuel => Flood_2_Incremental_run fuel bitdeck 64 init tested sx sy) (F, N) ∧
      (∀ i, F.testBit i = true ↔
        (init.testBit i = true ∨ ReachIdx bitdeck init (sy * 64 + sx).toNat i)) ∧
      (popc F : Int) = popc init + N := by
  have hinit := Flood_2_inv_init bitdeck init sx sy h
  obtain ⟨final, ⟨m, hm⟩, hfi, hfc⟩ := Flood_2_incr_run bitdeck init (sy * 64 + sx).toNat _ init
    (Flood_2_init bitdeck 64 init sx sy).stack 0 tested 0 hinit (by simp) (le_refl _)
  refine ⟨final.filled, final.lastFilledCount, ?_, Flood_2_inv_final _ _ _ _ hfi,
    by rw [hfc]; ring⟩
  refine Returns_of_mono
    (Flood_2_Incremental_run_fuel_mono bitdeck 64 init tested sx sy) m ?_
  show Flood_2_Incremental_run _ bitdeck 64 init tested sx sy = _
  unfold Flood_2_Incremental_run
  dsimp only
  have hstart : (⟨(Flood_2_Incremental_Start bitdeck 64 init [] sx sy).1,
      (Flood_2_Incremental_Start bitdeck 64 init [] sx sy).2.1, [], tested,
      (Flood_2_Incremental_Start bitdeck 64 init [] sx sy).2.2⟩ : Run2State) =
      ⟨init, (Flood_2_init bitdeck 64 init sx sy).stack.map SpanFillSIState.fresh, [],
        tested, 0⟩ := by
    unfold Flood_2_Incremental_Start Flood_2_init
    dsimp only
    split_ifs <;> rfl
  rw [hstart]
  have hm' : whileLoop (fun s : Run2State => !s.stack.isEmpty)
      (fun s => some (Flood_2_runStep bitdeck 64 s)) m _ = some final := hm
  unfold Flood_2_runStep Run2State.after at hm'
  rw [hm']
  rfl

/-- C2. Span-fill equivalence: on the 64x64 plane, for every occupancy mask, initial fill
mask and in-range seed, `Flood_2` returns, the loop "`Flood_2_Incremental_Start` on an
empty work stack and an empty auxiliary stack, then `Flood_2_Incremental` until the stack
count is 0" terminates, and both give the same final fill mask and the same count. -/
theorem Flood_2_Incremental_equiv (bitdeck filled tested : Deck) (seedX seedY : Int)
    (hseed : inRange 64 seedX seedY) :
    ∃ r : Deck × Int,
      Returns (fun fuel => Flood_2 fuel bitdeck 64 filled seedX seedY) r ∧
      Returns (fun fuel => Flood_2_Incremental_run fuel bitdeck 64 filled tested seedX seedY)
        r := by
  obtain ⟨F, N, hret, hF, hN⟩ := Flood_2_returns bitdeck filled seedX seedY hseed
  obtain ⟨G, M, hret', hG, hM⟩ :=
    Flood_2_Incremental_returns bitdeck filled tested seedX seedY hseed
  have hFG : G = F := deck_ext_of_iff G F _ hG hF
  subst hFG
  have hNM : M = N := by omega
  subst hNM
  exact ⟨_, hret, hret'⟩

theorem Flood_2_Incremental_equiv_witness :
    inRange 64 3 5 ∧ ∃ r : Deck × Int,
      Returns (fun fuel => Flood_2 fuel (2 ^ 4096 - 1) 64 0 3 5) r ∧
      Returns (fun fuel => Flood_2_Incremental_run fuel (2 ^ 4096 - 1) 64 0 0 3 5) r :=
  ⟨by decide, Flood_2_Incremental_equiv (2 ^ 4096 - 1) 0 0 3 5 (by decide)⟩

/-! ## DFS: what the batch loop computes -/

theorem FillCell_bits (bitdeck f : Deck) (x y : Int) :
    (∀ i, (FillCell bitdeck 64 f x y).1.testBit i = true ↔
      (f.testBit i = true ∨ (FreeAt bitdeck f x y ∧ i = (y * 64 + x).toNat))) ∧
    ((FillCell bitdeck 64 f x y).2 ≥ 0 ↔ FreeAt bitdeck f x y) ∧
    (FreeAt bitdeck f x y → (FillCell bitdeck 64 f x y).2 = y * 64 + x) := by
  by_cases h : FreeAt bitdeck f x y
  · rw [FillCell_free _ _ _ _ h]
    refine ⟨fun i => ?_, ⟨fun _ => h, fun _ => cell_nonneg h.1⟩, fun _ => rfl⟩
    rw [testBit_or_two_pow]
    simp [h]
  · rw [FillCell_not_free _ _ _ _ h]
    refine ⟨fun i => ?_, ⟨fun h' => by norm_num at h', fun h' => absurd h' h⟩,
      fun h' => absurd h' h⟩
    simp [h]

theorem FreeAt_congr (bitdeck f g : Deck) (x y : Int)
    (h : g.testBit (y * 64 + x).toNat = f.testBit (y * 64 + x).toNat) :
    FreeAt bitdeck g x y ↔ FreeAt bitdeck f x y := by
  unfold FreeAt
  rw [h]

/-- The free neighbours of the cell `c`, by coordinates. -/
theorem adj_free_iff (bitdeck f : Deck) (c : Int) (hc : 0 ≤ c ∧ c < 4096) (i : Nat) :
    (adjIdx c.toNat i ∧ freeIdx bitdeck f i) ↔
      ((FreeAt bitdeck f (c % 64) (c / 64 - 1) ∧ i = ((c / 64 - 1) * 64 + c % 64).toNat) ∨
       (FreeAt bitdeck f (c % 64) (c / 64 + 1) ∧ i = ((c / 64 + 1) * 64 + c % 64).toNat) ∨
       (FreeAt bitdeck f (c % 64 - 1) (c / 64) ∧ i = (c / 64 * 64 + (c % 64 - 1)).toNat) ∨
       (FreeAt bitdeck f (c % 64 + 1) (c / 64) ∧ i = (c / 64 * 64 + (c % 64 + 1)).toNat)) := by
  unfold adjIdx freeIdx FreeAt inRange
  constructor
  · rintro ⟨hadj, h4, hb, hf⟩
    rcases hadj with h | h | ⟨h, hm⟩ | ⟨h, hm⟩
    · right; left
      have e : ((c / 64 + 1) * 64 + c % 64).toNat = i := by omega
      rw [e]
      exact ⟨⟨by omega, hb, hf⟩, rfl⟩
    · left
      have e : ((c / 64 - 1) * 64 + c % 64).toNat = i := by omega
      rw [e]
      exact ⟨⟨by omega, hb, hf⟩, rfl⟩
    · right; right; right
      have e : (c / 64 * 64 + (c % 64 + 1)).toNat = i := by omega
      rw [e]
      exact ⟨⟨by omega, hb, hf⟩, rfl⟩
    · right; right; left
      have e : (c / 64 * 64 + (c % 64 - 1)).toNat = i := by omega
      rw [e]
      exact ⟨⟨by omega, hb, hf⟩, rfl⟩
  · rintro (⟨⟨hr, hb, hf⟩, e⟩ | ⟨⟨hr, hb, hf⟩, e⟩ | ⟨⟨hr, hb, hf⟩, e⟩ | ⟨⟨hr, hb, hf⟩, e⟩)
    · rw [← e] at hb hf
      exact ⟨by omega, by omega, hb, hf⟩
    · rw [← e] at hb hf
      exact ⟨by omega, by omega, hb, hf⟩
    · rw [← e] at hb hf
      exact ⟨by omega, by omega, hb, hf⟩
    · rw [← e] at hb hf
      exact ⟨by omega, by omega, hb, hf⟩

/-- Reordering of a five-fold disjunction. -/
theorem or_rotate5 (A B C D R : Prop) : (D ∨ C ∨ B ∨ A ∨ R) ↔ (R ∨ A ∨ B ∨ C ∨ D) := by
  tauto

/-- Membership in a stack after a conditional push. -/
theorem mem_push (s v : Int) (L : List Int) (P : Prop) (cell : Int)
    (hb : v ≥ 0 ↔ P) (hc : P → v = cell) :
    s ∈ (if v ≥ 0 then v :: L else L) ↔ ((P ∧ s = cell) ∨ s ∈ L) := by
  by_cases h : v ≥ 0
  · rw [if_pos h, List.mem_cons, hc (hb.mp h)]
    constructor
    · rintro (e | e)
      · exact Or.inl ⟨hb.mp h, e⟩
      · exact Or.inr e
    · rintro (⟨_, e⟩ | e)
      · exact Or.inl e
      · exact Or.inr e
  · rw [if_neg h]
    constructor
    · exact fun e => Or.inr e
    · rintro (⟨p, _⟩ | e)
      · exact absurd (hb.mpr p) h
      · exact e

/-- One iteration of the loop of `Flood_1` for a popped cell `c` of the plane: it fills
exactly the free neighbours of `c` and pushes exactly those. -/
theorem Flood_1_body_summary (bitdeck f : Deck) (c : Int) (rest : List Int) (t : Int)
    (hc : 0 ≤ c ∧ c < 4096) :
    (∀ i, (Flood_1_body bitdeck 64 ⟨f, c :: rest, t⟩).filled.testBit i = true ↔
      (f.testBit i = true ∨ (adjIdx c.toNat i ∧ freeIdx bitdeck f i))) ∧
    (∀ s, s ∈ (Flood_1_body bitdeck 64 ⟨f, c :: rest, t⟩).stack ↔
      (s ∈ rest ∨ (0 ≤ s ∧ adjIdx c.toNat s.toNat ∧ freeIdx bitdeck f s.toNat))) ∧
    (Flood_1_body bitdeck 64 ⟨f, c :: rest, t⟩).totalFilled = t + 1 := by
  have hy : c.tdiv 64 = c / 64 := Int.tdiv_eq_ediv hc.1 (by norm_num)
  have hx : c.tmod 64 = c % 64 := Int.tmod_eq_emod hc.1 (by norm_num)
  simp only [Flood_1_body, hy, hx]
  obtain ⟨a0, b0, c0⟩ := FillCell_bits bitdeck f (c % 64) (c / 64 - 1)
  generalize FillCell bitdeck 64 f (c % 64) (c / 64 - 1) = r0 at a0 b0 c0 ⊢
  obtain ⟨a1, b1, c1⟩ := FillCell_bits bitdeck r0.1 (c % 64) (c / 64 + 1)
  generalize FillCell bitdeck 64 r0.1 (c % 64) (c / 64 + 1) = r1 at a1 b1 c1 ⊢
  obtain ⟨a2, b2, c2⟩ := FillCell_bits bitdeck r1.1 (c % 64 - 1) (c / 64)
  generalize FillCell bitdeck 64 r1.1 (c % 64 - 1) (c / 64) = r2 at a2 b2 c2 ⊢
  obtain ⟨a3, b3, c3⟩ := FillCell_bits bitdeck r2.1 (c % 64 + 1) (c / 64)
  generalize FillCell bitdeck 64 r2.1 (c % 64 + 1) (c / 64) = r3 at a3 b3 c3 ⊢
  -- the four cells are distinct, so each test sees the cell as it was before the iteration
  have e1 : FreeAt bitdeck r0.1 (c % 64) (c / 64 + 1) ↔
      FreeAt bitdeck f (c % 64) (c / 64 + 1) := by
    constructor
    · rintro ⟨hr, hb, hf⟩
      refine ⟨hr, hb, testBit_false_of_not_true (fun hcon => ?_)⟩
      have := (a0 _).mpr (Or.inl hcon)
      rw [hf] at this
      exact Bool.noConfusion this
    · rintro ⟨hr, hb, hf⟩
      refine ⟨hr, hb, testBit_false_of_not_true (fun hcon => ?_)⟩
      rcases (a0 _).mp hcon with h | ⟨h, e⟩
      · rw [hf] at h; exact Bool.noConfusion h
      · have := h.1
        unfold inRange at this hr
        omega
  have a1' : ∀ i, r1.1.testBit i = true ↔ (f.testBit i = true ∨
      (FreeAt bitdeck f (c % 64) (c / 64 - 1) ∧ i = ((c / 64 - 1) * 64 + c % 64).toNat) ∨
      (FreeAt bitdeck f (c % 64) (c / 64 + 1) ∧ i = ((c / 64 + 1) * 64 + c % 64).toNat)) := by
    intro i
    rw [a1 i, a0 i, e1, or_assoc]
  have e2 : FreeAt bitdeck r1.1 (c % 64 - 1) (c / 64) ↔
      FreeAt bitdeck f (c % 64 - 1) (c / 64) := by
    constructor
    · rintro ⟨hr, hb, hf⟩
      refine ⟨hr, hb, testBit_false_of_not_true (fun hcon => ?_)⟩
      have := (a1' _).mpr (Or.inl hcon)
      rw [hf] at this
      exact Bool.noConfusion this
    · rintro ⟨hr, hb, hf⟩
      refine ⟨hr, hb, testBit_false_of_not_true (fun hcon => ?_)⟩
      rcases (a1' _).mp hcon with h | ⟨h, e⟩ | ⟨h, e⟩
      · rw [hf] at h; exact Bool.noConfusion h
      · have := h.1
        unfold inRange at this hr
        omega
      · have := h.1
        unfold inRange at this hr
        omega
  have a2' : ∀ i, r2.1.testBit i = true ↔ (f.testBit i = true ∨
      (FreeAt bitdeck f (c % 64) (c / 64 - 1) ∧ i = ((c / 64 - 1) * 64 + c % 64).toNat) ∨
      (FreeAt bitdeck f (c % 64) (c / 64 + 1) ∧ i = ((c / 64 + 1) * 64 + c % 64).toNat) ∨
      (FreeAt bitdeck f (c % 64 - 1) (c / 64) ∧ i = (c / 64 * 64 + (c % 64 - 1)).toNat)) := by
    intro i
    rw [a2 i, a1' i, e2, or_assoc, or_assoc]
  have e3 : FreeAt bitdeck r2.1 (c % 64 + 1) (c / 64) ↔
      FreeAt bitdeck f (c % 64 + 1) (c / 64) := by
    constructor
    · rintro ⟨hr, hb, hf⟩
      refine ⟨hr, hb, testBit_false_of_not_true (fun hcon => ?_)⟩
      have := (a2' _).mpr (Or.inl hcon)
      rw [hf] at this
      exact Bool.noConfusion this
    · rintro ⟨hr, hb, hf⟩
      refine ⟨hr, hb, testBit_false_of_not_true (fun hcon => ?_)⟩
      rcases (a2' _).mp hcon with h | ⟨h, e⟩ | ⟨h, e⟩ | ⟨h, e⟩
      · rw [hf] at h; exact Bool.noConfusion h
      · have := h.1
        unfold inRange at this hr
        omega
      · have := h.1
        unfold inRange at this hr
        omega
      · have := h.1
        unfold inRange at this hr
        omega
  rw [e1] at b1 c1
  rw [e2] at b2 c2
  rw [e3] at b3 c3
  refine ⟨fun i => ?_, fun s => ?_, trivial⟩
  · rw [adj_free_iff bitdeck f c hc i, a3 i, a2' i, e3, or_assoc, or_assoc, or_assoc]
  · have key : (0 ≤ s ∧ adjIdx c.toNat s.toNat ∧ freeIdx bitdeck f s.toNat) ↔
        ((FreeAt bitdeck f (c % 64) (c / 64 - 1) ∧ s = (c / 64 - 1) * 64 + c % 64) ∨
         (FreeAt bitdeck f (c % 64) (c / 64 + 1) ∧ s = (c / 64 + 1) * 64 + c % 64) ∨
         (FreeAt bitdeck f (c % 64 - 1) (c / 64) ∧ s = c / 64 * 64 + (c % 64 - 1)) ∨
         (FreeAt bitdeck f (c % 64 + 1) (c / 64) ∧ s = c / 64 * 64 + (c % 64 + 1))) := by
      rw [adj_free_iff bitdeck f c hc s.toNat]
      constructor
      · rintro ⟨h0, h | h | h | h⟩
        · have := h.1.1; unfold inRange at this
          exact Or.inl ⟨h.1, by omega⟩
        · have := h.1.1; unfold inRange at this
          exact Or.inr (Or.inl ⟨h.1, by omega⟩)
        · have := h.1.1; unfold inRange at this
          exact Or.inr (Or.inr (Or.inl ⟨h.1, by omega⟩))
        · have := h.1.1; unfold inRange at this
          exact Or.inr (Or.inr (Or.inr ⟨h.1, by omega⟩))
      · rintro (h | h | h | h)
        · have := h.1.1; unfold inRange at this
          exact ⟨by omega, Or.inl ⟨h.1, by omega⟩⟩
        · have := h.1.1; unfold inRange at this
          exact ⟨by omega, Or.inr (Or.inl ⟨h.1, by omega⟩)⟩
        · have := h.1.1; unfold inRange at this
          exact ⟨by omega, Or.inr (Or.inr (Or.inl ⟨h.1, by omega⟩))⟩
        · have := h.1.1; unfold inRange at this
          exact ⟨by omega, Or.inr (Or.inr (Or.inr ⟨h.1, by omega⟩))⟩
    rw [key, mem_push s r3.2 _ _ _ b3 c3, mem_push s r2.2 _ _ _ b2 c2,
      mem_push s r1.2 _ _ _ b1 c1, mem_push s r0.2 _ _ _ b0 c0]
    exact or_rotate5 _ _ _ _ _

/-- One iteration of the loop of `Flood_1` adds as many cells to the mask as to the stack. -/
theorem Flood_1_body_count (bitdeck f : Deck) (c : Int) (rest : List Int) (t : Int) :
    popc (Flood_1_body bitdeck 64 ⟨f, c :: rest, t⟩).filled + rest.length =
      popc f + (Flood_1_body bitdeck 64 ⟨f, c :: rest, t⟩).stack.length := by
  simp only [Flood_1_body]
  rw [popc_FillCell, popc_FillCell, popc_FillCell, popc_FillCell]
  generalize FillCell bitdeck 64 f (c.tmod 64) (c.tdiv 64 - 1) = r0
  generalize FillCell bitdeck 64 r0.1 (c.tmod 64) (c.tdiv 64 + 1) = r1
  generalize FillCell bitdeck 64 r1.1 (c.tmod 64 - 1) (c.tdiv 64) = r2
  generalize FillCell bitdeck 64 r2.1 (c.tmod 64 + 1) (c.tdiv 64) = r3
  by_cases h0 : r0.2 ≥ 0 <;> by_cases h1 : r1.2 ≥ 0 <;> by_cases h2 : r2.2 ≥ 0 <;>
    by_cases h3 : r3.2 ≥ 0 <;>
    simp only [h0, h1, h2, h3, if_true, if_false, List.length_cons] <;> omega

/-- One iteration of the loop of `Flood_1` keeps its invariant. -/
theorem Flood_1_inv_step (bitdeck init : Deck) (seed : Nat) (f : Deck) (c : Int)
    (rest : List Int) (t : Int) (hinv : Flood_1_inv bitdeck init seed ⟨f, c :: rest, t⟩) :
    Flood_1_inv bitdeck init seed (Flood_1_body bitdeck 64 ⟨f, c :: rest, t⟩) := by
  obtain ⟨hc0, hc1, hcf, hcr⟩ := hinv.stk c (List.mem_cons_self _ _)
  obtain ⟨hF, hS, hT⟩ := Flood_1_body_summary bitdeck f c rest t ⟨hc0, hc1⟩
  have hcnt := Flood_1_body_count bitdeck f c rest t
  have hmono := hinv.mono
  have hsound := hinv.sound
  have hstk := hinv.stk
  have hclosed := hinv.closed
  have hseeded := hinv.seeded
  have hcount := hinv.count
  dsimp only at hmono hsound hstk hclosed hseeded hcount
  generalize Flood_1_body bitdeck 64 ⟨f, c :: rest, t⟩ = b at hF hS hT hcnt ⊢
  have hsub : ∀ i, f.testBit i = true → b.filled.testBit i = true :=
    fun i hi => (hF i).mpr (Or.inl hi)
  have hnew : ∀ i, adjIdx c.toNat i → freeIdx bitdeck f i → ReachIdx bitdeck init seed i :=
    fun i ha hf => ReachIdx.step _ _ hcr ha (freeIdx_sub hmono hf)
  constructor
  · exact fun i hi => hsub i (hmono i hi)
  · intro i hi h0
    rcases (hF i).mp hi with h | ⟨ha, hf⟩
    · exact hsound i h h0
    · exact hnew i ha hf
  · intro s hs
    rcases (hS s).mp hs with h | ⟨h0, ha, hf⟩
    · obtain ⟨a, b', c', d⟩ := hstk s (List.mem_cons_of_mem _ h)
      exact ⟨a, b', hsub _ c', d⟩
    · refine ⟨h0, ?_, (hF _).mpr (Or.inr ⟨ha, hf⟩), hnew _ ha hf⟩
      have := hf.1
      omega
  · intro i j hi h0 hadj hfree
    rcases (hF i).mp hi with h | ⟨ha, hf⟩
    · rcases hclosed i j h h0 hadj hfree with h' | h'
      · exact Or.inl (hsub j h')
      · rcases List.mem_cons.mp h' with e | e
        · by_cases hj : f.testBit j = true
          · exact Or.inl (hsub j hj)
          · left
            refine (hF j).mpr (Or.inr ⟨?_, hfree.1, hfree.2.1, testBit_false_of_not_true hj⟩)
            rw [← e]
            exact hadj
        · exact Or.inr ((hS _).mpr (Or.inl e))
    · right
      exact (hS _).mpr (Or.inr ⟨by omega, ha, hf⟩)
  · exact fun h => hsub _ (hseeded h)
  · rw [hT]
    simp only [List.length_cons] at hcount
    push_cast at hcount
    have : (popc b.filled : Int) + rest.length = popc f + b.stack.length := by exact_mod_cast hcnt
    omega

/-- With an empty stack, the invariant of `Flood_1` gives the final mask: the initial mask
plus the cells reached from the seed. -/
theorem Flood_1_inv_final (bitdeck init : Deck) (seed : Nat) (st : Flood1State)
    (hinv : Flood_1_inv bitdeck init seed st) (he : st.stack = []) :
    (∀ i, st.filled.testBit i = true ↔ (init.testBit i = true ∨ ReachIdx bitdeck init seed i)) ∧
    (popc st.filled : Int) = popc init + st.totalFilled := by
  have hall : ∀ i, ReachIdx bitdeck init seed i → st.filled.testBit i = true := by
    intro i hi
    induction hi with
    | seed h => exact hinv.seeded h
    | step i j hi hadj hfree ih =>
      rcases hinv.closed i j ih (ReachIdx_free hi).2.2 hadj hfree with h | h
      · exact h
      · rw [he] at h
        exact absurd h (List.not_mem_nil _)
  refine ⟨fun i => ⟨fun h => ?_, fun h => ?_⟩, ?_⟩
  · by_cases h0 : init.testBit i = true
    · exact Or.inl h0
    · exact Or.inr (hinv.sound i h (testBit_false_of_not_true h0))
  · rcases h with h | h
    · exact hinv.mono i h
    · exact hall i h
  · have := hinv.count
    rw [he] at this
    simpa using this

/-- The state in which `Flood_1` enters its loop satisfies the invariant when the seed is
free. -/
theorem Flood_1_inv_init (bitdeck init : Deck) (sx sy : Int) (h : FreeAt bitdeck init sx sy) :
    Flood_1_inv bitdeck init (sy * 64 + sx).toNat (Flood_1_init bitdeck 64 init sx sy) := by
  have hnn : sy * 64 + sx ≥ 0 := cell_nonneg h.1
  have hlt : (sy * 64 + sx).toNat < 4096 := cell_lt h.1
  have hfree := FreeAt_idx h
  unfold Flood_1_init
  rw [FillCell_free _ _ _ _ h]
  simp only [hnn, if_true]
  constructor
  · intro i hi
    rw [testBit_or_two_pow, hi]
    rfl
  · intro i hi h0
    rw [testBit_or_two_pow, h0] at hi
    have : i = (sy * 64 + sx).toNat := by simpa using hi
    rw [this]
    exact ReachIdx.seed hfree
  · intro c hc
    have : c = sy * 64 + sx := by simpa using hc
    rw [this]
    refine ⟨hnn, by omega, ?_, ReachIdx.seed hfree⟩
    rw [testBit_or_two_pow]
    simp
  · intro i j hi h0 _ _
    rw [testBit_or_two_pow, h0] at hi
    have : i = (sy * 64 + sx).toNat := by simpa using hi
    right
    rw [this]
    simp only [List.mem_singleton]
    omega
  · intro _
    rw [testBit_or_two_pow]
    simp
  · rw [popc_set _ _ hlt h.2.2]
    simp

/-- The batch DFS: it terminates, the final mask is the initial mask plus the cells reached
from the seed (none when the seed is off the plane), and the returned count is the number
of cells added. -/
theorem Flood_1_returns (bitdeck init : Deck) (sx sy : Int) :
    ∃ (F : Deck) (N : Int),
      Returns (fun fuel => Flood_1 fuel bitdeck 64 init sx sy) (F, N) ∧
      (∀ i, F.testBit i = true ↔ (init.testBit i = true ∨
        (inRange 64 sx sy ∧ ReachIdx bitdeck init (sy * 64 + sx).toNat i))) ∧
      (popc F : Int) = popc init + N := by
  by_cases h : FreeAt bitdeck init sx sy
  · obtain ⟨r, hr⟩ := Flood_1_loop_terminates bitdeck (Flood_1_init bitdeck 64 init sx sy)
    obtain ⟨hi, hc⟩ := whileLoop_inv (fun s : Flood1State => !s.stack.isEmpty)
      (fun s => some (Flood_1_body bitdeck 64 s))
      (Flood_1_inv bitdeck init (sy * 64 + sx).toNat)
      (by
        intro s s' hs hc hb
        obtain ⟨f, st, t⟩ := s
        cases st with
        | nil => simp at hc
        | cons c rest =>
          have : s' = Flood_1_body bitdeck 64 ⟨f, c :: rest, t⟩ := by
            simpa using hb.symm
          rw [this]
          exact Flood_1_inv_step bitdeck init _ f c rest t hs)
      _ _ r (Flood_1_inv_init bitdeck init sx sy h) hr
    have he : r.stack = [] := by
      cases hst : r.stack with
      | nil => rfl
      | cons a l => rw [hst] at hc; simp at hc
    obtain ⟨hF, hN⟩ := Flood_1_inv_final bitdeck init _ r hi he
    refine ⟨r.filled, r.totalFilled, ?_, fun i => ?_, hN⟩
    · refine Returns_of_mono (Flood_1_fuel_mono bitdeck 64 init sx sy)
        (2 * (4096 - popc (Flood_1_init bitdeck 64 init sx sy).filled) +
          (Flood_1_init bitdeck 64 init sx sy).stack.length) ?_
      show Flood_1 _ bitdeck 64 init sx sy = _
      unfold Flood_1
      rw [hr]
      rfl
    · rw [hF i]
      constructor
      · rintro (a | a)
        · exact Or.inl a
        · exact Or.inr ⟨h.1, a⟩
      · rintro (a | a)
        · exact Or.inl a
        · exact Or.inr a.2
  · refine ⟨init, 0, ?_, fun i => ?_, by simp⟩
    · refine Returns_of_mono (Flood_1_fuel_mono bitdeck 64 init sx sy) 0 ?_
      show Flood_1 0 bitdeck 64 init sx sy = _
      unfold Flood_1 Flood_1_init
      rw [FillCell_not_free _ _ _ _ h, whileLoop_done _ _ _ _ (by simp)]
      simp
    · constructor
      · exact fun a => Or.inl a
      · rintro (a | ⟨a, b⟩)
        · exact a
        · have hf := ReachIdx_seed_free b
          exact absurd ⟨a, hf.2.1, hf.2.2⟩ h

/-! ## Simultaneous span fill: what a simulscan loop computes -/

/-- The bits of the left-shifted test word of `Flood_3`. -/
theorem shiftLeft_and_testBit (t b x : Nat) :
    ((((t <<< 1) % 2 ^ 64) &&& b).testBit x = true) ↔
      (b.testBit x = true ∧ ∃ y, (x = y + 1 ∧ x < 64) ∧ t.testBit y = true) := by
  rw [Nat.testBit_and, Nat.testBit_mod_two_pow, Nat.testBit_shiftLeft]
  constructor
  · intro h
    simp only [Bool.and_eq_true, decide_eq_true_eq, ge_iff_le] at h
    exact ⟨h.2, x - 1, ⟨by omega, h.1.1⟩, h.1.2.2⟩
  · rintro ⟨hb, y, ⟨e, hx⟩, ht⟩
    have : x - 1 = y := by omega
    simp only [Bool.and_eq_true, decide_eq_true_eq, ge_iff_le]
    rw [this]
    exact ⟨⟨hx, by omega, ht⟩, hb⟩

/-- The bits of the right-shifted test word of `Flood_3`. -/
theorem shiftRight_and_testBit (t b x : Nat) :
    (((t >>> 1) &&& b).testBit x = true) ↔
      (b.testBit x = true ∧ ∃ y, y = x + 1 ∧ t.testBit y = true) := by
  rw [Nat.testBit_and, Nat.testBit_shiftRight]
  constructor
  · intro h
    simp only [Bool.and_eq_true] at h
    exact ⟨h.2, x + 1, rfl, by rw [Nat.add_comm]; exact h.1⟩
  · rintro ⟨hb, y, e, ht⟩
    simp only [Bool.and_eq_true]
    rw [e, Nat.add_comm] at ht
    exact ⟨ht, hb⟩

/-- A simulscan loop only sets bits of a set `Q` that holds the start word and the first
test word and is closed under the steps of the scan. -/
theorem simulscan_sound (sh : Nat → Nat) (b : Nat) (E : Nat → Nat → Prop)
    (hsh : ∀ t x, (sh t).testBit x = true ↔
      (b.testBit x = true ∧ ∃ y, E y x ∧ t.testBit y = true))
    (Q : Nat → Prop) (hQ : ∀ y x, Q y → E y x → b.testBit x = true → Q x)
    (n : Nat) (s l : SimulScan)
    (h : whileLoop (fun l : SimulScan => decide (l.test ≠ 0) && decide (l.fillRowPrev ≠ l.fillRow))
      (fun l => some ⟨l.fillRow ||| l.test, sh l.test, l.fillRow⟩) n s = some l)
    (hF : ∀ x, s.fillRow.testBit x = true → Q x) (hT : ∀ x, s.test.testBit x = true → Q x) :
    ∀ x, l.fillRow.testBit x = true → Q x := by
  have := (whileLoop_inv _ _
    (fun t : SimulScan => (∀ x, t.fillRow.testBit x = true → Q x) ∧
      (∀ x, t.test.testBit x = true → Q x))
    (fun t t' ht _ hb => by
      cases Option.some.inj hb
      refine ⟨fun x hx => ?_, fun x hx => ?_⟩
      · rw [Nat.testBit_or, Bool.or_eq_true] at hx
        rcases hx with hx | hx
        · exact ht.1 x hx
        · exact ht.2 x hx
      · obtain ⟨hb, y, hE, hy⟩ := (hsh _ _).mp hx
        exact hQ y x (ht.2 y hy) hE hb)
    n s l ⟨hF, hT⟩ h).1
  exact this.1

/-- A simulscan loop started with the first test word of its start word ends with a word
that is closed under the steps of the scan. -/
theorem simulscan_closed (sh : Nat → Nat) (b : Nat) (E : Nat → Nat → Prop)
    (hsh : ∀ t x, (sh t).testBit x = true ↔
      (b.testBit x = true ∧ ∃ y, E y x ∧ t.testBit y = true))
    (n : Nat) (f0 : Nat) (l : SimulScan)
    (h : whileLoop (fun l : SimulScan => decide (l.test ≠ 0) && decide (l.fillRowPrev ≠ l.fillRow))
      (fun l => some ⟨l.fillRow ||| l.test, sh l.test, l.fillRow⟩) n ⟨f0, sh f0, 0⟩ = some l) :
    ∀ y x, l.fillRow.testBit y = true → E y x → b.testBit x = true →
      l.fillRow.testBit x = true := by
  obtain ⟨⟨h1, h2⟩, hc⟩ := whileLoop_inv _ _
    (fun t : SimulScan =>
      (∀ y x, t.fillRow.testBit y = true → E y x → b.testBit x = true →
        (t.fillRow.testBit x = true ∨ t.test.testBit x = true)) ∧
      (t.fillRowPrev = t.fillRow → ∀ x, t.test.testBit x = true → t.fillRow.testBit x = true))
    (fun t t' ht _ hb => by
      cases Option.some.inj hb
      obtain ⟨c1, _⟩ := ht
      dsimp only
      refine ⟨fun y x hy hE hbx => ?_, fun he x hx => ?_⟩
      · rw [Nat.testBit_or, Bool.or_eq_true] at hy
        rcases hy with hy | hy
        · left
          rw [Nat.testBit_or, Bool.or_eq_true]
          exact c1 y x hy hE hbx
        · right
          exact (hsh _ _).mpr ⟨hbx, y, hE, hy⟩
      · obtain ⟨hbx, y, hE, hy⟩ := (hsh _ _).mp hx
        have hy' : t.fillRow.testBit y = true := by
          rw [he, Nat.testBit_or, hy]
          simp
        rw [Nat.testBit_or, Bool.or_eq_true]
        exact c1 y x hy' hE hbx)
    n ⟨f0, sh f0, 0⟩ l
    ⟨fun y x hy hE hbx => Or.inr ((hsh _ _).mpr ⟨hbx, y, hE, hy⟩),
      fun he x hx => by
        dsimp only at he hx
        obtain ⟨_, y, _, hy⟩ := (hsh _ _).mp hx
        rw [← he] at hy
        simp at hy⟩ h
  have hsub : ∀ x, l.test.testBit x = true → l.fillRow.testBit x = true := by
    by_cases ht : l.test = 0
    · intro x hx
      rw [ht] at hx
      simp at hx
    · by_cases hp : l.fillRowPrev = l.fillRow
      · exact h2 hp
      · simp [ht, hp] at hc
  intro y x hy hE hbx
  rcases h1 y x hy hE hbx with h' | h'
  · exact h'
  · exact hsub x h'

/-- What the two simulscan loops of one iteration of `Flood_3` compute for the row word
`F0` under the occupancy row `B`: a word `R` of 64 bits that holds `F0`, is closed to the
left and to the right under `B`, and lies in every set that holds `F0` and is so closed. -/
theorem Flood_3_row_scan (n B F0 : Nat) (hF0 : F0 < 2 ^ 64) (hB : B < 2 ^ 64)
    (l rr : SimulScan)
    (hl : Flood_3_scanLeft n B ⟨F0, ((F0 <<< 1) % 2 ^ 64) &&& B, 0⟩ = some l)
    (hrr : Flood_3_scanRight n B ⟨l.fillRow, (l.fillRow >>> 1) &&& B, 0⟩ = some rr) :
    RowScan B F0 rr.fillRow := by
  unfold RowScan
  unfold Flood_3_scanLeft at hl
  unfold Flood_3_scanRight at hrr
  have hshL := fun t x => shiftLeft_and_testBit t B x
  have hshR := fun t x => shiftRight_and_testBit t B x
  have hl1 : l.fillRow < 2 ^ 64 :=
    Flood_3_scan_lt (fun t => ((t <<< 1) % 2 ^ 64) &&& B) (fun _ => and_lt_of_lt hB) n
      ⟨F0, ((F0 <<< 1) % 2 ^ 64) &&& B, 0⟩ l hF0 (and_lt_of_lt hB) hl
  have hr1 : rr.fillRow < 2 ^ 64 :=
    Flood_3_scan_lt (fun t => (t >>> 1) &&& B) (fun _ => and_lt_of_lt hB) n
      ⟨l.fillRow, (l.fillRow >>> 1) &&& B, 0⟩ rr hl1 (and_lt_of_lt hB) hrr
  have mL := Flood_3_scan_mono (fun t => ((t <<< 1) % 2 ^ 64) &&& B) n
    ⟨F0, ((F0 <<< 1) % 2 ^ 64) &&& B, 0⟩ l hl
  have mR := Flood_3_scan_mono (fun t => (t >>> 1) &&& B) n
    ⟨l.fillRow, (l.fillRow >>> 1) &&& B, 0⟩ rr hrr
  dsimp only at mL mR
  have cL := simulscan_closed (fun t => ((t <<< 1) % 2 ^ 64) &&& B) B
    (fun y x => x = y + 1 ∧ x < 64) hshL n F0 l hl
  have cR := simulscan_closed (fun t => (t >>> 1) &&& B) B
    (fun y x => y = x + 1) hshR n l.fillRow rr hrr
  have cR' : ∀ x, rr.fillRow.testBit (x + 1) = true → B.testBit x = true →
      rr.fillRow.testBit x = true := fun x hx hb => cR (x + 1) x hx rfl hb
  have sR := fun Q hQ => simulscan_sound (fun t => (t >>> 1) &&& B) B
    (fun y x => y = x + 1) hshR Q hQ n ⟨l.fillRow, (l.fillRow >>> 1) &&& B, 0⟩ rr hrr
  have sL := fun Q hQ => simulscan_sound (fun t => ((t <<< 1) % 2 ^ 64) &&& B) B
    (fun y x => x = y + 1 ∧ x < 64) hshL Q hQ n ⟨F0, ((F0 <<< 1) % 2 ^ 64) &&& B, 0⟩ l hl
  dsimp only at sR sL
  refine ⟨hr1, fun x hx => mR x (mL x hx), ?_, cR', ?_⟩
  · intro x hx
    have := sR (fun x => rr.fillRow.testBit x = true ∧
        (x + 1 < 64 → B.testBit (x + 1) = true → rr.fillRow.testBit (x + 1) = true))
      (fun y x hy hE hb => by
        subst hE
        exact ⟨cR' x hy.1 hb, fun _ _ => hy.1⟩)
      (fun x hx => ⟨mR x hx, fun h1 h2 => mR _ (cL x (x + 1) hx ⟨rfl, h1⟩ h2)⟩)
      (fun x hx => by
        obtain ⟨hb, y, e, hy⟩ := (hshR _ _).mp hx
        subst e
        exact ⟨cR' x (mR _ hy) hb, fun _ _ => mR _ hy⟩)
      x hx
    exact this.2
  · intro Q q0 qL qR x hx
    have hLQ : ∀ x, l.fillRow.testBit x = true → Q x :=
      sL Q (fun y x hy hE hb => by
          obtain ⟨e, h64⟩ := hE
          subst e
          exact qL y hy h64 hb)
        q0
        (fun x hx => by
          obtain ⟨hb, y, ⟨e, h64⟩, hy⟩ := (hshL _ _).mp hx
          subst e
          exact qL y (q0 y hy) h64 hb)
    exact sR Q (fun y x hy hE hb => by
        subst hE
        exact qR x hy hb)
      hLQ
      (fun x hx => by
        obtain ⟨hb, y, e, hy⟩ := (hshR _ _).mp hx
        subst e
        exact qR x (hLQ _ hy) hb)
      x hx

/-- What `Flood_3_bitfill` does to the bits of the mask and to the stack. -/
theorem Flood_3_bitfill_bits (bitdeck : Deck) (R : Nat) (nb : Int) (s : Flood3State) :
    (∀ i, (Flood_3_bitfill bitdeck R nb s).filled.testBit i = true ↔
      (s.filled.testBit i = true ∨
        (i / 64 = nb.toNat ∧ R.testBit (i % 64) = true ∧ bitdeck.testBit i = true))) ∧
    (∀ q ∈ s.stack, q ∈ (Flood_3_bitfill bitdeck R nb s).stack) ∧
    (∀ i, (Flood_3_bitfill bitdeck R nb s).filled.testBit i = true →
      s.filled.testBit i = false → nb ∈ (Flood_3_bitfill bitdeck R nb s).stack) := by
  have key : ∀ i, (setRow s.filled nb.toNat
      (rowAt s.filled nb.toNat ||| R &&& rowAt bitdeck nb.toNat)).testBit i = true ↔
      (s.filled.testBit i = true ∨
        (i / 64 = nb.toNat ∧ R.testBit (i % 64) = true ∧ bitdeck.testBit i = true)) := by
    intro i
    rw [setRow_testBit]
    by_cases hi : 64 * nb.toNat ≤ i ∧ i < 64 * nb.toNat + 64
    · rw [if_pos hi, Nat.testBit_or, Nat.testBit_and, rowAt_testBit, rowAt_testBit]
      have e1 : 64 * nb.toNat + (i - 64 * nb.toNat) = i := by omega
      have e2 : i - 64 * nb.toNat = i % 64 := by omega
      have e3 : i / 64 = nb.toNat := by omega
      have e4 : i % 64 < 64 := by omega
      rw [e1, e2]
      simp only [e4, decide_True, Bool.true_and, Bool.or_eq_true, Bool.and_eq_true, e3,
        true_and]
    · rw [if_neg hi]
      have e3 : ¬ i / 64 = nb.toNat := by omega
      simp only [e3, false_and, or_false]
  unfold Flood_3_bitfill
  dsimp only
  by_cases hch : rowAt s.filled nb.toNat =
      rowAt s.filled nb.toNat ||| R &&& rowAt bitdeck nb.toNat
  · rw [if_neg (not_not.mpr hch)]
    have e : setRow s.filled nb.toNat
        (rowAt s.filled nb.toNat ||| R &&& rowAt bitdeck nb.toNat) = s.filled := by
      rw [← hch, setRow_rowAt]
    rw [e] at key
    refine ⟨key, fun q hq => hq, fun i hi h0 => ?_⟩
    rw [hi] at h0
    exact Bool.noConfusion h0
  · rw [if_pos hch]
    exact ⟨key, fun q hq => List.mem_cons_of_mem _ hq, fun i _ _ => List.mem_cons_self _ _⟩

/-- One iteration of the loop of `Flood_3` on the 64x64 plane, bit by bit: the popped row
gets a horizontal fill of itself, the rows above and below get the passable cells under it,
every stacked row stays stacked, and every new cell outside the popped row has its row
stacked. -/
theorem Flood_3_body_bits (fuel : Nat) (hfuel : 129 ≤ fuel) (bitdeck filled : Deck) (r : Int)
    (stack : List Int) (nf : Int) (hr : 0 ≤ r ∧ r < 64) :
    ∃ (b' : Flood3State) (R : Nat),
      Flood_3_body fuel bitdeck 64 ⟨filled, r :: stack, nf⟩ = some b' ∧
      RowScan (rowAt bitdeck r.toNat) (rowAt filled r.toNat) R ∧
      (∀ i, b'.filled.testBit i = true ↔
        (filled.testBit i = true ∨ (i / 64 = r.toNat ∧ R.testBit (i % 64) = true) ∨
          ((i / 64 + 1 = r.toNat ∨ (i / 64 = r.toNat + 1 ∧ i / 64 < 64)) ∧
            R.testBit (i % 64) = true ∧ bitdeck.testBit i = true))) ∧
      (∀ q ∈ stack, q ∈ b'.stack) ∧
      (∀ i, b'.filled.testBit i = true → filled.testBit i = false →
        i / 64 = r.toNat ∨ ((i / 64 : Nat) : Int) ∈ b'.stack) := by
  obtain ⟨l, rr, hl, hrr, hb⟩ := Flood_3_body_eq fuel hfuel bitdeck 64 filled r stack nf
  have hscan := Flood_3_row_scan fuel _ _ (rowAt_lt filled r.toNat) (rowAt_lt bitdeck r.toNat)
    l rr hl hrr
  refine ⟨_, rr.fillRow, hb, hscan, ?_⟩
  clear hb hl hrr
  obtain ⟨_, hsub, _, _, _⟩ := hscan
  -- the popped row
  have b1 : ∀ i, (setRow filled r.toNat rr.fillRow).testBit i = true ↔
      (filled.testBit i = true ∨ (i / 64 = r.toNat ∧ rr.fillRow.testBit (i % 64) = true)) := by
    intro i
    rw [setRow_testBit]
    by_cases hi : 64 * r.toNat ≤ i ∧ i < 64 * r.toNat + 64
    · rw [if_pos hi]
      have e2 : i - 64 * r.toNat = i % 64 := by omega
      have e3 : i / 64 = r.toNat := by omega
      rw [e2]
      constructor
      · exact fun h => Or.inr ⟨e3, h⟩
      · rintro (h | h)
        · apply hsub
          rw [rowAt_testBit]
          have e1 : 64 * r.toNat + i % 64 = i := by omega
          have e4 : i % 64 < 64 := by omega
          simp [e1, e4, h]
        · exact h.2
    · rw [if_neg hi]
      have e3 : ¬ i / 64 = r.toNat := by omega
      simp only [e3, false_and, or_false]
  generalize hs1 : (⟨setRow filled r.toNat rr.fillRow, stack,
    nf + CountBits (rr.fillRow ^^^ rowAt filled r.toNat)⟩ : Flood3State) = s1
  have c1 : ∀ i, s1.filled.testBit i = true ↔
      (filled.testBit i = true ∨ (i / 64 = r.toNat ∧ rr.fillRow.testBit (i % 64) = true)) := by
    rw [← hs1]; exact b1
  have d1 : s1.stack = stack := by rw [← hs1]
  clear hs1 b1
  -- the row above
  have up : ∃ s2 : Flood3State, (if r > 0 then Flood_3_bitfill bitdeck rr.fillRow (r - 1) s1
      else s1) = s2 ∧
      (∀ i, s2.filled.testBit i = true ↔ (s1.filled.testBit i = true ∨
        (i / 64 + 1 = r.toNat ∧ rr.fillRow.testBit (i % 64) = true ∧
          bitdeck.testBit i = true))) ∧
      (∀ q ∈ s1.stack, q ∈ s2.stack) ∧
      (∀ i, s2.filled.testBit i = true → s1.filled.testBit i = false →
        ((i / 64 : Nat) : Int) ∈ s2.stack) := by
    refine ⟨_, rfl, ?_⟩
    by_cases h : r > 0
    · rw [if_pos h]
      obtain ⟨k1, k2, k3⟩ := Flood_3_bitfill_bits bitdeck rr.fillRow (r - 1) s1
      refine ⟨fun i => ?_, k2, fun i hi h0 => ?_⟩
      · rw [k1 i]
        have : i / 64 = (r - 1).toNat ↔ i / 64 + 1 = r.toNat := by omega
        rw [this]
      · have hm := k3 i hi h0
        rcases (k1 i).mp hi with h' | h'
        · rw [h0] at h'; exact Bool.noConfusion h'
        · have : ((i / 64 : Nat) : Int) = r - 1 := by omega
          rw [this]
          exact hm
    · rw [if_neg h]
      refine ⟨fun i => ?_, fun q hq => hq, fun i hi h0 => ?_⟩
      · have : ¬ i / 64 + 1 = r.toNat := by omega
        simp only [this, false_and, or_false]
      · rw [h0] at hi; exact Bool.noConfusion hi
  obtain ⟨s2, hs2, c2, d2, e2⟩ := up
  rw [hs2]
  clear hs2
  -- the row below
  have down : ∃ s3 : Flood3State, (if r < 64 - 1 then
        Flood_3_bitfill bitdeck rr.fillRow (r + 1) s2 else s2) = s3 ∧
      (∀ i, s3.filled.testBit i = true ↔ (s2.filled.testBit i = true ∨
        ((i / 64 = r.toNat + 1 ∧ i / 64 < 64) ∧ rr.fillRow.testBit (i % 64) = true ∧
          bitdeck.testBit i = true))) ∧
      (∀ q ∈ s2.stack, q ∈ s3.stack) ∧
      (∀ i, s3.filled.testBit i = true → s2.filled.testBit i = false →
        ((i / 64 : Nat) : Int) ∈ s3.stack) := by
    refine ⟨_, rfl, ?_⟩
    by_cases h : r < 64 - 1
    · rw [if_pos h]
      obtain ⟨k1, k2, k3⟩ := Flood_3_bitfill_bits bitdeck rr.fillRow (r + 1) s2
      refine ⟨fun i => ?_, k2, fun i hi h0 => ?_⟩
      · rw [k1 i]
        have : i / 64 = (r + 1).toNat ↔ (i / 64 = r.toNat + 1 ∧ i / 64 < 64) := by omega
        rw [this]
      · have hm := k3 i hi h0
        rcases (k1 i).mp hi with h' | h'
        · rw [h0] at h'; exact Bool.noConfusion h'
        · have : ((i / 64 : Nat) : Int) = r + 1 := by omega
          rw [this]
          exact hm
    · rw [if_neg h]
      refine ⟨fun i => ?_, fun q hq => hq, fun i hi h0 => ?_⟩
      · have : ¬ (i / 64 = r.toNat + 1 ∧ i / 64 < 64) := by omega
        simp only [this, false_and, or_false]
      · rw [h0] at hi; exact Bool.noConfusion hi
  obtain ⟨s3, hs3, c3, d3, e3⟩ := down
  rw [hs3]
  clear hs3
  refine ⟨fun i => ?_, fun q hq => d3 q (d2 q (by rw [d1]; exact hq)), fun i hi h0 => ?_⟩
  · rw [c3 i, c2 i, c1 i]
    constructor
    · rintro (((h | h) | h) | h)
      · exact Or.inl h
      · exact Or.inr (Or.inl h)
      · exact Or.inr (Or.inr ⟨Or.inl h.1, h.2⟩)
      · exact Or.inr (Or.inr ⟨Or.inr h.1, h.2⟩)
    · rintro (h | h | ⟨h | h, h'⟩)
      · exact Or.inl (Or.inl (Or.inl h))
      · exact Or.inl (Or.inl (Or.inr h))
      · exact Or.inl (Or.inr ⟨h, h'⟩)
      · exact Or.inr ⟨h, h'⟩
  · by_cases h2 : s2.filled.testBit i = true
    · by_cases h1 : s1.filled.testBit i = true
      · rcases (c1 i).mp h1 with h | h
        · rw [h0] at h; exact Bool.noConfusion h
        · exact Or.inl h.1
      · exact Or.inr (d3 _ (e2 i h2 (testBit_false_of_not_true h1)))
    · exact Or.inr (e3 i hi (testBit_false_of_not_true h2))

/-- The bits of a row word are the bits of the mask in that row. -/
theorem rowAt_bit (d : Deck) (r x : Nat) (hx : x < 64) :
    (rowAt d r).testBit x = true ↔ d.testBit (64 * r + x) = true := by
  rw [rowAt_testBit]
  simp [hx]

/-- One iteration of the loop of `Flood_3` keeps the invariant of a fill started on an
empty mask. -/
theorem Flood_3_inv_step (fuel : Nat) (hfuel : 129 ≤ fuel) (bitdeck : Deck) (seed : Nat)
    (f : Deck) (r : Int) (stack : List Int) (nf : Int)
    (hinv : Flood_3_inv bitdeck seed ⟨f, r :: stack, nf⟩) :
    ∃ b', Flood_3_body fuel bitdeck 64 ⟨f, r :: stack, nf⟩ = some b' ∧
      Flood_3_inv bitdeck seed b' := by
  have hr := hinv.rows r (List.mem_cons_self _ _)
  have hst : ∀ q ∈ stack, 0 ≤ q ∧ q < 64 := fun q hq => hinv.rows q (List.mem_cons_of_mem _ hq)
  obtain ⟨b', R, hb, hscan, hbits, hkeep, hnew⟩ :=
    Flood_3_body_bits fuel hfuel bitdeck f r stack nf hr
  obtain ⟨b2, hb2, K, k1, k2, _, k4⟩ := Flood_3_body_spec fuel hfuel bitdeck f r stack nf hr hst
  have hbb : b2 = b' := Option.some.inj (hb2.symm.trans hb)
  subst hbb
  refine ⟨b2, hb, ?_⟩
  have hsound := hinv.sound
  have hstable := hinv.stable
  have hseeded := hinv.seeded
  have hcount := hinv.count
  dsimp only at hsound hstable hseeded hcount
  obtain ⟨hR64, hsub, hcl, hcr, hQ⟩ := hscan
  have hRlt : ∀ x, R.testBit x = true → x < 64 := by
    intro x hx
    by_contra hge
    rw [testBit_of_lt_two_pow64 hR64 (by omega)] at hx
    exact Bool.noConfusion hx
  have hrN : r.toNat < 64 := by omega
  -- every cell of the scanned row is reached
  have hrow : ∀ x, R.testBit x = true → x < 64 ∧ ReachIdx bitdeck 0 seed (64 * r.toNat + x) := by
    apply hQ (fun x => x < 64 ∧ ReachIdx bitdeck 0 seed (64 * r.toNat + x))
    · intro x hx
      rw [rowAt_testBit] at hx
      simp only [Bool.and_eq_true, decide_eq_true_eq] at hx
      exact ⟨hx.1, hsound _ hx.2⟩
    · intro x ⟨hx, hreach⟩ hx1 hB
      refine ⟨hx1, ReachIdx.step _ _ hreach (Or.inr (Or.inr (Or.inl ⟨by omega, by omega⟩))) ?_⟩
      exact ⟨by omega, (rowAt_bit bitdeck r.toNat (x + 1) hx1).mp hB, Nat.zero_testBit _⟩
    · intro x ⟨hx, hreach⟩ hB
      refine ⟨by omega, ReachIdx.step _ _ hreach (Or.inr (Or.inr (Or.inr ⟨by omega, by omega⟩))) ?_⟩
      exact ⟨by omega, (rowAt_bit bitdeck r.toNat x (by omega)).mp hB, Nat.zero_testBit _⟩
  have hmono : ∀ i, f.testBit i = true → b2.filled.testBit i = true :=
    fun i hi => (hbits i).mpr (Or.inl hi)
  -- the filled cells of the popped row are the bits of the scanned word
  have hinrow : ∀ i, i / 64 = r.toNat → b2.filled.testBit i = true →
      R.testBit (i % 64) = true := by
    intro i hi hbi
    rcases (hbits i).mp hbi with h | h | h
    · apply hsub
      rw [rowAt_bit f r.toNat (i % 64) (by omega)]
      have : 64 * r.toNat + i % 64 = i := by omega
      rw [this]
      exact h
    · exact h.2
    · omega
  constructor
  · intro i hi
    rcases (hbits i).mp hi with h | ⟨h1, h2⟩ | ⟨h1, h2, h3⟩
    · exact hsound i h
    · have := (hrow _ h2).2
      have e : 64 * r.toNat + i % 64 = i := by omega
      rw [e] at this
      exact this
    · have hreach := (hrow _ h2).2
      rcases h1 with h1 | h1
      · refine ReachIdx.step (64 * r.toNat + i % 64) i hreach (Or.inr (Or.inl (by omega))) ?_
        exact ⟨by omega, h3, Nat.zero_testBit _⟩
      · refine ReachIdx.step (64 * r.toNat + i % 64) i hreach (Or.inl (by omega)) ?_
        exact ⟨by omega, h3, Nat.zero_testBit _⟩
  · exact k4
  · intro i j hi hadj hfree
    by_cases hir : i / 64 = r.toNat
    · left
      have hRi := hinrow i hir hi
      rcases hadj with h | h | ⟨h, hm⟩ | ⟨h, hm⟩
      · refine (hbits j).mpr (Or.inr (Or.inr ⟨Or.inr ⟨by omega, ?_⟩, ?_, hfree.2.1⟩))
        · have := hfree.1
          omega
        · have : j % 64 = i % 64 := by omega
          rw [this]
          exact hRi
      · refine (hbits j).mpr (Or.inr (Or.inr ⟨Or.inl (by omega), ?_, hfree.2.1⟩))
        have : j % 64 = i % 64 := by omega
        rw [this]
        exact hRi
      · refine (hbits j).mpr (Or.inr (Or.inl ⟨by omega, ?_⟩))
        have e : j % 64 = i % 64 + 1 := by omega
        rw [e]
        apply hcl _ hRi (by omega)
        rw [rowAt_bit bitdeck r.toNat _ (by omega)]
        have : 64 * r.toNat + (i % 64 + 1) = j := by omega
        rw [this]
        exact hfree.2.1
      · refine (hbits j).mpr (Or.inr (Or.inl ⟨by omega, ?_⟩))
        have e : i % 64 = j % 64 + 1 := by omega
        rw [e] at hRi
        apply hcr _ hRi
        rw [rowAt_bit bitdeck r.toNat _ (by omega)]
        have : 64 * r.toNat + j % 64 = j := by omega
        rw [this]
        exact hfree.2.1
    · by_cases hfi : f.testBit i = true
      · rcases hstable i j hfi hadj hfree with h | h
        · exact Or.inl (hmono j h)
        · rcases List.mem_cons.mp h with e | e
          · omega
          · exact Or.inr (hkeep _ e)
      · rcases hnew i hi (testBit_false_of_not_true hfi) with h | h
        · exact absurd h hir
        · exact Or.inr h
  · exact hmono _ hseeded
  · rw [k2, ← hcount]
    push_cast [k1]
    rfl

theorem popc_zero : popc 0 = 0 := by
  unfold popc
  exact (cnt_congr 4096 (Nat.testBit 0) (fun _ => false)
    (fun i _ => Nat.zero_testBit i)).trans (cnt_false 4096)

/-- The state in which `Flood_3` enters its loop on an empty fill mask satisfies the
invariant when the seed is a passable cell of the plane. -/
theorem Flood_3_inv_init (bitdeck : Deck) (sx sy : Int) (h : FreeAt bitdeck 0 sx sy) :
    Flood_3_inv bitdeck (sy * 64 + sx).toNat (Flood_3_init bitdeck 64 0 sx sy) := by
  have hnn : sy * 64 + sx ≥ 0 := cell_nonneg h.1
  have hlt : (sy * 64 + sx).toNat < 4096 := cell_lt h.1
  have hfree := FreeAt_idx h
  have hrows := Flood_3_init_stack bitdeck 0 sx sy
  unfold Flood_3_init at hrows ⊢
  rw [FillCell_free _ _ _ _ h] at hrows ⊢
  simp only [hnn, if_true] at hrows ⊢
  have hbit : ∀ i, (0 ||| 2 ^ (sy * 64 + sx).toNat).testBit i = true →
      i = (sy * 64 + sx).toNat := by
    intro i hi
    rw [testBit_or_two_pow, Nat.zero_testBit] at hi
    simpa using hi
  constructor
  · intro i hi
    rw [hbit i hi]
    exact ReachIdx.seed hfree
  · exact hrows
  · intro i j hi _ _
    right
    rw [hbit i hi]
    simp only [List.mem_singleton]
    rw [Int.tdiv_eq_ediv hnn (by norm_num)]
    omega
  · rw [testBit_or_two_pow]
    simp
  · rw [popc_set _ _ hlt (Nat.zero_testBit _), popc_zero]
    simp

/-- With an empty stack, the invariant of `Flood_3` gives the final mask: the cells reached
from the seed. -/
theorem Flood_3_inv_final (bitdeck : Deck) (seed : Nat) (st : Flood3State)
    (hinv : Flood_3_inv bitdeck seed st) (he : st.stack = []) :
    ∀ i, st.filled.testBit i = true ↔ ReachIdx bitdeck 0 seed i := by
  have hall : ∀ i, ReachIdx bitdeck 0 seed i → st.filled.testBit i = true := by
    intro i hi
    induction hi with
    | seed h => exact hinv.seeded
    | step i j hi hadj hfree ih =>
      rcases hinv.stable i j ih hadj hfree with h | h
      · exact h
      · rw [he] at h
        exact absurd h (List.not_mem_nil _)
  exact fun i => ⟨hinv.sound i, hall i⟩

/-- The batch simultaneous span fill on an empty fill mask: it terminates, the final mask
is the set of cells reached from the seed (none when the seed is off the plane), and the
returned count is the number of cells of the final mask. -/
theorem Flood_3_returns_zero (bitdeck : Deck) (sx sy : Int) :
    ∃ (F : Deck) (N : Int),
      Returns (fun fuel => Flood_3 fuel bitdeck 64 0 sx sy) (F, N) ∧
      (∀ i, F.testBit i = true ↔ ((0 : Nat).testBit i = true ∨
        (inRange 64 sx sy ∧ ReachIdx bitdeck 0 (sy * 64 + sx).toNat i))) ∧
      (popc F : Int) = popc 0 + N := by
  obtain ⟨fuel, bf, hfuel, hloop, hempty, hret⟩ := Flood_3_returns bitdeck 0 sx sy
  refine ⟨bf.filled, bf.numFilled, hret, ?_⟩
  by_cases h : FreeAt bitdeck 0 sx sy
  · obtain ⟨hi, _⟩ := whileLoop_inv (fun s : Flood3State => !s.stack.isEmpty)
      (Flood_3_body fuel bitdeck 64) (Flood_3_inv bitdeck (sy * 64 + sx).toNat)
      (by
        intro s s' hs hc hb
        obtain ⟨f, st, t⟩ := s
        cases st with
        | nil => simp at hc
        | cons c rest =>
          obtain ⟨b', hb', hinv'⟩ := Flood_3_inv_step fuel hfuel bitdeck _ f c rest t hs
          have : b' = s' := Option.some.inj (hb'.symm.trans hb)
          rw [← this]
          exact hinv')
      _ _ bf (Flood_3_inv_init bitdeck sx sy h) hloop
    have hF := Flood_3_inv_final bitdeck _ bf hi hempty
    refine ⟨fun i => ?_, ?_⟩
    · rw [hF i, Nat.zero_testBit]
      constructor
      · exact fun a => Or.inr ⟨h.1, a⟩
      · rintro (a | a)
        · exact Bool.noConfusion a
        · exact a.2
    · rw [popc_zero, hi.count]
      simp
  · have hinit : Flood_3_init bitdeck 64 0 sx sy = ⟨0, [], 0⟩ := by
      unfold Flood_3_init
      rw [FillCell_not_free _ _ _ _ h]
      simp
    rw [hinit, whileLoop_done _ _ _ _ (by simp)] at hloop
    have : bf = ⟨0, [], 0⟩ := (Option.some.inj hloop).symm
    rw [this]
    refine ⟨fun i => ?_, by simp [popc_zero]⟩
    constructor
    · exact fun a => Or.inl a
    · rintro (a | ⟨a, b⟩)
      · exact a
      · have hf := ReachIdx_seed_free b
        exact absurd ⟨a, hf.2.1, hf.2.2⟩ h

/-! ## Connected cells and reached bit indices -/

theorem Connected_lt {bitdeck : Deck} {sx sy x y : Nat} (h : Connected bitdeck sx sy x y) :
    x < 64 ∧ y < 64 := by
  cases h with
  | seed h1 h2 _ => exact ⟨h1, h2⟩
  | step _ _ _ _ _ _ h1 h2 _ => exact ⟨h1, h2⟩

/-- A connected cell is a bit index reached from the seed on an empty fill mask. -/
theorem Connected_reach {bitdeck : Deck} {sx sy x y : Nat} (h : Connected bitdeck sx sy x y) :
    ReachIdx bitdeck 0 (sy * 64 + sx) (y * 64 + x) := by
  induction h with
  | seed h1 h2 h3 => exact ReachIdx.seed ⟨by omega, h3, Nat.zero_testBit _⟩
  | step x y x' y' hc hadj h1 h2 h3 ih =>
    have hlt := Connected_lt hc
    refine ReachIdx.step _ _ ih ?_ ⟨by omega, h3, Nat.zero_testBit _⟩
    unfold adjIdx
    unfold Adjacent4 at hadj
    omega

/-- A bit index reached from the seed on an empty fill mask is a connected cell. -/
theorem reach_Connected {bitdeck : Deck} {sx sy : Nat} (hx : sx < 64) (hy : sy < 64) {i : Nat}
    (h : ReachIdx bitdeck 0 (sy * 64 + sx) i) :
    i < 4096 ∧ bitdeck.testBit i = true ∧ Connected bitdeck sx sy (i % 64) (i / 64) := by
  induction h with
  | seed h =>
    refine ⟨h.1, h.2.1, ?_⟩
    have e1 : (sy * 64 + sx) % 64 = sx := by omega
    have e2 : (sy * 64 + sx) / 64 = sy := by omega
    rw [e1, e2]
    exact Connected.seed hx hy h.2.1
  | step i j _ hadj hfree ih =>
    refine ⟨hfree.1, hfree.2.1, ?_⟩
    refine Connected.step _ _ _ _ ih.2.2 ?_ (by omega) (by have := hfree.1; omega) ?_
    · unfold adjIdx at hadj
      unfold Adjacent4
      have := hfree.1
      have := ih.1
      omega
    · unfold cellSet
      have e : j / 64 * 64 + j % 64 = j := by omega
      rw [e]
      exact hfree.2.1

/-- The bit index of an in-range seed. -/
theorem seed_index {sx sy : Int} (h : inRange 64 sx sy) :
    (sy * 64 + sx).toNat = sy.toNat * 64 + sx.toNat ∧ sx.toNat < 64 ∧ sy.toNat < 64 := by
  unfold inRange at h
  omega

/-! ## Growth of the fill mask and the occupancy bound -/

theorem MaskGrows_refl (f : Deck) : MaskGrows f f := fun _ h => h

theorem MaskGrows_trans {f g h : Deck} (h1 : MaskGrows f g) (h2 : MaskGrows g h) :
    MaskGrows f h := fun i hi => h2 i (h1 i hi)

/-- `FillCell` only sets a bit, and only a bit of the occupancy mask. -/
theorem FillCell_grows (bitdeck f : Deck) (x y : Int) :
    MaskGrows f (FillCell bitdeck 64 f x y).1 ∧
    (MaskWithin bitdeck f → MaskWithin bitdeck (FillCell bitdeck 64 f x y).1) := by
  obtain ⟨hb, _, _⟩ := FillCell_bits bitdeck f x y
  refine ⟨fun i hi => (hb i).mpr (Or.inl hi), fun hw i hi => ?_⟩
  rcases (hb i).mp hi with h | ⟨h, e⟩
  · exact hw i h
  · rw [e]
    exact h.2.1

/-- `FillCellTest` only sets a bit of the fill mask, and only a bit of the occupancy
mask. -/
theorem FillCellTest_grows (bitdeck f tested : Deck) (tc x y : Int) :
    MaskGrows f (FillCellTest bitdeck 64 f tested tc x y).filled ∧
    (MaskWithin bitdeck f →
      MaskWithin bitdeck (FillCellTest bitdeck 64 f tested tc x y).filled) := by
  rw [FillCellTest_filled]
  exact FillCell_grows bitdeck f x y

/-- One iteration of the loop of `Flood_3` keeps the stacked rows on the plane, only sets
bits, only bits of the occupancy mask, and counts the bits it sets. -/
theorem Flood_3_gen_step (fuel : Nat) (hfuel : 129 ≤ fuel) (bitdeck : Deck)
    (f : Deck) (r : Int) (stack : List Int) (nf : Int)
    (hrows : ∀ q ∈ r :: stack, 0 ≤ q ∧ q < 64) :
    ∃ b', Flood_3_body fuel bitdeck 64 ⟨f, r :: stack, nf⟩ = some b' ∧
      (∀ q ∈ b'.stack, 0 ≤ q ∧ q < 64) ∧ MaskGrows f b'.filled ∧
      (MaskWithin bitdeck f → MaskWithin bitdeck b'.filled) ∧
      (popc b'.filled : Int) - b'.numFilled = popc f - nf := by
  have hr := hrows r (List.mem_cons_self _ _)
  have hst : ∀ q ∈ stack, 0 ≤ q ∧ q < 64 := fun q hq => hrows q (List.mem_cons_of_mem _ hq)
  obtain ⟨b', R, hb, hscan, hbits, _, _⟩ :=
    Flood_3_body_bits fuel hfuel bitdeck f r stack nf hr
  obtain ⟨b2, hb2, K, k1, k2, _, k4⟩ := Flood_3_body_spec fuel hfuel bitdeck f r stack nf hr hst
  have hbb : b2 = b' := Option.some.inj (hb2.symm.trans hb)
  subst hbb
  refine ⟨b2, hb, k4, fun i hi => (hbits i).mpr (Or.inl hi), fun hw i hi => ?_, ?_⟩
  · obtain ⟨_, _, _, _, hQ⟩ := hscan
    rcases (hbits i).mp hi with h | ⟨h1, h2⟩ | ⟨_, _, h3⟩
    · exact hw i h
    · have := hQ (fun x => x < 64 ∧ bitdeck.testBit (64 * r.toNat + x) = true)
        (fun x hx => by
          rw [rowAt_testBit] at hx
          simp only [Bool.and_eq_true, decide_eq_true_eq] at hx
          exact ⟨hx.1, hw _ hx.2⟩)
        (fun x _ hx1 hB => ⟨hx1, (rowAt_bit bitdeck r.toNat (x + 1) hx1).mp hB⟩)
        (fun x hx hB => ⟨by omega, (rowAt_bit bitdeck r.toNat x (by omega)).mp hB⟩)
        (i % 64) h2
      have e : 64 * r.toNat + i % 64 = i := by omega
      have h' := this.2
      rw [e] at h'
      exact h'
    · exact h3
  · rw [k1, k2]
    push_cast
    ring

/-- The batch simultaneous span fill for any initial fill mask: it terminates, it only
sets bits, only bits of the occupancy mask when the initial mask lies within it, and the
returned count is the growth of the number of set bits. -/
theorem Flood_3_returns_gen (bitdeck init : Deck) (sx sy : Int) :
    ∃ (F : Deck) (N : Int),
      Returns (fun fuel => Flood_3 fuel bitdeck 64 init sx sy) (F, N) ∧
      MaskGrows init F ∧ (MaskWithin bitdeck init → MaskWithin bitdeck F) ∧
      (popc F : Int) = popc init + N := by
  obtain ⟨fuel, bf, hfuel, hloop, _, hret⟩ := Flood_3_returns bitdeck init sx sy
  refine ⟨bf.filled, bf.numFilled, hret, ?_⟩
  obtain ⟨hi, _⟩ := whileLoop_inv (fun s : Flood3State => !s.stack.isEmpty)
    (Flood_3_body fuel bitdeck 64)
    (fun s => (∀ q ∈ s.stack, 0 ≤ q ∧ q < 64) ∧ MaskGrows init s.filled ∧
      (MaskWithin bitdeck init → MaskWithin bitdeck s.filled) ∧
      (popc s.filled : Int) - s.numFilled = popc init)
    (by
      intro s s' hs hc hb
      obtain ⟨f, st, t⟩ := s
      cases st with
      | nil => simp at hc
      | cons c rest =>
        obtain ⟨h1, h2, h3, h4⟩ := hs
        obtain ⟨b', hb', g1, g2, g3, g4⟩ := Flood_3_gen_step fuel hfuel bitdeck f c rest t h1
        have : b' = s' := Option.some.inj (hb'.symm.trans hb)
        rw [← this]
        exact ⟨g1, MaskGrows_trans h2 g2, fun hw => g3 (h3 hw), by rw [g4]; exact h4⟩)
    _ _ bf
    (by
      refine ⟨Flood_3_init_stack bitdeck init sx sy, ?_⟩
      have hg := FillCell_grows bitdeck init sx sy
      have hp := popc_FillCell bitdeck init sx sy
      unfold Flood_3_init
      dsimp only
      split_ifs with h
      · rw [if_pos h] at hp
        refine ⟨hg.1, hg.2, ?_⟩
        dsimp only
        rw [hp]
        push_cast
        ring
      · rw [if_neg h] at hp
        refine ⟨hg.1, hg.2, ?_⟩
        dsimp only
        rw [hp]
        simp)
    hloop
  obtain ⟨_, h2, h3, h4⟩ := hi
  exact ⟨h2, h3, by omega⟩

/-! ## The batch fills only set bits of the occupancy mask -/

/-- `Flood_2` only looks at the cell index of its seed. -/
theorem Flood_2_seed_cell (fuel : Nat) (bitdeck init : Deck) (sx sy sx' sy' : Int)
    (h : sy * 64 + sx = sy' * 64 + sx') :
    Flood_2 fuel bitdeck 64 init sx sy = Flood_2 fuel bitdeck 64 init sx' sy' := by
  unfold Flood_2 Flood_2_init Flood_2_seed
  simp only [h]

/-- The batch span fill from a seed whose cell index addresses a cell of the plane: it
terminates with the initial mask plus the cells reached from that cell. -/
theorem Flood_2_returns_cell (bitdeck init : Deck) (sx sy : Int)
    (h : 0 ≤ sy * 64 + sx ∧ sy * 64 + sx < 4096) :
    ∃ (F : Deck) (N : Int),
      Returns (fun fuel => Flood_2 fuel bitdeck 64 init sx sy) (F, N) ∧
      (∀ i, F.testBit i = true ↔
        (init.testBit i = true ∨ ReachIdx bitdeck init (sy * 64 + sx).toNat i)) ∧
      (popc F : Int) = popc init + N := by
  have hr : inRange 64 ((sy * 64 + sx) % 64) ((sy * 64 + sx) / 64) := by
    unfold inRange
    omega
  have he : (sy * 64 + sx) / 64 * 64 + (sy * 64 + sx) % 64 = sy * 64 + sx := by omega
  obtain ⟨F, N, h1, h2, h3⟩ := Flood_2_returns bitdeck init _ _ hr
  rw [he] at h2
  refine ⟨F, N, ?_, h2, h3⟩
  obtain ⟨n, hn⟩ := h1
  refine ⟨n, fun m hm => ?_⟩
  have := hn m hm
  dsimp only at this ⊢
  rw [Flood_2_seed_cell m bitdeck init sx sy _ _ he.symm]
  exact this

/-- The batch DFS only sets bits, and only bits of the occupancy mask. -/
theorem Flood_1_grows (bitdeck init : Deck) (sx sy : Int) :
    ∃ (F : Deck) (N : Int),
      Returns (fun fuel => Flood_1 fuel bitdeck 64 init sx sy) (F, N) ∧
      MaskGrows init F ∧ (MaskWithin bitdeck init → MaskWithin bitdeck F) ∧
      (popc F : Int) = popc init + N := by
  obtain ⟨F, N, h1, h2, h3⟩ := Flood_1_returns bitdeck init sx sy
  refine ⟨F, N, h1, fun i hi => (h2 i).mpr (Or.inl hi), fun hw i hi => ?_, h3⟩
  rcases (h2 i).mp hi with h | h
  · exact hw i h
  · exact (ReachIdx_free h.2).2.1

/-- The batch span fill only sets bits, and only bits of the occupancy mask. -/
theorem Flood_2_grows (bitdeck init : Deck) (sx sy : Int)
    (h : 0 ≤ sy * 64 + sx ∧ sy * 64 + sx < 4096) :
    ∃ (F : Deck) (N : Int),
      Returns (fun fuel => Flood_2 fuel bitdeck 64 init sx sy) (F, N) ∧
      MaskGrows init F ∧ (MaskWithin bitdeck init → MaskWithin bitdeck F) ∧
      (popc F : Int) = popc init + N := by
  obtain ⟨F, N, h1, h2, h3⟩ := Flood_2_returns_cell bitdeck init sx sy h
  refine ⟨F, N, h1, fun i hi => (h2 i).mpr (Or.inl hi), fun hw i hi => ?_, h3⟩
  rcases (h2 i).mp hi with h | h
  · exact hw i h
  · exact (ReachIdx_free h).2.1

/-! ## The incremental DFS and span fill only set bits of the occupancy mask -/

/-- A mask that is the mask before the call or the outcome of one `FillCell` on it. -/
theorem grows_of_eq_or (bitdeck f g : Deck) (x y : Int)
    (h : g = f ∨ g = (FillCell bitdeck 64 f x y).1) :
    MaskGrows f g ∧ (MaskWithin bitdeck f → MaskWithin bitdeck g) := by
  rcases h with h | h
  · rw [h]
    exact ⟨MaskGrows_refl f, fun hw => hw⟩
  · rw [h]
    exact FillCell_grows bitdeck f x y

theorem Flood_1_Incremental_Start_grows (bitdeck f : Deck) (stack : List DFSSIState)
    (sx sy : Int) :
    MaskGrows f (Flood_1_Incremental_Start bitdeck 64 f stack sx sy).1 ∧
    (MaskWithin bitdeck f →
      MaskWithin bitdeck (Flood_1_Incremental_Start bitdeck 64 f stack sx sy).1) := by
  apply grows_of_eq_or bitdeck f _ sx sy
  unfold Flood_1_Incremental_Start
  dsimp only
  split_ifs <;> exact Or.inr rfl

theorem Flood_3_Incremental_Start_grows (bitdeck f : Deck) (stack : List SimulSpanFillSIState)
    (sx sy : Int) :
    MaskGrows f (Flood_3_Incremental_Start bitdeck 64 f stack sx sy).1 ∧
    (MaskWithin bitdeck f →
      MaskWithin bitdeck (Flood_3_Incremental_Start bitdeck 64 f stack sx sy).1) := by
  apply grows_of_eq_or bitdeck f _ sx sy
  unfold Flood_3_Incremental_Start
  dsimp only
  split_ifs <;> exact Or.inr rfl

theorem Flood_2_Incremental_Start_filled (bitdeck f : Deck) (stack : List SpanFillSIState)
    (sx sy : Int) : (Flood_2_Incremental_Start bitdeck 64 f stack sx sy).1 = f := by
  unfold Flood_2_Incremental_Start
  dsimp only
  split_ifs <;> rfl

/-- One call of `Flood_1_Incremental`, on any stack, leaves the mask or does one
`FillCell` on it. -/
theorem Flood_1_Incremental_filled (bitdeck f : Deck) (stack : List DFSSIState)
    (tested : Deck) :
    ∃ x y, (Flood_1_Incremental bitdeck 64 f stack tested).filled = f ∨
      (Flood_1_Incremental bitdeck 64 f stack tested).filled = (FillCell bitdeck 64 f x y).1 := by
  cases stack with
  | nil => exact ⟨0, 0, Or.inl rfl⟩
  | cons state rest =>
    unfold Flood_1_Incremental
    dsimp only
    split_ifs
    all_goals first
      | exact ⟨0, 0, Or.inl rfl⟩
      | exact ⟨_, _, Or.inr (FillCellTest_filled _ _ _ _ _ _ _)⟩

theorem Flood_2_stage5_filled (f : Deck) (state : SpanFillSIState)
    (rest : List SpanFillSIState) (sfi : List Int) (tested : Deck) :
    (Flood_2_stage5 f state rest sfi tested).filled = f := rfl

theorem Flood_2_scanStep_filled (bitdeck f : Deck) (state : SpanFillSIState)
    (rest : List SpanFillSIState) (sfi : List Int) (tested : Deck) (yy : Int) :
    (Flood_2_scanStep bitdeck 64 f state rest sfi tested yy).filled = f := rfl

theorem Flood_2_stage4_filled (bitdeck f : Deck) (state : SpanFillSIState)
    (rest : List SpanFillSIState) (sfi : List Int) (tested : Deck) (y : Int) :
    (Flood_2_stage4 bitdeck 64 f state rest sfi tested y).filled = f := by
  unfold Flood_2_stage4
  split_ifs
  · exact Flood_2_scanStep_filled _ _ _ _ _ _ _
  · rfl

theorem Flood_2_stage3_filled (bitdeck f : Deck) (state : SpanFillSIState)
    (rest : List SpanFillSIState) (sfi : List Int) (tested : Deck) (y : Int) :
    (Flood_2_stage3 bitdeck 64 f state rest sfi tested y).filled = f := by
  unfold Flood_2_stage3
  split_ifs
  · exact Flood_2_scanStep_filled _ _ _ _ _ _ _
  · exact Flood_2_stage4_filled _ _ _ _ _ _ _

theorem Flood_2_stage1_filled (bitdeck f : Deck) (state : SpanFillSIState)
    (rest : List SpanFillSIState) (sfi : List Int) (tested : Deck) (y : Int) :
    (Flood_2_stage1 bitdeck 64 f state rest sfi tested y).filled =
      (FillCell bitdeck 64 f state.X y).1 := by
  unfold Flood_2_stage1
  dsimp only
  split_ifs <;> exact FillCellTest_filled _ _ _ _ _ _ _

theorem Flood_2_stage2_filled (bitdeck f : Deck) (state : SpanFillSIState)
    (rest : List SpanFillSIState) (sfi : List Int) (tested : Deck) (y : Int) :
    (Flood_2_stage2 bitdeck 64 f state rest sfi tested y).filled =
      (FillCell bitdeck 64 f state.X y).1 := by
  unfold Flood_2_stage2
  dsimp only
  split_ifs <;> exact FillCellTest_filled _ _ _ _ _ _ _

/-- One call of `Flood_2_Incremental`, on any stacks, leaves the mask or does one
`FillCell` on it. -/
theorem Flood_2_Incremental_filled (bitdeck f : Deck) (stack : List SpanFillSIState)
    (sfi : List Int) (tested : Deck) :
    ∃ x y, (Flood_2_Incremental bitdeck 64 f stack sfi tested).filled = f ∨
      (Flood_2_Incremental bitdeck 64 f stack sfi tested).filled =
        (FillCell bitdeck 64 f x y).1 := by
  cases stack with
  | nil => exact ⟨0, 0, Or.inl rfl⟩
  | cons state rest =>
    unfold Flood_2_Incremental
    dsimp only
    split_ifs
    · exact ⟨_, _, Or.inr (Flood_2_stage1_filled _ _ _ _ _ _ _)⟩
    · exact ⟨_, _, Or.inr (Flood_2_stage1_filled _ _ _ _ _ _ _)⟩
    · exact ⟨_, _, Or.inr (Flood_2_stage2_filled _ _ _ _ _ _ _)⟩
    · exact ⟨0, 0, Or.inl (Flood_2_stage3_filled _ _ _ _ _ _ _)⟩
    · exact ⟨0, 0, Or.inl (Flood_2_stage4_filled _ _ _ _ _ _ _)⟩
    · exact ⟨0, 0, Or.inl rfl⟩
    · exact ⟨0, 0, Or.inl rfl⟩

/-! ## The incremental simultaneous span fill only sets bits of the occupancy mask -/

theorem setRow_grows (d : Deck) (r v : Nat)
    (h : ∀ x, x < 64 → d.testBit (64 * r + x) = true → v.testBit x = true) :
    MaskGrows d (setRow d r v) := by
  intro j hj
  rw [setRow_testBit]
  by_cases hi : 64 * r ≤ j ∧ j < 64 * r + 64
  · rw [if_pos hi]
    apply h _ (by omega)
    have e : 64 * r + (j - 64 * r) = j := by omega
    rw [e]
    exact hj
  · rw [if_neg hi]
    exact hj

theorem setRow_within (bitdeck d : Deck) (r v : Nat) (hw : MaskWithin bitdeck d)
    (h : ∀ x, x < 64 → v.testBit x = true → bitdeck.testBit (64 * r + x) = true) :
    MaskWithin bitdeck (setRow d r v) := by
  intro j hj
  rw [setRow_testBit] at hj
  by_cases hi : 64 * r ≤ j ∧ j < 64 * r + 64
  · rw [if_pos hi] at hj
    have := h _ (by omega) hj
    have e : 64 * r + (j - 64 * r) = j := by omega
    rw [e] at this
    exact this
  · rw [if_neg hi] at hj
    exact hw j hj

/-- The word-level vertical propagation into the row `nb`. -/
theorem bitfill_row_ok (bitdeck f : Deck) (fillRow nb : Nat) :
    MaskGrows f (setRow f nb (rowAt f nb ||| fillRow &&& rowAt bitdeck nb)) ∧
    (MaskWithin bitdeck f →
      MaskWithin bitdeck (setRow f nb (rowAt f nb ||| fillRow &&& rowAt bitdeck nb))) := by
  refine ⟨setRow_grows _ _ _ (fun x hx h => ?_), fun hw => setRow_within _ _ _ _ hw
    (fun x hx h => ?_)⟩
  · exact subset_or_left _ _ _ ((rowAt_bit f nb x hx).mpr h)
  · rw [Nat.testBit_or, Bool.or_eq_true] at h
    rcases h with h | h
    · exact hw _ ((rowAt_bit f nb x hx).mp h)
    · rw [Nat.testBit_and, Bool.and_eq_true] at h
      exact (rowAt_bit bitdeck nb x hx).mp h.2

/-- The word-level horizontal propagation in the row `r`. -/
theorem scan_row_ok (bitdeck f : Deck) (r fillRow T : Nat)
    (hF1 : ∀ x, (rowAt f r).testBit x = true → fillRow.testBit x = true) :
    MaskGrows f (setRow f r (fillRow ||| T)) ∧
    ((∀ x, T.testBit x = true → (rowAt bitdeck r).testBit x = true) →
      (∀ x, fillRow.testBit x = true →
        (rowAt f r).testBit x = true ∨ (rowAt bitdeck r).testBit x = true) →
      MaskWithin bitdeck f → MaskWithin bitdeck (setRow f r (fillRow ||| T))) := by
  refine ⟨setRow_grows _ _ _ (fun x hx h => ?_), fun hT hF2 hw => setRow_within _ _ _ _ hw
    (fun x hx h => ?_)⟩
  · exact subset_or_left _ _ _ (hF1 x ((rowAt_bit f r x hx).mpr h))
  · rw [Nat.testBit_or, Bool.or_eq_true] at h
    rcases h with h | h
    · rcases hF2 x h with h' | h'
      · exact hw _ ((rowAt_bit f r x hx).mp h')
      · exact (rowAt_bit bitdeck r x hx).mp h'
    · exact (rowAt_bit bitdeck r x hx).mp (hT x h)

theorem Flood_3_stackOK_cons {bitdeck : Deck} {e : SimulSpanFillSIState}
    {rest : List SimulSpanFillSIState} (he : Flood_3_entryOK bitdeck e)
    (hr : Flood_3_stackOK bitdeck rest) : Flood_3_stackOK bitdeck (e :: rest) := by
  intro a ha
  rcases List.mem_cons.mp ha with h | h
  · rw [h]; exact he
  · exact hr a h

theorem Flood_3_stackOK_fresh {bitdeck : Deck} (r : Int) {rest : List SimulSpanFillSIState}
    (hr : Flood_3_stackOK bitdeck rest) :
    Flood_3_stackOK bitdeck (SimulSpanFillSIState.fresh r :: rest) := by
  apply Flood_3_stackOK_cons _ hr
  intro x hx
  simp [SimulSpanFillSIState.fresh] at hx

theorem Flood_3_stage4_ok (bitdeck f : Deck) (state : SimulSpanFillSIState)
    (rest : List SimulSpanFillSIState) (tested : Deck) (tc nf : Int) (fillRow : Nat) :
    MaskGrows f (Flood_3_stage4 bitdeck 64 f state rest tested tc nf fillRow).filled ∧
    (Flood_3_stackOK bitdeck rest →
      (MaskWithin bitdeck f →
        MaskWithin bitdeck (Flood_3_stage4 bitdeck 64 f state rest tested tc nf fillRow).filled) ∧
      Flood_3_stackOK bitdeck
        (Flood_3_stage4 bitdeck 64 f state rest tested tc nf fillRow).stack) := by
  have hb := bitfill_row_ok bitdeck f fillRow (state.RowIndex + 1).toNat
  unfold Flood_3_stage4
  dsimp only
  refine ⟨?_, fun hrest => ⟨?_, ?_⟩⟩
  · split_ifs
    · exact hb.1
    · exact MaskGrows_refl f
  · split_ifs
    · exact hb.2
    · exact fun hw => hw
  · split_ifs <;>
      first
        | exact hrest
        | exact Flood_3_stackOK_fresh _ hrest
        | exact Flood_3_stackOK_fresh _ (Flood_3_stackOK_fresh _ hrest)

theorem Flood_3_stage3_ok (bitdeck f : Deck) (state : SimulSpanFillSIState)
    (rest : List SimulSpanFillSIState) (tested : Deck) (tc nf : Int) (fillRow : Nat) :
    MaskGrows f (Flood_3_stage3 bitdeck 64 f state rest tested tc nf fillRow).filled ∧
    (Flood_3_stackOK bitdeck (state :: rest) →
      (MaskWithin bitdeck f →
        MaskWithin bitdeck (Flood_3_stage3 bitdeck 64 f state rest tested tc nf fillRow).filled) ∧
      Flood_3_stackOK bitdeck
        (Flood_3_stage3 bitdeck 64 f state rest tested tc nf fillRow).stack) := by
  have hb := bitfill_row_ok bitdeck f fillRow (state.RowIndex - 1).toNat
  unfold Flood_3_stage3
  dsimp only
  split_ifs
  · refine ⟨hb.1, fun hst => ⟨hb.2, ?_⟩⟩
    exact Flood_3_stackOK_cons (hst state (List.mem_cons_self _ _))
      (fun e he => hst e (List.mem_cons_of_mem _ he))
  · obtain ⟨h1, h2⟩ := Flood_3_stage4_ok bitdeck f { state with Stage := state.Stage + 1 } rest
      tested (tc + 1) nf fillRow
    exact ⟨h1, fun hst => h2 (fun e he => hst e (List.mem_cons_of_mem _ he))⟩
  · obtain ⟨h1, h2⟩ := Flood_3_stage4_ok bitdeck f { state with Stage := state.Stage + 1 } rest
      tested tc nf fillRow
    exact ⟨h1, fun hst => h2 (fun e he => hst e (List.mem_cons_of_mem _ he))⟩

theorem Flood_3_stage2_ok (bitdeck f : Deck) (state : SimulSpanFillSIState)
    (rest : List SimulSpanFillSIState) (tested : Deck) (tc nf : Int) (fillRow : Nat)
    (hF1 : ∀ x, (rowAt f state.RowIndex.toNat).testBit x = true → fillRow.testBit x = true) :
    MaskGrows f (Flood_3_stage2 bitdeck 64 f state rest tested tc nf
      (rowAt bitdeck state.RowIndex.toNat) fillRow).filled ∧
    (Flood_3_stackOK bitdeck (state :: rest) →
      (∀ x, fillRow.testBit x = true → (rowAt f state.RowIndex.toNat).testBit x = true ∨
        (rowAt bitdeck state.RowIndex.toNat).testBit x = true) →
      (MaskWithin bitdeck f →
        MaskWithin bitdeck (Flood_3_stage2 bitdeck 64 f state rest tested tc nf
          (rowAt bitdeck state.RowIndex.toNat) fillRow).filled) ∧
      Flood_3_stackOK bitdeck (Flood_3_stage2 bitdeck 64 f state rest tested tc nf
        (rowAt bitdeck state.RowIndex.toNat) fillRow).stack) := by
  have hs := scan_row_ok bitdeck f state.RowIndex.toNat fillRow state.Test hF1
  have hrest : Flood_3_stackOK bitdeck (state :: rest) → Flood_3_stackOK bitdeck rest :=
    fun hst e he => hst e (List.mem_cons_of_mem _ he)
  unfold Flood_3_stage2
  dsimp only
  by_cases ht : state.Test ≠ 0
  · have hd : (state.Test = 0) = False := eq_false ht
    simp only [ne_eq, hd, not_false_eq_true, decide_True, if_true, true_and]
    split_ifs
    · obtain ⟨h1, h2⟩ := Flood_3_stage3_ok bitdeck f
        { state with Test := (state.Test >>> 1) &&& rowAt bitdeck state.RowIndex.toNat,
                     Stage := state.Stage + 1 } rest tested tc nf (fillRow ||| state.Test)
      refine ⟨h1, fun hst _ => h2 ?_⟩
      apply Flood_3_stackOK_cons _ (hrest hst)
      intro x hx
      rw [Nat.testBit_and, Bool.and_eq_true] at hx
      exact hx.2
    · refine ⟨hs.1, fun hst hF2 => ⟨hs.2 (hst state (List.mem_cons_self _ _)) hF2, ?_⟩⟩
      apply Flood_3_stackOK_cons _ (hrest hst)
      intro x hx
      rw [Nat.testBit_and, Bool.and_eq_true] at hx
      exact hx.2
  · have hd : (state.Test = 0) = True := eq_true (not_not.mp ht)
    simp only [ne_eq, hd, not_true_eq_false, decide_False, Bool.false_eq_true, if_false,
      false_and]
    obtain ⟨h1, h2⟩ := Flood_3_stage3_ok bitdeck f { state with Stage := state.Stage + 1 } rest
      tested tc nf fillRow
    refine ⟨h1, fun hst _ => h2 ?_⟩
    exact Flood_3_stackOK_cons (hst state (List.mem_cons_self _ _)) (hrest hst)

theorem Flood_3_stage1_ok (bitdeck f : Deck) (state : SimulSpanFillSIState)
    (rest : List SimulSpanFillSIState) (tested : Deck) (tc nf : Int) (fillRow : Nat)
    (hF1 : ∀ x, (rowAt f state.RowIndex.toNat).testBit x = true → fillRow.testBit x = true) :
    MaskGrows f (Flood_3_stage1 bitdeck 64 f state rest tested tc nf
      (rowAt bitdeck state.RowIndex.toNat) fillRow).filled ∧
    (Flood_3_stackOK bitdeck (state :: rest) →
      (∀ x, fillRow.testBit x = true → (rowAt f state.RowIndex.toNat).testBit x = true ∨
        (rowAt bitdeck state.RowIndex.toNat).testBit x = true) →
      (MaskWithin bitdeck f →
        MaskWithin bitdeck (Flood_3_stage1 bitdeck 64 f state rest tested tc nf
          (rowAt bitdeck state.RowIndex.toNat) fillRow).filled) ∧
      Flood_3_stackOK bitdeck (Flood_3_stage1 bitdeck 64 f state rest tested tc nf
        (rowAt bitdeck state.RowIndex.toNat) fillRow).stack) := by
  have hs := scan_row_ok bitdeck f state.RowIndex.toNat fillRow state.Test hF1
  have hrest : Flood_3_stackOK bitdeck (state :: rest) → Flood_3_stackOK bitdeck rest :=
    fun hst e he => hst e (List.mem_cons_of_mem _ he)
  unfold Flood_3_stage1
  dsimp only
  by_cases ht : state.Test ≠ 0
  · have hd : (state.Test = 0) = False := eq_false ht
    simp only [ne_eq, hd, not_false_eq_true, decide_True, if_true, true_and]
    split_ifs
    · obtain ⟨h1, h2⟩ := Flood_3_stage2_ok bitdeck f
        { state with FillRowPrev := 0,
                     Test := ((fillRow ||| state.Test) >>> 1) &&& rowAt bitdeck state.RowIndex.toNat,
                     Stage := state.Stage + 1 } rest tested tc nf (fillRow ||| state.Test)
        (fun x hx => subset_or_left _ _ _ (hF1 x hx))
      refine ⟨h1, fun hst hF2 => h2 ?_ ?_⟩
      · apply Flood_3_stackOK_cons _ (hrest hst)
        intro x hx
        rw [Nat.testBit_and, Bool.and_eq_true] at hx
        exact hx.2
      · intro x hx
        rw [Nat.testBit_or, Bool.or_eq_true] at hx
        rcases hx with hx | hx
        · exact hF2 x hx
        · exact Or.inr (hst state (List.mem_cons_self _ _) x hx)
    · refine ⟨hs.1, fun hst hF2 => ⟨hs.2 (hst state (List.mem_cons_self _ _)) hF2, ?_⟩⟩
      apply Flood_3_stackOK_cons _ (hrest hst)
      intro x hx
      rw [Nat.testBit_and, Bool.and_eq_true] at hx
      exact hx.2
  · have hd : (state.Test = 0) = True := eq_true (not_not.mp ht)
    simp only [ne_eq, hd, not_true_eq_false, decide_False, Bool.false_eq_true, if_false,
      false_and]
    obtain ⟨h1, h2⟩ := Flood_3_stage2_ok bitdeck f
      { state with FillRowPrev := 0,
                   Test := (fillRow >>> 1) &&& rowAt bitdeck state.RowIndex.toNat,
                   Stage := state.Stage + 1 } rest tested tc nf fillRow hF1
    refine ⟨h1, fun hst hF2 => h2 ?_ hF2⟩
    apply Flood_3_stackOK_cons _ (hrest hst)
    intro x hx
    rw [Nat.testBit_and, Bool.and_eq_true] at hx
    exact hx.2

/-- One call of `Flood_3_Incremental`: on any stack it only sets bits of the fill mask; on
a stack whose pending test words lie in their occupancy rows it only sets bits of the
occupancy mask and leaves such a stack. -/
theorem Flood_3_Incremental_ok (bitdeck f : Deck) (stack : List SimulSpanFillSIState)
    (tested : Deck) :
    MaskGrows f (Flood_3_Incremental bitdeck 64 f stack tested).filled ∧
    (Flood_3_stackOK bitdeck stack →
      (MaskWithin bitdeck f →
        MaskWithin bitdeck (Flood_3_Incremental bitdeck 64 f stack tested).filled) ∧
      Flood_3_stackOK bitdeck (Flood_3_Incremental bitdeck 64 f stack tested).stack) := by
  cases stack with
  | nil => exact ⟨MaskGrows_refl f, fun h => ⟨fun hw => hw, h⟩⟩
  | cons state rest =>
    have hrest : Flood_3_stackOK bitdeck (state :: rest) → Flood_3_stackOK bitdeck rest :=
      fun hst e he => hst e (List.mem_cons_of_mem _ he)
    unfold Flood_3_Incremental
    dsimp only
    split_ifs
    · obtain ⟨h1, h2⟩ := Flood_3_stage1_ok bitdeck f
        { state with FillRowPrev := 0,
                     Test := ((rowAt f state.RowIndex.toNat <<< 1) % 2 ^ 64) &&&
                       rowAt bitdeck state.RowIndex.toNat,
                     Stage := state.Stage + 1 } rest tested (0 + 1) 0
        (rowAt f state.RowIndex.toNat) (fun x hx => hx)
      refine ⟨h1, fun hst => h2 ?_ (fun x hx => Or.inl hx)⟩
      apply Flood_3_stackOK_cons _ (hrest hst)
      intro x hx
      rw [Nat.testBit_and, Bool.and_eq_true] at hx
      exact hx.2
    · obtain ⟨h1, h2⟩ := Flood_3_stage1_ok bitdeck f state rest tested 0 0
        (rowAt f state.RowIndex.toNat) (fun x hx => hx)
      exact ⟨h1, fun hst => h2 hst (fun x hx => Or.inl hx)⟩
    · obtain ⟨h1, h2⟩ := Flood_3_stage2_ok bitdeck f state rest tested 0 0
        (rowAt f state.RowIndex.toNat) (fun x hx => hx)
      exact ⟨h1, fun hst => h2 hst (fun x hx => Or.inl hx)⟩
    · exact Flood_3_stage3_ok bitdeck f state rest tested 0 0 _
    · obtain ⟨h1, h2⟩ := Flood_3_stage4_ok bitdeck f state rest tested 0 0
        (rowAt f state.RowIndex.toNat)
      exact ⟨h1, fun hst => h2 (hrest hst)⟩
    · exact ⟨MaskGrows_refl f, fun h => ⟨fun hw => hw, h⟩⟩

/-- Every stack produced by Start and steps has its pending test words in their occupancy
rows. -/
theorem Flood_3_Produced_ok {bitdeck f : Deck} {stack : List SimulSpanFillSIState}
    (h : Flood_3_Produced bitdeck f stack) : Flood_3_stackOK bitdeck stack := by
  induction h with
  | empty _ => exact fun e he => absurd he (List.not_mem_nil _)
  | start filled stack sx sy _ ih =>
    unfold Flood_3_Incremental_Start
    dsimp only
    split_ifs
    · exact Flood_3_stackOK_fresh _ ih
    · exact ih
  | step filled stack tested _ ih =>
    exact ((Flood_3_Incremental_ok bitdeck filled stack tested).2 ih).2

/-! ## The three batch fills on an empty fill mask -/

/-- A bit index reached from an in-range seed on an empty fill mask is an occupied cell of
the plane that is connected to the seed cell. -/
theorem reach_sound {bitdeck : Deck} {sx sy : Int} (h : inRange 64 sx sy) {i : Nat}
    (hr : ReachIdx bitdeck 0 (sy * 64 + sx).toNat i) :
    i < 4096 ∧ bitdeck.testBit i = true ∧
      Connected bitdeck sx.toNat sy.toNat (i % 64) (i / 64) := by
  obtain ⟨e, hx, hy⟩ := seed_index h
  rw [e] at hr
  exact reach_Connected hx hy hr

/-- A cell connected to an in-range seed is a bit index reached from the seed on an empty
fill mask. -/
theorem connected_reach {bitdeck : Deck} {sx sy : Int} (h : inRange 64 sx sy) {x y : Nat}
    (hc : Connected bitdeck sx.toNat sy.toNat x y) :
    ReachIdx bitdeck 0 (sy * 64 + sx).toNat (y * 64 + x) := by
  obtain ⟨e, _, _⟩ := seed_index h
  rw [e]
  exact Connected_reach hc

theorem Flood_1_zero (bitdeck : Deck) (sx sy : Int) (h : inRange 64 sx sy) :
    ∃ (F : Deck) (N : Int),
      Returns (fun fuel => Flood_1 fuel bitdeck 64 0 sx sy) (F, N) ∧
      (∀ i, F.testBit i = true ↔ ReachIdx bitdeck 0 (sy * 64 + sx).toNat i) ∧
      (popc F : Int) = N := by
  obtain ⟨F, N, h1, h2, h3⟩ := Flood_1_returns bitdeck 0 sx sy
  refine ⟨F, N, h1, fun i => ?_, by rw [h3, popc_zero]; simp⟩
  rw [h2 i, Nat.zero_testBit]
  constructor
  · rintro (a | a)
    · exact Bool.noConfusion a
    · exact a.2
  · exact fun a => Or.inr ⟨h, a⟩

theorem Flood_2_zero (bitdeck : Deck) (sx sy : Int) (h : inRange 64 sx sy) :
    ∃ (F : Deck) (N : Int),
      Returns (fun fuel => Flood_2 fuel bitdeck 64 0 sx sy) (F, N) ∧
      (∀ i, F.testBit i = true ↔ ReachIdx bitdeck 0 (sy * 64 + sx).toNat i) ∧
      (popc F : Int) = N := by
  obtain ⟨F, N, h1, h2, h3⟩ := Flood_2_returns bitdeck 0 sx sy h
  refine ⟨F, N, h1, fun i => ?_, by rw [h3, popc_zero]; simp⟩
  rw [h2 i, Nat.zero_testBit]
  constructor
  · rintro (a | a)
    · exact Bool.noConfusion a
    · exact a
  · exact fun a => Or.inr a

theorem Flood_3_zero (bitdeck : Deck) (sx sy : Int) (h : inRange 64 sx sy) :
    ∃ (F : Deck) (N : Int),
      Returns (fun fuel => Flood_3 fuel bitdeck 64 0 sx sy) (F, N) ∧
      (∀ i, F.testBit i = true ↔ ReachIdx bitdeck 0 (sy * 64 + sx).toNat i) ∧
      (popc F : Int) = N := by
  obtain ⟨F, N, h1, h2, h3⟩ := Flood_3_returns_zero bitdeck sx sy
  refine ⟨F, N, h1, fun i => ?_, by rw [h3, popc_zero]; simp⟩
  rw [h2 i, Nat.zero_testBit]
  constructor
  · rintro (a | a)
    · exact Bool.noConfusion a
    · exact a.2
  · exact fun a => Or.inr ⟨h, a⟩

/-- The seed of a complete fill is not free any more. -/
theorem complete_not_free {bitdeck F : Deck} {sx sy : Int}
    (hF : ∀ i, F.testBit i = true ↔ ReachIdx bitdeck 0 (sy * 64 + sx).toNat i) :
    ¬ FreeAt bitdeck F sx sy := by
  rintro ⟨hr, hb, hf⟩
  have := (hF _).mpr (ReachIdx.seed ⟨cell_lt hr, hb, Nat.zero_testBit _⟩)
  rw [hf] at this
  exact Bool.noConfusion this

/-- `Flood_1` on a seed that is not free returns 0 and leaves the mask. -/
theorem Flood_1_not_free (bitdeck f : Deck) (sx sy : Int) (h : ¬ FreeAt bitdeck f sx sy) :
    Returns (fun fuel => Flood_1 fuel bitdeck 64 f sx sy) (f, 0) := by
  refine Returns_of_mono (Flood_1_fuel_mono bitdeck 64 f sx sy) 0 ?_
  show Flood_1 0 bitdeck 64 f sx sy = _
  unfold Flood_1 Flood_1_init
  rw [FillCell_not_free _ _ _ _ h, whileLoop_done _ _ _ _ (by simp)]
  simp

/-- `Flood_2` on an in-range seed that is not free returns 0 and leaves the mask. -/
theorem Flood_2_not_free (bitdeck f : Deck) (sx sy : Int) (hr : inRange 64 sx sy)
    (h : ¬ FreeAt bitdeck f sx sy) :
    Returns (fun fuel => Flood_2 fuel bitdeck 64 f sx sy) (f, 0) := by
  refine Returns_of_mono (Flood_2_fuel_mono bitdeck 64 f sx sy) 0 ?_
  show Flood_2 0 bitdeck 64 f sx sy = _
  unfold Flood_2 Flood_2_init
  rw [Flood_2_seed_eq bitdeck f sx sy hr, whileLoop_done _ _ _ _ (by simp [h])]
  simp [h]

/-- `Flood_3` on a seed that is not free returns 0 and leaves the mask. -/
theorem Flood_3_not_free (bitdeck f : Deck) (sx sy : Int) (h : ¬ FreeAt bitdeck f sx sy) :
    Returns (fun fuel => Flood_3 fuel bitdeck 64 f sx sy) (f, 0) := by
  refine Returns_of_mono (Flood_3_fuel_mono bitdeck 64 f sx sy) 0 ?_
  show Flood_3 0 bitdeck 64 f sx sy = _
  unfold Flood_3 Flood_3_init
  rw [FillCell_not_free _ _ _ _ h, whileLoop_done _ _ _ _ (by simp)]
  simp

/-- The count of a fill that only sets bits: the number of cells set in the final and clear
in the initial mask. -/
theorem count_newly {init F : Deck} {N : Int} (hg : MaskGrows init F)
    (hc : (popc F : Int) = popc init + N) : N = newlyFilled init F := by
  have := newlyFilled_add init F (fun i _ hi => hg i hi)
  omega

/-! ## The cell primitives -/

/-- The byte and bit of a cell index in the masks. -/
theorem cell_byte_bit (d : Deck) (c : Nat) :
    (byteAt d ((c : Int) >>> 3).toNat).testBit (Int.land (c : Int) 7).toNat = d.testBit c := by
  have h7 : c &&& 7 = c % 8 := Nat.and_pow_two_sub_one_eq_mod c 3
  have h3 : c >>> 3 = c / 8 := Nat.shiftRight_eq_div_pow c 3
  rw [int_cell_shift, int_cell_land, byteAt_testBit, h7, h3]
  have h1 : c % 8 < 8 := Nat.mod_lt _ (by norm_num)
  have h2 : 8 * (c / 8) + c % 8 = c := by omega
  rw [h2]
  simp [h1]

/-- The bytes of a mask with the bit of the cell `c` set. -/
theorem byteAt_or_two_pow (d : Deck) (c b k : Nat) (hk : k < 8) :
    (byteAt (d ||| 2 ^ c) b).testBit k =
      ((byteAt d b).testBit k ||
        decide (b = ((c : Int) >>> 3).toNat ∧ k = (Int.land (c : Int) 7).toNat)) := by
  have h7 : c &&& 7 = c % 8 := Nat.and_pow_two_sub_one_eq_mod c 3
  have h3 : c >>> 3 = c / 8 := Nat.shiftRight_eq_div_pow c 3
  rw [int_cell_shift, int_cell_land, byteAt_testBit, byteAt_testBit, testBit_or_two_pow,
    h7, h3]
  have e : (8 * b + k = c) ↔ (b = c / 8 ∧ k = c % 8) := by omega
  simp only [hk, decide_True, Bool.true_and, decide_eq_decide.mpr e]

/-- C11. `FillCell` contract, for every plane width `dim`, all masks and all integers
`x`, `y`: when `0 <= x < dim`, `0 <= y < dim`, the occupancy bit of the cell `y*dim + x`
(bit `cell & 7` of byte `cell >> 3`) is set and its fill bit is clear, `FillCell` returns the
cell index and sets exactly that bit of the fill mask, every other bit of every byte staying
as it was; in every other case it returns `-1` and leaves the fill mask unchanged. -/
theorem FillCell_contract (bitdeck filled : Deck) (dim x y : Int) :
    ((inRange dim x y ∧
        (byteAt bitdeck ((y * dim + x) >>> 3).toNat).testBit
          (Int.land (y * dim + x) 7).toNat = true ∧
        (byteAt filled ((y * dim + x) >>> 3).toNat).testBit
          (Int.land (y * dim + x) 7).toNat = false) →
      (FillCell bitdeck dim filled x y).2 = y * dim + x ∧
      ∀ b k, k < 8 → (byteAt (FillCell bitdeck dim filled x y).1 b).testBit k =
        ((byteAt filled b).testBit k ||
          decide (b = ((y * dim + x) >>> 3).toNat ∧ k = (Int.land (y * dim + x) 7).toNat))) ∧
    (¬ (inRange dim x y ∧
        (byteAt bitdeck ((y * dim + x) >>> 3).toNat).testBit
          (Int.land (y * dim + x) 7).toNat = true ∧
        (byteAt filled ((y * dim + x) >>> 3).toNat).testBit
          (Int.land (y * dim + x) 7).toNat = false) →
      FillCell bitdeck dim filled x y = (filled, -1)) := by
  by_cases h : inRange dim x y
  · obtain ⟨c, hc⟩ := Int.eq_ofNat_of_zero_le (cell_nonneg h)
    rw [FillCell_in _ _ _ _ _ h, hc]
    simp only [cell_byte_bit, Int.toNat_ofNat]
    constructor
    · rintro ⟨_, h1, h2⟩
      rw [if_pos ⟨h1, h2⟩]
      exact ⟨rfl, fun b k hk => byteAt_or_two_pow filled c b k hk⟩
    · intro hn
      rw [if_neg (fun hcon => hn ⟨h, hcon.1, hcon.2⟩)]
  · rw [FillCell_out _ _ _ _ _ h]
    exact ⟨fun hcon => absurd hcon.1 h, fun _ => rfl⟩

theorem FillCell_contract_witness :
    (inRange 64 3 0 ∧
        (byteAt 15 (((0 : Int) * 64 + 3) >>> 3).toNat).testBit
          (Int.land ((0 : Int) * 64 + 3) 7).toNat = true ∧
        (byteAt 0 (((0 : Int) * 64 + 3) >>> 3).toNat).testBit
          (Int.land ((0 : Int) * 64 + 3) 7).toNat = false) ∧
    ((FillCell 15 64 0 3 0).2 = 0 * 64 + 3 ∧
      ∀ b k, k < 8 → (byteAt (FillCell 15 64 0 3 0).1 b).testBit k =
        ((byteAt 0 b).testBit k ||
          decide (b = (((0 : Int) * 64 + 3) >>> 3).toNat ∧
            k = (Int.land ((0 : Int) * 64 + 3) 7).toNat))) :=
  ⟨by decide, (FillCell_contract 15 0 64 3 0).1 (by decide)⟩

/-- C12. `TestCell` contract, for every plane width `dim`, all masks and all integers `x`,
`y`: outside `[0, dim)` on either axis the result is the sentinel `-1`; inside, it is the
cell index `y*dim + x` exactly when the occupancy bit of the cell is set and its fill bit is
clear, and `-1` otherwise. (`TestCell` has no store: its translation returns the value
only, both masks are as they were.) -/
theorem TestCell_contract (bitdeck filled : Deck) (dim x y : Int) :
    (¬ inRange dim x y → TestCell bitdeck dim filled x y = -1) ∧
    (inRange dim x y →
      ((byteAt bitdeck ((y * dim + x) >>> 3).toNat).testBit
          (Int.land (y * dim + x) 7).toNat = true ∧
        (byteAt filled ((y * dim + x) >>> 3).toNat).testBit
          (Int.land (y * dim + x) 7).toNat = false →
        TestCell bitdeck dim filled x y = y * dim + x) ∧
      (¬ ((byteAt bitdeck ((y * dim + x) >>> 3).toNat).testBit
          (Int.land (y * dim + x) 7).toNat = true ∧
        (byteAt filled ((y * dim + x) >>> 3).toNat).testBit
          (Int.land (y * dim + x) 7).toNat = false) →
        TestCell bitdeck dim filled x y = -1)) := by
  refine ⟨fun h => TestCell_out _ _ _ _ _ h, fun h => ?_⟩
  obtain ⟨c, hc⟩ := Int.eq_ofNat_of_zero_le (cell_nonneg h)
  rw [TestCell_in _ _ _ _ _ h, hc]
  simp only [cell_byte_bit, Int.toNat_ofNat]
  exact ⟨fun hcon => if_pos hcon, fun hn => if_neg hn⟩

theorem TestCell_contract_witness :
    (¬ inRange 64 64 0 ∧ inRange 64 3 0 ∧
      ((byteAt 15 (((0 : Int) * 64 + 3) >>> 3).toNat).testBit
          (Int.land ((0 : Int) * 64 + 3) 7).toNat = true ∧
        (byteAt 0 (((0 : Int) * 64 + 3) >>> 3).toNat).testBit
          (Int.land ((0 : Int) * 64 + 3) 7).toNat = false)) ∧
    TestCell 15 64 0 64 0 = -1 ∧ TestCell 15 64 0 3 0 = 0 * 64 + 3 :=
  ⟨⟨by decide, by decide, by decide⟩, (TestCell_contract 15 0 64 64 0).1 (by decide),
    ((TestCell_contract 15 0 64 3 0).2 (by decide)).1 (by decide)⟩

/-! ## The depth of the work stacks -/

/-- The states `loopState` gives are the states the loop goes through: from the state after
`n` iterations the loop continues as from the start. -/
theorem whileLoop_loopState {σ : Type} (cond : σ → Bool) (body : σ → Option σ) :
    ∀ (n m : Nat) (s t : σ), loopState cond body n s = some t →
      whileLoop cond body (n + m) s = whileLoop cond body m t := by
  intro n
  induction n with
  | zero =>
    intro m s t h
    cases Option.some.inj h
    simp
  | succ n ih =>
    intro m s t h
    unfold loopState at h
    by_cases hc : cond s = true
    · rw [if_pos hc] at h
      obtain ⟨s', hb, hs'⟩ := Option.bind_eq_some.mp h
      have e : n + 1 + m = (n + m) + 1 := by omega
      rw [e, whileLoop_step cond body (n + m) s s' hc hb]
      exact ih m s' t hs'
    · rw [if_neg hc] at h
      exact Option.noConfusion h

/-- An invariant of the loop body holds in every state the loop goes through. -/
theorem loopState_inv {σ : Type} (cond : σ → Bool) (body : σ → Option σ) (I : σ → Prop)
    (hI : ∀ s s', I s → cond s = true → body s = some s' → I s') :
    ∀ (n : Nat) (s t : σ), I s → loopState cond body n s = some t → I t := by
  intro n
  induction n with
  | zero =>
    intro s t hs h
    cases Option.some.inj h
    exact hs
  | succ n ih =>
    intro s t hs h
    unfold loopState at h
    by_cases hc : cond s = true
    · rw [if_pos hc] at h
      obtain ⟨s', hb, hs'⟩ := Option.bind_eq_some.mp h
      exact ih s' t (hI s s' hs hc hb) hs'
    · rw [if_neg hc] at h
      exact Option.noConfusion h

/-- A mask with a clear cell has fewer than 4096 set cells. -/
theorem popc_lt_of_clear (f : Deck) (i : Nat) (hi : i < 4096) (h : f.testBit i = false) :
    popc f < 4096 := by
  have h1 := popc_set f i hi h
  have h2 := popc_le (f ||| 2 ^ i)
  omega

/-- The DFS stack holds at most as many cells as the fill has added. -/
theorem Flood_1_stack_le (bitdeck init : Deck) (sx sy : Int) (n : Nat) (s : Flood1State)
    (h : loopState (fun s : Flood1State => !s.stack.isEmpty)
      (fun s => some (Flood_1_body bitdeck 64 s)) n (Flood_1_init bitdeck 64 init sx sy) =
        some s) :
    s.stack.length + popc init ≤ popc s.filled := by
  refine loopState_inv _ _ (fun s : Flood1State => s.stack.length + popc init ≤ popc s.filled)
    ?_ n _ s ?_ h
  · intro s s' hs hc hb
    obtain ⟨f, st, t⟩ := s
    cases st with
    | nil => simp at hc
    | cons c rest =>
      have hcnt := Flood_1_body_count bitdeck f c rest t
      cases Option.some.inj hb
      simp only [List.length_cons] at hs
      omega
  · have hp := popc_FillCell bitdeck init sx sy
    unfold Flood_1_init
    dsimp only
    split_ifs with hr
    · rw [if_pos hr] at hp
      simp only [List.length_singleton]
      omega
    · rw [if_neg hr] at hp
      simp only [List.length_nil]
      omega

/-- The seed scan pushes at most one seed for every two cells it scans. -/
theorem Flood_2_scan_count (bitdeck f : Deck) (xright yy : Int) :
    ∀ (k fuel : Nat) (x p : Int) (stk : List Int) (res : ScanLoop),
      (xright + 1 - x).toNat ≤ k →
      Flood_2_scan fuel bitdeck 64 f xright yy ⟨x, p, stk⟩ = some res →
      2 * res.stack.length ≤
        2 * stk.length + (xright + 1 - x).toNat + (if p = -1 then 1 else 0) := by
  intro k
  induction k with
  | zero =>
    intro fuel x p stk res hk h
    have hx : ¬ x ≤ xright := by omega
    rw [Flood_2_scan_done _ _ _ _ _ _ _ _ hx] at h
    cases Option.some.inj h
    dsimp only
    omega
  | succ k ih =>
    intro fuel x p stk res hk h
    by_cases hx : x ≤ xright
    · cases fuel with
      | zero =>
        unfold Flood_2_scan whileLoop at h
        simp [hx] at h
      | succ fuel =>
        rw [Flood_2_scan_step _ _ _ _ _ _ _ _ hx] at h
        by_cases hpush : TestCell bitdeck 64 f x yy ≥ 0 ∧ p = -1
        · rw [if_pos hpush] at h
          have := ih fuel _ _ _ res (by omega) h
          have hne : ¬ TestCell bitdeck 64 f x yy = -1 := by omega
          rw [if_neg hne] at this
          rw [if_pos hpush.2]
          simp only [List.length_cons] at this
          omega
        · rw [if_neg hpush] at h
          have := ih fuel _ _ _ res (by omega) h
          split_ifs at this ⊢ <;> omega
    · rw [Flood_2_scan_done _ _ _ _ _ _ _ _ hx] at h
      cases Option.some.inj h
      dsimp only
      omega

/-- One iteration of the span-fill loop pushes at most one seed more than it fills
cells. -/
theorem Flood_2_body_pushes (fuel : Nat) (hfuel : 66 ≤ fuel) (bitdeck f : Deck) (c : Int)
    (rest : List Int) (nf : Int) (hc : 0 ≤ c ∧ c < 4096) (res : Flood2State)
    (h : Flood_2_body fuel bitdeck 64 ⟨f, c :: rest, nf⟩ = some res) :
    (res.stack.length : Int) ≤ rest.length + (res.numfilled - nf) + 1 := by
  have hy : c.tdiv 64 = c / 64 := Int.tdiv_eq_ediv hc.1 (by norm_num)
  have hx : c.tmod 64 = c % 64 := Int.tmod_eq_emod hc.1 (by norm_num)
  obtain ⟨x', f1, r1, r2, r3, _, _, _⟩ := Flood_2_span_right bitdeck (c / 64) 64 fuel f
    (c % 64) nf (by omega) (by omega) (by omega)
  obtain ⟨x'', f2, l1, l2, l3, _, _, _⟩ := Flood_2_span_left bitdeck (c / 64) 64 fuel f1
    (c % 64 - 1) (nf + (x' - c % 64)) (by omega) (by omega) (by omega)
  have hx'64 : x' ≤ 64 := by
    rcases le_max_iff.mp r3 with h | h <;> omega
  have hx''1 : -1 ≤ x'' := by
    rcases min_le_iff.mp l3 with h | h <;> omega
  unfold Flood_2_body at h
  dsimp only at h
  rw [hy, hx, r1, Option.some_bind] at h
  dsimp only at h
  rw [l1, Option.some_bind] at h
  dsimp only at h
  obtain ⟨sA, hA, h'⟩ := Option.bind_eq_some.mp h
  obtain ⟨sB, hB, h''⟩ := Option.bind_eq_some.mp h'
  cases Option.some.inj h''
  dsimp only
  have cA : 2 * sA.length ≤ 2 * rest.length + (x' - 1 + 1 - (x'' - -1)).toNat + 1 := by
    by_cases hgt : c / 64 > 0
    · rw [if_pos hgt] at hA
      obtain ⟨resA, e1, e2⟩ := Option.map_eq_some'.mp hA
      have := Flood_2_scan_count bitdeck f2 (x' - 1) (c / 64 - 1) 66 fuel _ _ _ resA
        (by omega) e1
      rw [e2] at this
      simpa using this
    · rw [if_neg hgt] at hA
      cases Option.some.inj hA
      omega
  have cB : 2 * sB.length ≤ 2 * sA.length + (x' - 1 + 1 - (x'' - -1)).toNat + 1 := by
    by_cases hlt : c / 64 < 64 - 1
    · rw [if_pos hlt] at hB
      obtain ⟨resB, e1, e2⟩ := Option.map_eq_some'.mp hB
      have := Flood_2_scan_count bitdeck f2 (x' - 1) (c / 64 + 1) 66 fuel _ _ _ resB
        (by omega) e1
      rw [e2] at this
      simpa using this
    · rw [if_neg hlt] at hB
      cases Option.some.inj hB
      omega
  omega

/-- The span-fill stack holds at most 4096 seeds, and at most one seed more than the fill
has added cells. -/
theorem Flood_2_stack_le (bitdeck init : Deck) (sx sy : Int) (hseed : inRange 64 sx sy)
    (fuel n : Nat) (s : Flood2State)
    (h : loopState (fun s : Flood2State => !s.stack.isEmpty) (Flood_2_body fuel bitdeck 64) n
      (Flood_2_init bitdeck 64 init sx sy) = some s) :
    s.stack.length ≤ 4096 ∧ s.stack.length + popc init ≤ popc s.filled + 1 := by
  have key := loopState_inv (fun s : Flood2State => !s.stack.isEmpty)
    (Flood_2_body fuel bitdeck 64)
    (fun s : Flood2State =>
      Flood_2_inv bitdeck init (sy * 64 + sx).toNat s.filled s.stack ∧
      s.stack.length ≤ 4096 ∧ s.stack.length + popc init ≤ popc s.filled + 1)
    ?_ n _ s ?_ h
  · exact key.2
  · intro s s' ⟨hinv, h1, h2⟩ hc hb
    obtain ⟨f, st, nf⟩ := s
    cases st with
    | nil => simp at hc
    | cons c rest =>
      have hb' := Flood_2_body_fuel_mono bitdeck 64 fuel (fuel + 66) (by omega) _ _ hb
      obtain ⟨hc0, hcr⟩ := hinv.stk c (List.mem_cons_self _ _)
      have hc4 : c.toNat < 4096 := (ReachIdx_free hcr).1
      obtain ⟨xl, xr, f2, new, b0, b1, b2, b3, b4, b5, b6, b7, b8, b9, b10, b11, b12⟩ :=
        Flood_2_body_spec (fuel + 66) (by omega) bitdeck f c rest nf ⟨hc0, by omega⟩
      have hpush := Flood_2_body_pushes (fuel + 66) (by omega) bitdeck f c rest nf
        ⟨hc0, by omega⟩ s' hb'
      have hp := popc_span bitdeck f f2 (c / 64) xl xr b1 b4 (by omega) (by omega) b6 b9
      have e := Option.some.inj (b0.symm.trans hb')
      rw [← e] at hpush ⊢
      dsimp only at hpush h1 h2 ⊢
      refine ⟨Flood_2_inv_step bitdeck init _ f c rest hinv xl xr f2 new b1 b2 b3 b4 b5 b6 b7
        b8 b9 b11 b12 _ (fun s => List.mem_append), ?_, ?_⟩
      · cases hnew : new with
        | nil =>
          simp only [List.nil_append]
          simp only [List.length_cons] at h1
          omega
        | cons a l =>
          obtain ⟨xs, yy, _, _, _, _, hfree⟩ := b11 a (by rw [hnew]; exact List.mem_cons_self _ _)
          have hlt := popc_lt_of_clear f2 _ (cell_lt hfree.1) hfree.2.2
          rw [← hnew]
          simp only [List.length_cons, List.length_append] at h2 hpush ⊢
          omega
      · simp only [List.length_cons, List.length_append] at h2 hpush ⊢
        omega
  · refine ⟨Flood_2_inv_init bitdeck init sx sy hseed, ?_, ?_⟩
    · unfold Flood_2_init
      dsimp only
      split_ifs <;> simp
    · unfold Flood_2_init
      dsimp only
      split_ifs
      · simp only [List.length_singleton]
        omega
      · simp

/-- C13, evaluated at a failing input. On the staircase occupancy mask `stairsDeck` (cell
`(0, 0)`; row `k` for `k = 1 .. 33` holds the cells `0 .. 2k-2` and the cell `2k`), with an
all-zero fill mask and the seed `(0, 1)`, the row stack of `Flood_3` holds 33 entries at the
head of the loop after 32 iterations, and the work stack of the incremental run (Start on
an empty stack, then steps) holds 33 entries after 126 calls of `Flood_3_Incremental`: one
more than the 32 entries `Flood_3` allocates. -/
theorem Flood_3_stack_exceeds :
    (loopState (fun s : Flood3State => !s.stack.isEmpty) (Flood_3_body 129 stairsDeck 64) 32
      (Flood_3_init stairsDeck 64 0 0 1)).map (fun s => s.stack.length) = some 33 ∧
    (loopState (fun s : RunState SimulSpanFillSIState => !s.stack.isEmpty)
      (fun s => some (Flood_3_runStep stairsDeck 64 s)) 126
      ⟨(Flood_3_Incremental_Start stairsDeck 64 0 [] 0 1).1,
        (Flood_3_Incremental_Start stairsDeck 64 0 [] 0 1).2.1, 0,
        (Flood_3_Incremental_Start stairsDeck 64 0 [] 0 1).2.2⟩).map
      (fun s => s.stack.length) = some 33 := by
  constructor <;> decide

/-- C14. DFS / span-fill stack bound: on the 64x64 plane, for every occupancy mask, every
initial fill mask and every in-range seed, the work stack of `Flood_1` and the work stack of
`Flood_2` hold at most 4096 entries at the head of the loop after any number of iterations.
(An iteration pops one entry and then only pushes, so inside an iteration the depth lies
between the depths at the two loop heads around it.) -/
theorem Flood_stack_bound (bitdeck filled : Deck) (seedX seedY : Int)
    (hseed : inRange 64 seedX seedY) :
    (∀ (n : Nat) (s : Flood1State),
      loopState (fun s : Flood1State => !s.stack.isEmpty)
        (fun s => some (Flood_1_body bitdeck 64 s)) n
        (Flood_1_init bitdeck 64 filled seedX seedY) = some s →
      s.stack.length ≤ 4096) ∧
    (∀ (fuel n : Nat) (s : Flood2State),
      loopState (fun s : Flood2State => !s.stack.isEmpty) (Flood_2_body fuel bitdeck 64) n
        (Flood_2_init bitdeck 64 filled seedX seedY) = some s →
      s.stack.length ≤ 4096) := by
  refine ⟨fun n s h => ?_, fun fuel n s h => ?_⟩
  · have h1 := Flood_1_stack_le bitdeck filled seedX seedY n s h
    have h2 := popc_le s.filled
    omega
  · exact (Flood_2_stack_le bitdeck filled seedX seedY hseed fuel n s h).1

theorem Flood_stack_bound_witness :
    inRange 64 3 0 ∧
    (loopState (fun s : Flood1State => !s.stack.isEmpty)
        (fun s => some (Flood_1_body 15 64 s)) 1 (Flood_1_init 15 64 0 3 0) =
        some (Flood_1_body 15 64 (Flood_1_init 15 64 0 3 0)) ∧
      (Flood_1_body 15 64 (Flood_1_init 15 64 0 3 0)).stack.length ≤ 4096) ∧
    (loopState (fun s : Flood2State => !s.stack.isEmpty) (Flood_2_body 70 15 64) 0
        (Flood_2_init 15 64 0 3 0) = some (Flood_2_init 15 64 0 3 0) ∧
      (Flood_2_init 15 64 0 3 0).stack.length ≤ 4096) :=
  ⟨by decide,
    ⟨rfl, (Flood_stack_bound 15 0 3 0 (by decide)).1 1 _ rfl⟩,
    ⟨rfl, (Flood_stack_bound 15 0 3 0 (by decide)).2 70 0 _ rfl⟩⟩

/-! ## The Start entry point -/

/-- C15, as stated, fails for the span fill: on the occupancy mask with the cells `0 .. 3` of
row 0, an all-zero fill mask, an empty work stack and the seed `(3, 0)`,
`Flood_Incremental_Start` with the algorithm id 1 leaves one entry on the work stack and
returns 0. -/
theorem Flood_Incremental_Start_depth_counterexample :
    ∃ (f : Deck) (st : List IncrementalState) (ret : Int),
      Flood_Incremental_Start 1 15 64 0 [] 3 0 = some (f, st, ret) ∧
      st.length = 1 ∧ ret = 0 ∧ ret ≠ (st.length : Int) :=
  ⟨0, [IncrementalState.Sf (SpanFillSIState.fresh 3)], 0, by decide, rfl, rfl, by decide⟩

/-- C15, amended. On the 64x64 plane, for every occupancy mask, fill mask and in-range
seed, `Flood_Incremental_Start` called with an empty work stack leaves one entry on the
stack when the seed cell is passable and unfilled and none otherwise; with the algorithm
ids 0 and 2 the value it returns is that stack depth, with the algorithm id 1 it returns 0
in both cases. -/
theorem Flood_Incremental_Start_result (bitdeck filled : Deck) (seedX seedY : Int)
    (hseed : inRange 64 seedX seedY) :
    (∃ (f : Deck) (st : List IncrementalState),
      Flood_Incremental_Start 0 bitdeck 64 filled [] seedX seedY =
        some (f, st, (st.length : Int)) ∧
      st.length = if FreeAt bitdeck filled seedX seedY then 1 else 0) ∧
    (∃ (f : Deck) (st : List IncrementalState),
      Flood_Incremental_Start 1 bitdeck 64 filled [] seedX seedY = some (f, st, 0) ∧
      st.length = if FreeAt bitdeck filled seedX seedY then 1 else 0) ∧
    (∃ (f : Deck) (st : List IncrementalState),
      Flood_Incremental_Start 2 bitdeck 64 filled [] seedX seedY =
        some (f, st, (st.length : Int)) ∧
      st.length = if FreeAt bitdeck filled seedX seedY then 1 else 0) := by
  by_cases h : FreeAt bitdeck filled seedX seedY
  · have hnn : seedY * 64 + seedX ≥ 0 := cell_nonneg h.1
    refine ⟨⟨filled ||| 2 ^ (seedY * 64 + seedX).toNat,
        [IncrementalState.Dfs (DFSSIState.fresh (seedY * 64 + seedX))], ?_, ?_⟩,
      ⟨filled, [IncrementalState.Sf (SpanFillSIState.fresh (seedY * 64 + seedX))], ?_, ?_⟩,
      ⟨filled ||| 2 ^ (seedY * 64 + seedX).toNat,
        [IncrementalState.Ssf (SimulSpanFillSIState.fresh ((seedY * 64 + seedX).tdiv 64))],
        ?_, ?_⟩⟩
    · simp [Flood_Incremental_Start, IncrementalState.dfsStack, Flood_1_Incremental_Start,
        FillCell_free _ _ _ _ h, hnn]
    · simp [h]
    · simp [Flood_Incremental_Start, IncrementalState.sfStack, Flood_2_Incremental_Start,
        Flood_2_seed_eq _ _ _ _ hseed, h]
    · simp [h]
    · simp [Flood_Incremental_Start, IncrementalState.ssfStack, Flood_3_Incremental_Start,
        FillCell_free _ _ _ _ h, hnn]
    · simp [h]
  · refine ⟨⟨filled, [], ?_, by simp [h]⟩, ⟨filled, [], ?_, by simp [h]⟩,
      ⟨filled, [], ?_, by simp [h]⟩⟩
    · simp [Flood_Incremental_Start, IncrementalState.dfsStack, Flood_1_Incremental_Start,
        FillCell_not_free _ _ _ _ h]
    · simp [Flood_Incremental_Start, IncrementalState.sfStack, Flood_2_Incremental_Start,
        Flood_2_seed_eq _ _ _ _ hseed, h]
    · simp [Flood_Incremental_Start, IncrementalState.ssfStack, Flood_3_Incremental_Start,
        FillCell_not_free _ _ _ _ h]

theorem Flood_Incremental_Start_result_witness :
    inRange 64 3 0 ∧
    ((∃ (f : Deck) (st : List IncrementalState),
      Flood_Incremental_Start 0 15 64 0 [] 3 0 = some (f, st, (st.length : Int)) ∧
      st.length = if FreeAt 15 0 3 0 then 1 else 0) ∧
    (∃ (f : Deck) (st : List IncrementalState),
      Flood_Incremental_Start 1 15 64 0 [] 3 0 = some (f, st, 0) ∧
      st.length = if FreeAt 15 0 3 0 then 1 else 0) ∧
    (∃ (f : Deck) (st : List IncrementalState),
      Flood_Incremental_Start 2 15 64 0 [] 3 0 = some (f, st, (st.length : Int)) ∧
      st.length = if FreeAt 15 0 3 0 then 1 else 0)) :=
  ⟨by decide, Flood_Incremental_Start_result 15 0 3 0 (by decide)⟩

/-! ## The value returned by one incremental call -/

theorem newlyFilled_self (f : Deck) : newlyFilled f f = 0 := by
  have := newlyFilled_add f f (fun _ _ h => h)
  omega

/-- The count of a call that left the mask or did one `FillCell` on it and returned whether
that filled. -/
theorem delta_of_eq_or (bitdeck f g : Deck) (x y ret : Int)
    (h : (g = f ∧ ret = 0) ∨ (g = (FillCell bitdeck 64 f x y).1 ∧
      ret = if (FillCell bitdeck 64 f x y).2 ≥ 0 then 1 else 0)) :
    ret = newlyFilled f g := by
  rcases h with ⟨h1, h2⟩ | ⟨h1, h2⟩
  · rw [h1, h2, newlyFilled_self]
    rfl
  · rw [h1]
    apply count_newly (FillCell_grows bitdeck f x y).1
    rw [popc_FillCell, h2]
    split_ifs <;> simp

theorem Flood_1_Incremental_delta (bitdeck f : Deck) (stack : List DFSSIState)
    (tested : Deck) :
    ∃ x y, ((Flood_1_Incremental bitdeck 64 f stack tested).filled = f ∧
        (Flood_1_Incremental bitdeck 64 f stack tested).ret = 0) ∨
      ((Flood_1_Incremental bitdeck 64 f stack tested).filled = (FillCell bitdeck 64 f x y).1 ∧
        (Flood_1_Incremental bitdeck 64 f stack tested).ret =
          if (FillCell bitdeck 64 f x y).2 ≥ 0 then 1 else 0) := by
  cases stack with
  | nil => exact ⟨0, 0, Or.inl ⟨rfl, rfl⟩⟩
  | cons state rest =>
    unfold Flood_1_Incremental
    dsimp only
    simp only [FillCellTest_filled, FillCellTest_ret]
    split_ifs
    all_goals first
      | exact ⟨0, 0, Or.inl ⟨rfl, rfl⟩⟩
      | exact ⟨_, _, Or.inr ⟨rfl, (if_pos (by assumption)).symm⟩⟩
      | exact ⟨_, _, Or.inr ⟨rfl, (if_neg (by assumption)).symm⟩⟩

theorem Flood_2_stage1_delta (bitdeck f : Deck) (state : SpanFillSIState)
    (rest : List SpanFillSIState) (sfi : List Int) (tested : Deck) (y : Int) :
    (Flood_2_stage1 bitdeck 64 f state rest sfi tested y).filled =
        (FillCell bitdeck 64 f state.X y).1 ∧
      (Flood_2_stage1 bitdeck 64 f state rest sfi tested y).ret =
        if (FillCell bitdeck 64 f state.X y).2 ≥ 0 then 1 else 0 := by
  unfold Flood_2_stage1
  dsimp only
  simp only [FillCellTest_filled, FillCellTest_ret]
  split_ifs <;> exact ⟨rfl, rfl⟩

theorem Flood_2_stage2_delta (bitdeck f : Deck) (state : SpanFillSIState)
    (rest : List SpanFillSIState) (sfi : List Int) (tested : Deck) (y : Int) :
    (Flood_2_stage2 bitdeck 64 f state rest sfi tested y).filled =
        (FillCell bitdeck 64 f state.X y).1 ∧
      (Flood_2_stage2 bitdeck 64 f state rest sfi tested y).ret =
        if (FillCell bitdeck 64 f state.X y).2 ≥ 0 then 1 else 0 := by
  unfold Flood_2_stage2
  dsimp only
  simp only [FillCellTest_filled, FillCellTest_ret]
  split_ifs <;> exact ⟨rfl, rfl⟩

theorem Flood_2_stage5_ret (f : Deck) (state : SpanFillSIState)
    (rest : List SpanFillSIState) (sfi : List Int) (tested : Deck) :
    (Flood_2_stage5 f state rest sfi tested).ret = 0 := rfl

theorem Flood_2_stage4_ret (bitdeck f : Deck) (state : SpanFillSIState)
    (rest : List SpanFillSIState) (sfi : List Int) (tested : Deck) (y : Int) :
    (Flood_2_stage4 bitdeck 64 f state rest sfi tested y).ret = 0 := by
  unfold Flood_2_stage4
  split_ifs <;> rfl

theorem Flood_2_stage3_ret (bitdeck f : Deck) (state : SpanFillSIState)
    (rest : List SpanFillSIState) (sfi : List Int) (tested : Deck) (y : Int) :
    (Flood_2_stage3 bitdeck 64 f state rest sfi tested y).ret = 0 := by
  unfold Flood_2_stage3
  split_ifs
  · rfl
  · exact Flood_2_stage4_ret _ _ _ _ _ _ _

theorem Flood_2_Incremental_delta (bitdeck f : Deck) (stack : List SpanFillSIState)
    (sfi : List Int) (tested : Deck) :
    ∃ x y, ((Flood_2_Incremental bitdeck 64 f stack sfi tested).filled = f ∧
        (Flood_2_Incremental bitdeck 64 f stack sfi tested).ret = 0) ∨
      ((Flood_2_Incremental bitdeck 64 f stack sfi tested).filled =
          (FillCell bitdeck 64 f x y).1 ∧
        (Flood_2_Incremental bitdeck 64 f stack sfi tested).ret =
          if (FillCell bitdeck 64 f x y).2 ≥ 0 then 1 else 0) := by
  cases stack with
  | nil => exact ⟨0, 0, Or.inl ⟨rfl, rfl⟩⟩
  | cons state rest =>
    unfold Flood_2_Incremental
    dsimp only
    split_ifs
    · exact ⟨_, _, Or.inr (Flood_2_stage1_delta _ _ _ _ _ _ _)⟩
    · exact ⟨_, _, Or.inr (Flood_2_stage1_delta _ _ _ _ _ _ _)⟩
    · exact ⟨_, _, Or.inr (Flood_2_stage2_delta _ _ _ _ _ _ _)⟩
    · exact ⟨0, 0, Or.inl ⟨Flood_2_stage3_filled _ _ _ _ _ _ _,
        Flood_2_stage3_ret _ _ _ _ _ _ _⟩⟩
    · exact ⟨0, 0, Or.inl ⟨Flood_2_stage4_filled _ _ _ _ _ _ _,
        Flood_2_stage4_ret _ _ _ _ _ _ _⟩⟩
    · exact ⟨0, 0, Or.inl ⟨rfl, rfl⟩⟩
    · exact ⟨0, 0, Or.inl ⟨rfl, rfl⟩⟩

theorem Flood_3_stackRows_cons {e : SimulSpanFillSIState} {rest : List SimulSpanFillSIState}
    (he : Flood_3_entryRows e) (hr : Flood_3_stackRows rest) :
    Flood_3_stackRows (e :: rest) := by
  intro a ha
  rcases List.mem_cons.mp ha with h | h
  · rw [h]; exact he
  · exact hr a h

theorem Flood_3_stackRows_fresh (r : Int) (h : 0 ≤ r ∧ r < 64)
    {rest : List SimulSpanFillSIState} (hr : Flood_3_stackRows rest) :
    Flood_3_stackRows (SimulSpanFillSIState.fresh r :: rest) :=
  Flood_3_stackRows_cons ⟨h.1, h.2, fun hcon => Bool.noConfusion hcon, rfl⟩ hr

/-- The count of a word-level row store that only adds bits. -/
theorem popc_setRow_int (d : Deck) (r : Int) (v : Nat) (hr : 0 ≤ r ∧ r < 64)
    (hsub : ∀ i, (rowAt d r.toNat).testBit i = true → v.testBit i = true) (nf : Int) :
    (popc (setRow d r.toNat v) : Int) =
      popc d + (nf + CountBits (v ^^^ rowAt d r.toNat) - nf) := by
  rw [popc_setRow d r.toNat v (by omega) (fun i _ h => hsub i h)]
  push_cast
  ring

theorem Flood_3_stage4_delta (bitdeck f : Deck) (state : SimulSpanFillSIState)
    (rest : List SimulSpanFillSIState) (tested : Deck) (tc nf : Int) (fillRow : Nat)
    (hst : Flood_3_entryRows state) (hrest : Flood_3_stackRows rest) :
    Flood_3_stackRows (Flood_3_stage4 bitdeck 64 f state rest tested tc nf fillRow).stack ∧
    (popc (Flood_3_stage4 bitdeck 64 f state rest tested tc nf fillRow).filled : Int) =
      popc f + ((Flood_3_stage4 bitdeck 64 f state rest tested tc nf fillRow).ret - nf) := by
  obtain ⟨h0, h64, habove, hbelow⟩ := hst
  have hup : state.PushNextAbove = true → Flood_3_stackRows
      (SimulSpanFillSIState.fresh (state.RowIndex - 1) :: rest) :=
    fun h => Flood_3_stackRows_fresh _ (by have := habove h; omega) hrest
  unfold Flood_3_stage4
  dsimp only
  rw [hbelow]
  simp only [Bool.false_or]
  by_cases hd : state.RowIndex < 64 - 1
  · have hd63 : state.RowIndex < 63 := by omega
    by_cases hch : rowAt f (state.RowIndex + 1).toNat =
        rowAt f (state.RowIndex + 1).toNat |||
          fillRow &&& rowAt bitdeck (state.RowIndex + 1).toNat
    · have e : (decide (state.RowIndex < 64 - 1) &&
          decide (rowAt f (state.RowIndex + 1).toNat ≠
            rowAt f (state.RowIndex + 1).toNat |||
              fillRow &&& rowAt bitdeck (state.RowIndex + 1).toNat)) = false := by
        simp [hch.symm]
      rw [e]
      simp only [Bool.false_eq_true, if_false]
      refine ⟨?_, by ring⟩
      cases hpa : state.PushNextAbove
      · simpa using hrest
      · simpa using hup hpa
    · have e : (decide (state.RowIndex < 64 - 1) &&
          decide (rowAt f (state.RowIndex + 1).toNat ≠
            rowAt f (state.RowIndex + 1).toNat |||
              fillRow &&& rowAt bitdeck (state.RowIndex + 1).toNat)) = true := by
        simp [hd63, hch]
      rw [e]
      simp only [if_true]
      constructor
      · cases hpa : state.PushNextAbove
        · simpa using Flood_3_stackRows_fresh (state.RowIndex + 1) (by omega) hrest
        · simpa using Flood_3_stackRows_fresh (state.RowIndex + 1) (by omega) (hup hpa)
      · have := popc_setRow_int f (state.RowIndex + 1) _ (by omega)
          (fun i h => subset_or_left _ (fillRow &&& rowAt bitdeck (state.RowIndex + 1).toNat) i h)
          nf
        rw [Nat.xor_comm] at this
        exact this
  · have e : (decide (state.RowIndex < 64 - 1) &&
        decide (rowAt f (state.RowIndex + 1).toNat ≠
          rowAt f (state.RowIndex + 1).toNat |||
            fillRow &&& rowAt bitdeck (state.RowIndex + 1).toNat)) = false := by
      have hd63 : ¬ state.RowIndex < 63 := by omega
      simp [hd63]
    rw [e]
    simp only [Bool.false_eq_true, if_false]
    refine ⟨?_, by ring⟩
    cases hpa : state.PushNextAbove
    · simpa using hrest
    · simpa using hup hpa

theorem Flood_3_stage3_delta (bitdeck f : Deck) (state : SimulSpanFillSIState)
    (rest : List SimulSpanFillSIState) (tested : Deck) (tc nf : Int) (fillRow : Nat)
    (hst : Flood_3_entryRows state) (hrest : Flood_3_stackRows rest) :
    Flood_3_stackRows (Flood_3_stage3 bitdeck 64 f state rest tested tc nf fillRow).stack ∧
    (popc (Flood_3_stage3 bitdeck 64 f state rest tested tc nf fillRow).filled : Int) =
      popc f + ((Flood_3_stage3 bitdeck 64 f state rest tested tc nf fillRow).ret - nf) := by
  have hst' : Flood_3_entryRows { state with Stage := state.Stage + 1 } := hst
  unfold Flood_3_stage3
  dsimp only
  split_ifs with h1 h2
  · constructor
    · exact Flood_3_stackRows_cons ⟨hst.1, hst.2.1, fun _ => h1, hst.2.2.2⟩ hrest
    · have := popc_setRow_int f (state.RowIndex - 1) _ (by have := hst.2.1; omega)
        (fun i h => subset_or_left _ (fillRow &&& rowAt bitdeck (state.RowIndex - 1).toNat) i h)
        nf
      rw [Nat.xor_comm] at this
      exact this
  · exact Flood_3_stage4_delta bitdeck f _ rest _ _ nf fillRow hst' hrest
  · exact Flood_3_stage4_delta bitdeck f _ rest _ _ nf fillRow hst' hrest

theorem Flood_3_stage2_delta (bitdeck f : Deck) (state : SimulSpanFillSIState)
    (rest : List SimulSpanFillSIState) (tested : Deck) (tc nf : Int) (bitRow fillRow : Nat)
    (hF : fillRow = rowAt f state.RowIndex.toNat)
    (hst : Flood_3_entryRows state) (hrest : Flood_3_stackRows rest) :
    Flood_3_stackRows
      (Flood_3_stage2 bitdeck 64 f state rest tested tc nf bitRow fillRow).stack ∧
    (popc (Flood_3_stage2 bitdeck 64 f state rest tested tc nf bitRow fillRow).filled : Int) =
      popc f +
        ((Flood_3_stage2 bitdeck 64 f state rest tested tc nf bitRow fillRow).ret - nf) := by
  unfold Flood_3_stage2
  dsimp only
  by_cases ht : state.Test ≠ 0
  · have hd : (state.Test = 0) = False := eq_false ht
    simp only [ne_eq, hd, not_false_eq_true, decide_True, if_true, true_and]
    split_ifs
    · exact Flood_3_stage3_delta bitdeck f _ rest _ _ nf _ hst hrest
    · constructor
      · exact Flood_3_stackRows_cons hst hrest
      · have := popc_setRow_int f state.RowIndex (fillRow ||| state.Test) ⟨hst.1, hst.2.1⟩
          (fun i h => by rw [← hF] at h; exact subset_or_left _ _ i h) nf
        rw [← hF] at this
        exact this
  · have hd : (state.Test = 0) = True := eq_true (not_not.mp ht)
    simp only [ne_eq, hd, not_true_eq_false, decide_False, Bool.false_eq_true, if_false,
      false_and]
    exact Flood_3_stage3_delta bitdeck f _ rest _ _ nf _ hst hrest

theorem Flood_3_stage1_delta (bitdeck f : Deck) (state : SimulSpanFillSIState)
    (rest : List SimulSpanFillSIState) (tested : Deck) (tc nf : Int) (bitRow fillRow : Nat)
    (hF : fillRow = rowAt f state.RowIndex.toNat)
    (hst : Flood_3_entryRows state) (hrest : Flood_3_stackRows rest) :
    Flood_3_stackRows
      (Flood_3_stage1 bitdeck 64 f state rest tested tc nf bitRow fillRow).stack ∧
    (popc (Flood_3_stage1 bitdeck 64 f state rest tested tc nf bitRow fillRow).filled : Int) =
      popc f +
        ((Flood_3_stage1 bitdeck 64 f state rest tested tc nf bitRow fillRow).ret - nf) := by
  unfold Flood_3_stage1
  dsimp only
  by_cases ht : state.Test ≠ 0
  · have hd : (state.Test = 0) = False := eq_false ht
    simp only [ne_eq, hd, not_false_eq_true, decide_True, if_true, true_and]
    split_ifs with hsame
    · exact Flood_3_stage2_delta bitdeck f _ rest _ _ nf bitRow _ (hsame.symm.trans hF)
        hst hrest
    · constructor
      · exact Flood_3_stackRows_cons hst hrest
      · have := popc_setRow_int f state.RowIndex (fillRow ||| state.Test) ⟨hst.1, hst.2.1⟩
          (fun i h => by rw [← hF] at h; exact subset_or_left _ _ i h) nf
        rw [← hF] at this
        exact this
  · have hd : (state.Test = 0) = True := eq_true (not_not.mp ht)
    simp only [ne_eq, hd, not_true_eq_false, decide_False, Bool.false_eq_true, if_false,
      false_and]
    exact Flood_3_stage2_delta bitdeck f _ rest _ _ nf bitRow _ hF hst hrest

/-- One call of `Flood_3_Incremental` on a stack of entries for rows of the plane: the stack
it leaves is such a stack, and the value it returns is the growth of the number of set
cells. -/
theorem Flood_3_Incremental_delta (bitdeck f : Deck) (stack : List SimulSpanFillSIState)
    (tested : Deck) (hrows : Flood_3_stackRows stack) :
    Flood_3_stackRows (Flood_3_Incremental bitdeck 64 f stack tested).stack ∧
    (popc (Flood_3_Incremental bitdeck 64 f stack tested).filled : Int) =
      popc f + (Flood_3_Incremental bitdeck 64 f stack tested).ret := by
  cases stack with
  | nil => exact ⟨hrows, by simp [Flood_3_Incremental]⟩
  | cons state rest =>
    have hst := hrows state (List.mem_cons_self _ _)
    have hrest : Flood_3_stackRows rest := fun e he => hrows e (List.mem_cons_of_mem _ he)
    unfold Flood_3_Incremental
    dsimp only
    split_ifs
    · have := Flood_3_stage1_delta bitdeck f
        { state with FillRowPrev := 0,
                     Test := ((rowAt f state.RowIndex.toNat <<< 1) % 2 ^ 64) &&&
                       rowAt bitdeck state.RowIndex.toNat,
                     Stage := state.Stage + 1 } rest tested (0 + 1) 0
        (rowAt bitdeck state.RowIndex.toNat) (rowAt f state.RowIndex.toNat) rfl hst hrest
      simpa using this
    · have := Flood_3_stage1_delta bitdeck f state rest tested 0 0
        (rowAt bitdeck state.RowIndex.toNat) (rowAt f state.RowIndex.toNat) rfl hst hrest
      simpa using this
    · have := Flood_3_stage2_delta bitdeck f state rest tested 0 0
        (rowAt bitdeck state.RowIndex.toNat) (rowAt f state.RowIndex.toNat) rfl hst hrest
      simpa using this
    · have := Flood_3_stage3_delta bitdeck f state rest tested 0 0
        (rowAt f state.RowIndex.toNat) hst hrest
      simpa using this
    · have := Flood_3_stage4_delta bitdeck f state rest tested 0 0
        (rowAt f state.RowIndex.toNat) hst hrest
      simpa using this
    · exact ⟨hrows, by simp⟩

/-- Every stack produced by Start and steps holds entries for rows of the plane. -/
theorem Flood_3_Produced_rows {bitdeck f : Deck} {stack : List SimulSpanFillSIState}
    (h : Flood_3_Produced bitdeck f stack) : Flood_3_stackRows stack := by
  induction h with
  | empty _ => exact fun e he => absurd he (List.not_mem_nil _)
  | start filled stack sx sy _ ih =>
    unfold Flood_3_Incremental_Start
    dsimp only
    split_ifs with hr
    · obtain ⟨h1, h2⟩ := FillCell_ret_nonneg _ _ _ _ _ hr
      refine Flood_3_stackRows_fresh _ ?_ ih
      rw [h1, Int.tdiv_eq_ediv (cell_nonneg h2) (by norm_num)]
      unfold inRange at h2
      omega
    · exact ih
  | step filled stack tested _ ih =>
    exact (Flood_3_Incremental_delta bitdeck filled stack tested ih).1

/-- C16. Step fill delta: on the 64x64 plane, the value returned by one call of
`Flood_1_Incremental` and of `Flood_2_Incremental`, on any stack, and by one call of
`Flood_3_Incremental` on any mask and stack produced by Start and steps, is the number of
cells that are clear in the fill mask before the call and set in it after the call. -/
theorem Flood_Incremental_fill_delta (bitdeck : Deck) :
    (∀ (filled : Deck) (stack : List DFSSIState) (tested : Deck),
      (Flood_1_Incremental bitdeck 64 filled stack tested).ret =
        newlyFilled filled (Flood_1_Incremental bitdeck 64 filled stack tested).filled) ∧
    (∀ (filled : Deck) (stack : List SpanFillSIState) (sfi : List Int) (tested : Deck),
      (Flood_2_Incremental bitdeck 64 filled stack sfi tested).ret =
        newlyFilled filled (Flood_2_Incremental bitdeck 64 filled stack sfi tested).filled) ∧
    (∀ (filled : Deck) (stack : List SimulSpanFillSIState) (tested : Deck),
      Flood_3_Produced bitdeck filled stack →
      (Flood_3_Incremental bitdeck 64 filled stack tested).ret =
        newlyFilled filled (Flood_3_Incremental bitdeck 64 filled stack tested).filled) := by
  refine ⟨fun f st t => ?_, fun f st sfi t => ?_, fun f st t hp => ?_⟩
  · obtain ⟨x, y, h⟩ := Flood_1_Incremental_delta bitdeck f st t
    exact delta_of_eq_or bitdeck f _ x y _ h
  · obtain ⟨x, y, h⟩ := Flood_2_Incremental_delta bitdeck f st sfi t
    exact delta_of_eq_or bitdeck f _ x y _ h
  · exact count_newly (Flood_3_Incremental_ok bitdeck f st t).1
      (Flood_3_Incremental_delta bitdeck f st t (Flood_3_Produced_rows hp)).2

theorem Flood_Incremental_fill_delta_witness :
    Flood_3_Produced 15 (Flood_3_Incremental_Start 15 64 0 [] 3 0).1
        (Flood_3_Incremental_Start 15 64 0 [] 3 0).2.1 ∧
    (Flood_3_Incremental 15 64 (Flood_3_Incremental_Start 15 64 0 [] 3 0).1
        (Flood_3_Incremental_Start 15 64 0 [] 3 0).2.1 0).ret =
      newlyFilled (Flood_3_Incremental_Start 15 64 0 [] 3 0).1
        (Flood_3_Incremental 15 64 (Flood_3_Incremental_Start 15 64 0 [] 3 0).1
          (Flood_3_Incremental_Start 15 64 0 [] 3 0).2.1 0).filled :=
  ⟨Flood_3_Produced.start 0 [] 3 0 (Flood_3_Produced.empty 0),
    (Flood_Incremental_fill_delta 15).2.2 _ _ 0
      (Flood_3_Produced.start 0 [] 3 0 (Flood_3_Produced.empty 0))⟩

/-! ## Scenarios -/

theorem Flood_algo0 (bitdeck : Deck) (dim : Int) (filled : Deck) (sx sy : Int) :
    (fun fuel => Flood fuel 0 bitdeck dim filled sx sy) =
      (fun fuel => Flood_1 fuel bitdeck dim filled sx sy) := by
  funext fuel
  simp [Flood]

theorem Flood_algo1 (bitdeck : Deck) (dim : Int) (filled : Deck) (sx sy : Int) :
    (fun fuel => Flood fuel 1 bitdeck dim filled sx sy) =
      (fun fuel => Flood_2 fuel bitdeck dim filled sx sy) := by
  funext fuel
  simp [Flood]

theorem Flood_algo2 (bitdeck : Deck) (dim : Int) (filled : Deck) (sx sy : Int) :
    (fun fuel => Flood fuel 2 bitdeck dim filled sx sy) =
      (fun fuel => Flood_3 fuel bitdeck dim filled sx sy) := by
  funext fuel
  simp [Flood]

/-- C17, evaluated at a failing input. On the 64x64 plane whose only occupied cell is
`(0, 1)` (bit 64), with an all-zero fill mask and the out-of-range seed `(64, 0)`, `Flood`
with the algorithm id 1 fills the cell `(0, 1)` and returns 1, while with the algorithm ids
0 and 2 it returns 0 and leaves the fill mask all-zero. -/
theorem Flood_2_out_of_range_seed :
    ¬ inRange 64 64 0 ∧
    Returns (fun fuel => Flood fuel 1 (2 ^ 64) 64 0 64 0) (2 ^ 64, 1) ∧
    Returns (fun fuel => Flood fuel 0 (2 ^ 64) 64 0 64 0) (0, 0) ∧
    Returns (fun fuel => Flood fuel 2 (2 ^ 64) 64 0 64 0) (0, 0) := by
  rw [Flood_algo0, Flood_algo1, Flood_algo2]
  refine ⟨by decide, ?_, ?_, ?_⟩
  · exact Returns_of_mono (Flood_2_fuel_mono (2 ^ 64) 64 0 64 0) 70 (by decide)
  · exact Returns_of_mono (Flood_1_fuel_mono (2 ^ 64) 64 0 64 0) 1 (by decide)
  · exact Returns_of_mono (Flood_3_fuel_mono (2 ^ 64) 64 0 64 0) 1 (by decide)

theorem deckOfCells_testBit (p : Nat → Nat → Bool) (n i : Nat) :
    (deckOfCells p n).testBit i = (decide (i < n) && p (i % 64) (i / 64)) := by
  induction n with
  | zero => simp [deckOfCells]
  | succ n ih =>
    unfold deckOfCells
    rw [Nat.testBit_or, ih]
    by_cases hi : i = n
    · subst hi
      cases hp : p (i % 64) (i / 64) <;> simp [hp, Nat.testBit_two_pow]
    · have h1 : (if p (n % 64) (n / 64) = true then 2 ^ n else 0).testBit i = false := by
        split_ifs
        · rw [Nat.testBit_two_pow]
          simpa using fun h => hi h.symm
        · exact Nat.zero_testBit i
      rw [h1, Bool.or_false]
      have h2 : decide (i < n) = decide (i < n + 1) := by
        apply decide_eq_decide.mpr
        omega
      rw [h2]

theorem checkerDeck_testBit (i : Nat) :
    checkerDeck.testBit i = true ↔ (i < 4096 ∧ (i % 64 + i / 64) % 2 = 0) := by
  unfold checkerDeck
  rw [deckOfCells_testBit]
  simp

/-- From a seed none of whose neighbours is passable, only the seed is reached. -/
theorem reach_single (bitdeck : Deck) (s : Nat)
    (hiso : bitdeck.testBit s = true → ∀ j, adjIdx s j → ¬ freeIdx bitdeck 0 j) (i : Nat) :
    ReachIdx bitdeck 0 s i ↔ (i = s ∧ freeIdx bitdeck 0 s) := by
  constructor
  · intro h
    induction h with
    | seed h => exact ⟨rfl, h⟩
    | step i j _ hadj hfree ih =>
      rw [ih.1] at hadj
      exact absurd hfree (hiso ih.2.2.1 j hadj)
  · rintro ⟨rfl, h⟩
    exact ReachIdx.seed h

/-- A mask with exactly the bit of one cell of the plane. -/
theorem single_fill {F : Deck} {c : Nat} (hc : c < 4096)
    (h : ∀ i, F.testBit i = true ↔ i = c) : F = 2 ^ c ∧ popc F = 1 := by
  have e : F = 2 ^ c := by
    apply deck_ext_of_iff F (2 ^ c) (fun i => i = c) h
    intro i
    rw [Nat.testBit_two_pow]
    simp [eq_comm]
  refine ⟨e, ?_⟩
  rw [e]
  have := popc_set 0 c hc (Nat.zero_testBit c)
  rw [Nat.zero_or, popc_zero] at this
  exact this

/-- A mask with no bit. -/
theorem empty_fill {F : Deck} (h : ∀ i, ¬ F.testBit i = true) : F = 0 ∧ popc F = 0 := by
  have e : F = 0 := by
    apply deck_ext_of_iff F 0 (fun _ => False) (fun i => ⟨fun hi => h i hi, False.elim⟩)
    intro i
    rw [Nat.zero_testBit]
    simp
  exact ⟨e, by rw [e, popc_zero]⟩

/-- A batch result on an empty fill mask that is the set of cells reached from a seed none
of whose neighbours is passable when the seed is: the seed alone with the count 1 when the
seed is passable, nothing with the count 0 when it is not. -/
theorem isolated_result (bitdeck : Deck) (sx sy : Int) (hseed : inRange 64 sx sy)
    (hiso : bitdeck.testBit (sy * 64 + sx).toNat = true →
      ∀ j, adjIdx (sy * 64 + sx).toNat j → ¬ freeIdx bitdeck 0 j)
    (g : Nat → Option (Deck × Int))
    (hg : ∃ (F : Deck) (N : Int), Returns g (F, N) ∧
      (∀ i, F.testBit i = true ↔ ReachIdx bitdeck 0 (sy * 64 + sx).toNat i) ∧
      (popc F : Int) = N) :
    Returns g (if bitdeck.testBit (sy * 64 + sx).toNat = true
      then (2 ^ (sy * 64 + sx).toNat, 1) else (0, 0)) := by
  obtain ⟨F, N, h1, h2, h3⟩ := hg
  have hlt : (sy * 64 + sx).toNat < 4096 := cell_lt hseed
  by_cases hb : bitdeck.testBit (sy * 64 + sx).toNat = true
  · rw [if_pos hb]
    obtain ⟨e1, e2⟩ := single_fill hlt (fun i => by
      rw [h2 i, reach_single bitdeck _ hiso i]
      exact ⟨fun h => h.1, fun h => ⟨h, hlt, hb, Nat.zero_testBit _⟩⟩)
    rw [e2] at h3
    rw [e1] at h1
    have : N = 1 := by omega
    rw [this] at h1
    exact h1
  · rw [if_neg hb]
    obtain ⟨e1, e2⟩ := empty_fill (F := F) (fun i hi => by
      rw [h2 i, reach_single bitdeck _ hiso i] at hi
      exact hb hi.2.2.1)
    rw [e2] at h3
    rw [e1] at h1
    have : N = 0 := by omega
    rw [this] at h1
    exact h1

/-- C19. Isolated-cell scenario: on the 64x64 plane whose only occupied cell is `(3, 3)`
(bit `3*64 + 3 = 195`), with an all-zero fill mask, for every in-range seed each of
`Flood_1`, `Flood_2` and `Flood_3` returns 1 with exactly the bit of the cell `(3, 3)` set
when the seed is `(3, 3)`, and returns 0 with the fill mask all-zero for every other
seed. -/
theorem Flood_isolated_cell (seedX seedY : Int) (hseed : inRange 64 seedX seedY) :
    Returns (fun fuel => Flood_1 fuel (2 ^ 195) 64 0 seedX seedY)
      (if seedX = 3 ∧ seedY = 3 then (2 ^ 195, 1) else (0, 0)) ∧
    Returns (fun fuel => Flood_2 fuel (2 ^ 195) 64 0 seedX seedY)
      (if seedX = 3 ∧ seedY = 3 then (2 ^ 195, 1) else (0, 0)) ∧
    Returns (fun fuel => Flood_3 fuel (2 ^ 195) 64 0 seedX seedY)
      (if seedX = 3 ∧ seedY = 3 then (2 ^ 195, 1) else (0, 0)) := by
  have hbit : ∀ j, Nat.testBit (2 ^ 195) j = true ↔ j = 195 := by
    intro j
    rw [Nat.testBit_two_pow]
    simp [eq_comm]
  have hiso : Nat.testBit (2 ^ 195) (seedY * 64 + seedX).toNat = true →
      ∀ j, adjIdx (seedY * 64 + seedX).toNat j → ¬ freeIdx (2 ^ 195) 0 j := by
    intro hs j hadj hfree
    have h1 := (hbit _).mp hs
    have h2 := (hbit _).mp hfree.2.1
    unfold adjIdx at hadj
    omega
  have hcond : (Nat.testBit (2 ^ 195) (seedY * 64 + seedX).toNat = true) ↔
      (seedX = 3 ∧ seedY = 3) := by
    rw [hbit]
    unfold inRange at hseed
    omega
  have key := fun g hg => isolated_result (2 ^ 195) seedX seedY hseed hiso g hg
  simp only [hcond] at key
  have he : (if seedX = 3 ∧ seedY = 3 then ((2 : Nat) ^ (seedY * 64 + seedX).toNat, (1 : Int))
      else (0, 0)) = (if seedX = 3 ∧ seedY = 3 then (2 ^ 195, 1) else (0, 0)) := by
    by_cases hc : seedX = 3 ∧ seedY = 3
    · rw [if_pos hc, if_pos hc, hc.1, hc.2]
      rfl
    · rw [if_neg hc, if_neg hc]
  rw [he] at key
  exact ⟨key _ (Flood_1_zero _ seedX seedY hseed), key _ (Flood_2_zero _ seedX seedY hseed),
    key _ (Flood_3_zero _ seedX seedY hseed)⟩

theorem Flood_isolated_cell_witness :
    inRange 64 3 3 ∧
    (Returns (fun fuel => Flood_1 fuel (2 ^ 195) 64 0 3 3)
      (if (3 : Int) = 3 ∧ (3 : Int) = 3 then (2 ^ 195, 1) else (0, 0)) ∧
    Returns (fun fuel => Flood_2 fuel (2 ^ 195) 64 0 3 3)
      (if (3 : Int) = 3 ∧ (3 : Int) = 3 then (2 ^ 195, 1) else (0, 0)) ∧
    Returns (fun fuel => Flood_3 fuel (2 ^ 195) 64 0 3 3)
      (if (3 : Int) = 3 ∧ (3 : Int) = 3 then (2 ^ 195, 1) else (0, 0))) :=
  ⟨by decide, Flood_isolated_cell 3 3 (by decide)⟩

/-- Two adjacent cells do not both have an even coordinate sum. -/
theorem adj_parity (s j : Nat) (h1 : (s % 64 + s / 64) % 2 = 0)
    (h2 : (j % 64 + j / 64) % 2 = 0) : ¬ adjIdx s j := by
  intro hadj
  rcases hadj with h | h | ⟨h, hm⟩ | ⟨h, hm⟩
  · have a : j % 64 = s % 64 := by omega
    have b : j / 64 = s / 64 + 1 := by omega
    rw [a, b] at h2
    omega
  · have a : s % 64 = j % 64 := by omega
    have b : s / 64 = j / 64 + 1 := by omega
    rw [a, b] at h1
    omega
  · have a : j % 64 = s % 64 + 1 := by omega
    have b : j / 64 = s / 64 := by omega
    rw [a, b] at h2
    omega
  · have a : s % 64 = j % 64 + 1 := by omega
    have b : s / 64 = j / 64 := by omega
    rw [a, b] at h1
    omega

/-- C20. Checkerboard scenario: on the 64x64 checkerboard occupancy mask (the cell `(x, y)`
is occupied iff `x + y` is even), with an all-zero fill mask, for every in-range seed on an
occupied cell each of `Flood_1`, `Flood_2` and `Flood_3` returns 1 and sets only the fill
bit of the seed. -/
theorem Flood_checkerboard (seedX seedY : Int) (hseed : inRange 64 seedX seedY)
    (hocc : cellSet checkerDeck seedX.toNat seedY.toNat) :
    Returns (fun fuel => Flood_1 fuel checkerDeck 64 0 seedX seedY)
      (2 ^ (seedY * 64 + seedX).toNat, 1) ∧
    Returns (fun fuel => Flood_2 fuel checkerDeck 64 0 seedX seedY)
      (2 ^ (seedY * 64 + seedX).toNat, 1) ∧
    Returns (fun fuel => Flood_3 fuel checkerDeck 64 0 seedX seedY)
      (2 ^ (seedY * 64 + seedX).toNat, 1) := by
  obtain ⟨e, _, _⟩ := seed_index hseed
  have hs : checkerDeck.testBit (seedY * 64 + seedX).toNat = true := by
    rw [e]
    exact hocc
  have hiso : checkerDeck.testBit (seedY * 64 + seedX).toNat = true →
      ∀ j, adjIdx (seedY * 64 + seedX).toNat j → ¬ freeIdx checkerDeck 0 j := by
    intro hs j hadj hfree
    have h1 := (checkerDeck_testBit _).mp hs
    have h2 := (checkerDeck_testBit _).mp hfree.2.1
    exact adj_parity _ _ h1.2 h2.2 hadj
  have key := fun g hg => isolated_result checkerDeck seedX seedY hseed hiso g hg
  simp only [hs, if_true] at key
  exact ⟨key _ (Flood_1_zero _ seedX seedY hseed), key _ (Flood_2_zero _ seedX seedY hseed),
    key _ (Flood_3_zero _ seedX seedY hseed)⟩

theorem Flood_checkerboard_witness :
    (inRange 64 2 4 ∧ cellSet checkerDeck (2 : Int).toNat (4 : Int).toNat) ∧
    (Returns (fun fuel => Flood_1 fuel checkerDeck 64 0 2 4)
      (2 ^ ((4 : Int) * 64 + 2).toNat, 1) ∧
    Returns (fun fuel => Flood_2 fuel checkerDeck 64 0 2 4)
      (2 ^ ((4 : Int) * 64 + 2).toNat, 1) ∧
    Returns (fun fuel => Flood_3 fuel checkerDeck 64 0 2 4)
      (2 ^ ((4 : Int) * 64 + 2).toNat, 1)) :=
  ⟨⟨by decide, (checkerDeck_testBit 258).mpr (by decide)⟩,
    Flood_checkerboard 2 4 (by decide) ((checkerDeck_testBit 258).mpr (by decide))⟩

/-! ## The step dispatcher and the test mask -/

/-- C29. A step on a finished fill is a no-op: for the algorithm ids 0, 1 and 2,
`Flood_Incremental` called with stack count 0 returns 0, reports `numTested = 0`, leaves the
stack count at 0 and leaves the fill mask, the test mask and the auxiliary stack as they
were; for every other algorithm id the dispatchers `Flood`, `Flood_Incremental` and
`Flood_Incremental_Start` return 0 and change no mask and no stack. -/
theorem Flood_Incremental_finished (bitdeck filled tested : Deck) (dim : Int)
    (stack : List IncrementalState) (sfi : List Int) (numTested seedX seedY : Int)
    (fuel : Nat) :
    (∀ algo : Int, algo = 0 ∨ algo = 1 ∨ algo = 2 →
      Flood_Incremental algo bitdeck dim filled [] sfi tested numTested =
        some ⟨filled, [], sfi, tested, 0, 0⟩) ∧
    (∀ algo : Int, ¬ (algo = 0 ∨ algo = 1 ∨ algo = 2) →
      Flood fuel algo bitdeck dim filled seedX seedY = some (filled, 0) ∧
      Flood_Incremental algo bitdeck dim filled stack sfi tested numTested =
        some ⟨filled, stack, sfi, tested, numTested, 0⟩ ∧
      Flood_Incremental_Start algo bitdeck dim filled stack seedX seedY =
        some (filled, stack, 0)) := by
  constructor
  · intro algo h
    rcases h with h | h | h <;> subst h
    · simp [Flood_Incremental, IncrementalState.dfsStack, Flood_1_Incremental]
    · simp [Flood_Incremental, IncrementalState.sfStack, Flood_2_Incremental]
    · simp [Flood_Incremental, IncrementalState.ssfStack, Flood_3_Incremental]
  · intro algo h
    have h0 : algo ≠ 0 := fun e => h (Or.inl e)
    have h1 : algo ≠ 1 := fun e => h (Or.inr (Or.inl e))
    have h2 : algo ≠ 2 := fun e => h (Or.inr (Or.inr e))
    refine ⟨?_, ?_, ?_⟩
    · simp [Flood, h0, h1, h2]
    · simp [Flood_Incremental, h0, h1, h2]
    · simp [Flood_Incremental_Start, h0, h1, h2]

/-- C29, at a concrete input: the span-fill stepper on an empty stack, and the three
dispatchers on the algorithm id 7. -/
theorem Flood_Incremental_finished_witness :
    Flood_Incremental 1 15 64 3 [] [] 0 5 = some ⟨3, [], [], 0, 0, 0⟩ ∧
    (Flood 0 7 15 64 3 0 0 = some (3, 0) ∧
      Flood_Incremental 7 15 64 3 [IncrementalState.Dfs (DFSSIState.fresh 2)] [] 0 5 =
        some ⟨3, [IncrementalState.Dfs (DFSSIState.fresh 2)], [], 0, 5, 0⟩ ∧
      Flood_Incremental_Start 7 15 64 3 [IncrementalState.Dfs (DFSSIState.fresh 2)] 0 0 =
        some (3, [IncrementalState.Dfs (DFSSIState.fresh 2)], 0)) :=
  ⟨(Flood_Incremental_finished 15 3 0 64 [IncrementalState.Dfs (DFSSIState.fresh 2)] [] 5 0 0
      0).1 1 (by decide),
    (Flood_Incremental_finished 15 3 0 64 [IncrementalState.Dfs (DFSSIState.fresh 2)] [] 5 0 0
      0).2 7 (by decide)⟩

theorem FillCellTest_testCount (bitdeck filled tested : Deck) (dim tc x y : Int) :
    (FillCellTest bitdeck dim filled tested tc x y).testCount =
      if x < 0 ∨ x ≥ dim ∨ y < 0 ∨ y ≥ dim then tc else tc + 1 := by
  unfold FillCellTest
  by_cases h : x < 0 ∨ x ≥ dim ∨ y < 0 ∨ y ≥ dim
  · simp only [if_pos h]
  · simp only [if_neg h]
    split_ifs <;> rfl

theorem TestCellTest_testCount (bitdeck filled tested : Deck) (dim tc x y : Int) :
    (TestCellTest bitdeck dim filled tested tc x y).testCount =
      if x < 0 ∨ x ≥ dim ∨ y < 0 ∨ y ≥ dim then tc else tc + 1 := by
  unfold TestCellTest
  by_cases h : x < 0 ∨ x ≥ dim ∨ y < 0 ∨ y ≥ dim
  · simp only [if_pos h]
  · simp only [if_neg h]
    split_ifs <;> rfl

/-- Two calls of the DFS stepper that differ in the test mask only. -/
theorem Flood_1_Incremental_indep (bitdeck filled : Deck) (dim : Int)
    (stack : List DFSSIState) (tested tested' : Deck) :
    (Flood_1_Incremental bitdeck dim filled stack tested).agree
      (Flood_1_Incremental bitdeck dim filled stack tested') := by
  cases stack with
  | nil => exact ⟨rfl, rfl, rfl, rfl⟩
  | cons state rest =>
    simp only [StepResult.agree, Flood_1_Incremental, FillCellTest_filled, FillCellTest_ret,
      FillCellTest_testCount]
    split_ifs <;> exact ⟨rfl, rfl, rfl, rfl⟩

theorem Flood_2_stage5_indep (filled : Deck) (state : SpanFillSIState)
    (rest : List SpanFillSIState) (sfi : List Int) (tested tested' : Deck) :
    (Flood_2_stage5 filled state rest sfi tested).agree
      (Flood_2_stage5 filled state rest sfi tested') :=
  ⟨rfl, rfl, rfl, rfl, rfl⟩

theorem Flood_2_scanStep_indep (bitdeck filled : Deck) (dim : Int) (state : SpanFillSIState)
    (rest : List SpanFillSIState) (sfi : List Int) (tested tested' : Deck) (yy : Int) :
    (Flood_2_scanStep bitdeck dim filled state rest sfi tested yy).agree
      (Flood_2_scanStep bitdeck dim filled state rest sfi tested' yy) := by
  simp [Step2Result.agree, Flood_2_scanStep, TestCellTest_ret, TestCellTest_testCount]

theorem Flood_2_stage4_indep (bitdeck filled : Deck) (dim : Int) (state : SpanFillSIState)
    (rest : List SpanFillSIState) (sfi : List Int) (tested tested' : Deck) (y : Int) :
    (Flood_2_stage4 bitdeck dim filled state rest sfi tested y).agree
      (Flood_2_stage4 bitdeck dim filled state rest sfi tested' y) := by
  unfold Flood_2_stage4
  split_ifs
  · exact Flood_2_scanStep_indep _ _ _ _ _ _ _ _ _
  · exact Flood_2_stage5_indep _ _ _ _ _ _

theorem Flood_2_stage3_indep (bitdeck filled : Deck) (dim : Int) (state : SpanFillSIState)
    (rest : List SpanFillSIState) (sfi : List Int) (tested tested' : Deck) (y : Int) :
    (Flood_2_stage3 bitdeck dim filled state rest sfi tested y).agree
      (Flood_2_stage3 bitdeck dim filled state rest sfi tested' y) := by
  unfold Flood_2_stage3
  split_ifs
  · exact Flood_2_scanStep_indep _ _ _ _ _ _ _ _ _
  · exact Flood_2_stage4_indep _ _ _ _ _ _ _ _ _

theorem Flood_2_stage1_indep (bitdeck filled : Deck) (dim : Int) (state : SpanFillSIState)
    (rest : List SpanFillSIState) (sfi : List Int) (tested tested' : Deck) (y : Int) :
    (Flood_2_stage1 bitdeck dim filled state rest sfi tested y).agree
      (Flood_2_stage1 bitdeck dim filled state rest sfi tested' y) := by
  simp only [Step2Result.agree, Flood_2_stage1, FillCellTest_filled, FillCellTest_ret,
    FillCellTest_testCount]
  split_ifs <;> exact ⟨rfl, rfl, rfl, rfl, rfl⟩

theorem Flood_2_stage2_indep (bitdeck filled : Deck) (dim : Int) (state : SpanFillSIState)
    (rest : List SpanFillSIState) (sfi : List Int) (tested tested' : Deck) (y : Int) :
    (Flood_2_stage2 bitdeck dim filled state rest sfi tested y).agree
      (Flood_2_stage2 bitdeck dim filled state rest sfi tested' y) := by
  simp only [Step2Result.agree, Flood_2_stage2, FillCellTest_filled, FillCellTest_ret,
    FillCellTest_testCount]
  split_ifs <;> exact ⟨rfl, rfl, rfl, rfl, rfl⟩

/-- Two calls of the span-fill stepper that differ in the test mask only. -/
theorem Flood_2_Incremental_indep (bitdeck filled : Deck) (dim : Int)
    (stack : List SpanFillSIState) (sfi : List Int) (tested tested' : Deck) :
    (Flood_2_Incremental bitdeck dim filled stack sfi tested).agree
      (Flood_2_Incremental bitdeck dim filled stack sfi tested') := by
  cases stack with
  | nil => exact ⟨rfl, rfl, rfl, rfl, rfl⟩
  | cons state rest =>
    simp only [Flood_2_Incremental]
    split_ifs
    · exact Flood_2_stage1_indep _ _ _ _ _ _ _ _ _
    · exact Flood_2_stage1_indep _ _ _ _ _ _ _ _ _
    · exact Flood_2_stage2_indep _ _ _ _ _ _ _ _ _
    · exact Flood_2_stage3_indep _ _ _ _ _ _ _ _ _
    · exact Flood_2_stage4_indep _ _ _ _ _ _ _ _ _
    · exact Flood_2_stage5_indep _ _ _ _ _ _
    · exact ⟨rfl, rfl, rfl, rfl, rfl⟩

theorem Flood_3_stage4_indep (bitdeck filled : Deck) (dim : Int)
    (state : SimulSpanFillSIState) (rest : List SimulSpanFillSIState) (tested tested' : Deck)
    (testCount numFilled : Int) (fillRow : Nat) :
    (Flood_3_stage4 bitdeck dim filled state rest tested testCount numFilled fillRow).agree
      (Flood_3_stage4 bitdeck dim filled state rest tested' testCount numFilled fillRow) :=
  ⟨rfl, rfl, rfl, rfl⟩

theorem Flood_3_stage3_indep (bitdeck filled : Deck) (dim : Int)
    (state : SimulSpanFillSIState) (rest : List SimulSpanFillSIState) (tested tested' : Deck)
    (testCount numFilled : Int) (fillRow : Nat) :
    (Flood_3_stage3 bitdeck dim filled state rest tested testCount numFilled fillRow).agree
      (Flood_3_stage3 bitdeck dim filled state rest tested' testCount numFilled fillRow) := by
  simp only [Flood_3_stage3]
  split_ifs
  · exact ⟨rfl, rfl, rfl, rfl⟩
  · exact Flood_3_stage4_indep _ _ _ _ _ _ _ _ _ _
  · exact Flood_3_stage4_indep _ _ _ _ _ _ _ _ _ _

theorem Flood_3_stage2_indep (bitdeck filled : Deck) (dim : Int)
    (state : SimulSpanFillSIState) (rest : List SimulSpanFillSIState) (tested tested' : Deck)
    (testCount numFilled : Int) (bitRow fillRow : Nat) :
    (Flood_3_stage2 bitdeck dim filled state rest tested testCount numFilled bitRow
      fillRow).agree
      (Flood_3_stage2 bitdeck dim filled state rest tested' testCount numFilled bitRow
        fillRow) := by
  simp only [Flood_3_stage2]
  split_ifs
  all_goals first
    | exact ⟨rfl, rfl, rfl, rfl⟩
    | exact Flood_3_stage3_indep _ _ _ _ _ _ _ _ _ _

theorem Flood_3_stage1_indep (bitdeck filled : Deck) (dim : Int)
    (state : SimulSpanFillSIState) (rest : List SimulSpanFillSIState) (tested tested' : Deck)
    (testCount numFilled : Int) (bitRow fillRow : Nat) :
    (Flood_3_stage1 bitdeck dim filled state rest tested testCount numFilled bitRow
      fillRow).agree
      (Flood_3_stage1 bitdeck dim filled state rest tested' testCount numFilled bitRow
        fillRow) := by
  simp only [Flood_3_stage1]
  split_ifs
  all_goals first
    | exact ⟨rfl, rfl, rfl, rfl⟩
    | exact Flood_3_stage2_indep _ _ _ _ _ _ _ _ _ _ _

/-- Two calls of the simultaneous-span-fill stepper that differ in the test mask only. -/
theorem Flood_3_Incremental_indep (bitdeck filled : Deck) (dim : Int)
    (stack : List SimulSpanFillSIState) (tested tested' : Deck) :
    (Flood_3_Incremental bitdeck dim filled stack tested).agree
      (Flood_3_Incremental bitdeck dim filled stack tested') := by
  cases stack with
  | nil => exact ⟨rfl, rfl, rfl, rfl⟩
  | cons state rest =>
    simp only [Flood_3_Incremental]
    split_ifs
    · exact Flood_3_stage1_indep _ _ _ _ _ _ _ _ _ _ _
    · exact Flood_3_stage1_indep _ _ _ _ _ _ _ _ _ _ _
    · exact Flood_3_stage2_indep _ _ _ _ _ _ _ _ _ _ _
    · exact Flood_3_stage3_indep _ _ _ _ _ _ _ _ _ _
    · exact Flood_3_stage4_indep _ _ _ _ _ _ _ _ _ _
    · exact ⟨rfl, rfl, rfl, rfl⟩

/-- C21. The test mask is write-only: for each of the three step functions, two calls on the
same occupancy mask, fill mask and work stack (and auxiliary stack) that differ in the test
mask give the same fill mask, the same work stack (hence the same stack count), the same
return value and the same `numTested`. -/
theorem Flood_Incremental_tested_write_only (bitdeck filled : Deck) (dim : Int)
    (tested tested' : Deck) :
    (∀ stack : List DFSSIState,
      (Flood_1_Incremental bitdeck dim filled stack tested).agree
        (Flood_1_Incremental bitdeck dim filled stack tested')) ∧
    (∀ (stack : List SpanFillSIState) (sfi : List Int),
      (Flood_2_Incremental bitdeck dim filled stack sfi tested).agree
        (Flood_2_Incremental bitdeck dim filled stack sfi tested')) ∧
    (∀ stack : List SimulSpanFillSIState,
      (Flood_3_Incremental bitdeck dim filled stack tested).agree
        (Flood_3_Incremental bitdeck dim filled stack tested')) :=
  ⟨fun stack => Flood_1_Incremental_indep bitdeck filled dim stack tested tested',
    fun stack sfi => Flood_2_Incremental_indep bitdeck filled dim stack sfi tested tested',
    fun stack => Flood_3_Incremental_indep bitdeck filled dim stack tested tested'⟩

/-! ## Termination of the batch loops -/

theorem whileLoop_iterations {σ : Type} (cond : σ → Bool) (body : σ → Option σ) :
    ∀ (fuel : Nat) (s r : σ), whileLoop cond body fuel s = some r →
      ∃ n, loopState cond body n s = some r ∧ cond r = false := by
  intro fuel
  induction fuel with
  | zero =>
    intro s r h
    by_cases hc : cond s = true
    · simp [whileLoop, hc] at h
    · simp only [whileLoop, hc] at h
      simp only [Bool.false_eq_true, if_false, Option.some.injEq] at h
      subst h
      exact ⟨0, rfl, by simpa using hc⟩
  | succ fuel ih =>
    intro s r h
    by_cases hc : cond s = true
    · simp only [whileLoop, hc, if_true] at h
      cases hb : body s with
      | none => simp [hb] at h
      | some s' =>
        rw [hb] at h
        obtain ⟨n, hn, hr⟩ := ih s' r h
        refine ⟨n + 1, ?_, hr⟩
        simp only [loopState, hc, if_true, hb]
        exact hn
    · simp only [whileLoop, hc] at h
      simp only [Bool.false_eq_true, if_false, Option.some.injEq] at h
      subst h
      exact ⟨0, rfl, by simpa using hc⟩

theorem stack_empty_of_cond {α : Type} (l : List α) (h : (!l.isEmpty) = false) : l = [] := by
  cases l with
  | nil => rfl
  | cons a t => simp at h

/-! ## The stage machine of the incremental DFS -/

theorem Flood_1_Incremental_stage0 (bitdeck filled tested : Deck) (dim c : Int)
    (pt pb pl pr : Bool) (rest : List DFSSIState) :
    Flood_1_Incremental bitdeck dim filled (⟨c, 0, pt, pb, pl, pr⟩ :: rest) tested =
      ⟨(FillCellTest bitdeck dim filled tested 0 (c.tmod dim) (c.tdiv dim - 1)).filled,
        ⟨c, 1, pt || decide ((FillCellTest bitdeck dim filled tested 0 (c.tmod dim)
          (c.tdiv dim - 1)).ret ≥ 0), pb, pl, pr⟩ :: rest,
        (FillCellTest bitdeck dim filled tested 0 (c.tmod dim) (c.tdiv dim - 1)).tested,
        (FillCellTest bitdeck dim filled tested 0 (c.tmod dim) (c.tdiv dim - 1)).testCount,
        if (FillCellTest bitdeck dim filled tested 0 (c.tmod dim) (c.tdiv dim - 1)).ret ≥ 0
        then 1 else 0⟩ := by
  simp only [Flood_1_Incremental, if_true]
  split_ifs <;> simp_all

theorem Flood_1_Incremental_stage1 (bitdeck filled tested : Deck) (dim c : Int)
    (pt pb pl pr : Bool) (rest : List DFSSIState) :
    Flood_1_Incremental bitdeck dim filled (⟨c, 1, pt, pb, pl, pr⟩ :: rest) tested =
      ⟨(FillCellTest bitdeck dim filled tested 0 (c.tmod dim) (c.tdiv dim + 1)).filled,
        ⟨c, 2, pt, pb || decide ((FillCellTest bitdeck dim filled tested 0 (c.tmod dim)
          (c.tdiv dim + 1)).ret ≥ 0), pl, pr⟩ :: rest,
        (FillCellTest bitdeck dim filled tested 0 (c.tmod dim) (c.tdiv dim + 1)).tested,
        (FillCellTest bitdeck dim filled tested 0 (c.tmod dim) (c.tdiv dim + 1)).testCount,
        if (FillCellTest bitdeck dim filled tested 0 (c.tmod dim) (c.tdiv dim + 1)).ret ≥ 0
        then 1 else 0⟩ := by
  simp only [Flood_1_Incremental, if_true, if_false, one_ne_zero, OfNat.ofNat_ne_zero,
    OfNat.ofNat_ne_one, reduceCtorEq, Int.reduceEq]
  split_ifs <;> simp_all

theorem Flood_1_Incremental_stage2 (bitdeck filled tested : Deck) (dim c : Int)
    (pt pb pl pr : Bool) (rest : List DFSSIState) :
    Flood_1_Incremental bitdeck dim filled (⟨c, 2, pt, pb, pl, pr⟩ :: rest) tested =
      ⟨(FillCellTest bitdeck dim filled tested 0 (c.tmod dim - 1) (c.tdiv dim)).filled,
        ⟨c, 3, pt, pb, pl || decide ((FillCellTest bitdeck dim filled tested 0 (c.tmod dim - 1)
          (c.tdiv dim)).ret ≥ 0), pr⟩ :: rest,
        (FillCellTest bitdeck dim filled tested 0 (c.tmod dim - 1) (c.tdiv dim)).tested,
        (FillCellTest bitdeck dim filled tested 0 (c.tmod dim - 1) (c.tdiv dim)).testCount,
        if (FillCellTest bitdeck dim filled tested 0 (c.tmod dim - 1) (c.tdiv dim)).ret ≥ 0
        then 1 else 0⟩ := by
  simp only [Flood_1_Incremental, if_true, if_false, one_ne_zero, OfNat.ofNat_ne_zero,
    OfNat.ofNat_ne_one, reduceCtorEq, Int.reduceEq]
  split_ifs <;> simp_all

theorem Flood_1_Incremental_stage3 (bitdeck filled tested : Deck) (dim c : Int)
    (pt pb pl pr : Bool) (rest : List DFSSIState) :
    Flood_1_Incremental bitdeck dim filled (⟨c, 3, pt, pb, pl, pr⟩ :: rest) tested =
      ⟨(FillCellTest bitdeck dim filled tested 0 (c.tmod dim + 1) (c.tdiv dim)).filled,
        (if pr || decide ((FillCellTest bitdeck dim filled tested 0 (c.tmod dim + 1)
            (c.tdiv dim)).ret ≥ 0)
          then [DFSSIState.fresh (c.tdiv dim * dim + c.tmod dim + 1)] else []) ++
        (if pl then [DFSSIState.fresh (c.tdiv dim * dim + c.tmod dim - 1)] else []) ++
        (if pb then [DFSSIState.fresh ((c.tdiv dim + 1) * dim + c.tmod dim)] else []) ++
        (if pt then [DFSSIState.fresh ((c.tdiv dim - 1) * dim + c.tmod dim)] else []) ++ rest,
        (FillCellTest bitdeck dim filled tested 0 (c.tmod dim + 1) (c.tdiv dim)).tested,
        (FillCellTest bitdeck dim filled tested 0 (c.tmod dim + 1) (c.tdiv dim)).testCount,
        if (FillCellTest bitdeck dim filled tested 0 (c.tmod dim + 1) (c.tdiv dim)).ret ≥ 0
        then 1 else 0⟩ := by
  simp only [Flood_1_Incremental, Flood_1_resolve, if_true, if_false, one_ne_zero,
    OfNat.ofNat_ne_zero, OfNat.ofNat_ne_one, reduceCtorEq, Int.reduceEq]
  cases pt <;> cases pb <;> cases pl <;> cases pr <;> split_ifs <;> simp_all <;> omega

/-- C23. The stage machine of the incremental DFS.  With `(x, y)` the cell of the top entry:
at stage 0, 1, 2 one call of `Flood_1_Incremental` does exactly the `FillCellTest` of the
top `(x, y-1)`, bottom `(x, y+1)`, left `(x-1, y)` neighbour, records a fill in the flag of
that direction, moves the entry to the next stage and leaves the rest of the stack alone; at
stage 3 one call does the `FillCellTest` of the right neighbour `(x+1, y)`, pops the entry
and pushes a fresh entry for each flagged direction in the order top, bottom, left, right
(the last pushed is the new top).  Hence a fresh entry stays on top of the stack at stage
1, 2, 3 after one, two, three calls and is resolved by the fourth call, which leaves one
fresh entry for each neighbour that the four calls filled, pushed in the order top, bottom,
left, right. -/
theorem Flood_1_Incremental_stage_machine (bitdeck filled tested : Deck) (dim c : Int)
    (pt pb pl pr : Bool) (rest : List DFSSIState) (acc : Int) :
    (let t := FillCellTest bitdeck dim filled tested 0 (c.tmod dim) (c.tdiv dim - 1)
     Flood_1_Incremental bitdeck dim filled (⟨c, 0, pt, pb, pl, pr⟩ :: rest) tested =
      ⟨t.filled, ⟨c, 1, pt || decide (t.ret ≥ 0), pb, pl, pr⟩ :: rest, t.tested, t.testCount,
        if t.ret ≥ 0 then 1 else 0⟩) ∧
    (let t := FillCellTest bitdeck dim filled tested 0 (c.tmod dim) (c.tdiv dim + 1)
     Flood_1_Incremental bitdeck dim filled (⟨c, 1, pt, pb, pl, pr⟩ :: rest) tested =
      ⟨t.filled, ⟨c, 2, pt, pb || decide (t.ret ≥ 0), pl, pr⟩ :: rest, t.tested, t.testCount,
        if t.ret ≥ 0 then 1 else 0⟩) ∧
    (let t := FillCellTest bitdeck dim filled tested 0 (c.tmod dim - 1) (c.tdiv dim)
     Flood_1_Incremental bitdeck dim filled (⟨c, 2, pt, pb, pl, pr⟩ :: rest) tested =
      ⟨t.filled, ⟨c, 3, pt, pb, pl || decide (t.ret ≥ 0), pr⟩ :: rest, t.tested, t.testCount,
        if t.ret ≥ 0 then 1 else 0⟩) ∧
    (let t := FillCellTest bitdeck dim filled tested 0 (c.tmod dim + 1) (c.tdiv dim)
     Flood_1_Incremental bitdeck dim filled (⟨c, 3, pt, pb, pl, pr⟩ :: rest) tested =
      ⟨t.filled,
        (if pr || decide (t.ret ≥ 0)
          then [DFSSIState.fresh (c.tdiv dim * dim + c.tmod dim + 1)] else []) ++
        (if pl then [DFSSIState.fresh (c.tdiv dim * dim + c.tmod dim - 1)] else []) ++
        (if pb then [DFSSIState.fresh ((c.tdiv dim + 1) * dim + c.tmod dim)] else []) ++
        (if pt then [DFSSIState.fresh ((c.tdiv dim - 1) * dim + c.tmod dim)] else []) ++ rest,
        t.tested, t.testCount, if t.ret ≥ 0 then 1 else 0⟩) ∧
    (let top := FillCell bitdeck dim filled (c.tmod dim) (c.tdiv dim - 1)
     let bottom := FillCell bitdeck dim top.1 (c.tmod dim) (c.tdiv dim + 1)
     let left := FillCell bitdeck dim bottom.1 (c.tmod dim - 1) (c.tdiv dim)
     let right := FillCell bitdeck dim left.1 (c.tmod dim + 1) (c.tdiv dim)
     let s0 : RunState DFSSIState := ⟨filled, DFSSIState.fresh c :: rest, tested, acc⟩
     let s1 := Flood_1_runStep bitdeck dim s0
     let s2 := Flood_1_runStep bitdeck dim s1
     let s3 := Flood_1_runStep bitdeck dim s2
     let s4 := Flood_1_runStep bitdeck dim s3
     (∃ e, s1.stack = e :: rest ∧ e.CellIndex = c ∧ e.Stage = 1) ∧
     (∃ e, s2.stack = e :: rest ∧ e.CellIndex = c ∧ e.Stage = 2) ∧
     (∃ e, s3.stack = e :: rest ∧ e.CellIndex = c ∧ e.Stage = 3) ∧
     s4.filled = right.1 ∧
     s4.stack =
      (if right.2 ≥ 0 then [DFSSIState.fresh right.2] else []) ++
      (if left.2 ≥ 0 then [DFSSIState.fresh left.2] else []) ++
      (if bottom.2 ≥ 0 then [DFSSIState.fresh bottom.2] else []) ++
      (if top.2 ≥ 0 then [DFSSIState.fresh top.2] else []) ++ rest) := by
  refine ⟨Flood_1_Incremental_stage0 _ _ _ _ _ _ _ _ _ _,
    Flood_1_Incremental_stage1 _ _ _ _ _ _ _ _ _ _,
    Flood_1_Incremental_stage2 _ _ _ _ _ _ _ _ _ _,
    Flood_1_Incremental_stage3 _ _ _ _ _ _ _ _ _ _, ?_⟩
  intro top bottom left right s0 s1 s2 s3 s4
  obtain ⟨t0, e0⟩ := Flood_1_step0 bitdeck dim filled tested acc c false false false false rest
  have e1' : s1 = _ := e0
  obtain ⟨t1, e1⟩ := Flood_1_step1 bitdeck dim top.1 t0
    (acc + if top.2 ≥ 0 then 1 else 0) c (false || decide (top.2 ≥ 0)) false false false rest
  have e2' := e1
  rw [← e1'] at e2'
  change s2 = _ at e2'
  obtain ⟨t2, e2⟩ := Flood_1_step2 bitdeck dim bottom.1 t1
    (acc + (if top.2 ≥ 0 then 1 else 0) + if bottom.2 ≥ 0 then 1 else 0) c
    (false || decide (top.2 ≥ 0)) (false || decide (bottom.2 ≥ 0)) false false rest
  have e3' := e2
  rw [← e2'] at e3'
  change s3 = _ at e3'
  obtain ⟨t3, e3⟩ := Flood_1_step3 bitdeck dim left.1 t2
    (acc + (if top.2 ≥ 0 then 1 else 0) + (if bottom.2 ≥ 0 then 1 else 0) +
      if left.2 ≥ 0 then 1 else 0) c
    (false || decide (top.2 ≥ 0)) (false || decide (bottom.2 ≥ 0))
    (false || decide (left.2 ≥ 0)) false rest
  have e4' := e3
  rw [← e3'] at e4'
  change s4 = _ at e4'
  refine ⟨⟨_, congrArg RunState.stack e1', rfl, rfl⟩,
    ⟨_, congrArg RunState.stack e2', rfl, rfl⟩, ⟨_, congrArg RunState.stack e3', rfl, rfl⟩,
    congrArg RunState.filled e4', ?_⟩
  rw [e4']
  clear e0 e1 e2 e3 e1' e2' e3' e4' s4 s3 s2 s1 s0
  simp only [Flood_1_resolve, Bool.false_or]
  unfold right left bottom top
  clear right left bottom top
  have k0 := FillCell_ret_cases bitdeck filled dim (c.tmod dim) (c.tdiv dim - 1)
  generalize FillCell bitdeck dim filled (c.tmod dim) (c.tdiv dim - 1) = r0 at k0 ⊢
  have k1 := FillCell_ret_cases bitdeck r0.1 dim (c.tmod dim) (c.tdiv dim + 1)
  generalize FillCell bitdeck dim r0.1 (c.tmod dim) (c.tdiv dim + 1) = r1 at k1 ⊢
  have k2 := FillCell_ret_cases bitdeck r1.1 dim (c.tmod dim - 1) (c.tdiv dim)
  generalize FillCell bitdeck dim r1.1 (c.tmod dim - 1) (c.tdiv dim) = r2 at k2 ⊢
  have k3 := FillCell_ret_cases bitdeck r2.1 dim (c.tmod dim + 1) (c.tdiv dim)
  generalize FillCell bitdeck dim r2.1 (c.tmod dim + 1) (c.tdiv dim) = r3 at k3 ⊢
  have a3 : c.tdiv dim * dim + c.tmod dim + 1 = c.tdiv dim * dim + (c.tmod dim + 1) := by ring
  have a2 : c.tdiv dim * dim + c.tmod dim - 1 = c.tdiv dim * dim + (c.tmod dim - 1) := by ring
  rcases k0 with k0 | ⟨k0, -⟩ <;> rcases k1 with k1 | ⟨k1, -⟩ <;>
    rcases k2 with k2 | ⟨k2, -⟩ <;> rcases k3 with k3 | ⟨k3, -⟩ <;>
    simp [k0, k1, k2, k3, a2, a3] <;> split_ifs <;> simp

/-! ## One cell per step -/

theorem FillCellTest_one_cell (bitdeck filled tested : Deck) (dim x y : Int) :
    OneCellStep filled (FillCellTest bitdeck dim filled tested 0 x y).filled
      (FillCellTest bitdeck dim filled tested 0 x y).testCount
      (if (FillCellTest bitdeck dim filled tested 0 x y).ret ≥ 0 then 1 else 0) := by
  rw [FillCellTest_filled, FillCellTest_ret, FillCellTest_testCount]
  by_cases h : inRange dim x y
  · have hn : ¬ (x < 0 ∨ x ≥ dim ∨ y < 0 ∨ y ≥ dim) := by
      unfold inRange at h; omega
    have hc : 0 ≤ y * dim + x := by
      unfold inRange at h
      have := mul_nonneg h.2.2.1 (le_trans h.1 (le_of_lt h.2.1))
      omega
    rw [if_neg hn, FillCell_in _ _ _ _ _ h]
    refine ⟨Or.inr (by norm_num), ?_⟩
    by_cases hb : bitdeck.testBit (y * dim + x).toNat = true ∧
        filled.testBit (y * dim + x).toNat = false
    · rw [if_pos hb]
      exact Or.inr ⟨_, hb.2, rfl, by simp [hc], by norm_num⟩
    · rw [if_neg hb]
      exact Or.inl ⟨rfl, by simp⟩
  · have hn : x < 0 ∨ x ≥ dim ∨ y < 0 ∨ y ≥ dim := by
      unfold inRange at h; omega
    rw [if_pos hn, FillCell_out _ _ _ _ _ h]
    exact ⟨Or.inl rfl, Or.inl ⟨rfl, by simp⟩⟩

theorem TestCellTest_tested_count (bitdeck filled tested : Deck) (dim x y : Int) :
    (TestCellTest bitdeck dim filled tested 0 x y).testCount = 0 ∨
      (TestCellTest bitdeck dim filled tested 0 x y).testCount = 1 := by
  rw [TestCellTest_testCount]
  split_ifs
  · exact Or.inl rfl
  · exact Or.inr (by norm_num)

theorem Flood_1_Incremental_one_cell (bitdeck filled tested : Deck) (dim : Int)
    (stack : List DFSSIState) :
    OneCellStep filled (Flood_1_Incremental bitdeck dim filled stack tested).filled
      (Flood_1_Incremental bitdeck dim filled stack tested).numTested
      (Flood_1_Incremental bitdeck dim filled stack tested).ret := by
  cases stack with
  | nil => exact ⟨Or.inl rfl, Or.inl ⟨rfl, rfl⟩⟩
  | cons state rest =>
    obtain ⟨c, st, pt, pb, pl, pr⟩ := state
    by_cases h0 : st = 0
    · subst h0
      rw [Flood_1_Incremental_stage0]
      exact FillCellTest_one_cell _ _ _ _ _ _
    by_cases h1 : st = 1
    · subst h1
      rw [Flood_1_Incremental_stage1]
      exact FillCellTest_one_cell _ _ _ _ _ _
    by_cases h2 : st = 2
    · subst h2
      rw [Flood_1_Incremental_stage2]
      exact FillCellTest_one_cell _ _ _ _ _ _
    by_cases h3 : st = 3
    · subst h3
      rw [Flood_1_Incremental_stage3]
      exact FillCellTest_one_cell _ _ _ _ _ _
    simp only [Flood_1_Incremental, h0, h1, h2, h3, if_false]
    split_ifs <;> exact ⟨Or.inl rfl, Or.inl ⟨rfl, rfl⟩⟩

theorem Flood_2_stage1_one_cell (bitdeck filled tested : Deck) (dim : Int)
    (state : SpanFillSIState) (rest : List SpanFillSIState) (sfi : List Int) (y : Int) :
    OneCellStep filled (Flood_2_stage1 bitdeck dim filled state rest sfi tested y).filled
      (Flood_2_stage1 bitdeck dim filled state rest sfi tested y).numTested
      (Flood_2_stage1 bitdeck dim filled state rest sfi tested y).ret := by
  have h := FillCellTest_one_cell bitdeck filled tested dim state.X y
  simp only [Flood_2_stage1]
  split_ifs with h0
  · rw [if_pos (by omega)] at h
    exact h
  · rw [if_neg (by omega)] at h
    exact h

theorem Flood_2_stage2_one_cell (bitdeck filled tested : Deck) (dim : Int)
    (state : SpanFillSIState) (rest : List SpanFillSIState) (sfi : List Int) (y : Int) :
    OneCellStep filled (Flood_2_stage2 bitdeck dim filled state rest sfi tested y).filled
      (Flood_2_stage2 bitdeck dim filled state rest sfi tested y).numTested
      (Flood_2_stage2 bitdeck dim filled state rest sfi tested y).ret := by
  have h := FillCellTest_one_cell bitdeck filled tested dim state.X y
  simp only [Flood_2_stage2]
  split_ifs with h0
  · rw [if_pos (by omega)] at h
    exact h
  · rw [if_neg (by omega)] at h
    exact h

theorem Flood_2_scanStep_one_cell (bitdeck filled tested : Deck) (dim : Int)
    (state : SpanFillSIState) (rest : List SpanFillSIState) (sfi : List Int) (yy : Int) :
    OneCellStep filled (Flood_2_scanStep bitdeck dim filled state rest sfi tested yy).filled
      (Flood_2_scanStep bitdeck dim filled state rest sfi tested yy).numTested
      (Flood_2_scanStep bitdeck dim filled state rest sfi tested yy).ret :=
  ⟨TestCellTest_tested_count _ _ _ _ _ _, Or.inl ⟨rfl, rfl⟩⟩

theorem Flood_2_stage4_one_cell (bitdeck filled tested : Deck) (dim : Int)
    (state : SpanFillSIState) (rest : List SpanFillSIState) (sfi : List Int) (y : Int) :
    OneCellStep filled (Flood_2_stage4 bitdeck dim filled state rest sfi tested y).filled
      (Flood_2_stage4 bitdeck dim filled state rest sfi tested y).numTested
      (Flood_2_stage4 bitdeck dim filled state rest sfi tested y).ret := by
  unfold Flood_2_stage4
  split_ifs
  · exact Flood_2_scanStep_one_cell _ _ _ _ _ _ _ _
  · exact ⟨Or.inl rfl, Or.inl ⟨rfl, rfl⟩⟩

theorem Flood_2_stage3_one_cell (bitdeck filled tested : Deck) (dim : Int)
    (state : SpanFillSIState) (rest : List SpanFillSIState) (sfi : List Int) (y : Int) :
    OneCellStep filled (Flood_2_stage3 bitdeck dim filled state rest sfi tested y).filled
      (Flood_2_stage3 bitdeck dim filled state rest sfi tested y).numTested
      (Flood_2_stage3 bitdeck dim filled state rest sfi tested y).ret := by
  unfold Flood_2_stage3
  split_ifs
  · exact Flood_2_scanStep_one_cell _ _ _ _ _ _ _ _
  · exact Flood_2_stage4_one_cell _ _ _ _ _ _ _ _

theorem Flood_2_Incremental_one_cell (bitdeck filled tested : Deck) (dim : Int)
    (stack : List SpanFillSIState) (sfi : List Int) :
    OneCellStep filled (Flood_2_Incremental bitdeck dim filled stack sfi tested).filled
      (Flood_2_Incremental bitdeck dim filled stack sfi tested).numTested
      (Flood_2_Incremental bitdeck dim filled stack sfi tested).ret := by
  cases stack with
  | nil => exact ⟨Or.inl rfl, Or.inl ⟨rfl, rfl⟩⟩
  | cons state rest =>
    simp only [Flood_2_Incremental]
    split_ifs
    · exact Flood_2_stage1_one_cell _ _ _ _ _ _ _ _
    · exact Flood_2_stage1_one_cell _ _ _ _ _ _ _ _
    · exact Flood_2_stage2_one_cell _ _ _ _ _ _ _ _
    · exact Flood_2_stage3_one_cell _ _ _ _ _ _ _ _
    · exact Flood_2_stage4_one_cell _ _ _ _ _ _ _ _
    · exact ⟨Or.inl rfl, Or.inl ⟨rfl, rfl⟩⟩
    · exact ⟨Or.inl rfl, Or.inl ⟨rfl, rfl⟩⟩

/-- C24. One cell per step: for every work stack (and auxiliary stack), every plane width
and all masks, one call of `Flood_1_Incremental` and one call of `Flood_2_Incremental` test
and fill at most one cell: the reported `numTested` is 0 or 1, and the call either leaves
the fill mask as it was and returns 0, or sets exactly one bit of the fill mask that was
clear, returns 1 and reports one test. -/
theorem Flood_Incremental_one_cell (bitdeck filled tested : Deck) (dim : Int) :
    (∀ stack : List DFSSIState,
      OneCellStep filled (Flood_1_Incremental bitdeck dim filled stack tested).filled
        (Flood_1_Incremental bitdeck dim filled stack tested).numTested
        (Flood_1_Incremental bitdeck dim filled stack tested).ret) ∧
    (∀ (stack : List SpanFillSIState) (sfi : List Int),
      OneCellStep filled (Flood_2_Incremental bitdeck dim filled stack sfi tested).filled
        (Flood_2_Incremental bitdeck dim filled stack sfi tested).numTested
        (Flood_2_Incremental bitdeck dim filled stack sfi tested).ret) :=
  ⟨fun stack => Flood_1_Incremental_one_cell bitdeck filled tested dim stack,
    fun stack sfi => Flood_2_Incremental_one_cell bitdeck filled tested dim stack sfi⟩

/-! ## Horizontal convergence of the bit-parallel pass -/

/-- The loop body of `Flood_3` runs `Flood_3_simulscan` on the popped row. -/
theorem Flood_3_body_simulscan (fuel : Nat) (bitdeck : Deck) (dim : Int) (filled : Deck)
    (r : Int) (stack : List Int) (nf : Int) :
    Flood_3_body fuel bitdeck dim ⟨filled, r :: stack, nf⟩ =
      (Flood_3_simulscan fuel (rowAt bitdeck r.toNat) (rowAt filled r.toNat)).bind
        fun fillRow =>
          let s : Flood3State :=
            ⟨setRow filled r.toNat fillRow, stack,
              nf + CountBits (fillRow ^^^ rowAt filled r.toNat)⟩
          let s := if r > 0 then Flood_3_bitfill bitdeck fillRow (r - 1) s else s
          let s := if r < dim - 1 then Flood_3_bitfill bitdeck fillRow (r + 1) s else s
          some s := by
  simp only [Flood_3_body, Flood_3_simulscan]
  cases Flood_3_scanLeft fuel (rowAt bitdeck r.toNat)
      ⟨rowAt filled r.toNat, ((rowAt filled r.toNat <<< 1) % 2 ^ 64) &&& rowAt bitdeck r.toNat,
        0⟩ with
  | none => rfl
  | some l =>
    simp only [Option.some_bind]
    cases Flood_3_scanRight fuel (rowAt bitdeck r.toNat)
        ⟨l.fillRow, (l.fillRow >>> 1) &&& rowAt bitdeck r.toNat, 0⟩ with
    | none => rfl
    | some rr => rfl

theorem RowScan_iff_run (B F0 R : Nat) (hF0 : F0 < 2 ^ 64) (hsub : F0 &&& B = F0)
    (h : RowScan B F0 R) : ∀ i, R.testBit i = true ↔ InRunOf B F0 i := by
  obtain ⟨hR, hin, hright, hleft, hmin⟩ := h
  have hlt : ∀ x, F0.testBit x = true → x < 64 := by
    intro x hx
    by_contra hge
    have : F0.testBit x = false :=
      Nat.testBit_eq_false_of_lt (lt_of_lt_of_le hF0 (Nat.pow_le_pow_right (by norm_num)
        (by omega)))
    rw [this] at hx
    exact Bool.false_ne_true hx
  have hB : ∀ x, F0.testBit x = true → B.testBit x = true := by
    intro x hx
    have := congrArg (fun n => n.testBit x) hsub
    simp only [Nat.testBit_and, hx, Bool.true_and] at this
    exact this
  intro i
  constructor
  · intro hi
    refine hmin (InRunOf B F0) ?_ ?_ ?_ i hi
    · intro x hx
      refine ⟨hlt x hx, x, hlt x hx, hx, ?_⟩
      intro k h1 h2
      have : k = x := by
        simp only [min_self, max_self] at h1 h2
        omega
      rw [this]
      exact hB x hx
    · rintro x ⟨-, j, hj, hFj, hall⟩ hx1 hbx
      refine ⟨hx1, j, hj, hFj, ?_⟩
      intro k h1 h2
      by_cases hk : k = x + 1
      · rw [hk]; exact hbx
      · apply hall k
        · simp only [le_min_iff, min_le_iff] at h1 ⊢
          omega
        · simp only [le_max_iff, max_le_iff] at h2 ⊢
          omega
    · rintro x ⟨hx1, j, hj, hFj, hall⟩ hbx
      refine ⟨by omega, j, hj, hFj, ?_⟩
      intro k h1 h2
      by_cases hk : k = x
      · rw [hk]; exact hbx
      · apply hall k
        · simp only [le_min_iff, min_le_iff] at h1 ⊢
          omega
        · simp only [le_max_iff, max_le_iff] at h2 ⊢
          omega
  · rintro ⟨hi, j, hj, hFj, hall⟩
    have hRj := hin j hFj
    by_cases hij : j ≤ i
    · have up : ∀ d, j + d ≤ i → R.testBit (j + d) = true := by
        intro d
        induction d with
        | zero => intro _; exact hRj
        | succ d ih =>
          intro hd
          have := ih (by omega)
          exact hright (j + d) this (by omega)
            (hall (j + d + 1) (by simp only [min_le_iff]; omega)
              (by simp only [le_max_iff]; omega))
      have := up (i - j) (by omega)
      rwa [show j + (i - j) = i by omega] at this
    · have down : ∀ d, d ≤ j - i → R.testBit (j - d) = true := by
        intro d
        induction d with
        | zero => intro _; exact hRj
        | succ d ih =>
          intro hd
          have h1 := ih (by omega)
          have e : j - d = (j - (d + 1)) + 1 := by omega
          rw [e] at h1
          exact hleft (j - (d + 1)) h1
            (hall (j - (d + 1)) (by simp only [min_le_iff]; omega)
              (by simp only [le_max_iff]; omega))
      have := down (j - i) le_rfl
      rwa [show j - (j - i) = i by omega] at this

theorem Flood_3_simulscan_returns (bits fill : Nat) (hb : bits < 2 ^ 64)
    (hf : fill < 2 ^ 64) :
    ∃ R, Returns (fun fuel => Flood_3_simulscan fuel bits fill) R ∧ RowScan bits fill R := by
  obtain ⟨l, hl⟩ := Flood_3_scanLeft_terminates 129 bits hb
    ⟨fill, ((fill <<< 1) % 2 ^ 64) &&& bits, 0⟩ hf (and_lt_of_lt hb) le_rfl
  have hl1 : l.fillRow < 2 ^ 64 :=
    Flood_3_scan_lt (fun t => ((t <<< 1) % 2 ^ 64) &&& bits) (fun _ => and_lt_of_lt hb) 129
      ⟨fill, ((fill <<< 1) % 2 ^ 64) &&& bits, 0⟩ l hf (and_lt_of_lt hb) hl
  obtain ⟨rr, hrr⟩ := Flood_3_scanRight_terminates 129 bits hb
    ⟨l.fillRow, (l.fillRow >>> 1) &&& bits, 0⟩ hl1 (and_lt_of_lt hb) le_rfl
  refine ⟨rr.fillRow, ⟨129, ?_⟩, Flood_3_row_scan 129 bits fill hf hb l rr hl hrr⟩
  intro fuel hfuel
  have hl' : Flood_3_scanLeft fuel bits ⟨fill, ((fill <<< 1) % 2 ^ 64) &&& bits, 0⟩ = some l :=
    whileLoop_mono _ _ _ (fun _ _ h => h) 129 fuel _ _ hfuel hl
  have hrr' : Flood_3_scanRight fuel bits ⟨l.fillRow, (l.fillRow >>> 1) &&& bits, 0⟩ =
      some rr :=
    whileLoop_mono _ _ _ (fun _ _ h => h) 129 fuel _ _ hfuel hrr
  simp only [Flood_3_simulscan, hl', Option.some_bind, hrr', Option.map_some']

/-- C25. Horizontal convergence of the bit-parallel pass: for a 64-bit occupancy word `bits`
and a fill word `fill` that is a subset of `bits`, the two shift-and-mask loops of `Flood_3`
(left-shift pass, then right-shift pass, each ending when `test` is 0 or an iteration left
the fill word unchanged) return a word whose set bits are exactly the bits of the maximal
runs of consecutive set bits of `bits` that hold a bit of `fill`; so the early exit on an
unchanged fill word never stops short of the full horizontal span. -/
theorem Flood_3_simulscan_runs (bits fill : Nat) (hb : bits < 2 ^ 64) (hf : fill < 2 ^ 64)
    (hsub : fill &&& bits = fill) :
    ∃ R, Returns (fun fuel => Flood_3_simulscan fuel bits fill) R ∧
      ∀ i, R.testBit i = true ↔ InRunOf bits fill i := by
  obtain ⟨R, hR, hscan⟩ := Flood_3_simulscan_returns bits fill hb hf
  exact ⟨R, hR, RowScan_iff_run bits fill R hf hsub hscan⟩

/-- C25 at a concrete input: the occupancy word `0b11101110` and the fill word
`0b00000100`. -/
theorem Flood_3_simulscan_runs_witness :
    ∃ R, Returns (fun fuel => Flood_3_simulscan fuel 238 4) R ∧
      ∀ i, R.testBit i = true ↔ InRunOf 238 4 i :=
  Flood_3_simulscan_runs 238 4 (by decide) (by decide) (by decide)

/-! ## The span of one iteration of the span fill -/

/-- The loop body of `Flood_2` runs `Flood_2_spanFill` on the popped cell, then the two
seed scans over the span. -/
theorem Flood_2_body_spanFill (fuel : Nat) (bitdeck : Deck) (dim : Int) (filled : Deck)
    (c : Int) (stack : List Int) (nf : Int) :
    Flood_2_body fuel bitdeck dim ⟨filled, c :: stack, nf⟩ =
      (Flood_2_spanFill fuel bitdeck dim filled c nf).bind fun sp =>
        (if c.tdiv dim > 0 then
          (Flood_2_scan fuel bitdeck dim sp.filled sp.xright (c.tdiv dim - 1)
            ⟨sp.xleft, -1, stack⟩).map (·.stack)
         else some stack).bind fun stack =>
        (if c.tdiv dim < dim - 1 then
          (Flood_2_scan fuel bitdeck dim sp.filled sp.xright (c.tdiv dim + 1)
            ⟨sp.xleft, -1, stack⟩).map (·.stack)
         else some stack).bind fun stack =>
        some ⟨sp.filled, stack, sp.numfilled⟩ := by
  simp only [Flood_2_body, Flood_2_spanFill]
  cases Flood_2_span fuel bitdeck dim (c.tdiv dim) 1 ⟨filled, c.tmod dim, nf⟩ with
  | none => rfl
  | some r =>
    simp only [Option.some_bind]
    cases Flood_2_span fuel bitdeck dim (c.tdiv dim) (-1)
        ⟨r.filled, c.tmod dim - 1, r.numfilled⟩ with
    | none => rfl
    | some l => rfl

theorem Flood_2_spanFill_spec (fuel : Nat) (hfuel : 66 ≤ fuel) (bitdeck f : Deck)
    (c nf : Int) (hc : 0 ≤ c ∧ c < 4096) :
    ∃ sp : SpanFill, Flood_2_spanFill fuel bitdeck 64 f c nf = some sp ∧
      0 ≤ sp.xleft ∧ sp.xleft ≤ c % 64 ∧ c % 64 - 1 ≤ sp.xright ∧ sp.xright < 64 ∧
      (FreeAt bitdeck f (c % 64) (c / 64) → c % 64 ≤ sp.xright) ∧
      (∀ x, sp.xleft ≤ x → x ≤ sp.xright → FreeAt bitdeck f x (c / 64)) ∧
      ¬ FreeAt bitdeck f (sp.xleft - 1) (c / 64) ∧
      ¬ FreeAt bitdeck f (sp.xright + 1) (c / 64) ∧
      (∀ i, sp.filled.testBit i = true ↔
        (f.testBit i = true ∨
          ∃ x, sp.xleft ≤ x ∧ x ≤ sp.xright ∧ i = (c / 64 * 64 + x).toNat)) ∧
      sp.numfilled = nf + (sp.xright - sp.xleft + 1) := by
  have hy : c.tdiv 64 = c / 64 := Int.tdiv_eq_ediv hc.1 (by norm_num)
  have hx : c.tmod 64 = c % 64 := Int.tmod_eq_emod hc.1 (by norm_num)
  obtain ⟨x', f1, r1, r2, r3, r4, r5, r6⟩ := Flood_2_span_right bitdeck (c / 64) 64 fuel f
    (c % 64) nf (by omega) (by omega) (by omega)
  have hx'64 : x' ≤ 64 := by
    rcases le_max_iff.mp r3 with h | h <;> omega
  obtain ⟨x'', f2, l1, l2, l3, l4, l5, l6⟩ := Flood_2_span_left bitdeck (c / 64) 64 fuel f1
    (c % 64 - 1) (nf + (x' - c % 64)) (by omega) (by omega) (by omega)
  have hx''1 : -1 ≤ x'' := by
    rcases min_le_iff.mp l3 with h | h <;> omega
  have hf2 : ∀ i, f2.testBit i = true ↔
      (f.testBit i = true ∨ ∃ x, x'' + 1 ≤ x ∧ x ≤ x' - 1 ∧ i = (c / 64 * 64 + x).toNat) := by
    intro i
    rw [l6 i, r6 i]
    constructor
    · rintro ((h | ⟨x, a, b, e⟩) | ⟨x, a, b, e⟩)
      · exact Or.inl h
      · exact Or.inr ⟨x, by omega, by omega, e⟩
      · exact Or.inr ⟨x, by omega, by omega, e⟩
    · rintro (h | ⟨x, a, b, e⟩)
      · exact Or.inl (Or.inl h)
      · by_cases hxx : c % 64 ≤ x
        · exact Or.inl (Or.inr ⟨x, hxx, by omega, e⟩)
        · exact Or.inr ⟨x, by omega, by omega, e⟩
  have hsub1 : ∀ i, f1.testBit i = false → f.testBit i = false := by
    intro i h
    by_contra hne
    have : f1.testBit i = true := (r6 i).mpr (Or.inl (by simpa using hne))
    rw [this] at h
    exact Bool.noConfusion h
  have free1 : ∀ x, FreeAt bitdeck f1 x (c / 64) → FreeAt bitdeck f x (c / 64) :=
    fun x h => ⟨h.1, h.2.1, hsub1 _ h.2.2⟩
  have hleftstop : ¬ FreeAt bitdeck f (x'' + 1 - 1) (c / 64) := by
    intro hcon
    have e : x'' + 1 - 1 = x'' := by ring
    rw [e] at hcon
    apply l5
    refine ⟨hcon.1, hcon.2.1, ?_⟩
    by_contra hne
    have : f1.testBit (c / 64 * 64 + x'').toNat = true := by simpa using hne
    rcases (r6 _).mp this with h | ⟨x, a, b, e⟩
    · rw [hcon.2.2] at h; exact Bool.noConfusion h
    · have := hcon.1
      unfold inRange at this
      omega
  refine ⟨⟨f2, x'' + 1, x' - 1, nf + (x' - c % 64) + (c % 64 - 1 - x'')⟩, ?_,
    by show (0 : Int) ≤ x'' + 1; omega, by show x'' + 1 ≤ c % 64; omega, by show c % 64 - 1 ≤ x' - 1; omega,
    by show x' - 1 < 64; omega, ?_, ?_, hleftstop, ?_, hf2, by show _ = nf + _; ring⟩
  · simp only [Flood_2_spanFill, hy, hx, r1, Option.some_bind, l1, Option.map_some',
      sub_neg_eq_add]
  · intro hfree
    show c % 64 ≤ x' - 1
    by_contra hlt
    have : x' = c % 64 := by omega
    rw [this] at r5
    exact r5 hfree
  · intro x a b
    change x'' + 1 ≤ x at a
    change x ≤ x' - 1 at b
    by_cases hxx : c % 64 ≤ x
    · exact r4 x hxx (by omega)
    · exact free1 x (l4 x (by omega) (by omega))
  · show ¬ FreeAt bitdeck f (x' - 1 + 1) (c / 64)
    rw [show x' - 1 + 1 = x' by ring]
    exact r5

theorem Flood_2_span_mono (bitdeck : Deck) (y inc : Int) (n m : Nat) (s r : SpanLoop)
    (h : n ≤ m) (hs : Flood_2_span n bitdeck 64 y inc s = some r) :
    Flood_2_span m bitdeck 64 y inc s = some r := by
  unfold Flood_2_span at hs ⊢
  rw [Option.map_eq_some'] at hs ⊢
  obtain ⟨l, hl, e⟩ := hs
  exact ⟨l, whileLoop_mono _ _ _ (fun _ _ h => h) n m _ _ h hl, e⟩

/-- C26. The span of one iteration of the span fill: when `Flood_2` pops a cell `(x0, y)`
of the 64x64 plane that is passable and not filled, its fill-right and fill-left loops
return, and they leave `xleft <= x0 <= xright` such that the cells `xleft .. xright` of row
`y` are exactly the maximal run of cells around `x0` that were passable and unfilled before
the pop (every cell of the interval was, the cells `xleft - 1` and `xright + 1` were not or
lie off the plane); the new fill mask is the old one with exactly the bits of those cells
added, and `numfilled` has grown by `xright - xleft + 1`. -/
theorem Flood_2_span_extent (bitdeck f : Deck) (c nf : Int) (hc : 0 ≤ c ∧ c < 4096)
    (hfree : FreeAt bitdeck f (c % 64) (c / 64)) :
    ∃ sp : SpanFill, Returns (fun fuel => Flood_2_spanFill fuel bitdeck 64 f c nf) sp ∧
      sp.xleft ≤ c % 64 ∧ c % 64 ≤ sp.xright ∧
      (∀ x, sp.xleft ≤ x → x ≤ sp.xright → FreeAt bitdeck f x (c / 64)) ∧
      ¬ FreeAt bitdeck f (sp.xleft - 1) (c / 64) ∧
      ¬ FreeAt bitdeck f (sp.xright + 1) (c / 64) ∧
      (∀ i, sp.filled.testBit i = true ↔
        (f.testBit i = true ∨
          ∃ x, sp.xleft ≤ x ∧ x ≤ sp.xright ∧ i = (c / 64 * 64 + x).toNat)) ∧
      sp.numfilled = nf + (sp.xright - sp.xleft + 1) := by
  obtain ⟨sp, h0, -, h2, -, -, h5, h6, h7, h8, h9, h10⟩ :=
    Flood_2_spanFill_spec 66 le_rfl bitdeck f c nf hc
  refine ⟨sp, ⟨66, ?_⟩, h2, h5 hfree, h6, h7, h8, h9, h10⟩
  intro fuel hfuel
  obtain ⟨sp', h0', -, -, -, -, -, -, -, -, -, -⟩ :=
    Flood_2_spanFill_spec fuel hfuel bitdeck f c nf hc
  show Flood_2_spanFill fuel bitdeck 64 f c nf = some sp
  rw [h0']
  simp only [Flood_2_spanFill, Option.bind_eq_some, Option.map_eq_some'] at h0 h0'
  obtain ⟨r, hr, l, hl, e⟩ := h0
  obtain ⟨r', hr', l', hl', e'⟩ := h0'
  have er := Flood_2_span_mono bitdeck _ _ 66 fuel _ _ hfuel hr
  rw [hr'] at er
  cases er
  have el := Flood_2_span_mono bitdeck _ _ 66 fuel _ _ hfuel hl
  rw [hl'] at el
  cases el
  rw [← e, ← e']

/-- C26 at a concrete input: the occupancy mask with the cells `(0,0) .. (3,0)`, an empty
fill mask and the popped cell `(2, 0)`. -/
theorem Flood_2_span_extent_witness :
    ∃ sp : SpanFill, Returns (fun fuel => Flood_2_spanFill fuel 15 64 0 2 0) sp ∧
      sp.xleft ≤ 2 % 64 ∧ 2 % 64 ≤ sp.xright ∧
      (∀ x, sp.xleft ≤ x → x ≤ sp.xright → FreeAt 15 0 x (2 / 64)) ∧
      ¬ FreeAt 15 0 (sp.xleft - 1) (2 / 64) ∧
      ¬ FreeAt 15 0 (sp.xright + 1) (2 / 64) ∧
      (∀ i, sp.filled.testBit i = true ↔
        ((0 : Nat).testBit i = true ∨
          ∃ x, sp.xleft ≤ x ∧ x ≤ sp.xright ∧ i = ((2 : Int) / 64 * 64 + x).toNat)) ∧
      sp.numfilled = 0 + (sp.xright - sp.xleft + 1) :=
  Flood_2_span_extent 15 0 2 0 (by decide) (by decide)

/-! ## The rising-edge rule of the seed scans -/

theorem mem_cellsFrom (n : Nat) : ∀ (x a : Int), a ∈ cellsFrom x n ↔ x ≤ a ∧ a < x + n := by
  induction n with
  | zero =>
    intro x a
    simp only [cellsFrom, List.not_mem_nil, false_iff]
    omega
  | succ n ih =>
    intro x a
    simp only [cellsFrom, List.mem_cons, ih]
    push_cast
    omega

theorem TestCell_nonneg_iff (bitdeck f : Deck) (x y : Int) :
    TestCell bitdeck 64 f x y ≥ 0 ↔ FreeAt bitdeck f x y := by
  by_cases h : FreeAt bitdeck f x y
  · rw [TestCell_free _ _ _ _ h]
    have := h.1
    unfold inRange at this
    constructor
    · intro _; exact h
    · intro _; omega
  · rw [TestCell_not_free _ _ _ _ h]
    constructor
    · intro h'; omega
    · intro h'; exact absurd h' h

theorem TestCell_neg_one_iff (bitdeck f : Deck) (x y : Int) :
    TestCell bitdeck 64 f x y = -1 ↔ ¬ FreeAt bitdeck f x y := by
  by_cases h : FreeAt bitdeck f x y
  · rw [TestCell_free _ _ _ _ h]
    have := h.1
    unfold inRange at this
    constructor
    · intro h'; omega
    · intro h'; exact absurd h h'
  · rw [TestCell_not_free _ _ _ _ h]
    exact ⟨fun _ => h, fun _ => rfl⟩

/-- The seed scan started at `x` with the previous seed `p` pushes, left to right, the free
cells whose left neighbour is not free, the first cell counting as one when `p = -1`. -/
theorem Flood_2_scan_edges (bitdeck f : Deck) (xright yy : Int) :
    ∀ (k fuel : Nat) (x p : Int) (stk : List Int), (xright + 1 - x).toNat = k → k < fuel →
      ∃ res : ScanLoop, Flood_2_scan fuel bitdeck 64 f xright yy ⟨x, p, stk⟩ = some res ∧
        res.stack =
          (((cellsFrom x k).filter (fun a => decide (FreeAt bitdeck f a yy ∧
              ((a = x ∧ p = -1) ∨ (a ≠ x ∧ ¬ FreeAt bitdeck f (a - 1) yy))))).map
            (fun a => yy * 64 + a)).reverse ++ stk := by
  intro k
  induction k with
  | zero =>
    intro fuel x p stk hk _
    refine ⟨⟨x, p, stk⟩, Flood_2_scan_done fuel bitdeck f xright yy x p stk (by omega), ?_⟩
    simp [cellsFrom]
  | succ k ih =>
    intro fuel x p stk hk hfuel
    obtain ⟨fuel', rfl⟩ : ∃ fuel', fuel = fuel' + 1 := ⟨fuel - 1, by omega⟩
    have hle : x ≤ xright := by omega
    rw [Flood_2_scan_step fuel' bitdeck f xright yy x p stk hle]
    obtain ⟨res, hres, hstack⟩ := ih fuel' (x + 1) (TestCell bitdeck 64 f x yy)
      (if TestCell bitdeck 64 f x yy ≥ 0 ∧ p = -1 then TestCell bitdeck 64 f x yy :: stk
        else stk) (by omega) (by omega)
    refine ⟨res, hres, ?_⟩
    rw [hstack]
    have htail : (cellsFrom (x + 1) k).filter (fun a => decide (FreeAt bitdeck f a yy ∧
          ((a = x + 1 ∧ TestCell bitdeck 64 f x yy = -1) ∨
            (a ≠ x + 1 ∧ ¬ FreeAt bitdeck f (a - 1) yy)))) =
        (cellsFrom (x + 1) k).filter (fun a => decide (FreeAt bitdeck f a yy ∧
          ((a = x ∧ p = -1) ∨ (a ≠ x ∧ ¬ FreeAt bitdeck f (a - 1) yy)))) := by
      apply List.filter_congr
      intro a ha
      have ha' := (mem_cellsFrom k (x + 1) a).mp ha
      have hne : a ≠ x := by omega
      apply decide_eq_decide.mpr
      rw [TestCell_neg_one_iff]
      by_cases hax : a = x + 1
      · subst hax
        simp [hne]
      · simp [hne, hax]
    rw [htail]
    simp only [cellsFrom, List.filter_cons]
    by_cases hfree : FreeAt bitdeck f x yy
    · have hT := TestCell_free bitdeck f x yy hfree
      have hge : TestCell bitdeck 64 f x yy ≥ 0 := (TestCell_nonneg_iff bitdeck f x yy).mpr hfree
      by_cases hp : p = -1
      · have hge' : 0 ≤ yy * 64 + x := by rw [← hT]; exact hge
        simp [hfree, hp, hT, hge']
      · simp [hfree, hp]
    · have hge : ¬ TestCell bitdeck 64 f x yy ≥ 0 :=
        fun h => hfree ((TestCell_nonneg_iff bitdeck f x yy).mp h)
      simp [hfree, hge]

theorem mem_runStarts (bitdeck f : Deck) (xleft yy : Int) (n : Nat) (x : Int) :
    x ∈ runStarts bitdeck f xleft yy n ↔
      (xleft ≤ x ∧ x < xleft + n) ∧ IsRunStart bitdeck f xleft yy x := by
  simp only [runStarts, List.mem_filter, mem_cellsFrom, decide_eq_true_eq]

/-- C27. The rising-edge rule: a seed scan of `Flood_2` over the cells `xleft .. xright` of
a row `yy` (the row above or below the span; it starts with `prevSeed = -1`) returns, and it
has pushed exactly one seed for each maximal run of consecutive passable and unfilled cells
within the scanned segment, namely the cell index of the leftmost cell of the run within the
segment, the seed of the leftmost run first; so the number of pushes is the number of such
runs and never one per cell.  `runStarts` lists those leftmost cells: the cells of the
segment that are passable and unfilled and are the first cell of the segment or have a left
neighbour that is not. -/
theorem Flood_2_scan_rising_edges (bitdeck f : Deck) (xleft xright yy : Int)
    (stk : List Int) :
    (∃ res : ScanLoop,
      Returns (fun fuel => Flood_2_scan fuel bitdeck 64 f xright yy ⟨xleft, -1, stk⟩) res ∧
      res.stack =
        ((runStarts bitdeck f xleft yy (xright + 1 - xleft).toNat).map
          (fun x => yy * 64 + x)).reverse ++ stk ∧
      res.stack.length =
        stk.length + (runStarts bitdeck f xleft yy (xright + 1 - xleft).toNat).length) ∧
    (∀ x, x ∈ runStarts bitdeck f xleft yy (xright + 1 - xleft).toNat ↔
      (xleft ≤ x ∧ x ≤ xright) ∧ FreeAt bitdeck f x yy ∧
        (x = xleft ∨ ¬ FreeAt bitdeck f (x - 1) yy)) := by
  constructor
  · obtain ⟨res, hres0, hstack⟩ := Flood_2_scan_edges bitdeck f xright yy
      (xright + 1 - xleft).toNat ((xright + 1 - xleft).toNat + 1) xleft (-1) stk rfl
      (Nat.lt_succ_self _)
    have hfilter : (cellsFrom xleft (xright + 1 - xleft).toNat).filter
          (fun a => decide (FreeAt bitdeck f a yy ∧
            ((a = xleft ∧ (-1 : Int) = -1) ∨ (a ≠ xleft ∧ ¬ FreeAt bitdeck f (a - 1) yy)))) =
        runStarts bitdeck f xleft yy (xright + 1 - xleft).toNat := by
      unfold runStarts IsRunStart
      apply List.filter_congr
      intro a _
      by_cases hax : a = xleft
      · simp [hax]
      · simp [hax]
    rw [hfilter] at hstack
    refine ⟨res, ⟨(xright + 1 - xleft).toNat + 1, ?_⟩, hstack, ?_⟩
    · intro fuel hfuel
      exact whileLoop_mono _ _ _ (fun _ _ h => h) _ fuel _ _ hfuel hres0
    · rw [hstack]
      simp [Nat.add_comm]
  · intro x
    rw [mem_runStarts]
    unfold IsRunStart
    constructor
    · rintro ⟨⟨a, b⟩, c⟩
      exact ⟨⟨a, by omega⟩, c⟩
    · rintro ⟨⟨a, b⟩, c⟩
      exact ⟨⟨a, by omega⟩, c⟩

/-! ## The worst-case pattern -/

/-- The depth gauge never exceeds the maximum computed by `loopDepth`. -/
theorem loopDepth_le {σ : Type} (cond : σ → Bool) (body : σ → Option σ) (depth : σ → Nat) :
    ∀ (fuel : Nat) (s : σ) (m k : Nat), loopDepth cond body depth fuel s = some (m, k) →
      ∀ (n : Nat) (t : σ), loopState cond body n s = some t → depth t ≤ m := by
  intro fuel
  induction fuel with
  | zero =>
    intro s m k h n t ht
    by_cases hc : cond s = true
    · simp [loopDepth, hc] at h
    · simp only [loopDepth, hc, Bool.false_eq_true, if_false, Option.some.injEq,
        Prod.mk.injEq] at h
      cases n with
      | zero =>
        cases Option.some.inj ht
        omega
      | succ n => simp [loopState, hc] at ht
  | succ fuel ih =>
    intro s m k h n t ht
    by_cases hc : cond s = true
    · simp only [loopDepth, hc, if_true, Option.bind_eq_some, Option.map_eq_some',
        Prod.mk.injEq] at h
      obtain ⟨s', hb, ⟨m', k'⟩, hr, hm, -⟩ := h
      cases n with
      | zero =>
        cases Option.some.inj ht
        simp only at hm
        omega
      | succ n =>
        simp only [loopState, hc, if_true, hb, Option.some_bind] at ht
        have := ih s' m' k' hr n t ht
        simp only at hm
        omega
    · simp only [loopDepth, hc, Bool.false_eq_true, if_false, Option.some.injEq,
        Prod.mk.injEq] at h
      cases n with
      | zero =>
        cases Option.some.inj ht
        omega
      | succ n => simp [loopState, hc] at ht

/-- The maximum computed by `loopDepth` is the depth gauge at some loop head. -/
theorem loopDepth_attained {σ : Type} (cond : σ → Bool) (body : σ → Option σ)
    (depth : σ → Nat) :
    ∀ (fuel : Nat) (s : σ) (m k : Nat), loopDepth cond body depth fuel s = some (m, k) →
      ∃ (n : Nat) (t : σ), loopState cond body n s = some t ∧ depth t = m := by
  intro fuel
  induction fuel with
  | zero =>
    intro s m k h
    by_cases hc : cond s = true
    · simp [loopDepth, hc] at h
    · simp only [loopDepth, hc, Bool.false_eq_true, if_false, Option.some.injEq,
        Prod.mk.injEq] at h
      exact ⟨0, s, rfl, h.1⟩
  | succ fuel ih =>
    intro s m k h
    by_cases hc : cond s = true
    · simp only [loopDepth, hc, if_true, Option.bind_eq_some, Option.map_eq_some',
        Prod.mk.injEq] at h
      obtain ⟨s', hb, ⟨m', k'⟩, hr, hm, -⟩ := h
      simp only at hm
      by_cases hmax : m' ≤ depth s
      · exact ⟨0, s, rfl, by omega⟩
      · obtain ⟨n, t, hn, ht⟩ := ih s' m' k' hr
        refine ⟨n + 1, t, ?_, by omega⟩
        simp only [loopState, hc, if_true, hb, Option.some_bind]
        exact hn
    · simp only [loopDepth, hc, Bool.false_eq_true, if_false, Option.some.injEq,
        Prod.mk.injEq] at h
      exact ⟨0, s, rfl, h.1⟩

/-- A run of a loop is a run of every loop whose body agrees on the states of an invariant
of the first. -/
theorem loopState_transfer {σ : Type} (cond : σ → Bool) (body1 body2 : σ → Option σ)
    (I : σ → Prop)
    (hI : ∀ s r, I s → cond s = true → body1 s = some r → body2 s = some r ∧ I r) :
    ∀ (n : Nat) (s t : σ), I s → loopState cond body1 n s = some t →
      loopState cond body2 n s = some t := by
  intro n
  induction n with
  | zero => intro s t _ h; exact h
  | succ n ih =>
    intro s t hs h
    by_cases hc : cond s = true
    · simp only [loopState, hc, if_true, Option.bind_eq_some] at h ⊢
      obtain ⟨s', hb, hs'⟩ := h
      obtain ⟨hb2, hI'⟩ := hI s s' hs hc hb
      exact ⟨s', hb2, ih s' t hI' hs'⟩
    · simp [loopState, hc] at h

/-- On stacks of rows of the plane an iteration of `Flood_3` that returns with some fuel
returns the same with the fuel 129, and leaves a stack of rows of the plane. -/
theorem Flood_3_body_to_129 (fuel : Nat) (bitdeck : Deck) (s r : Flood3State)
    (hs : ∀ q ∈ s.stack, 0 ≤ q ∧ q < 64) (h : Flood_3_body fuel bitdeck 64 s = some r) :
    Flood_3_body 129 bitdeck 64 s = some r ∧ ∀ q ∈ r.stack, 0 ≤ q ∧ q < 64 := by
  obtain ⟨f, stack, nf⟩ := s
  cases stack with
  | nil =>
    simp only [Flood_3_body, Option.some.injEq] at h ⊢
    subst h
    exact ⟨rfl, hs⟩
  | cons q rest =>
    obtain ⟨b', hb', K, -, -, -, hrows⟩ := Flood_3_body_spec 129 le_rfl bitdeck f q rest nf
      (hs q (List.mem_cons_self _ _)) (fun x hx => hs x (List.mem_cons_of_mem _ hx))
    by_cases hle : fuel ≤ 129
    · have := Flood_3_body_fuel_mono bitdeck 64 fuel 129 hle _ _ h
      rw [hb'] at this
      cases this
      exact ⟨hb', hrows⟩
    · have := Flood_3_body_fuel_mono bitdeck 64 129 fuel (by omega) _ _ hb'
      rw [h] at this
      cases this
      exact ⟨hb', hrows⟩

set_option maxRecDepth 100000 in
/-- The run of `Flood_3` on the worst-case pattern from the seed `(0, 0)`: 155 iterations,
the deepest stack holds 32 rows. -/
theorem Flood_3_worst_case_eval :
    loopDepth (fun s : Flood3State => !s.stack.isEmpty) (Flood_3_body 129 (FillWorstCase 0) 64)
      (fun s => s.stack.length) 155 (Flood_3_init (FillWorstCase 0) 64 0 0 0) =
      some (32, 155) := by
  decide

set_option maxRecDepth 100000 in
/-- C28, evaluated on the code.  On the occupancy mask written by `FillWorstCase` with an
all-zero fill mask: started from the top-left corner `(0, 0)`, the row stack of `Flood_3`
holds at most 32 entries at every loop head and holds exactly 32 at one (with enough fuel
for the inner loops); started from the top-right corner `(63, 0)`, whose cell is not
passable in the pattern (bit 63 of `0x5555555555555555` is clear), `Flood_3` fills nothing,
never stacks a row and returns 0. -/
theorem Flood_3_worst_case_depth :
    (∀ (fuel n : Nat) (s : Flood3State),
      loopState (fun s : Flood3State => !s.stack.isEmpty)
        (Flood_3_body fuel (FillWorstCase 0) 64) n
        (Flood_3_init (FillWorstCase 0) 64 0 0 0) = some s →
      s.stack.length ≤ 32) ∧
    (∀ fuel : Nat, 129 ≤ fuel →
      ∃ (n : Nat) (s : Flood3State),
        loopState (fun s : Flood3State => !s.stack.isEmpty)
          (Flood_3_body fuel (FillWorstCase 0) 64) n
          (Flood_3_init (FillWorstCase 0) 64 0 0 0) = some s ∧
        s.stack.length = 32) ∧
    (FillWorstCase 0).testBit 63 = false ∧
    Flood_3_init (FillWorstCase 0) 64 0 63 0 = ⟨0, [], 0⟩ ∧
    (∀ fuel : Nat, Flood_3 fuel (FillWorstCase 0) 64 0 63 0 = some (0, 0)) := by
  have hinit : ∀ q ∈ (Flood_3_init (FillWorstCase 0) 64 0 0 0).stack, 0 ≤ q ∧ q < 64 := by
    decide
  refine ⟨?_, ?_, by decide, by rfl, ?_⟩
  · intro fuel n s h
    have h129 := loopState_transfer (fun s : Flood3State => !s.stack.isEmpty)
      (Flood_3_body fuel (FillWorstCase 0) 64) (Flood_3_body 129 (FillWorstCase 0) 64)
      (fun s => ∀ q ∈ s.stack, 0 ≤ q ∧ q < 64)
      (fun s r hs _ hb => Flood_3_body_to_129 fuel (FillWorstCase 0) s r hs hb) n _ s hinit h
    exact loopDepth_le _ _ (fun s : Flood3State => s.stack.length) 155 _ 32 155
      Flood_3_worst_case_eval n s h129
  · intro fuel hfuel
    obtain ⟨n, s, hn, hs⟩ := loopDepth_attained _ _ (fun s : Flood3State => s.stack.length)
      155 _ 32 155 Flood_3_worst_case_eval
    refine ⟨n, s, ?_, hs⟩
    exact loopState_transfer (fun s : Flood3State => !s.stack.isEmpty)
      (Flood_3_body 129 (FillWorstCase 0) 64) (Flood_3_body fuel (FillWorstCase 0) 64)
      (fun _ => True)
      (fun s r _ _ hb => ⟨Flood_3_body_fuel_mono (FillWorstCase 0) 64 129 fuel hfuel s r hb,
        trivial⟩) n _ s trivial hn
  · intro fuel
    have hi : Flood_3_init (FillWorstCase 0) 64 0 63 0 = ⟨0, [], 0⟩ := by rfl
    unfold Flood_3
    rw [hi]
    cases fuel <;> rfl

/-- C28 with the fuel 129 for the inner loops. -/
theorem Flood_3_worst_case_depth_witness :
    129 ≤ 129 ∧
    ∃ (n : Nat) (s : Flood3State),
      loopState (fun s : Flood3State => !s.stack.isEmpty)
        (Flood_3_body 129 (FillWorstCase 0) 64) n
        (Flood_3_init (FillWorstCase 0) 64 0 0 0) = some s ∧
      s.stack.length = 32 :=
  ⟨le_rfl, Flood_3_worst_case_depth.2.1 129 le_rfl⟩

/-! ## The auxiliary seed stack of the incremental span fill -/

theorem Flood_2_stacksOK_fresh (stack : List SpanFillSIState)
    (h : ∀ e ∈ stack, Flood_2_entryFresh e) : Flood_2_stacksOK stack [] := by
  refine ⟨by simp, ?_⟩
  cases stack with
  | nil => rfl
  | cons top rest =>
    obtain ⟨h1, h2, h3, h4⟩ := h top (List.mem_cons_self _ _)
    exact ⟨⟨h3, h4, by simpa using h2, Or.inl ⟨h1, rfl⟩⟩,
      fun e he => h e (List.mem_cons_of_mem _ he)⟩

theorem Flood_2_stage5_stacksOK (filled tested : Deck) (state : SpanFillSIState)
    (rest : List SpanFillSIState) (sfi : List Int)
    (hpc : state.PushCount = (sfi.length : Int))
    (hsfi : ∀ v ∈ sfi, 0 ≤ v ∧ v < 4096) (hrest : ∀ e ∈ rest, Flood_2_entryFresh e) :
    (Flood_2_stage5 filled state rest sfi tested).sfi = [] ∧
    Flood_2_stacksOK (Flood_2_stage5 filled state rest sfi tested).stack
      (Flood_2_stage5 filled state rest sfi tested).sfi := by
  have e : Flood_2_stage5 filled state rest sfi tested =
      ⟨filled, sfi.reverse.map SpanFillSIState.fresh ++ rest, [], tested, 0, 0⟩ := by
    simp only [Flood_2_stage5, hpc, Int.toNat_ofNat, SFI_resolve_all]
  rw [e]
  refine ⟨rfl, Flood_2_stacksOK_fresh _ ?_⟩
  intro x hx
  rcases List.mem_append.mp hx with h | h
  · obtain ⟨v, hv, rfl⟩ := List.mem_map.mp h
    have := hsfi v (List.mem_reverse.mp hv)
    exact ⟨rfl, rfl, this.1, this.2⟩
  · exact hrest x h

theorem TestCell_cases (bitdeck f : Deck) (x y : Int) :
    TestCell bitdeck 64 f x y = -1 ∨
      (0 ≤ TestCell bitdeck 64 f x y ∧ TestCell bitdeck 64 f x y < 4096) := by
  by_cases h : FreeAt bitdeck f x y
  · rw [TestCell_free _ _ _ _ h]
    have := h.1
    unfold inRange at this
    right
    omega
  · exact Or.inl (TestCell_not_free _ _ _ _ h)

theorem Flood_2_scanStep_stacksOK (bitdeck filled tested : Deck) (state : SpanFillSIState)
    (rest : List SpanFillSIState) (sfi : List Int) (yy base : Int)
    (hc : 0 ≤ state.CellIndex ∧ state.CellIndex < 4096)
    (hpc : state.PushCount = (sfi.length : Int))
    (hst : (state.Stage = 3 ∧ base = 0) ∨ (state.Stage = 4 ∧ base = 64))
    (hxl : 0 ≤ state.xLeft) (hx : state.xLeft ≤ state.X) (hxr : state.X ≤ state.xRight)
    (hr : state.xRight ≤ 63)
    (hcount : 2 * (sfi.length : Int) ≤
      base + (state.X - state.xLeft) + (if state.PrevSeed = -1 then 0 else 1))
    (hsfi : ∀ v ∈ sfi, 0 ≤ v ∧ v < 4096) (hrest : ∀ e ∈ rest, Flood_2_entryFresh e) :
    Flood_2_stacksOK (Flood_2_scanStep bitdeck 64 filled state rest sfi tested yy).stack
      (Flood_2_scanStep bitdeck 64 filled state rest sfi tested yy).sfi := by
  simp only [Flood_2_scanStep, TestCellTest_ret]
  have hT := TestCell_cases bitdeck filled state.X yy
  generalize TestCell bitdeck 64 filled state.X yy = t at hT
  by_cases hpush : t ≥ 0 ∧ state.PrevSeed = -1
  · have ht : ¬ t = -1 := by omega
    have hT' : 0 ≤ t ∧ t < 4096 := by omega
    simp only [hpush, and_self, decide_True, if_true]
    refine ⟨?_, ⟨hc.1, hc.2, ?_, ?_⟩, hrest⟩
    · intro v hv
      rcases List.mem_cons.mp hv with h | h
      · rw [h]; exact hT'
      · exact hsfi v h
    · simp only [List.length_cons, hpc]
      push_cast
      ring
    · have hp := hpush.2
      rw [if_pos hp] at hcount
      simp only [List.length_cons]
      push_cast
      rcases hst with ⟨h3, hb⟩ | ⟨h4, hb⟩
      · right; right; right; left
        refine ⟨h3, hxl, by show state.xLeft ≤ state.X + 1; omega,
          by show state.X + 1 ≤ state.xRight + 1; omega, hr, ?_⟩
        show 2 * ((sfi.length : Int) + 1) ≤ state.X + 1 - state.xLeft + (if t = -1 then 0 else 1)
        rw [if_neg ht]
        omega
      · right; right; right; right
        refine ⟨h4, hxl, by show state.xLeft ≤ state.X + 1; omega,
          by show state.X + 1 ≤ state.xRight + 1; omega, hr, ?_⟩
        show 2 * ((sfi.length : Int) + 1) ≤
          64 + (state.X + 1 - state.xLeft) + (if t = -1 then 0 else 1)
        rw [if_neg ht]
        omega
  · simp only [hpush, decide_False, if_false, Bool.false_eq_true]
    refine ⟨hsfi, ⟨hc.1, hc.2, hpc, ?_⟩, hrest⟩
    have hcount' : 2 * (sfi.length : Int) ≤
        base + (state.X + 1 - state.xLeft) + (if t = -1 then 0 else 1) := by
      by_cases ht : t = -1
      · rw [if_pos ht]
        split_ifs at hcount <;> omega
      · rw [if_neg ht]
        have hp : ¬ state.PrevSeed = -1 := fun hp => hpush ⟨by omega, hp⟩
        rw [if_neg hp] at hcount
        omega
    rcases hst with ⟨h3, hb⟩ | ⟨h4, hb⟩
    · right; right; right; left
      subst hb
      refine ⟨h3, hxl, by show state.xLeft ≤ state.X + 1; omega,
        by show state.X + 1 ≤ state.xRight + 1; omega, hr, ?_⟩
      show 2 * (sfi.length : Int) ≤ state.X + 1 - state.xLeft + (if t = -1 then 0 else 1)
      omega
    · right; right; right; right
      subst hb
      exact ⟨h4, hxl, by show state.xLeft ≤ state.X + 1; omega,
        by show state.X + 1 ≤ state.xRight + 1; omega, hr, hcount'⟩

theorem Flood_2_stage4_stacksOK (bitdeck filled tested : Deck) (state : SpanFillSIState)
    (rest : List SpanFillSIState) (sfi : List Int) (y : Int)
    (hc : 0 ≤ state.CellIndex ∧ state.CellIndex < 4096)
    (hpc : state.PushCount = (sfi.length : Int)) (hst : state.Stage = 4)
    (hxl : 0 ≤ state.xLeft) (hx : state.xLeft ≤ state.X) (hr : state.xRight ≤ 63)
    (hcount : 2 * (sfi.length : Int) ≤
      64 + (state.X - state.xLeft) + (if state.PrevSeed = -1 then 0 else 1))
    (hsfi : ∀ v ∈ sfi, 0 ≤ v ∧ v < 4096) (hrest : ∀ e ∈ rest, Flood_2_entryFresh e) :
    Flood_2_stacksOK (Flood_2_stage4 bitdeck 64 filled state rest sfi tested y).stack
      (Flood_2_stage4 bitdeck 64 filled state rest sfi tested y).sfi := by
  unfold Flood_2_stage4
  split_ifs with h
  · exact Flood_2_scanStep_stacksOK bitdeck filled tested state rest sfi (y + 1) 64 hc hpc
      (Or.inr ⟨hst, rfl⟩) hxl hx h.2 hr hcount hsfi hrest
  · exact (Flood_2_stage5_stacksOK filled tested _ rest sfi hpc hsfi hrest).2

theorem Flood_2_stage3_stacksOK (bitdeck filled tested : Deck) (state : SpanFillSIState)
    (rest : List SpanFillSIState) (sfi : List Int) (y : Int)
    (hc : 0 ≤ state.CellIndex ∧ state.CellIndex < 4096)
    (hpc : state.PushCount = (sfi.length : Int)) (hst : state.Stage = 3)
    (hxl : 0 ≤ state.xLeft) (hx : state.xLeft ≤ state.X) (hxr : state.X ≤ state.xRight + 1)
    (hr : state.xRight ≤ 63)
    (hcount : 2 * (sfi.length : Int) ≤
      (state.X - state.xLeft) + (if state.PrevSeed = -1 then 0 else 1))
    (hsfi : ∀ v ∈ sfi, 0 ≤ v ∧ v < 4096) (hrest : ∀ e ∈ rest, Flood_2_entryFresh e) :
    Flood_2_stacksOK (Flood_2_stage3 bitdeck 64 filled state rest sfi tested y).stack
      (Flood_2_stage3 bitdeck 64 filled state rest sfi tested y).sfi := by
  unfold Flood_2_stage3
  split_ifs with h
  · exact Flood_2_scanStep_stacksOK bitdeck filled tested state rest sfi (y - 1) 0 hc hpc
      (Or.inl ⟨hst, rfl⟩) hxl hx h.2 hr (by omega) hsfi hrest
  · refine Flood_2_stage4_stacksOK bitdeck filled tested _ rest sfi y hc hpc
      (by show state.Stage + 1 = 4; omega) hxl (le_refl _) hr ?_ hsfi hrest
    show 2 * (sfi.length : Int) ≤ 64 + (state.xLeft - state.xLeft) + (if (-1 : Int) = -1 then 0 else 1)
    split_ifs at hcount <;> simp <;> omega

theorem Flood_2_stage2_stacksOK (bitdeck filled tested : Deck) (state : SpanFillSIState)
    (rest : List SpanFillSIState) (y : Int)
    (hc : 0 ≤ state.CellIndex ∧ state.CellIndex < 4096)
    (hpc : state.PushCount = 0) (hst : state.Stage = 2)
    (hx : -1 ≤ state.X) (hxr : state.X ≤ state.xRight) (hr : state.xRight ≤ 63)
    (hrest : ∀ e ∈ rest, Flood_2_entryFresh e) :
    Flood_2_stacksOK (Flood_2_stage2 bitdeck 64 filled state rest [] tested y).stack
      (Flood_2_stage2 bitdeck 64 filled state rest [] tested y).sfi := by
  simp only [Flood_2_stage2, FillCellTest_ret]
  have hF := FillCell_ret_cases bitdeck filled 64 state.X y
  generalize (FillCell bitdeck 64 filled state.X y).2 = t at hF
  split_ifs with h
  · have hin : inRange 64 state.X y := by
      rcases hF with hF | hF
      · omega
      · exact hF.2
    unfold inRange at hin
    refine ⟨by simp, ⟨hc.1, hc.2, by simpa using hpc, ?_⟩, hrest⟩
    right; right; left
    exact ⟨hst, rfl, by show -1 ≤ state.X + -1; omega, by show state.X + -1 ≤ state.xRight; omega,
      hr⟩
  · refine ⟨by simp, ⟨hc.1, hc.2, by simpa using hpc, ?_⟩, hrest⟩
    right; right; right; left
    refine ⟨by show state.Stage + 1 = 3; omega, by show 0 ≤ state.X - -1; omega,
      le_refl _, by show state.X - -1 ≤ state.xRight + 1; omega, hr, ?_⟩
    simp

theorem Flood_2_stage1_stacksOK (bitdeck filled tested : Deck) (state : SpanFillSIState)
    (rest : List SpanFillSIState) (y : Int)
    (hc : 0 ≤ state.CellIndex ∧ state.CellIndex < 4096)
    (hpc : state.PushCount = 0) (hst : state.Stage = 1)
    (hx : state.CellIndex % 64 ≤ state.X) (hx64 : state.X ≤ 64)
    (hrest : ∀ e ∈ rest, Flood_2_entryFresh e) :
    Flood_2_stacksOK (Flood_2_stage1 bitdeck 64 filled state rest [] tested y).stack
      (Flood_2_stage1 bitdeck 64 filled state rest [] tested y).sfi := by
  simp only [Flood_2_stage1, FillCellTest_ret]
  have hF := FillCell_ret_cases bitdeck filled 64 state.X y
  generalize (FillCell bitdeck 64 filled state.X y).2 = t at hF
  have hm : state.CellIndex.tmod 64 = state.CellIndex % 64 :=
    Int.tmod_eq_emod hc.1 (by norm_num)
  split_ifs with h
  · have hin : inRange 64 state.X y := by
      rcases hF with hF | hF
      · omega
      · exact hF.2
    unfold inRange at hin
    refine ⟨by simp, ⟨hc.1, hc.2, by simpa using hpc, ?_⟩, hrest⟩
    right; left
    exact ⟨hst, rfl, by show state.CellIndex % 64 ≤ state.X + 1; omega,
      by show state.X + 1 ≤ 64; omega⟩
  · refine ⟨by simp, ⟨hc.1, hc.2, by simpa using hpc, ?_⟩, hrest⟩
    right; right; left
    refine ⟨by show state.Stage + 1 = 2; omega, rfl, ?_, ?_, ?_⟩
    · show -1 ≤ state.CellIndex.tmod 64 - 1
      omega
    · show state.CellIndex.tmod 64 - 1 ≤ state.X - 1
      omega
    · show state.X - 1 ≤ 63
      omega

/-- One call of `Flood_2_Incremental` keeps the invariant of the two stacks. -/
theorem Flood_2_Incremental_stacksOK (bitdeck filled tested : Deck)
    (stack : List SpanFillSIState) (sfi : List Int) (h : Flood_2_stacksOK stack sfi) :
    Flood_2_stacksOK (Flood_2_Incremental bitdeck 64 filled stack sfi tested).stack
      (Flood_2_Incremental bitdeck 64 filled stack sfi tested).sfi := by
  obtain ⟨hsfi, h⟩ := h
  cases stack with
  | nil =>
    simp only at h
    subst h
    exact ⟨by simp [Flood_2_Incremental], rfl⟩
  | cons state rest =>
    obtain ⟨⟨hc1, hc2, hpc, hstage⟩, hrest⟩ := h
    have hm : state.CellIndex.tmod 64 = state.CellIndex % 64 :=
      Int.tmod_eq_emod hc1 (by norm_num)
    rcases hstage with ⟨hs, hn⟩ | ⟨hs, hn, a, b⟩ | ⟨hs, hn, a, b, c⟩ | ⟨hs, a, b, c, d, e⟩ |
      ⟨hs, a, b, c, d, e⟩
    · have : sfi = [] := List.length_eq_zero.mp hn
      subst this
      simp only [Flood_2_Incremental, hs, if_true]
      exact Flood_2_stage1_stacksOK bitdeck filled tested _ rest _ ⟨hc1, hc2⟩
        (by simpa using hpc) (by show (0 : Int) + 1 = 1; norm_num)
        (by show state.CellIndex % 64 ≤ state.CellIndex.tmod 64; omega)
        (by show state.CellIndex.tmod 64 ≤ 64; omega) hrest
    · have : sfi = [] := List.length_eq_zero.mp hn
      subst this
      simp only [Flood_2_Incremental, hs, if_true, if_false, one_ne_zero]
      exact Flood_2_stage1_stacksOK bitdeck filled tested _ rest _ ⟨hc1, hc2⟩
        (by simpa using hpc) hs a b hrest
    · have : sfi = [] := List.length_eq_zero.mp hn
      subst this
      simp only [Flood_2_Incremental, hs, if_true, if_false, OfNat.ofNat_ne_zero,
        OfNat.ofNat_ne_one, Int.reduceEq]
      exact Flood_2_stage2_stacksOK bitdeck filled tested _ rest _ ⟨hc1, hc2⟩
        (by simpa using hpc) hs a b c hrest
    · simp only [Flood_2_Incremental, hs, if_true, if_false, OfNat.ofNat_ne_zero,
        OfNat.ofNat_ne_one, Int.reduceEq]
      exact Flood_2_stage3_stacksOK bitdeck filled tested _ rest sfi _ ⟨hc1, hc2⟩ hpc hs a b c d
        e hsfi hrest
    · simp only [Flood_2_Incremental, hs, if_true, if_false, OfNat.ofNat_ne_zero,
        OfNat.ofNat_ne_one, Int.reduceEq]
      exact Flood_2_stage4_stacksOK bitdeck filled tested _ rest sfi _ ⟨hc1, hc2⟩ hpc hs a b d
        e hsfi hrest

theorem Flood_2_topOK_le (e : SpanFillSIState) (n : Nat) (h : Flood_2_topOK e n) : n ≤ 64 := by
  obtain ⟨-, -, -, h⟩ := h
  rcases h with ⟨-, hn⟩ | ⟨-, hn, -⟩ | ⟨-, hn, -⟩ | ⟨-, a, b, c, d, e⟩ | ⟨-, a, b, c, d, e⟩
  · omega
  · omega
  · omega
  · split_ifs at e <;> omega
  · split_ifs at e <;> omega

/-- C30. The auxiliary seed stack of the incremental span fill on the 64x64 plane: in a run
started by `Flood_2_Incremental_Start` on an empty work stack and an empty auxiliary stack
(seed cell index among the 4096 cells), at every call boundary the auxiliary stack `SFI_Stack`
holds at most 64 entries, the `PushCount` of the top entry of the work stack is the number
of entries on the auxiliary stack, the stage-5 block run on that entry leaves the auxiliary
stack empty, and the auxiliary stack is empty whenever the top entry is untouched (stage 0,
as after a resolution) or the work stack is empty.  (A call pushes at most one seed, and
only before a `break`, so inside a call the auxiliary stack is never larger than at both
call boundaries around it.) -/
theorem Flood_2_Incremental_sfi_bound (bitdeck filled tested : Deck) (seedX seedY : Int)
    (hseed : 0 ≤ seedY * 64 + seedX ∧ seedY * 64 + seedX < 4096) (n : Nat) (s : Run2State)
    (h : loopState (fun s : Run2State => !s.stack.isEmpty)
      (fun s => some (Flood_2_runStep bitdeck 64 s)) n
      ⟨(Flood_2_Incremental_Start bitdeck 64 filled [] seedX seedY).1,
        (Flood_2_Incremental_Start bitdeck 64 filled [] seedX seedY).2.1, [], tested,
        (Flood_2_Incremental_Start bitdeck 64 filled [] seedX seedY).2.2⟩ = some s) :
    s.sfi.length ≤ 64 ∧
    (∀ top rest, s.stack = top :: rest → top.PushCount = (s.sfi.length : Int)) ∧
    (∀ top rest, s.stack = top :: rest → ∀ e : SpanFillSIState, e.PushCount = top.PushCount →
      (Flood_2_stage5 s.filled e rest s.sfi s.tested).sfi = []) ∧
    (∀ top rest, s.stack = top :: rest → top.Stage = 0 → s.sfi = []) ∧
    (s.stack = [] → s.sfi = []) := by
  have hinit : Flood_2_stacksOK
      (Flood_2_Incremental_Start bitdeck 64 filled [] seedX seedY).2.1 [] := by
    apply Flood_2_stacksOK_fresh
    intro e he
    simp only [Flood_2_Incremental_Start] at he
    have hcell : (Flood_2_seed bitdeck 64 filled seedX seedY).1 = seedY * 64 + seedX := rfl
    split_ifs at he
    · simp only [List.mem_singleton] at he
      subst he
      exact ⟨rfl, rfl, by rw [SpanFillSIState.fresh, hcell]; exact hseed.1,
        by rw [SpanFillSIState.fresh, hcell]; exact hseed.2⟩
    · simp at he
  have hinv := loopState_inv (fun s : Run2State => !s.stack.isEmpty)
    (fun s => some (Flood_2_runStep bitdeck 64 s)) (fun s => Flood_2_stacksOK s.stack s.sfi)
    (fun s s' hs _ hb => by
      cases Option.some.inj hb
      exact Flood_2_Incremental_stacksOK bitdeck s.filled s.tested s.stack s.sfi hs)
    n _ s hinit h
  obtain ⟨hsfi, hst⟩ := hinv
  cases hs : s.stack with
  | nil =>
    rw [hs] at hst
    simp only at hst
    refine ⟨by rw [hst]; simp, ?_, ?_, ?_, fun _ => hst⟩
    · intro top rest e; cases e
    · intro top rest e; cases e
    · intro top rest e; cases e
  | cons top rest =>
    rw [hs] at hst
    obtain ⟨htop, hrest⟩ := hst
    refine ⟨Flood_2_topOK_le top _ htop, ?_, ?_, ?_, fun e => by cases e⟩
    · intro top' rest' e
      cases e
      exact htop.2.2.1
    · intro top' rest' e e' he'
      cases e
      exact (Flood_2_stage5_stacksOK s.filled s.tested e' rest s.sfi
        (he'.trans htop.2.2.1) hsfi hrest).1
    · intro top' rest' e h0
      cases e
      obtain ⟨-, -, -, hstage⟩ := htop
      apply List.length_eq_zero.mp
      rcases hstage with ⟨-, hn⟩ | ⟨hs', -⟩ | ⟨hs', -⟩ | ⟨hs', -⟩ | ⟨hs', -⟩
      · exact hn
      all_goals (rw [h0] at hs'; omega)

/-- C30 at a concrete input: the occupancy mask with the cells `(0,0) .. (3,0)`, empty fill
and test masks, the seed `(0, 0)`, after one call. -/
theorem Flood_2_Incremental_sfi_bound_witness :
    (0 ≤ (0 : Int) * 64 + 0 ∧ (0 : Int) * 64 + 0 < 4096) ∧
    loopState (fun s : Run2State => !s.stack.isEmpty)
      (fun s => some (Flood_2_runStep 15 64 s)) 1
      ⟨(Flood_2_Incremental_Start 15 64 0 [] 0 0).1,
        (Flood_2_Incremental_Start 15 64 0 [] 0 0).2.1, [], 0,
        (Flood_2_Incremental_Start 15 64 0 [] 0 0).2.2⟩ =
      some ⟨1, [⟨0, 1, 1, 0, 0, 0, 0⟩], [], 1, 1⟩ ∧
    (([] : List Int).length ≤ 64 ∧
      (∀ top rest, [(⟨0, 1, 1, 0, 0, 0, 0⟩ : SpanFillSIState)] = top :: rest →
        top.PushCount = (([] : List Int).length : Int)) ∧
      (∀ top rest, [(⟨0, 1, 1, 0, 0, 0, 0⟩ : SpanFillSIState)] = top :: rest →
        ∀ e : SpanFillSIState, e.PushCount = top.PushCount →
          (Flood_2_stage5 1 e rest [] 1).sfi = []) ∧
      (∀ top rest, [(⟨0, 1, 1, 0, 0, 0, 0⟩ : SpanFillSIState)] = top :: rest →
        top.Stage = 0 → ([] : List Int) = []) ∧
      ([(⟨0, 1, 1, 0, 0, 0, 0⟩ : SpanFillSIState)] = [] → ([] : List Int) = [])) :=
  ⟨by decide, by rfl,
    Flood_2_Incremental_sfi_bound 15 0 0 0 0 (by decide) 1
      ⟨1, [⟨0, 1, 1, 0, 0, 0, 0⟩], [], 1, 1⟩ (by rfl)⟩

/-! ## Pre-filled fill masks -/

/-- C31. Pre-filled masks break agreement: there are an occupancy mask of the 64x64 plane (no
bit beyond its 4096 cells), a non-zero initial fill mask contained in it and a seed on the
plane for which `Flood_1` and `Flood_3` return with different fill masks.  The instance is
the occupancy mask with the cells `(0,0), (1,0), (2,0)`, the initial fill mask with the cell
`(1,0)` and the seed `(0,0)`: `Flood_1` fills the seed only and returns 1 (fill mask
`0b011`), `Flood_3` also fills `(2,0)` and returns 2 (fill mask `0b111`).  The extra cell is
a neighbour of the pre-filled cell and is not joined to the seed by cells that were passable
and unfilled: `Flood_3` spreads from every fill bit of the row it processes, `Flood_1` only
from cells it filled itself. -/
theorem Flood_prefilled_disagree :
    ∃ (bitdeck init : Deck) (seedX seedY : Int) (F1 F3 : Deck) (N1 N3 : Int),
      bitdeck >>> 4096 = 0 ∧ init ≠ 0 ∧ MaskWithin bitdeck init ∧
      inRange 64 seedX seedY ∧
      Returns (fun fuel => Flood_1 fuel bitdeck 64 init seedX seedY) (F1, N1) ∧
      Returns (fun fuel => Flood_3 fuel bitdeck 64 init seedX seedY) (F3, N3) ∧
      F1 ≠ F3 ∧
      ∃ p i, init.testBit p = true ∧ adjIdx p i ∧ F3.testBit i = true ∧
        F1.testBit i = false ∧ ¬ ReachIdx bitdeck init (seedY * 64 + seedX).toNat i := by
  have h1 : Returns (fun fuel => Flood_1 fuel 7 64 2 0 0) (3, 1) :=
    Returns_of_mono (Flood_1_fuel_mono 7 64 2 0 0) 2 (by decide)
  have h3 : Returns (fun fuel => Flood_3 fuel 7 64 2 0 0) (7, 2) :=
    Returns_of_mono (Flood_3_fuel_mono 7 64 2 0 0) 5 (by decide)
  refine ⟨7, 2, 0, 0, 3, 7, 1, 2, ?_, by decide, ?_, by decide, h1, h3, by decide, 1, 2,
    by decide, ?_, by decide, by decide, ?_⟩
  · decide
  · intro i hi
    have h := congrArg (fun n : Nat => n.testBit i) (show (2 : Nat) &&& 7 = 2 by decide)
    simp only [Nat.testBit_and] at h
    change Nat.testBit 2 i = true at hi
    rw [hi, Bool.true_and] at h
    exact h
  · unfold adjIdx
    right; right; left
    exact ⟨rfl, by decide⟩
  · intro hreach
    obtain ⟨F, N, hR, hbits, -⟩ := Flood_1_returns 7 2 0 0
    have e := Returns_unique hR h1
    have eF : F = 3 := congrArg Prod.fst e
    have := (hbits 2).mpr (Or.inr ⟨by decide, hreach⟩)
    rw [eF] at this
    exact absurd this (by decide)

/-! ## `Flood_3` with its buffers and `Flood_3` on an unlimited stack -/

theorem rowInBounds_64 (r : Int) (h : 0 ≤ r ∧ r < 64) : rowInBounds 64 r := by
  unfold rowInBounds decksize
  have : ((64 : Int) * 64).tdiv 8 = 512 := by decide
  rw [this]
  omega

theorem Flood_3_capacity_64 : Flood_3_capacity 64 = 32 := by decide

/-- On the 64x64 plane a checked bitfill into a row of the plane is the bitfill, unless the
push finds the 32 entries of the row stack taken. -/
theorem Flood_3_checked_bitfill_eq (bitdeck : Deck) (fillRow : Nat) (nb : Int)
    (s : Flood3State) (hnb : 0 ≤ nb ∧ nb < 64) (hlen : s.stack.length ≤ 32) :
    Flood_3_checked_bitfill bitdeck 64 fillRow nb s =
      if (Flood_3_bitfill bitdeck fillRow nb s).stack.length ≤ 32 then
        Outcome.done (Flood_3_bitfill bitdeck fillRow nb s)
      else Outcome.stackOverrun := by
  unfold Flood_3_checked_bitfill Flood_3_bitfill
  rw [if_pos (rowInBounds_64 nb hnb), Flood_3_capacity_64]
  dsimp only
  by_cases hch : rowAt s.filled nb.toNat ≠
      rowAt s.filled nb.toNat ||| (fillRow &&& rowAt bitdeck nb.toNat)
  · rw [if_pos hch, if_pos hch]
    by_cases hl : s.stack.length < 32
    · rw [if_pos hl, if_pos (by simp only [List.length_cons]; omega)]
    · rw [if_neg hl, if_neg (by simp only [List.length_cons]; omega)]
  · rw [if_neg hch, if_neg hch, if_pos hlen]

theorem Flood_3_bitfill_length (bitdeck : Deck) (fillRow : Nat) (nb : Int) (s : Flood3State) :
    (Flood_3_bitfill bitdeck fillRow nb s).stack.length ≤ s.stack.length + 1 := by
  unfold Flood_3_bitfill
  dsimp only
  split_ifs
  · simp
  · omega

/-- On the 64x64 plane, on a stack of at most 32 rows of the plane, a checked iteration of
`Flood_3` is the iteration on the unlimited stack, unless that leaves more than 32 rows: then
the second push of the iteration stores past the row stack. -/
theorem Flood_3_checked_body_eq (fuel : Nat) (bitdeck : Deck) (s s' : Flood3State)
    (hrows : ∀ q ∈ s.stack, 0 ≤ q ∧ q < 64) (hlen : s.stack.length ≤ 32)
    (h : Flood_3_body fuel bitdeck 64 s = some s') :
    Flood_3_checked_body fuel bitdeck 64 s =
      some (if s'.stack.length ≤ 32 then Outcome.done s' else Outcome.stackOverrun) := by
  obtain ⟨f, stack, nf⟩ := s
  cases stack with
  | nil =>
    simp only [Flood_3_body, Option.some.injEq] at h
    subst h
    simp [Flood_3_checked_body]
  | cons q rest =>
    have hq := hrows q (List.mem_cons_self _ _)
    have hrest : rest.length ≤ 31 := by
      simp only [List.length_cons] at hlen
      omega
    simp only [Flood_3_body] at h
    rw [Option.bind_eq_some] at h
    obtain ⟨l, hl, h⟩ := h
    rw [Option.bind_eq_some] at h
    obtain ⟨rr, hrr, h⟩ := h
    simp only [Option.some.injEq] at h
    simp only [Flood_3_checked_body, if_pos (rowInBounds_64 q hq), hl, Option.some_bind, hrr]
    by_cases hup : q > 0
    · have hb1 := Flood_3_checked_bitfill_eq bitdeck rr.fillRow (q - 1)
        ⟨setRow f q.toNat rr.fillRow, rest,
          nf + CountBits (rr.fillRow ^^^ rowAt f q.toNat)⟩ (by omega) (by simp only; omega)
      have hl1 := Flood_3_bitfill_length bitdeck rr.fillRow (q - 1)
        ⟨setRow f q.toNat rr.fillRow, rest, nf + CountBits (rr.fillRow ^^^ rowAt f q.toNat)⟩
      simp only at hl1
      rw [if_pos (by omega)] at hb1
      simp only [if_pos hup] at h ⊢
      rw [hb1]
      dsimp only
      by_cases hdown : q < 64 - 1
      · simp only [if_pos hdown] at h ⊢
        rw [Flood_3_checked_bitfill_eq bitdeck rr.fillRow (q + 1) _ (by omega) (by omega), h]
      · simp only [if_neg hdown] at h ⊢
        rw [← h, if_pos (by omega)]
    · simp only [if_neg hup] at h ⊢
      by_cases hdown : q < 64 - 1
      · simp only [if_pos hdown] at h ⊢
        rw [Flood_3_checked_bitfill_eq bitdeck rr.fillRow (q + 1) _ (by omega)
          (by simp only; omega), h]
      · simp only [if_neg hdown] at h ⊢
        rw [← h, if_pos (by simp only; omega)]

/-- On the 64x64 plane the checked loop of `Flood_3` follows the loop on the unlimited stack
until it ends, or until an iteration stores past the row stack. -/
theorem Flood_3_checked_loop (fuel : Nat) (bitdeck : Deck) :
    ∀ (n : Nat) (s t : Flood3State), (∀ q ∈ s.stack, 0 ≤ q ∧ q < 64) → s.stack.length ≤ 32 →
      whileLoop (fun s : Flood3State => !s.stack.isEmpty) (Flood_3_body fuel bitdeck 64) n s =
        some t →
      whileLoop Flood_3_checked_cond (Flood_3_checked_step fuel bitdeck 64) n (Outcome.done s) =
          some (Outcome.done t) ∨
        whileLoop Flood_3_checked_cond (Flood_3_checked_step fuel bitdeck 64) n
          (Outcome.done s) = some Outcome.stackOverrun := by
  intro n
  induction n with
  | zero =>
    intro s t _ _ h
    left
    by_cases hc : (!s.stack.isEmpty) = true
    · simp [whileLoop, hc] at h
    · simp only [whileLoop, hc, Bool.false_eq_true, if_false, Option.some.injEq] at h
      subst h
      exact whileLoop_done _ _ _ _ (by simpa [Flood_3_checked_cond] using hc)
  | succ n ih =>
    intro s t hrows hlen h
    by_cases hc : (!s.stack.isEmpty) = true
    · simp only [whileLoop, hc, if_true] at h
      obtain ⟨s', hb, hs'⟩ := Option.bind_eq_some.mp h
      have hcb := Flood_3_checked_body_eq fuel bitdeck s s' hrows hlen hb
      have hrows' := (Flood_3_body_to_129 fuel bitdeck s s' hrows hb).2
      by_cases hl' : s'.stack.length ≤ 32
      · rw [if_pos hl'] at hcb
        rw [whileLoop_step Flood_3_checked_cond _ n (Outcome.done s) (Outcome.done s')
          (by simpa [Flood_3_checked_cond] using hc) hcb]
        exact ih s' t hrows' hl' hs'
      · rw [if_neg hl'] at hcb
        right
        rw [whileLoop_step Flood_3_checked_cond _ n (Outcome.done s) Outcome.stackOverrun
          (by simpa [Flood_3_checked_cond] using hc) hcb]
        exact whileLoop_done _ _ _ _ rfl
    · simp only [whileLoop, hc, Bool.false_eq_true, if_false, Option.some.injEq] at h
      subst h
      left
      exact whileLoop_done _ _ _ _ (by simpa [Flood_3_checked_cond] using hc)

theorem Flood_3_checked_body_fuel_mono (bitdeck : Deck) (dim : Int) (n m : Nat) (hnm : n ≤ m)
    (s : Flood3State) (o : Outcome Flood3State)
    (h : Flood_3_checked_body n bitdeck dim s = some o) :
    Flood_3_checked_body m bitdeck dim s = some o := by
  unfold Flood_3_checked_body at h ⊢
  cases hs : s.stack with
  | nil => rw [hs] at h; exact h
  | cons q st =>
    rw [hs] at h
    dsimp only at h ⊢
    by_cases hq : rowInBounds dim q
    · rw [if_pos hq] at h ⊢
      rw [Option.bind_eq_some] at h
      obtain ⟨l, hl, h⟩ := h
      rw [Option.bind_eq_some] at h
      obtain ⟨rr, hrr, h⟩ := h
      have hl' := whileLoop_mono _ _ _ (fun _ _ h => h) n m _ _ hnm hl
      have hrr' := whileLoop_mono _ _ _ (fun _ _ h => h) n m _ _ hnm hrr
      unfold Flood_3_scanLeft Flood_3_scanRight
      rw [hl', Option.some_bind, hrr', Option.some_bind]
      exact h
    · rw [if_neg hq] at h ⊢
      exact h

theorem Flood_3_checked_fuel_mono (bitdeck : Deck) (dim : Int) (filled : Deck)
    (seedX seedY : Int) (n m : Nat) (r : Outcome (Deck × Int)) (hnm : n ≤ m)
    (h : Flood_3_checked n bitdeck dim filled seedX seedY = some r) :
    Flood_3_checked m bitdeck dim filled seedX seedY = some r := by
  unfold Flood_3_checked at h ⊢
  rw [Option.map_eq_some'] at h ⊢
  obtain ⟨a, ha, hr⟩ := h
  refine ⟨a, whileLoop_mono _ _ _ ?_ n m _ _ hnm ha, hr⟩
  intro o r ho
  cases o with
  | done s => exact Flood_3_checked_body_fuel_mono bitdeck dim n m hnm s r ho
  | stackOverrun => exact ho
  | outOfBounds => exact ho

theorem Flood_3_checked_init_64 (bitdeck filled : Deck) (seedX seedY : Int) :
    Flood_3_checked_init bitdeck 64 filled seedX seedY =
      Outcome.done (Flood_3_init bitdeck 64 filled seedX seedY) := by
  unfold Flood_3_checked_init Flood_3_init
  rw [Flood_3_capacity_64]
  dsimp only
  split_ifs <;> first | rfl | omega

theorem Flood_3_init_length (bitdeck filled : Deck) (seedX seedY : Int) :
    (Flood_3_init bitdeck 64 filled seedX seedY).stack.length ≤ 32 := by
  unfold Flood_3_init
  dsimp only
  split_ifs <;> simp

/-- On the 64x64 plane `Flood_3` with its buffers returns what `Flood_3` on an unlimited
stack returns, or stores past its row stack of 32 entries. -/
theorem Flood_3_checked_cases (bitdeck filled : Deck) (seedX seedY : Int) (r : Deck × Int)
    (h : Returns (fun fuel => Flood_3 fuel bitdeck 64 filled seedX seedY) r) :
    Returns (fun fuel => Flood_3_checked fuel bitdeck 64 filled seedX seedY) (Outcome.done r) ∨
      Returns (fun fuel => Flood_3_checked fuel bitdeck 64 filled seedX seedY)
        Outcome.stackOverrun := by
  obtain ⟨fuel, hf⟩ := h
  have h1 := hf fuel le_rfl
  simp only [Flood_3, Option.map_eq_some'] at h1
  obtain ⟨t, ht, hr⟩ := h1
  rcases Flood_3_checked_loop fuel bitdeck fuel _ t
    (Flood_3_init_stack bitdeck filled seedX seedY)
    (Flood_3_init_length bitdeck filled seedX seedY) ht with hc | hc
  · left
    refine Returns_of_mono (Flood_3_checked_fuel_mono bitdeck 64 filled seedX seedY) fuel ?_
    show Flood_3_checked fuel bitdeck 64 filled seedX seedY = _
    unfold Flood_3_checked
    rw [Flood_3_checked_init_64, hc, ← hr]
    rfl
  · right
    refine Returns_of_mono (Flood_3_checked_fuel_mono bitdeck 64 filled seedX seedY) fuel ?_
    show Flood_3_checked fuel bitdeck 64 filled seedX seedY = _
    unfold Flood_3_checked
    rw [Flood_3_checked_init_64, hc]
    rfl

/-- `Flood_3` with its buffers on a seed that is not free returns 0 and leaves the mask. -/
theorem Flood_3_checked_not_free (bitdeck f : Deck) (sx sy : Int)
    (h : ¬ FreeAt bitdeck f sx sy) :
    Returns (fun fuel => Flood_3_checked fuel bitdeck 64 f sx sy) (Outcome.done (f, 0)) := by
  refine Returns_of_mono (Flood_3_checked_fuel_mono bitdeck 64 f sx sy) 0 ?_
  show Flood_3_checked 0 bitdeck 64 f sx sy = _
  unfold Flood_3_checked Flood_3_checked_init
  rw [FillCell_not_free _ _ _ _ h, whileLoop_done _ _ _ _ (by simp [Flood_3_checked_cond])]
  simp [Outcome.map]

/-- The failing input of the row stack: on the staircase occupancy mask, with an all-zero
fill mask and the seed `(0, 1)`, `Flood_3` stores past its row stack of 32 entries. -/
theorem Flood_3_checked_stairs :
    Returns (fun fuel => Flood_3_checked fuel stairsDeck 64 0 0 1) Outcome.stackOverrun :=
  Returns_of_mono (Flood_3_checked_fuel_mono stairsDeck 64 0 0 1) 129 (by decide)

/-- A call that stores past its stack does not return a result. -/
theorem Returns_overrun_not_done {α : Type} {f : Nat → Option (Outcome α)}
    (h : Returns f Outcome.stackOverrun) (r : α) : ¬ Returns f (Outcome.done r) := by
  intro h'
  have := Returns_unique h h'
  cases this
/-! ## The batch contract with the buffers of `Flood_3`

The statements about what the batch functions return.  `Flood_1` and `Flood_2` work on
stacks of `dim*dim` entries, which they never fill.  `Flood_3` is taken with its row stack
of 32 entries (`Flood_3_checked`): it returns what the contract asks whenever it returns,
and on some masks it stores past the row stack instead. -/

theorem Flood_3_checked_of (bitdeck filled : Deck) (seedX seedY : Int)
    (P : Deck → Int → Prop)
    (h : ∃ (F : Deck) (N : Int),
      Returns (fun fuel => Flood_3 fuel bitdeck 64 filled seedX seedY) (F, N) ∧ P F N) :
    (∃ (F : Deck) (N : Int),
      Returns (fun fuel => Flood_3_checked fuel bitdeck 64 filled seedX seedY)
        (Outcome.done (F, N)) ∧ P F N) ∨
    Returns (fun fuel => Flood_3_checked fuel bitdeck 64 filled seedX seedY)
      Outcome.stackOverrun := by
  obtain ⟨F, N, hR, hP⟩ := h
  rcases Flood_3_checked_cases bitdeck filled seedX seedY (F, N) hR with h1 | h2
  · exact Or.inl ⟨F, N, h1, hP⟩
  · exact Or.inr h2

theorem Returns_map_done {α : Type} {f : Nat → Option α} {r : α} (h : Returns f r) :
    Returns (fun fuel => (f fuel).map Outcome.done) (Outcome.done r) := by
  obtain ⟨fuel, hf⟩ := h
  exact ⟨fuel, fun fuel' hle => by simp [hf fuel' hle]⟩

theorem Flood_checked_algo0 (bitdeck : Deck) (dim : Int) (filled : Deck) (sx sy : Int) :
    (fun fuel => Flood_checked fuel 0 bitdeck dim filled sx sy) =
      (fun fuel => (Flood_1 fuel bitdeck dim filled sx sy).map Outcome.done) := by
  funext fuel
  simp [Flood_checked]

theorem Flood_checked_algo1 (bitdeck : Deck) (dim : Int) (filled : Deck) (sx sy : Int) :
    (fun fuel => Flood_checked fuel 1 bitdeck dim filled sx sy) =
      (fun fuel => (Flood_2 fuel bitdeck dim filled sx sy).map Outcome.done) := by
  funext fuel
  simp [Flood_checked]

theorem Flood_checked_algo2 (bitdeck : Deck) (dim : Int) (filled : Deck) (sx sy : Int) :
    (fun fuel => Flood_checked fuel 2 bitdeck dim filled sx sy) =
      (fun fuel => Flood_3_checked fuel bitdeck dim filled sx sy) := by
  funext fuel
  simp [Flood_checked]

theorem Outcome_map_done {α β : Type} (f : α → β) (o : Outcome α) (b : β)
    (h : Outcome.map f o = Outcome.done b) : ∃ a, o = Outcome.done a ∧ f a = b := by
  cases o with
  | done a =>
    simp only [Outcome.map, Outcome.done.injEq] at h
    exact ⟨a, rfl, h⟩
  | stackOverrun => simp [Outcome.map] at h
  | outOfBounds => simp [Outcome.map] at h

theorem Outcome_map_overrun {α β : Type} (f : α → β) (o : Outcome α)
    (h : Outcome.map f o = Outcome.stackOverrun) : o = Outcome.stackOverrun := by
  cases o with
  | done a => simp [Outcome.map] at h
  | stackOverrun => rfl
  | outOfBounds => simp [Outcome.map] at h

theorem Flood_3_checked_loop_done (bitdeck filled : Deck) (seedX seedY : Int)
    (r : Deck × Int)
    (h : Returns (fun fuel => Flood_3_checked fuel bitdeck 64 filled seedX seedY)
      (Outcome.done r)) :
    ∃ (fuel n : Nat) (s : Flood3State),
      loopState Flood_3_checked_cond (Flood_3_checked_step fuel bitdeck 64) n
        (Flood_3_checked_init bitdeck 64 filled seedX seedY) = some (Outcome.done s) ∧
      s.stack = [] := by
  obtain ⟨fuel, hf⟩ := h
  have h1 := hf fuel le_rfl
  simp only [Flood_3_checked, Option.map_eq_some'] at h1
  obtain ⟨o, ho, hm⟩ := h1
  obtain ⟨n, hn, hc⟩ := whileLoop_iterations _ _ fuel _ o ho
  obtain ⟨s, hs, -⟩ := Outcome_map_done _ o r hm
  subst hs
  exact ⟨fuel, n, s, hn, stack_empty_of_cond _ hc⟩

theorem Flood_3_checked_loop_overrun (bitdeck filled : Deck) (seedX seedY : Int)
    (h : Returns (fun fuel => Flood_3_checked fuel bitdeck 64 filled seedX seedY)
      Outcome.stackOverrun) :
    ∃ (fuel n : Nat),
      loopState Flood_3_checked_cond (Flood_3_checked_step fuel bitdeck 64) n
        (Flood_3_checked_init bitdeck 64 filled seedX seedY) = some Outcome.stackOverrun := by
  obtain ⟨fuel, hf⟩ := h
  have h1 := hf fuel le_rfl
  simp only [Flood_3_checked, Option.map_eq_some'] at h1
  obtain ⟨o, ho, hm⟩ := h1
  obtain ⟨n, hn, -⟩ := whileLoop_iterations _ _ fuel _ o ho
  have hs := Outcome_map_overrun _ o hm
  subst hs
  exact ⟨fuel, n, hn⟩

/-- C3. Simultaneous-span-fill equivalence, with the row stack of `Flood_3`: on the 64x64
plane, for every occupancy mask, initial fill mask and seed, the loop
"`Flood_3_Incremental_Start` on an empty stack, then `Flood_3_Incremental` until the stack
count is 0" terminates with a final fill mask and a count `r`, and `Flood_3` on its row
stack of 32 entries either returns the same `r` or stores past that stack.  It does store
past it on the staircase mask `stairsDeck` with an all-zero fill mask and the seed
`(0, 1)`, where the incremental run, whose stack is the caller's, terminates. -/
theorem Flood_3_Incremental_equiv (bitdeck filled tested : Deck) (seedX seedY : Int) :
    (∃ r : Deck × Int,
      Returns (fun fuel => Flood_3_Incremental_run fuel bitdeck 64 filled tested seedX seedY)
        r ∧
      (Returns (fun fuel => Flood_3_checked fuel bitdeck 64 filled seedX seedY)
          (Outcome.done r) ∨
        Returns (fun fuel => Flood_3_checked fuel bitdeck 64 filled seedX seedY)
          Outcome.stackOverrun)) ∧
    (∃ r : Deck × Int,
      Returns (fun fuel => Flood_3_Incremental_run fuel stairsDeck 64 0 tested 0 1) r) ∧
    Returns (fun fuel => Flood_3_checked fuel stairsDeck 64 0 0 1) Outcome.stackOverrun := by
  refine ⟨?_, ?_, Flood_3_checked_stairs⟩
  · obtain ⟨r, h3, hrun⟩ := Flood_3_Incremental_run_unlimited bitdeck filled tested seedX seedY
    exact ⟨r, hrun, Flood_3_checked_cases bitdeck filled seedX seedY r h3⟩
  · obtain ⟨r, -, hrun⟩ := Flood_3_Incremental_run_unlimited stairsDeck 0 tested 0 1
    exact ⟨r, hrun⟩

/-- C4. Soundness, with the row stack of `Flood_3`: on the 64x64 plane, for every occupancy
mask and every in-range seed, `Flood_1` and `Flood_2` started on an all-zero fill mask
return, and every bit set in the resulting fill mask is the bit of a cell of the plane that
is set in the occupancy mask and connected to the seed cell by a path of 4-directionally
adjacent occupied cells; `Flood_3` on its row stack of 32 entries either returns such a
fill mask or stores past that stack.  It does store past it on the staircase mask
`stairsDeck` with the in-range seed `(0, 1)`. -/
theorem Flood_soundness (bitdeck : Deck) (seedX seedY : Int)
    (hseed : inRange 64 seedX seedY) :
    (∃ (F : Deck) (N : Int), Returns (fun fuel => Flood_1 fuel bitdeck 64 0 seedX seedY) (F, N) ∧
      SoundFill bitdeck F seedX.toNat seedY.toNat) ∧
    (∃ (F : Deck) (N : Int), Returns (fun fuel => Flood_2 fuel bitdeck 64 0 seedX seedY) (F, N) ∧
      SoundFill bitdeck F seedX.toNat seedY.toNat) ∧
    ((∃ (F : Deck) (N : Int),
        Returns (fun fuel => Flood_3_checked fuel bitdeck 64 0 seedX seedY)
          (Outcome.done (F, N)) ∧
        SoundFill bitdeck F seedX.toNat seedY.toNat) ∨
      Returns (fun fuel => Flood_3_checked fuel bitdeck 64 0 seedX seedY)
        Outcome.stackOverrun) ∧
    (inRange 64 0 1 ∧
      Returns (fun fuel => Flood_3_checked fuel stairsDeck 64 0 0 1) Outcome.stackOverrun) := by
  obtain ⟨F1, N1, a1, b1, _⟩ := Flood_1_zero bitdeck seedX seedY hseed
  obtain ⟨F2, N2, a2, b2, _⟩ := Flood_2_zero bitdeck seedX seedY hseed
  obtain ⟨F3, N3, a3, b3, _⟩ := Flood_3_zero bitdeck seedX seedY hseed
  exact ⟨⟨F1, N1, a1, fun i hi => reach_sound hseed ((b1 i).mp hi)⟩,
    ⟨F2, N2, a2, fun i hi => reach_sound hseed ((b2 i).mp hi)⟩,
    Flood_3_checked_of bitdeck 0 seedX seedY
      (fun F _ => SoundFill bitdeck F seedX.toNat seedY.toNat)
      ⟨F3, N3, a3, fun i hi => reach_sound hseed ((b3 i).mp hi)⟩,
    by decide, Flood_3_checked_stairs⟩

theorem Flood_soundness_witness :
    inRange 64 3 0 ∧
    ((∃ (F : Deck) (N : Int), Returns (fun fuel => Flood_1 fuel 15 64 0 3 0) (F, N) ∧
      SoundFill 15 F (3 : Int).toNat (0 : Int).toNat) ∧
    (∃ (F : Deck) (N : Int), Returns (fun fuel => Flood_2 fuel 15 64 0 3 0) (F, N) ∧
      SoundFill 15 F (3 : Int).toNat (0 : Int).toNat) ∧
    ((∃ (F : Deck) (N : Int),
        Returns (fun fuel => Flood_3_checked fuel 15 64 0 3 0) (Outcome.done (F, N)) ∧
        SoundFill 15 F (3 : Int).toNat (0 : Int).toNat) ∨
      Returns (fun fuel => Flood_3_checked fuel 15 64 0 3 0) Outcome.stackOverrun) ∧
    (inRange 64 0 1 ∧
      Returns (fun fuel => Flood_3_checked fuel stairsDeck 64 0 0 1) Outcome.stackOverrun)) :=
  ⟨by decide, Flood_soundness 15 3 0 (by decide)⟩

/-- C5. Completeness, with the row stack of `Flood_3`: on the 64x64 plane, for every
occupancy mask and every in-range seed on an occupied cell, `Flood_1` and `Flood_2` started
on an all-zero fill mask return, and the seed cell and every occupied cell connected to it
by a path of 4-directionally adjacent occupied cells have their bits set in the resulting
fill mask; `Flood_3` on its row stack of 32 entries either returns such a fill mask or
stores past that stack.  It does store past it on the staircase mask `stairsDeck` with the
in-range seed `(0, 1)`, an occupied cell. -/
theorem Flood_completeness (bitdeck : Deck) (seedX seedY : Int)
    (hseed : inRange 64 seedX seedY) (hocc : cellSet bitdeck seedX.toNat seedY.toNat) :
    (∃ (F : Deck) (N : Int), Returns (fun fuel => Flood_1 fuel bitdeck 64 0 seedX seedY) (F, N) ∧
      cellSet F seedX.toNat seedY.toNat ∧ CompleteFill bitdeck F seedX.toNat seedY.toNat) ∧
    (∃ (F : Deck) (N : Int), Returns (fun fuel => Flood_2 fuel bitdeck 64 0 seedX seedY) (F, N) ∧
      cellSet F seedX.toNat seedY.toNat ∧ CompleteFill bitdeck F seedX.toNat seedY.toNat) ∧
    ((∃ (F : Deck) (N : Int),
        Returns (fun fuel => Flood_3_checked fuel bitdeck 64 0 seedX seedY)
          (Outcome.done (F, N)) ∧
        cellSet F seedX.toNat seedY.toNat ∧
        CompleteFill bitdeck F seedX.toNat seedY.toNat) ∨
      Returns (fun fuel => Flood_3_checked fuel bitdeck 64 0 seedX seedY)
        Outcome.stackOverrun) ∧
    (inRange 64 0 1 ∧ cellSet stairsDeck (0 : Int).toNat (1 : Int).toNat ∧
      Returns (fun fuel => Flood_3_checked fuel stairsDeck 64 0 0 1) Outcome.stackOverrun) := by
  obtain ⟨F1, N1, a1, b1, _⟩ := Flood_1_zero bitdeck seedX seedY hseed
  obtain ⟨F2, N2, a2, b2, _⟩ := Flood_2_zero bitdeck seedX seedY hseed
  obtain ⟨F3, N3, a3, b3, _⟩ := Flood_3_zero bitdeck seedX seedY hseed
  obtain ⟨_, hx, hy⟩ := seed_index hseed
  have hs : Connected bitdeck seedX.toNat seedY.toNat seedX.toNat seedY.toNat :=
    Connected.seed hx hy hocc
  exact ⟨⟨F1, N1, a1, (b1 _).mpr (connected_reach hseed hs),
      fun x y hc => (b1 _).mpr (connected_reach hseed hc)⟩,
    ⟨F2, N2, a2, (b2 _).mpr (connected_reach hseed hs),
      fun x y hc => (b2 _).mpr (connected_reach hseed hc)⟩,
    Flood_3_checked_of bitdeck 0 seedX seedY
      (fun F _ => cellSet F seedX.toNat seedY.toNat ∧
        CompleteFill bitdeck F seedX.toNat seedY.toNat)
      ⟨F3, N3, a3, (b3 _).mpr (connected_reach hseed hs),
        fun x y hc => (b3 _).mpr (connected_reach hseed hc)⟩,
    by decide, by decide, Flood_3_checked_stairs⟩

theorem Flood_completeness_witness :
    (inRange 64 3 0 ∧ cellSet 15 (3 : Int).toNat (0 : Int).toNat) ∧
    ((∃ (F : Deck) (N : Int), Returns (fun fuel => Flood_1 fuel 15 64 0 3 0) (F, N) ∧
      cellSet F (3 : Int).toNat (0 : Int).toNat ∧
      CompleteFill 15 F (3 : Int).toNat (0 : Int).toNat) ∧
    (∃ (F : Deck) (N : Int), Returns (fun fuel => Flood_2 fuel 15 64 0 3 0) (F, N) ∧
      cellSet F (3 : Int).toNat (0 : Int).toNat ∧
      CompleteFill 15 F (3 : Int).toNat (0 : Int).toNat) ∧
    ((∃ (F : Deck) (N : Int),
        Returns (fun fuel => Flood_3_checked fuel 15 64 0 3 0) (Outcome.done (F, N)) ∧
        cellSet F (3 : Int).toNat (0 : Int).toNat ∧
        CompleteFill 15 F (3 : Int).toNat (0 : Int).toNat) ∨
      Returns (fun fuel => Flood_3_checked fuel 15 64 0 3 0) Outcome.stackOverrun) ∧
    (inRange 64 0 1 ∧ cellSet stairsDeck (0 : Int).toNat (1 : Int).toNat ∧
      Returns (fun fuel => Flood_3_checked fuel stairsDeck 64 0 0 1) Outcome.stackOverrun)) :=
  ⟨⟨by decide, by decide⟩, Flood_completeness 15 3 0 (by decide) (by decide)⟩

/-- C6. Cross-algorithm agreement, with the row stack of `Flood_3`: on the 64x64 plane, for
every occupancy mask and every in-range seed, `Flood` with the algorithm ids 0 and 1
(`Flood_1`, `Flood_2`) started on an all-zero fill mask returns the same final fill mask
and the same fill count `r`, and with the algorithm id 2 (`Flood_3` on its row stack of 32
entries) it either returns the same `r` or stores past that stack.  It does store past it
on the staircase mask `stairsDeck` with the in-range seed `(0, 1)`, where the algorithm
ids 0 and 1 return. -/
theorem Flood_agreement (bitdeck : Deck) (seedX seedY : Int)
    (hseed : inRange 64 seedX seedY) :
    (∃ r : Deck × Int,
      Returns (fun fuel => Flood_checked fuel 0 bitdeck 64 0 seedX seedY) (Outcome.done r) ∧
      Returns (fun fuel => Flood_checked fuel 1 bitdeck 64 0 seedX seedY) (Outcome.done r) ∧
      (Returns (fun fuel => Flood_checked fuel 2 bitdeck 64 0 seedX seedY) (Outcome.done r) ∨
        Returns (fun fuel => Flood_checked fuel 2 bitdeck 64 0 seedX seedY)
          Outcome.stackOverrun)) ∧
    (inRange 64 0 1 ∧
      ∃ r : Deck × Int,
        Returns (fun fuel => Flood_checked fuel 0 stairsDeck 64 0 0 1) (Outcome.done r) ∧
        Returns (fun fuel => Flood_checked fuel 1 stairsDeck 64 0 0 1) (Outcome.done r) ∧
        Returns (fun fuel => Flood_checked fuel 2 stairsDeck 64 0 0 1)
          Outcome.stackOverrun) := by
  have key : ∀ (bd : Deck) (sx sy : Int), inRange 64 sx sy →
      ∃ r : Deck × Int,
        Returns (fun fuel => Flood_checked fuel 0 bd 64 0 sx sy) (Outcome.done r) ∧
        Returns (fun fuel => Flood_checked fuel 1 bd 64 0 sx sy) (Outcome.done r) ∧
        (Returns (fun fuel => Flood_checked fuel 2 bd 64 0 sx sy) (Outcome.done r) ∨
          Returns (fun fuel => Flood_checked fuel 2 bd 64 0 sx sy) Outcome.stackOverrun) := by
    intro bd sx sy hs
    obtain ⟨F1, N1, a1, b1, c1⟩ := Flood_1_zero bd sx sy hs
    obtain ⟨F2, N2, a2, b2, c2⟩ := Flood_2_zero bd sx sy hs
    obtain ⟨F3, N3, a3, b3, c3⟩ := Flood_3_zero bd sx sy hs
    have e2 : F2 = F1 := deck_ext_of_iff _ _ _ b2 b1
    have e3 : F3 = F1 := deck_ext_of_iff _ _ _ b3 b1
    subst e2
    subst e3
    have n2 : N2 = N1 := by omega
    have n3 : N3 = N1 := by omega
    subst n2
    subst n3
    rw [Flood_checked_algo0, Flood_checked_algo1, Flood_checked_algo2]
    exact ⟨_, Returns_map_done a1, Returns_map_done a2,
      Flood_3_checked_cases bd 0 sx sy _ a3⟩
  refine ⟨key bitdeck seedX seedY hseed, by decide, ?_⟩
  obtain ⟨r, h0, h1, h2⟩ := key stairsDeck 0 1 (by decide)
  have hov : Returns (fun fuel => Flood_checked fuel 2 stairsDeck 64 0 0 1)
      Outcome.stackOverrun := by
    rw [Flood_checked_algo2]
    exact Flood_3_checked_stairs
  exact ⟨r, h0, h1, hov⟩

theorem Flood_agreement_witness :
    inRange 64 3 0 ∧
    ((∃ r : Deck × Int,
      Returns (fun fuel => Flood_checked fuel 0 15 64 0 3 0) (Outcome.done r) ∧
      Returns (fun fuel => Flood_checked fuel 1 15 64 0 3 0) (Outcome.done r) ∧
      (Returns (fun fuel => Flood_checked fuel 2 15 64 0 3 0) (Outcome.done r) ∨
        Returns (fun fuel => Flood_checked fuel 2 15 64 0 3 0) Outcome.stackOverrun)) ∧
    (inRange 64 0 1 ∧
      ∃ r : Deck × Int,
        Returns (fun fuel => Flood_checked fuel 0 stairsDeck 64 0 0 1) (Outcome.done r) ∧
        Returns (fun fuel => Flood_checked fuel 1 stairsDeck 64 0 0 1) (Outcome.done r) ∧
        Returns (fun fuel => Flood_checked fuel 2 stairsDeck 64 0 0 1)
          Outcome.stackOverrun)) :=
  ⟨by decide, Flood_agreement 15 3 0 (by decide)⟩

/-- C7. Batch fill count, with the row stack of `Flood_3`: on the 64x64 plane, for every
occupancy mask, every initial fill mask and every in-range seed, `Flood_1` and `Flood_2`
return, and the returned integer is the number of cells set in the final fill mask and
clear in the initial fill mask; `Flood_3` on its row stack of 32 entries either returns
with such a count or stores past that stack.  It does store past it on the staircase mask
`stairsDeck` with an all-zero fill mask and the in-range seed `(0, 1)`. -/
theorem Flood_count (bitdeck filled : Deck) (seedX seedY : Int)
    (hseed : inRange 64 seedX seedY) :
    (∃ (F : Deck) (N : Int),
      Returns (fun fuel => Flood_1 fuel bitdeck 64 filled seedX seedY) (F, N) ∧
      N = newlyFilled filled F) ∧
    (∃ (F : Deck) (N : Int),
      Returns (fun fuel => Flood_2 fuel bitdeck 64 filled seedX seedY) (F, N) ∧
      N = newlyFilled filled F) ∧
    ((∃ (F : Deck) (N : Int),
        Returns (fun fuel => Flood_3_checked fuel bitdeck 64 filled seedX seedY)
          (Outcome.done (F, N)) ∧
        N = newlyFilled filled F) ∨
      Returns (fun fuel => Flood_3_checked fuel bitdeck 64 filled seedX seedY)
        Outcome.stackOverrun) ∧
    (inRange 64 0 1 ∧
      Returns (fun fuel => Flood_3_checked fuel stairsDeck 64 0 0 1) Outcome.stackOverrun) := by
  have hcell : 0 ≤ seedY * 64 + seedX ∧ seedY * 64 + seedX < 4096 := by
    unfold inRange at hseed
    omega
  obtain ⟨F1, N1, a1, b1, _, c1⟩ := Flood_1_grows bitdeck filled seedX seedY
  obtain ⟨F2, N2, a2, b2, _, c2⟩ := Flood_2_grows bitdeck filled seedX seedY hcell
  obtain ⟨F3, N3, a3, b3, _, c3⟩ := Flood_3_returns_gen bitdeck filled seedX seedY
  exact ⟨⟨F1, N1, a1, count_newly b1 c1⟩, ⟨F2, N2, a2, count_newly b2 c2⟩,
    Flood_3_checked_of bitdeck filled seedX seedY (fun F N => N = newlyFilled filled F)
      ⟨F3, N3, a3, count_newly b3 c3⟩,
    by decide, Flood_3_checked_stairs⟩

theorem Flood_count_witness :
    inRange 64 3 0 ∧
    ((∃ (F : Deck) (N : Int), Returns (fun fuel => Flood_1 fuel 15 64 1 3 0) (F, N) ∧
      N = newlyFilled 1 F) ∧
    (∃ (F : Deck) (N : Int), Returns (fun fuel => Flood_2 fuel 15 64 1 3 0) (F, N) ∧
      N = newlyFilled 1 F) ∧
    ((∃ (F : Deck) (N : Int),
        Returns (fun fuel => Flood_3_checked fuel 15 64 1 3 0) (Outcome.done (F, N)) ∧
        N = newlyFilled 1 F) ∨
      Returns (fun fuel => Flood_3_checked fuel 15 64 1 3 0) Outcome.stackOverrun) ∧
    (inRange 64 0 1 ∧
      Returns (fun fuel => Flood_3_checked fuel stairsDeck 64 0 0 1) Outcome.stackOverrun)) :=
  ⟨by decide, Flood_count 15 1 3 0 (by decide)⟩

/-- C8. Monotonicity, with the row stack of `Flood_3`: on the 64x64 plane, the engine
operations only set bits of the fill mask.  The batch functions `Flood_1` and `Flood_2`
(for a seed whose cell index addresses a cell of the mask, the only seeds for which its
unchecked seed test stays inside the buffers) return a mask that holds every bit of the
initial mask; `Flood_3` on its row stack of 32 entries either returns such a mask or stores
past that stack; each of the three Start functions and one call of each of the three step
functions, on any stack at all (the stacks produced by Start and steps included), give a
mask that holds every bit of the initial mask.  `Flood_3` does store past its row stack on
the staircase mask `stairsDeck` with an all-zero fill mask and the seed `(0, 1)`. -/
theorem Flood_monotone (bitdeck : Deck) :
    (∀ (filled : Deck) (seedX seedY : Int), ∃ (F : Deck) (N : Int),
      Returns (fun fuel => Flood_1 fuel bitdeck 64 filled seedX seedY) (F, N) ∧
      MaskGrows filled F) ∧
    (∀ (filled : Deck) (seedX seedY : Int),
      0 ≤ seedY * 64 + seedX ∧ seedY * 64 + seedX < 4096 → ∃ (F : Deck) (N : Int),
      Returns (fun fuel => Flood_2 fuel bitdeck 64 filled seedX seedY) (F, N) ∧
      MaskGrows filled F) ∧
    (∀ (filled : Deck) (seedX seedY : Int),
      (∃ (F : Deck) (N : Int),
        Returns (fun fuel => Flood_3_checked fuel bitdeck 64 filled seedX seedY)
          (Outcome.done (F, N)) ∧
        MaskGrows filled F) ∨
      Returns (fun fuel => Flood_3_checked fuel bitdeck 64 filled seedX seedY)
        Outcome.stackOverrun) ∧
    (∀ (filled : Deck) (stack : List DFSSIState) (seedX seedY : Int),
      MaskGrows filled (Flood_1_Incremental_Start bitdeck 64 filled stack seedX seedY).1) ∧
    (∀ (filled : Deck) (stack : List SpanFillSIState) (seedX seedY : Int),
      MaskGrows filled (Flood_2_Incremental_Start bitdeck 64 filled stack seedX seedY).1) ∧
    (∀ (filled : Deck) (stack : List SimulSpanFillSIState) (seedX seedY : Int),
      MaskGrows filled (Flood_3_Incremental_Start bitdeck 64 filled stack seedX seedY).1) ∧
    (∀ (filled : Deck) (stack : List DFSSIState) (tested : Deck),
      MaskGrows filled (Flood_1_Incremental bitdeck 64 filled stack tested).filled) ∧
    (∀ (filled : Deck) (stack : List SpanFillSIState) (sfi : List Int) (tested : Deck),
      MaskGrows filled (Flood_2_Incremental bitdeck 64 filled stack sfi tested).filled) ∧
    (∀ (filled : Deck) (stack : List SimulSpanFillSIState) (tested : Deck),
      MaskGrows filled (Flood_3_Incremental bitdeck 64 filled stack tested).filled) ∧
    Returns (fun fuel => Flood_3_checked fuel stairsDeck 64 0 0 1) Outcome.stackOverrun := by
  refine ⟨fun f sx sy => ?_, fun f sx sy h => ?_, fun f sx sy => ?_, fun f st sx sy => ?_,
    fun f st sx sy => ?_, fun f st sx sy => ?_, fun f st t => ?_, fun f st sfi t => ?_,
    fun f st t => ?_, Flood_3_checked_stairs⟩
  · obtain ⟨F, N, a, b, _⟩ := Flood_1_grows bitdeck f sx sy
    exact ⟨F, N, a, b⟩
  · obtain ⟨F, N, a, b, _⟩ := Flood_2_grows bitdeck f sx sy h
    exact ⟨F, N, a, b⟩
  · obtain ⟨F, N, a, b, _⟩ := Flood_3_returns_gen bitdeck f sx sy
    exact Flood_3_checked_of bitdeck f sx sy (fun F _ => MaskGrows f F) ⟨F, N, a, b⟩
  · exact (Flood_1_Incremental_Start_grows bitdeck f st sx sy).1
  · rw [Flood_2_Incremental_Start_filled]
    exact MaskGrows_refl f
  · exact (Flood_3_Incremental_Start_grows bitdeck f st sx sy).1
  · obtain ⟨x, y, h⟩ := Flood_1_Incremental_filled bitdeck f st t
    exact (grows_of_eq_or bitdeck f _ x y h).1
  · obtain ⟨x, y, h⟩ := Flood_2_Incremental_filled bitdeck f st sfi t
    exact (grows_of_eq_or bitdeck f _ x y h).1
  · exact (Flood_3_Incremental_ok bitdeck f st t).1

theorem Flood_monotone_witness :
    (0 ≤ (0 : Int) * 64 + 3 ∧ (0 : Int) * 64 + 3 < 4096) ∧
    ∃ (F : Deck) (N : Int),
      Returns (fun fuel => Flood_2 fuel 15 64 1 3 0) (F, N) ∧ MaskGrows 1 F :=
  ⟨by decide, (Flood_monotone 15).2.1 1 3 0 (by decide)⟩

/-- C9. Occupancy/fill invariant, with the row stack of `Flood_3`: on the 64x64 plane, if
every bit set in the fill mask is set in the occupancy mask before the call, the same holds
after the call, for the batch functions `Flood_1` and `Flood_2` (for a seed whose cell
index addresses a cell of the mask), which return, for each of the three Start functions on
any stack, for one call of `Flood_1_Incremental` and of `Flood_2_Incremental` on any stack,
and for one call of `Flood_3_Incremental`, with its word-level horizontal and vertical
propagation, on any mask and stack produced by Start and steps; `Flood_3` on its row stack
of 32 entries either returns a mask for which the same holds or stores past that stack.  It
does store past it on the staircase mask `stairsDeck` with an all-zero fill mask, which
lies within every occupancy mask, and the seed `(0, 1)`. -/
theorem Flood_within_occupancy (bitdeck : Deck) :
    (∀ (filled : Deck) (seedX seedY : Int), ∃ (F : Deck) (N : Int),
      Returns (fun fuel => Flood_1 fuel bitdeck 64 filled seedX seedY) (F, N) ∧
      (MaskWithin bitdeck filled → MaskWithin bitdeck F)) ∧
    (∀ (filled : Deck) (seedX seedY : Int),
      0 ≤ seedY * 64 + seedX ∧ seedY * 64 + seedX < 4096 → ∃ (F : Deck) (N : Int),
      Returns (fun fuel => Flood_2 fuel bitdeck 64 filled seedX seedY) (F, N) ∧
      (MaskWithin bitdeck filled → MaskWithin bitdeck F)) ∧
    (∀ (filled : Deck) (seedX seedY : Int),
      (∃ (F : Deck) (N : Int),
        Returns (fun fuel => Flood_3_checked fuel bitdeck 64 filled seedX seedY)
          (Outcome.done (F, N)) ∧
        (MaskWithin bitdeck filled → MaskWithin bitdeck F)) ∨
      Returns (fun fuel => Flood_3_checked fuel bitdeck 64 filled seedX seedY)
        Outcome.stackOverrun) ∧
    (∀ (filled : Deck) (stack : List DFSSIState) (seedX seedY : Int),
      MaskWithin bitdeck filled →
      MaskWithin bitdeck (Flood_1_Incremental_Start bitdeck 64 filled stack seedX seedY).1) ∧
    (∀ (filled : Deck) (stack : List SpanFillSIState) (seedX seedY : Int),
      MaskWithin bitdeck filled →
      MaskWithin bitdeck (Flood_2_Incremental_Start bitdeck 64 filled stack seedX seedY).1) ∧
    (∀ (filled : Deck) (stack : List SimulSpanFillSIState) (seedX seedY : Int),
      MaskWithin bitdeck filled →
      MaskWithin bitdeck (Flood_3_Incremental_Start bitdeck 64 filled stack seedX seedY).1) ∧
    (∀ (filled : Deck) (stack : List DFSSIState) (tested : Deck),
      MaskWithin bitdeck filled →
      MaskWithin bitdeck (Flood_1_Incremental bitdeck 64 filled stack tested).filled) ∧
    (∀ (filled : Deck) (stack : List SpanFillSIState) (sfi : List Int) (tested : Deck),
      MaskWithin bitdeck filled →
      MaskWithin bitdeck (Flood_2_Incremental bitdeck 64 filled stack sfi tested).filled) ∧
    (∀ (filled : Deck) (stack : List SimulSpanFillSIState) (tested : Deck),
      Flood_3_Produced bitdeck filled stack → MaskWithin bitdeck filled →
      MaskWithin bitdeck (Flood_3_Incremental bitdeck 64 filled stack tested).filled) ∧
    (MaskWithin stairsDeck 0 ∧
      Returns (fun fuel => Flood_3_checked fuel stairsDeck 64 0 0 1) Outcome.stackOverrun) := by
  refine ⟨fun f sx sy => ?_, fun f sx sy h => ?_, fun f sx sy => ?_, fun f st sx sy => ?_,
    fun f st sx sy hw => ?_, fun f st sx sy => ?_, fun f st t => ?_, fun f st sfi t => ?_,
    fun f st t hp => ?_, fun i hi => Bool.noConfusion ((Nat.zero_testBit i).symm.trans hi),
    Flood_3_checked_stairs⟩
  · obtain ⟨F, N, a, _, b, _⟩ := Flood_1_grows bitdeck f sx sy
    exact ⟨F, N, a, b⟩
  · obtain ⟨F, N, a, _, b, _⟩ := Flood_2_grows bitdeck f sx sy h
    exact ⟨F, N, a, b⟩
  · obtain ⟨F, N, a, _, b, _⟩ := Flood_3_returns_gen bitdeck f sx sy
    exact Flood_3_checked_of bitdeck f sx sy
      (fun F _ => MaskWithin bitdeck f → MaskWithin bitdeck F) ⟨F, N, a, b⟩
  · exact (Flood_1_Incremental_Start_grows bitdeck f st sx sy).2
  · rw [Flood_2_Incremental_Start_filled]
    exact hw
  · exact (Flood_3_Incremental_Start_grows bitdeck f st sx sy).2
  · obtain ⟨x, y, h⟩ := Flood_1_Incremental_filled bitdeck f st t
    exact (grows_of_eq_or bitdeck f _ x y h).2
  · obtain ⟨x, y, h⟩ := Flood_2_Incremental_filled bitdeck f st sfi t
    exact (grows_of_eq_or bitdeck f _ x y h).2
  · exact ((Flood_3_Incremental_ok bitdeck f st t).2 (Flood_3_Produced_ok hp)).1

theorem Flood_within_occupancy_witness :
    (Flood_3_Produced 15 (Flood_3_Incremental_Start 15 64 0 [] 3 0).1
        (Flood_3_Incremental_Start 15 64 0 [] 3 0).2.1 ∧
      MaskWithin 15 (Flood_3_Incremental_Start 15 64 0 [] 3 0).1) ∧
    MaskWithin 15 (Flood_3_Incremental 15 64 (Flood_3_Incremental_Start 15 64 0 [] 3 0).1
      (Flood_3_Incremental_Start 15 64 0 [] 3 0).2.1 0).filled :=
  have hp : Flood_3_Produced 15 (Flood_3_Incremental_Start 15 64 0 [] 3 0).1
      (Flood_3_Incremental_Start 15 64 0 [] 3 0).2.1 :=
    Flood_3_Produced.start 0 [] 3 0 (Flood_3_Produced.empty 0)
  have hw : MaskWithin 15 (Flood_3_Incremental_Start 15 64 0 [] 3 0).1 :=
    (Flood_3_Incremental_Start_grows 15 0 [] 3 0).2
      (fun i hi => Bool.noConfusion ((Nat.zero_testBit i).symm.trans hi))
  ⟨⟨hp, hw⟩, (Flood_within_occupancy 15).2.2.2.2.2.2.2.2.1 _ _ 0 hp hw⟩

/-- C10. Idempotence, with the row stack of `Flood_3`: on the 64x64 plane, for every
occupancy mask and every in-range seed, `Flood_1` and `Flood_2` started on an all-zero fill
mask return a fill mask on which a second call with the same seed returns the count 0 and
the same fill mask; `Flood_3` on its row stack of 32 entries either returns such a fill
mask, on which its second call returns the count 0 and the same fill mask, or stores past
that stack in the first call.  It does store past it on the staircase mask `stairsDeck`
with the in-range seed `(0, 1)`. -/
theorem Flood_idempotent (bitdeck : Deck) (seedX seedY : Int)
    (hseed : inRange 64 seedX seedY) :
    (∃ (F : Deck) (N : Int), Returns (fun fuel => Flood_1 fuel bitdeck 64 0 seedX seedY) (F, N) ∧
      Returns (fun fuel => Flood_1 fuel bitdeck 64 F seedX seedY) (F, 0)) ∧
    (∃ (F : Deck) (N : Int), Returns (fun fuel => Flood_2 fuel bitdeck 64 0 seedX seedY) (F, N) ∧
      Returns (fun fuel => Flood_2 fuel bitdeck 64 F seedX seedY) (F, 0)) ∧
    ((∃ (F : Deck) (N : Int),
        Returns (fun fuel => Flood_3_checked fuel bitdeck 64 0 seedX seedY)
          (Outcome.done (F, N)) ∧
        Returns (fun fuel => Flood_3_checked fuel bitdeck 64 F seedX seedY)
          (Outcome.done (F, 0))) ∨
      Returns (fun fuel => Flood_3_checked fuel bitdeck 64 0 seedX seedY)
        Outcome.stackOverrun) ∧
    (inRange 64 0 1 ∧
      Returns (fun fuel => Flood_3_checked fuel stairsDeck 64 0 0 1) Outcome.stackOverrun) := by
  obtain ⟨F1, N1, a1, b1, _⟩ := Flood_1_zero bitdeck seedX seedY hseed
  obtain ⟨F2, N2, a2, b2, _⟩ := Flood_2_zero bitdeck seedX seedY hseed
  obtain ⟨F3, N3, a3, b3, _⟩ := Flood_3_zero bitdeck seedX seedY hseed
  exact ⟨⟨F1, N1, a1, Flood_1_not_free bitdeck F1 seedX seedY (complete_not_free b1)⟩,
    ⟨F2, N2, a2, Flood_2_not_free bitdeck F2 seedX seedY hseed (complete_not_free b2)⟩,
    Flood_3_checked_of bitdeck 0 seedX seedY
      (fun F _ => Returns (fun fuel => Flood_3_checked fuel bitdeck 64 F seedX seedY)
        (Outcome.done (F, 0)))
      ⟨F3, N3, a3, Flood_3_checked_not_free bitdeck F3 seedX seedY (complete_not_free b3)⟩,
    by decide, Flood_3_checked_stairs⟩

theorem Flood_idempotent_witness :
    inRange 64 3 0 ∧
    ((∃ (F : Deck) (N : Int), Returns (fun fuel => Flood_1 fuel 15 64 0 3 0) (F, N) ∧
      Returns (fun fuel => Flood_1 fuel 15 64 F 3 0) (F, 0)) ∧
    (∃ (F : Deck) (N : Int), Returns (fun fuel => Flood_2 fuel 15 64 0 3 0) (F, N) ∧
      Returns (fun fuel => Flood_2 fuel 15 64 F 3 0) (F, 0)) ∧
    ((∃ (F : Deck) (N : Int),
        Returns (fun fuel => Flood_3_checked fuel 15 64 0 3 0) (Outcome.done (F, N)) ∧
        Returns (fun fuel => Flood_3_checked fuel 15 64 F 3 0) (Outcome.done (F, 0))) ∨
      Returns (fun fuel => Flood_3_checked fuel 15 64 0 3 0) Outcome.stackOverrun) ∧
    (inRange 64 0 1 ∧
      Returns (fun fuel => Flood_3_checked fuel stairsDeck 64 0 0 1) Outcome.stackOverrun)) :=
  ⟨by decide, Flood_idempotent 15 3 0 (by decide)⟩

/-- C18, the counterexample. With `dim = 8`, the all-occupied 8x8 occupancy mask (the
eight bytes `0xff` of a mask of `decksize 8 = 8` bytes), an all-zero fill mask and the seed
`(0, 0)`, `Flood_3` does not return 64 with all 64 fill bits set: it takes the eight bytes
of each mask as its row 0 and then, for "Bitfill down", accesses the row 1 of the masks,
the bytes 8 to 15, which lie outside them. -/
theorem Flood_3_8x8_out_of_bounds :
    decksize 8 = 8 ∧ ¬ rowInBounds 8 1 ∧
    Returns (fun fuel => Flood_3_checked fuel (2 ^ 64 - 1) 8 0 0 0) Outcome.outOfBounds ∧
    ¬ Returns (fun fuel => Flood_3_checked fuel (2 ^ 64 - 1) 8 0 0 0)
      (Outcome.done (2 ^ 64 - 1, 64)) := by
  have h : Returns (fun fuel => Flood_3_checked fuel (2 ^ 64 - 1) 8 0 0 0)
      Outcome.outOfBounds :=
    Returns_of_mono (Flood_3_checked_fuel_mono (2 ^ 64 - 1) 8 0 0 0) 70 (by decide)
  refine ⟨by decide, by decide, h, fun hd => ?_⟩
  have := Returns_unique h hd
  simp at this

/-- C18, amended. 8x8 scenario: with `dim = 8`, the all-occupied 8x8 occupancy mask (eight
bytes `0xff`), an all-zero fill mask and the seed `(0, 0)`, each of `Flood_1` and `Flood_2`
returns 64 and leaves all 64 fill bits set. -/
theorem Flood_8x8 :
    Returns (fun fuel => Flood_1 fuel (2 ^ 64 - 1) 8 0 0 0) (2 ^ 64 - 1, 64) ∧
    Returns (fun fuel => Flood_2 fuel (2 ^ 64 - 1) 8 0 0 0) (2 ^ 64 - 1, 64) := by
  refine ⟨?_, ?_⟩
  · exact Returns_of_mono (Flood_1_fuel_mono (2 ^ 64 - 1) 8 0 0 0) 70 (by decide)
  · exact Returns_of_mono (Flood_2_fuel_mono (2 ^ 64 - 1) 8 0 0 0) 70 (by decide)

/-- C22. Termination of the batch loops, with the row stack of `Flood_3`: for every
occupancy mask, every initial fill mask and every in-range seed on the 64x64 plane, each of
`Flood_1` and `Flood_2` returns a result for every sufficiently large fuel, and the loop
`while (stackCount)` of each reaches a state with an empty work stack after finitely many
iterations; the loop of `Flood_3` on its row stack of 32 entries, where a row can be pushed
again after a neighbour row changed it, after finitely many iterations either reaches a
state with an empty row stack, and `Flood_3` returns, or stores past the row stack.  It
does store past it on the staircase mask `stairsDeck` with an all-zero fill mask and the
in-range seed `(0, 1)`. -/
theorem Flood_terminates (bitdeck filled : Deck) (seedX seedY : Int)
    (h : inRange 64 seedX seedY) :
    (∃ r, Returns (fun fuel => Flood_1 fuel bitdeck 64 filled seedX seedY) r) ∧
    (∃ r, Returns (fun fuel => Flood_2 fuel bitdeck 64 filled seedX seedY) r) ∧
    (∃ n s, loopState (fun s : Flood1State => !s.stack.isEmpty)
        (fun s => some (Flood_1_body bitdeck 64 s)) n
        (Flood_1_init bitdeck 64 filled seedX seedY) = some s ∧ s.stack = []) ∧
    (∃ fuel n s, loopState (fun s : Flood2State => !s.stack.isEmpty)
        (Flood_2_body fuel bitdeck 64) n
        (Flood_2_init bitdeck 64 filled seedX seedY) = some s ∧ s.stack = []) ∧
    (((∃ r, Returns (fun fuel => Flood_3_checked fuel bitdeck 64 filled seedX seedY)
          (Outcome.done r)) ∧
        (∃ (fuel n : Nat) (s : Flood3State),
          loopState Flood_3_checked_cond (Flood_3_checked_step fuel bitdeck 64) n
            (Flood_3_checked_init bitdeck 64 filled seedX seedY) = some (Outcome.done s) ∧
          s.stack = [])) ∨
      (Returns (fun fuel => Flood_3_checked fuel bitdeck 64 filled seedX seedY)
          Outcome.stackOverrun ∧
        (∃ (fuel n : Nat),
          loopState Flood_3_checked_cond (Flood_3_checked_step fuel bitdeck 64) n
            (Flood_3_checked_init bitdeck 64 filled seedX seedY) =
              some Outcome.stackOverrun))) ∧
    (inRange 64 0 1 ∧
      Returns (fun fuel => Flood_3_checked fuel stairsDeck 64 0 0 1) Outcome.stackOverrun) := by
  obtain ⟨F1, N1, hR1, -, -⟩ := Flood_1_returns bitdeck filled seedX seedY
  obtain ⟨F2, N2, hR2, -, -⟩ := Flood_2_returns bitdeck filled seedX seedY h
  obtain ⟨F3, N3, hR3, -, -⟩ := Flood_3_returns_gen bitdeck filled seedX seedY
  refine ⟨⟨_, hR1⟩, ⟨_, hR2⟩, ?_, ?_, ?_, by decide, Flood_3_checked_stairs⟩
  · obtain ⟨fuel, hf⟩ := hR1
    have h1 := hf fuel le_rfl
    simp only [Flood_1, Option.map_eq_some'] at h1
    obtain ⟨s, hs, -⟩ := h1
    obtain ⟨n, hn, hc⟩ := whileLoop_iterations _ _ fuel _ s hs
    exact ⟨n, s, hn, stack_empty_of_cond _ hc⟩
  · obtain ⟨fuel, hf⟩ := hR2
    have h1 := hf fuel le_rfl
    simp only [Flood_2, Option.map_eq_some'] at h1
    obtain ⟨s, hs, -⟩ := h1
    obtain ⟨n, hn, hc⟩ := whileLoop_iterations _ _ fuel _ s hs
    exact ⟨fuel, n, s, hn, stack_empty_of_cond _ hc⟩
  · rcases Flood_3_checked_cases bitdeck filled seedX seedY (F3, N3) hR3 with hd | ho
    · exact Or.inl ⟨⟨_, hd⟩, Flood_3_checked_loop_done bitdeck filled seedX seedY _ hd⟩
    · exact Or.inr ⟨ho, Flood_3_checked_loop_overrun bitdeck filled seedX seedY ho⟩

/-- C22 at a concrete input: the occupancy mask with the cells `(0,0) .. (3,0)`, an empty
fill mask and the seed `(0, 0)`. -/
theorem Flood_terminates_witness :
    inRange 64 0 0 ∧
    ((∃ r, Returns (fun fuel => Flood_1 fuel 15 64 0 0 0) r) ∧
    (∃ r, Returns (fun fuel => Flood_2 fuel 15 64 0 0 0) r) ∧
    (∃ n s, loopState (fun s : Flood1State => !s.stack.isEmpty)
        (fun s => some (Flood_1_body 15 64 s)) n
        (Flood_1_init 15 64 0 0 0) = some s ∧ s.stack = []) ∧
    (∃ fuel n s, loopState (fun s : Flood2State => !s.stack.isEmpty)
        (Flood_2_body fuel 15 64) n
        (Flood_2_init 15 64 0 0 0) = some s ∧ s.stack = []) ∧
    (((∃ r, Returns (fun fuel => Flood_3_checked fuel 15 64 0 0 0) (Outcome.done r)) ∧
        (∃ (fuel n : Nat) (s : Flood3State),
          loopState Flood_3_checked_cond (Flood_3_checked_step fuel 15 64) n
            (Flood_3_checked_init 15 64 0 0 0) = some (Outcome.done s) ∧
          s.stack = [])) ∨
      (Returns (fun fuel => Flood_3_checked fuel 15 64 0 0 0) Outcome.stackOverrun ∧
        (∃ (fuel n : Nat),
          loopState Flood_3_checked_cond (Flood_3_checked_step fuel 15 64) n
            (Flood_3_checked_init 15 64 0 0 0) = some Outcome.stackOverrun))) ∧
    (inRange 64 0 1 ∧
      Returns (fun fuel => Flood_3_checked fuel stairsDeck 64 0 0 1) Outcome.stackOverrun)) :=
  ⟨by decide, Flood_terminates 15 0 0 0 (by decide)⟩

end Floodfill
